import Mathlib

/-!
# Document store (docstore.cpp): block directory, builder and readers

A shallow embedding of `src/src/docstore.cpp`.  Byte vectors are lists of
naturals, 32-bit counters are naturals reduced modulo `2^32` where the source
computes in `DWORD`, nullable pointers are `Option`s and every member function
takes the object state and returns the new one.
-/

namespace Docstore

/-- A `BYTE` of the source; payload bytes are copied verbatim. -/
abbrev BYTE := Nat

/-- Modulus of `DWORD` arithmetic. -/
def DWORD_MOD : Nat := 4294967296

/-- The enumerator `BLOCK_TYPE_SMALL` of `BlockType_e`. -/
def BLOCK_TYPE_SMALL : BYTE := 0
/-- The enumerator `BLOCK_TYPE_BIG` of `BlockType_e`. -/
def BLOCK_TYPE_BIG : BYTE := 1

/-- The directory entry `Docstore_c::Block_t`. -/
structure Block_t where
  m_tOffset : Nat := 0
  m_uSize : Nat := 0
  m_uHeaderSize : Nat := 0
  m_tRowID : Nat := 4294967295
  m_eType : BYTE := BLOCK_TYPE_SMALL
deriving DecidableEq, Repr, Inhabited

/-- Modelled from the spec: the loop of the library helper `sphBinarySearchFirst`
(not in src), the binary search the spec names for `FindBlock`: it narrows the
closed index range `[lo, hi]` to the first key that is not below `tRef`, and
ends on `hi` when every key is below. `fuel` bounds the iterations. -/
def sphBinarySearchFirstLoop (keys : List Nat) (tRef : Nat) : Nat → Nat → Nat → Nat
  | 0, lo, _ => lo
  | fuel + 1, lo, hi =>
    if lo = hi then lo
    else
      let mid := lo + (hi - lo) / 2
      if keys.getD mid 0 < tRef then sphBinarySearchFirstLoop keys tRef fuel (mid + 1) hi
      else sphBinarySearchFirstLoop keys tRef fuel lo mid

/-- Modelled from the spec: `sphBinarySearchFirst ( pStart, pEnd, pred, tRef )`
(not in src) called on a whole vector, `pEnd` being the last element; the null
result of an empty range is `none`, a found element is its index. -/
def sphBinarySearchFirst (keys : List Nat) (tRef : Nat) : Option Nat :=
  if keys.length = 0 then none
  else some (sphBinarySearchFirstLoop keys tRef keys.length 0 (keys.length - 1))

/-- `Docstore_c::FindBlock`: the index of the block in `m_dBlocks`, `none` for
the null pointer. -/
def FindBlock (m_dBlocks : List Block_t) (tRowID : Nat) : Option Nat :=
  match sphBinarySearchFirst (m_dBlocks.map (fun b => b.m_tRowID)) tRowID with
  | none => none
  | some pFound =>
    if (m_dBlocks.getD pFound default).m_tRowID > tRowID then
      if pFound = 0 then none else some (pFound - 1)
    else some pFound

/-- Modelled from the spec: `VecTraits_T::BinarySearch` (not in src), which
`CreateFieldRemap` uses to find the destination slot of a field: the position of
`tRef` in an ascending vector, `none` for the null pointer. -/
def BinarySearch (keys : List Nat) (tRef : Nat) : Option Nat :=
  match sphBinarySearchFirst keys tRef with
  | none => none
  | some p => if keys.getD p 0 = tRef then some p else none

/-! ## Bytes, varints and the memory reader -/

/-- Modelled from the spec: the byte groups of a varint ("unsigned LEB128-like
zigzag-free encoding"): seven bits per byte, low group first, bit 7 set on every
byte but the last. `fuel` is the largest number of bytes of the integer type. -/
def zipGroups : Nat → Nat → List BYTE
  | 0, _ => []
  | fuel + 1, v => if v < 128 then [v] else (v % 128 + 128) :: zipGroups fuel (v / 128)

/-- Modelled from the spec: `ZipInt ( DWORD )` of the writers (not in src). -/
def ZipInt (uValue : Nat) : List BYTE := zipGroups 5 (uValue % DWORD_MOD)

/-- Modelled from the spec: `ZipOffset ( SphOffset_t )` of the writers (not in src). -/
def ZipOffset (uValue : Nat) : List BYTE := zipGroups 10 (uValue % 18446744073709551616)

/-- Modelled from the spec: `sphCalcZippedLen` (not in src), the number of bytes
of the varint of a value. -/
def sphCalcZippedLen (uValue : Nat) : Nat := (ZipInt uValue).length

/-- Modelled from the spec: decoding of one varint at the head of a byte run:
the value and the number of bytes read. -/
def unzipBytes : List BYTE → Nat × Nat
  | [] => (0, 0)
  | b :: rest =>
    if b < 128 then (b, 1)
    else ((b % 128) + 128 * (unzipBytes rest).1, (unzipBytes rest).2 + 1)

/-- Modelled from the spec: `CSphWriter::PutDword` (not in src): four bytes,
little-endian as the file layout says. -/
def PutDword (v : Nat) : List BYTE :=
  [v % 256, v / 256 % 256, v / 65536 % 256, v / 16777216 % 256]

/-- Modelled from the spec: `CSphWriter::PutOffset` (not in src): eight bytes,
little-endian. -/
def PutOffset (v : Nat) : List BYTE :=
  PutDword (v % DWORD_MOD) ++ PutDword (v / DWORD_MOD % DWORD_MOD)

/-- A read of `n` bytes of memory or of the file at `pos`; bytes past the end
read as zero. -/
def readBytes (data : List BYTE) (pos n : Nat) : List BYTE :=
  ((data.drop pos).take n) ++ List.replicate (n - ((data.drop pos).take n).length) 0

/-- Modelled from the spec: `MemoryReader2_c` (not in src): a byte buffer and a
read position. -/
structure MemoryReader2_c where
  m_pData : List BYTE
  m_iPos : Nat := 0
deriving DecidableEq, Repr

/-- Modelled from the spec: `MemoryReader2_c::GetByte` (not in src): the byte read
and the advanced reader; a byte past the end reads as zero. -/
def MemoryReader2_c.GetByte (r : MemoryReader2_c) : BYTE × MemoryReader2_c :=
  (r.m_pData.getD r.m_iPos 0, { r with m_iPos := r.m_iPos + 1 })

/-- Modelled from the spec: `MemoryReader2_c::UnzipInt` (not in src): the `DWORD`
read and the advanced reader. -/
def MemoryReader2_c.UnzipInt (r : MemoryReader2_c) : Nat × MemoryReader2_c :=
  ((unzipBytes (r.m_pData.drop r.m_iPos)).1 % DWORD_MOD,
    { r with m_iPos := r.m_iPos + (unzipBytes (r.m_pData.drop r.m_iPos)).2 })

/-- Modelled from the spec: `MemoryReader2_c::SetPos` (not in src). -/
def MemoryReader2_c.SetPos (r : MemoryReader2_c) (iPos : Nat) : MemoryReader2_c :=
  { r with m_iPos := iPos }

/-! ## CSphBitvec -/

/-- Modelled from the spec: `CSphBitvec` (not in src). `m_pData` is the bit image
of its array of 32-bit words, the lowest bit of word 0 first, so that bit `i` of
the list is bit `i & 31` of word `i >> 5`. -/
structure CSphBitvec where
  m_pData : List Bool
  m_iElements : Nat
deriving DecidableEq, Repr

/-- Modelled from the spec: `CSphBitvec::GetSize` (not in src): the number of
32-bit words, `ceil(num_fields/32)`. -/
def CSphBitvec.GetSize (b : CSphBitvec) : Nat := (b.m_iElements + 31) / 32

/-- Modelled from the spec: the constructor `CSphBitvec ( iElements )` (not in
src): all bits clear. -/
def CSphBitvec.Init (iElements : Nat) : CSphBitvec :=
  { m_pData := List.replicate (32 * ((iElements + 31) / 32)) false, m_iElements := iElements }

/-- Modelled from the spec: `CSphBitvec::Clear` (not in src). -/
def CSphBitvec.Clear (b : CSphBitvec) : CSphBitvec :=
  { b with m_pData := List.replicate (32 * b.GetSize) false }

/-- Modelled from the spec: `CSphBitvec::BitSet` (not in src). -/
def CSphBitvec.BitSet (b : CSphBitvec) (iIndex : Nat) : CSphBitvec :=
  { b with m_pData := b.m_pData.set iIndex true }

/-- Modelled from the spec: `CSphBitvec::BitGet` (not in src). -/
def CSphBitvec.BitGet (b : CSphBitvec) (iIndex : Nat) : Bool := b.m_pData.getD iIndex false

/-- Modelled from the spec: `CSphBitvec::BitCount` (not in src): the number of set
bits. -/
def CSphBitvec.BitCount (b : CSphBitvec) : Nat := b.m_pData.count true

/-- The value of a byte given its bits, lowest first. -/
def byteOfBits (bs : List Bool) : BYTE :=
  bs.foldr (fun b acc => (if b then 1 else 0) + 2 * acc) 0

/-- The first `n` bytes of a bit image (little-endian words). -/
def bitsToBytes : Nat → List Bool → List BYTE
  | 0, _ => []
  | n + 1, bs => byteOfBits (bs.take 8) :: bitsToBytes n (bs.drop 8)

/-- The eight bits of a byte, lowest first. -/
def bitsOfByte (b : BYTE) : List Bool :=
  [b % 2 = 1, b / 2 % 2 = 1, b / 4 % 2 = 1, b / 8 % 2 = 1,
    b / 16 % 2 = 1, b / 32 % 2 = 1, b / 64 % 2 = 1, b / 128 % 2 = 1]

/-- The bit image of a byte run. -/
def bytesToBits (bytes : List BYTE) : List Bool := bytes.flatMap bitsOfByte

/-- The bytes at `Begin()` that `PutBytes ( Begin(), GetSize()*sizeof(DWORD) )` writes. -/
def CSphBitvec.bytes (b : CSphBitvec) : List BYTE := bitsToBytes (4 * b.GetSize) b.m_pData

/-- The effect of `memcpy ( Begin(), src, GetSize()*sizeof(DWORD) )`. -/
def CSphBitvec.memcpy (b : CSphBitvec) (src : List BYTE) : CSphBitvec :=
  { b with m_pData := bytesToBits src }

/-! ## Flags and the codec interface -/

/-- The enumerator `BLOCK_FLAG_COMPRESSED`. -/
def BLOCK_FLAG_COMPRESSED : BYTE := 1
/-- The enumerator `BLOCK_FLAG_FIELD_REORDER`. -/
def BLOCK_FLAG_FIELD_REORDER : BYTE := 2
/-- The enumerator `DOC_FLAG_ALL_EMPTY`. -/
def DOC_FLAG_ALL_EMPTY : BYTE := 1
/-- The enumerator `DOC_FLAG_EMPTY_BITMASK`. -/
def DOC_FLAG_EMPTY_BITMASK : BYTE := 2
/-- The enumerator `FIELD_FLAG_COMPRESSED`. -/
def FIELD_FLAG_COMPRESSED : BYTE := 1
/-- The enumerator `FIELD_FLAG_EMPTY`. -/
def FIELD_FLAG_EMPTY : BYTE := 2
/-- The constant `STORAGE_VERSION`. -/
def STORAGE_VERSION : Nat := 1

/-- The test `uFlags & uBit` for a one-bit mask `uBit`. -/
def hasFlag (uFlags uBit : BYTE) : Bool := uFlags / uBit % 2 = 1

/-- The interface `Compressor_i`. `Compress` gets the uncompressed bytes and the
previous contents of the output vector and returns its result and the output
vector; `Decompress` gets the compressed bytes and the preallocated output. -/
structure Compressor_i where
  Compress : List BYTE → List BYTE → Bool × List BYTE
  Decompress : List BYTE → List BYTE → Bool × List BYTE

/-- The class `Compressor_None_c`. -/
def Compressor_None_c : Compressor_i where
  Compress := fun _ dCompressed => (false, dCompressed)
  Decompress := fun _ dDecompressed => (true, dDecompressed)

/-! ## Field registry -/

/-- Modelled from the spec: the enumerator `DOCSTORE_TEXT` of `DocstoreDataType_e`
(docstore.h is not in src). -/
def DOCSTORE_TEXT : Nat := 0
/-- Modelled from the spec: the binary enumerator of `DocstoreDataType_e`. -/
def DOCSTORE_BIN : Nat := 1

/-- The descriptor `DocstoreFields_c::Field_t`; a name is its bytes. -/
structure Field_t where
  m_sName : List BYTE
  m_eType : Nat
deriving DecidableEq, Repr, Inhabited

/-- The class `DocstoreFields_c`; `m_hFields` lists the hash's entries, key first. -/
structure DocstoreFields_c where
  m_dFields : List Field_t := []
  m_hFields : List (List BYTE × Nat) := []
deriving DecidableEq, Repr

/-- `DocstoreFields_c::GetNumFields`. -/
def DocstoreFields_c.GetNumFields (f : DocstoreFields_c) : Nat := f.m_dFields.length

/-- `DocstoreFields_c::GetField`. -/
def DocstoreFields_c.GetField (f : DocstoreFields_c) (iField : Nat) : Field_t :=
  f.m_dFields.getD iField default

/-- The key `SetSprintf ( "%d%s", eType, sName )`. -/
def compoundKey (sName : List BYTE) (eType : Nat) : List BYTE :=
  (Nat.toDigits 10 eType).map Char.toNat ++ sName

/-- `DocstoreFields_c::AddField`: the new registry and the returned id. The hash
`SmallStringHash_T` (not in src) is modelled as keeping the first entry of a key. -/
def DocstoreFields_c.AddField (f : DocstoreFields_c) (sName : List BYTE) (eType : Nat) :
    DocstoreFields_c × Nat :=
  ({ m_dFields := f.m_dFields ++ [{ m_sName := sName, m_eType := eType }],
     m_hFields :=
      if (f.m_hFields.lookup (compoundKey sName eType)).isSome then f.m_hFields
      else f.m_hFields ++ [(compoundKey sName eType, f.m_dFields.length)] },
   f.m_dFields.length)

/-- `DocstoreFields_c::Save`: the bytes written. -/
def DocstoreFields_c.Save (f : DocstoreFields_c) : List BYTE :=
  PutDword f.GetNumFields ++
    f.m_dFields.flatMap (fun fld => [fld.m_eType] ++ PutDword fld.m_sName.length ++ fld.m_sName)

/-! ## Builder -/

/-- The enumeration `Compression_e`. -/
inductive Compression_e where
  | NONE
  | LZ4
  | LZ4HC
deriving DecidableEq, Repr

/-- `Compression2Byte`. -/
def Compression2Byte : Compression_e → BYTE
  | Compression_e.NONE => 0
  | Compression_e.LZ4 => 1
  | Compression_e.LZ4HC => 2

/-- `Byte2Compression`. -/
def Byte2Compression (uComp : BYTE) : Compression_e :=
  if uComp = 1 then Compression_e.LZ4
  else if uComp = 2 then Compression_e.LZ4HC
  else Compression_e.NONE

/-- Modelled from the spec: the input document `DocstoreBuilder_i::Doc_t`
(docstore.h is not in src): one payload per field. -/
structure Doc_t where
  m_dFields : List (List BYTE)
deriving DecidableEq, Repr

/-- The pending document `DocstoreBuilder_c::StoredDoc_t`. -/
structure StoredDoc_t where
  m_tRowID : Nat := 0
  m_dFields : List (List BYTE) := []
deriving DecidableEq, Repr, Inhabited

/-- The state of `DocstoreBuilder_c`. `m_tWriter` is the content of the file
written so far (the writer's position is its length until `Finalize` seeks back),
`m_dHeader` the directory bytes gathered through `m_tHeaderWriter`. -/
structure DocstoreBuilder_c where
  m_uBlockSize : Nat
  m_eCompression : Compression_e := Compression_e.NONE
  m_dStoredDocs : List StoredDoc_t := []
  m_dHeader : List BYTE := []
  m_dBuffer : List BYTE := []
  m_tWriter : List BYTE := []
  m_tFields : DocstoreFields_c := {}
  m_uStoredLen : Nat := 0
  m_iNumBlocks : Nat := 0
  m_tHeaderOffset : Nat := 0
  m_tPrevBlockOffset : Nat := 0
  m_tPrevBlockRowID : Nat := 0
  m_dFieldSort : List (Nat × Nat) := []
  m_dCompressedBuffers : List (List BYTE) := []
deriving Repr

/-- Modelled from the spec: `CSphVector::Resize` (not in src) on the vector of
compression buffers: entries past the new length are dropped, new entries are
empty. -/
def resizeBuffers (v : List (List BYTE)) (n : Nat) : List (List BYTE) :=
  v.take n ++ List.replicate (n - v.length) []

/-- Modelled from the spec: `CSphVector::Resize` (not in src) on `m_dFieldSort`. -/
def resizeFieldSort (v : List (Nat × Nat)) (n : Nat) : List (Nat × Nat) :=
  v.take n ++ List.replicate (n - v.length) (0, 0)

/-- `DocstoreBuilder_c::AddField`. -/
def DocstoreBuilder_c.AddField (s : DocstoreBuilder_c) (sName : List BYTE) (eType : Nat) :
    DocstoreBuilder_c × Nat :=
  ({ s with m_tFields := (s.m_tFields.AddField sName eType).1 },
    (s.m_tFields.AddField sName eType).2)

/-- `DocstoreBuilder_c::WriteInitialHeader`. -/
def DocstoreBuilder_c.WriteInitialHeader (s : DocstoreBuilder_c) : DocstoreBuilder_c :=
  let w := s.m_tWriter ++ PutDword STORAGE_VERSION ++ PutDword s.m_uBlockSize
    ++ [Compression2Byte s.m_eCompression] ++ s.m_tFields.Save
  { s with m_tHeaderOffset := w.length, m_tWriter := w ++ PutDword 0 ++ PutOffset 0 }

/-- `DocstoreBuilder_c::WriteSmallBlockHeader`. -/
def DocstoreBuilder_c.WriteSmallBlockHeader (s : DocstoreBuilder_c) (tBlockOffset : Nat) :
    DocstoreBuilder_c :=
  let tRowID := (s.m_dStoredDocs.getD 0 default).m_tRowID
  { s with
    m_dHeader := s.m_dHeader
      ++ ZipInt ((tRowID + DWORD_MOD - s.m_tPrevBlockRowID) % DWORD_MOD)
      ++ [BLOCK_TYPE_SMALL]
      ++ ZipOffset (tBlockOffset - s.m_tPrevBlockOffset),
    m_tPrevBlockOffset := tBlockOffset,
    m_tPrevBlockRowID := tRowID }

/-- `DocstoreBuilder_c::WriteBigBlockHeader`. -/
def DocstoreBuilder_c.WriteBigBlockHeader (s : DocstoreBuilder_c)
    (tBlockOffset tHeaderSize : Nat) : DocstoreBuilder_c :=
  let tRowID := (s.m_dStoredDocs.getD 0 default).m_tRowID
  { s with
    m_dHeader := s.m_dHeader
      ++ ZipInt ((tRowID + DWORD_MOD - s.m_tPrevBlockRowID) % DWORD_MOD)
      ++ [BLOCK_TYPE_BIG]
      ++ ZipOffset (tBlockOffset - s.m_tPrevBlockOffset)
      ++ ZipInt tHeaderSize,
    m_tPrevBlockOffset := tBlockOffset,
    m_tPrevBlockRowID := tRowID }

/-- The loop `ARRAY_FOREACH ( iField, tDoc.m_dFields ) if ( !GetLength() ) BitSet(iField)`
of `WriteSmallBlock`, from field `iField` on. -/
def markEmptyFields : List (List BYTE) → Nat → CSphBitvec → CSphBitvec
  | [], _, tEmptyFields => tEmptyFields
  | tField :: rest, iField, tEmptyFields =>
    markEmptyFields rest (iField + 1)
      (if tField.length = 0 then tEmptyFields.BitSet iField else tEmptyFields)

/-- The loop of `WriteSmallBlock` that writes the fields of one document, from
field `iField` on: a varint length and the bytes of every field the bitmask does
not mark. -/
def writeSmallBlockFields (bNeedsBitmask : Bool) (tEmptyFields : CSphBitvec) :
    List (List BYTE) → Nat → List BYTE
  | [], _ => []
  | tField :: rest, iField =>
    (if !bNeedsBitmask || !tEmptyFields.BitGet iField then ZipInt tField.length ++ tField
      else [])
      ++ writeSmallBlockFields bNeedsBitmask tEmptyFields rest (iField + 1)

/-- The body of the loop over `m_dStoredDocs` in `WriteSmallBlock`: the bytes one
document adds to `m_dBuffer`. -/
def writeSmallBlockDoc (iNumFields : Nat) (tDoc : StoredDoc_t) : List BYTE :=
  let tEmptyFields := markEmptyFields tDoc.m_dFields 0 (CSphBitvec.Init iNumFields).Clear
  let iEmptyFields := tEmptyFields.BitCount
  if iEmptyFields = iNumFields then [DOC_FLAG_ALL_EMPTY]
  else
    let bNeedsBitmask : Bool := iEmptyFields ≠ 0 && decide (tEmptyFields.GetSize * 4 < iEmptyFields)
    [if bNeedsBitmask then DOC_FLAG_EMPTY_BITMASK else 0]
      ++ (if bNeedsBitmask then tEmptyFields.bytes else [])
      ++ writeSmallBlockFields bNeedsBitmask tEmptyFields tDoc.m_dFields 0

/-- `DocstoreBuilder_c::WriteSmallBlock`. -/
def DocstoreBuilder_c.WriteSmallBlock (c : Compressor_i) (s : DocstoreBuilder_c) :
    DocstoreBuilder_c :=
  let dBuffers := resizeBuffers s.m_dCompressedBuffers 1
  let dBuffer := s.m_dStoredDocs.flatMap (writeSmallBlockDoc s.m_tFields.GetNumFields)
  let tRes := c.Compress dBuffer (dBuffers.getD 0 [])
  let bCompressed := tRes.1
  let uBlockFlags : BYTE := if bCompressed then BLOCK_FLAG_COMPRESSED else 0
  let s1 := s.WriteSmallBlockHeader s.m_tWriter.length
  { s1 with
    m_dBuffer := dBuffer,
    m_dCompressedBuffers := dBuffers.set 0 tRes.2,
    m_tWriter := s.m_tWriter ++ [uBlockFlags] ++ ZipInt s.m_dStoredDocs.length
      ++ ZipInt dBuffer.length
      ++ (if bCompressed then ZipInt tRes.2.length else [])
      ++ (if bCompressed then tRes.2 else dBuffer) }

/-- The state of the first loop of `WriteBigBlock`. -/
structure BigBlockScan where
  bNeedReorder : Bool := false
  tCompressedFields : CSphBitvec
  iPrevSize : Nat := 0
  m_dCompressedBuffers : List (List BYTE)
deriving Repr

/-- The first loop of `WriteBigBlock`, from field `iField` on: every field is
compressed into its own buffer and `bNeedReorder` is raised when a stored size is
below `iPrevSize`. -/
def writeBigBlockScan (c : Compressor_i) : List (List BYTE) → Nat → BigBlockScan → BigBlockScan
  | [], _, st => st
  | dField :: rest, iField, st =>
    let tRes := c.Compress dField (st.m_dCompressedBuffers.getD iField [])
    let iStoredSize := if tRes.1 then tRes.2.length else dField.length
    writeBigBlockScan c rest (iField + 1)
      { bNeedReorder := st.bNeedReorder || decide (iStoredSize < st.iPrevSize),
        tCompressedFields :=
          if tRes.1 then st.tCompressedFields.BitSet iField else st.tCompressedFields,
        iPrevSize := tRes.2.length,
        m_dCompressedBuffers := st.m_dCompressedBuffers.set iField tRes.2 }

/-- The stored size of a field of a big block: `tCompressedFields.BitGet(iField) ?
m_dCompressedBuffers[iField].GetLength() : tDoc.m_dFields[iField].GetLength()`. -/
def bigFieldStoredSize (st : BigBlockScan) (dFields : List (List BYTE)) (iField : Nat) : Nat :=
  if st.tCompressedFields.BitGet iField then (st.m_dCompressedBuffers.getD iField []).length
  else (dFields.getD iField []).length

/-- The loop of `WriteBigBlock` that fills `m_dFieldSort`, from field `iField` on. -/
def fillFieldSort (st : BigBlockScan) (dFields : List (List BYTE)) :
    List (List BYTE) → Nat → List (Nat × Nat) → List (Nat × Nat)
  | [], _, dSort => dSort
  | _ :: rest, iField, dSort =>
    fillFieldSort st dFields rest (iField + 1)
      (dSort.set iField (iField, bigFieldStoredSize st dFields iField))

/-- Modelled from the spec: `CSphVector::Sort ( bind(&SortedField_t::second) )`
(not in src): the fields in ascending order of their stored size. -/
def sortFieldSort (dSort : List (Nat × Nat)) : List (Nat × Nat) :=
  dSort.insertionSort (fun a b => a.2 ≤ b.2)

/-- The field written at place `i` of a big block:
`bNeedReorder ? m_dFieldSort[i].first : i`. -/
def bigFieldAt (bNeedReorder : Bool) (dSort : List (Nat × Nat)) (i : Nat) : Nat :=
  if bNeedReorder then (dSort.getD i (0, 0)).1 else i

/-- The body of the metadata loop of `WriteBigBlock` for field `iField`. -/
def writeBigFieldInfo (st : BigBlockScan) (dFields : List (List BYTE)) (iField : Nat) :
    List BYTE :=
  let bCompressed := st.tCompressedFields.BitGet iField
  let bEmpty : Bool := (dFields.getD iField []).length = 0
  let uFieldFlags : BYTE :=
    (if bCompressed then FIELD_FLAG_COMPRESSED else 0) + (if bEmpty then FIELD_FLAG_EMPTY else 0)
  [uFieldFlags] ++
    (if bEmpty then []
     else ZipInt (dFields.getD iField []).length ++
      (if bCompressed then ZipInt (st.m_dCompressedBuffers.getD iField []).length else []))

/-- The body of the last loop of `WriteBigBlock` for field `iField`. -/
def writeBigFieldBody (st : BigBlockScan) (dFields : List (List BYTE)) (iField : Nat) :
    List BYTE :=
  let bCompressed := st.tCompressedFields.BitGet iField
  let bEmpty : Bool := (dFields.getD iField []).length = 0
  if bEmpty then []
  else if bCompressed then st.m_dCompressedBuffers.getD iField []
  else dFields.getD iField []

/-- The first loop of `WriteBigBlock` run on the pending document: the compressed
fields, their buffers and `bNeedReorder`. -/
def DocstoreBuilder_c.bigBlockScan (c : Compressor_i) (s : DocstoreBuilder_c) : BigBlockScan :=
  writeBigBlockScan c (s.m_dStoredDocs.getD 0 default).m_dFields 0
    { tCompressedFields := CSphBitvec.Init s.m_tFields.GetNumFields,
      m_dCompressedBuffers := resizeBuffers s.m_dCompressedBuffers s.m_tFields.GetNumFields }

/-- The content of `m_dFieldSort` after the block `if ( bNeedReorder )` of
`WriteBigBlock`. -/
def DocstoreBuilder_c.bigBlockFieldSort (c : Compressor_i) (s : DocstoreBuilder_c) :
    List (Nat × Nat) :=
  if (s.bigBlockScan c).bNeedReorder then
    sortFieldSort (fillFieldSort (s.bigBlockScan c) (s.m_dStoredDocs.getD 0 default).m_dFields
      (s.m_dStoredDocs.getD 0 default).m_dFields 0
      (resizeFieldSort s.m_dFieldSort s.m_tFields.GetNumFields))
  else s.m_dFieldSort

/-- `DocstoreBuilder_c::WriteBigBlock`. -/
def DocstoreBuilder_c.WriteBigBlock (c : Compressor_i) (s : DocstoreBuilder_c) :
    DocstoreBuilder_c :=
  let tDoc := s.m_dStoredDocs.getD 0 default
  let iNumFields := s.m_tFields.GetNumFields
  let st := s.bigBlockScan c
  let dSort := s.bigBlockFieldSort c
  let tOnDiskHeaderStart := s.m_tWriter.length
  let uBlockFlags : BYTE := if st.bNeedReorder then BLOCK_FLAG_FIELD_REORDER else 0
  let dHeaderBytes := [uBlockFlags]
    ++ (if st.bNeedReorder then dSort.flatMap (fun i => ZipInt i.1) else [])
    ++ (List.range iNumFields).flatMap
        (fun i => writeBigFieldInfo st tDoc.m_dFields (bigFieldAt st.bNeedReorder dSort i))
  let dBodies := (List.range iNumFields).flatMap
    (fun i => writeBigFieldBody st tDoc.m_dFields (bigFieldAt st.bNeedReorder dSort i))
  let s1 : DocstoreBuilder_c :=
    { s with
      m_dFieldSort := dSort,
      m_dCompressedBuffers := st.m_dCompressedBuffers,
      m_tWriter := s.m_tWriter ++ dHeaderBytes ++ dBodies }
  s1.WriteBigBlockHeader tOnDiskHeaderStart dHeaderBytes.length

/-- `DocstoreBuilder_c::WriteBlock`. -/
def DocstoreBuilder_c.WriteBlock (c : Compressor_i) (s : DocstoreBuilder_c) :
    DocstoreBuilder_c :=
  let s0 := if s.m_tWriter.length = 0 then s.WriteInitialHeader else s
  if s0.m_dStoredDocs.length = 0 then s0
  else
    let bBigBlock : Bool := s0.m_dStoredDocs.length = 1 && decide (s0.m_uStoredLen ≥ s0.m_uBlockSize)
    let s1 := if bBigBlock then s0.WriteBigBlock c else s0.WriteSmallBlock c
    { s1 with m_iNumBlocks := s1.m_iNumBlocks + 1, m_uStoredLen := 0, m_dStoredDocs := [] }

/-- The `DWORD` sum `uLen` that `AddDoc` computes over the fields of a document. -/
def docLen (tDoc : Doc_t) : Nat :=
  tDoc.m_dFields.foldl (fun uLen i => (uLen + i.length) % DWORD_MOD) 0

/-- The bytes `AddDoc` stores for field `i` of a document: a text field loses
one trailing zero byte. -/
def storedField (tFields : DocstoreFields_c) (tDoc : Doc_t) (i : Nat) : List BYTE :=
  let dField := tDoc.m_dFields.getD i []
  let iLen := dField.length
  let iLen :=
    if (tFields.GetField i).m_eType = DOCSTORE_TEXT ∧ iLen > 0 ∧ dField.getD (iLen - 1) 0 = 0
    then iLen - 1 else iLen
  dField.take iLen

/-- `DocstoreBuilder_c::AddDoc`. -/
def DocstoreBuilder_c.AddDoc (c : Compressor_i) (s : DocstoreBuilder_c) (tRowID : Nat)
    (tDoc : Doc_t) : DocstoreBuilder_c :=
  let uLen := docLen tDoc
  let s1 := if (s.m_uStoredLen + uLen) % DWORD_MOD > s.m_uBlockSize then s.WriteBlock c else s
  let tStoredDoc : StoredDoc_t :=
    { m_tRowID := tRowID,
      m_dFields := (List.range s1.m_tFields.GetNumFields).map (storedField s1.m_tFields tDoc) }
  { s1 with
    m_dStoredDocs := s1.m_dStoredDocs ++ [tStoredDoc],
    m_uStoredLen := (s1.m_uStoredLen + uLen) % DWORD_MOD }

/-- `DocstoreBuilder_c::WriteTrailingHeader`: the directory is appended and the
two reserved slots at `m_tHeaderOffset` are rewritten in place. -/
def DocstoreBuilder_c.WriteTrailingHeader (s : DocstoreBuilder_c) : DocstoreBuilder_c :=
  let tHeaderPos := s.m_tWriter.length
  let w := s.m_tWriter ++ s.m_dHeader
  let dSlots := PutDword s.m_iNumBlocks ++ PutOffset tHeaderPos
  { s with m_tWriter := w.take s.m_tHeaderOffset ++ dSlots
      ++ w.drop (s.m_tHeaderOffset + dSlots.length) }

/-- `DocstoreBuilder_c::Finalize`. -/
def DocstoreBuilder_c.Finalize (c : Compressor_i) (s : DocstoreBuilder_c) : DocstoreBuilder_c :=
  (s.WriteBlock c).WriteTrailingHeader

/-! ## Persistent reader -/

/-- Modelled from the spec: the file reader `CSphReader` (not in src): the file
content, the read position and the error flag raised by a read past the end. -/
structure CSphReader where
  m_pBuff : List BYTE
  m_iPos : Nat := 0
  m_bError : Bool := false
deriving DecidableEq, Repr

/-- Modelled from the spec: `CSphReader::GetByte` (not in src). -/
def CSphReader.GetByte (r : CSphReader) : BYTE × CSphReader :=
  (r.m_pBuff.getD r.m_iPos 0,
    { r with m_iPos := r.m_iPos + 1, m_bError := r.m_bError || decide (r.m_pBuff.length ≤ r.m_iPos) })

/-- The little-endian value of a byte run. -/
def leValue : List BYTE → Nat
  | [] => 0
  | b :: rest => b + 256 * leValue rest

/-- Modelled from the spec: `CSphReader::GetDword` (not in src): a little-endian
`u32`. -/
def CSphReader.GetDword (r : CSphReader) : Nat × CSphReader :=
  (leValue (readBytes r.m_pBuff r.m_iPos 4),
    { r with m_iPos := r.m_iPos + 4,
             m_bError := r.m_bError || decide (r.m_pBuff.length < r.m_iPos + 4) })

/-- Modelled from the spec: `CSphReader::GetOffset` (not in src): a little-endian
`u64`. -/
def CSphReader.GetOffset (r : CSphReader) : Nat × CSphReader :=
  (leValue (readBytes r.m_pBuff r.m_iPos 8),
    { r with m_iPos := r.m_iPos + 8,
             m_bError := r.m_bError || decide (r.m_pBuff.length < r.m_iPos + 8) })

/-- Modelled from the spec: `CSphReader::GetString` (not in src): a `u32` length
and that many bytes. -/
def CSphReader.GetString (r : CSphReader) : List BYTE × CSphReader :=
  let iLen := r.GetDword.1
  let r1 := r.GetDword.2
  (readBytes r1.m_pBuff r1.m_iPos iLen,
    { r1 with m_iPos := r1.m_iPos + iLen,
              m_bError := r1.m_bError || decide (r1.m_pBuff.length < r1.m_iPos + iLen) })

/-- Whether the varint at the head of a byte run is cut short by the end of the run. -/
def unzipTruncated : List BYTE → Bool
  | [] => true
  | b :: rest => if b < 128 then false else unzipTruncated rest

/-- Modelled from the spec: the varint read of `CSphReader` (`UnzipInt`,
`UnzipRowid`, `UnzipOffset`, not in src), before the result is narrowed to its
integer type. -/
def CSphReader.Unzip (r : CSphReader) : Nat × CSphReader :=
  ((unzipBytes (r.m_pBuff.drop r.m_iPos)).1,
    { r with m_iPos := r.m_iPos + (unzipBytes (r.m_pBuff.drop r.m_iPos)).2,
             m_bError := r.m_bError || unzipTruncated (r.m_pBuff.drop r.m_iPos) })

/-- Modelled from the spec: `CSphReader::SeekTo` (not in src). -/
def CSphReader.SeekTo (r : CSphReader) (iPos : Nat) : CSphReader := { r with m_iPos := iPos }

/-- The loop of `DocstoreFields_c::Load`, `n` fields left. -/
def loadFields : Nat → DocstoreFields_c → CSphReader → DocstoreFields_c × CSphReader
  | 0, f, r => (f, r)
  | n + 1, f, r =>
    let eType := r.GetByte.1
    let sName := r.GetByte.2.GetString.1
    loadFields n (f.AddField sName eType).1 r.GetByte.2.GetString.2

/-- `DocstoreFields_c::Load`; the loop counter is `(int)uNumFields`. -/
def DocstoreFields_c.Load (f : DocstoreFields_c) (r : CSphReader) :
    DocstoreFields_c × CSphReader :=
  let uNumFields := r.GetDword.1
  loadFields (if uNumFields < 2147483648 then uNumFields else 0) f r.GetDword.2

/-- The state of `Docstore_c` after `Init`: the settings, the file content that
positional reads see, the directory and the registry. -/
structure Docstore_c where
  m_uBlockSize : Nat
  m_eCompression : Compression_e
  m_tFile : List BYTE
  m_dBlocks : List Block_t
  m_tFields : DocstoreFields_c
deriving Repr

/-- The first loop of `Docstore_c::Init` over `m_dBlocks`, `n` entries left: the
entries read (sizes not yet set) and the reader. -/
def readDirectory : Nat → CSphReader → Nat → Nat → List Block_t × CSphReader
  | 0, r, _, _ => ([], r)
  | n + 1, r, tPrevBlockRowID, tPrevBlockOffset =>
    let tRowID := (r.Unzip.1 % DWORD_MOD + tPrevBlockRowID) % DWORD_MOD
    let r1 := r.Unzip.2
    let eType := r1.GetByte.1
    let r2 := r1.GetByte.2
    let tOffset := (r2.Unzip.1 + tPrevBlockOffset) % 18446744073709551616
    let r3 := r2.Unzip.2
    let uHeaderSize := if eType = BLOCK_TYPE_BIG then r3.Unzip.1 % DWORD_MOD else 0
    let r4 := if eType = BLOCK_TYPE_BIG then r3.Unzip.2 else r3
    let tRest := readDirectory n r4 tRowID tOffset
    ({ m_tOffset := tOffset, m_uSize := 0, m_uHeaderSize := uHeaderSize, m_tRowID := tRowID,
       m_eType := eType } :: tRest.1, tRest.2)

/-- The `DWORD` difference of two file offsets. -/
def offsetDelta (tTo tFrom : Nat) : Nat := (tTo + 18446744073709551616 - tFrom) % DWORD_MOD

/-- The second loop of `Docstore_c::Init` and the assignment after it: every
block's size is the distance to the next block, the last one's the distance to
the directory. -/
def setBlockSizes (tHeaderOffset : Nat) : List Block_t → List Block_t
  | [] => []
  | [b] => [{ b with m_uSize := offsetDelta tHeaderOffset b.m_tOffset }]
  | b :: b2 :: rest =>
    { b with m_uSize := offsetDelta b2.m_tOffset b.m_tOffset }
      :: setBlockSizes tHeaderOffset (b2 :: rest)

/-- `Docstore_c::Init` on a file with content `tFile`; `none` is the `false`
result, and also stands for `m_dBlocks.Last()` of an empty directory. -/
def Docstore_c.Init (tFile : List BYTE) : Option Docstore_c :=
  let r0 : CSphReader := { m_pBuff := tFile }
  let uStorageVersion := r0.GetDword.1
  if uStorageVersion > STORAGE_VERSION then none
  else
    let r1 := r0.GetDword.2
    let uBlockSize := r1.GetDword.1
    let r2 := r1.GetDword.2
    let eCompression := Byte2Compression r2.GetByte.1
    let r3 := r2.GetByte.2
    let tFields := (DocstoreFields_c.Load {} r3).1
    let r4 := (DocstoreFields_c.Load {} r3).2
    let uNumBlocks := r4.GetDword.1
    let r5 := r4.GetDword.2
    let tHeaderOffset := r5.GetOffset.1
    let r6 := r5.GetOffset.2.SeekTo tHeaderOffset
    let tDir := readDirectory uNumBlocks r6 0 0
    if uNumBlocks = 0 then none
    else if tDir.2.m_bError then none
    else some
      { m_uBlockSize := uBlockSize, m_eCompression := eCompression, m_tFile := tFile,
        m_dBlocks := setBlockSizes tHeaderOffset tDir.1, m_tFields := tFields }

/-- The record `BlockCache_c::BlockData_t`; `m_pData` is the buffer it points to. -/
structure BlockData_t where
  m_uFlags : BYTE := 0
  m_uNumDocs : Nat := 0
  m_pData : List BYTE := []
  m_uSize : Nat := 0
deriving DecidableEq, Repr

/-- Modelled from the spec: the result `DocstoreDoc_t` (docstore.h is not in src):
the vector of returned fields. -/
structure DocstoreDoc_t where
  m_dFields : List (List BYTE) := []
deriving DecidableEq, Repr

/-- Modelled from the spec: `sphPackPtrAttr` (not in src), the packed transport
encoding: a varint length followed by the raw bytes. -/
def sphPackPtrAttr (pData : List BYTE) : List BYTE := ZipInt pData.length ++ pData

/-- `PackData`: the new content of `dDst` for the `uSize` bytes `pData`. -/
def PackData (pData : List BYTE) (bText bPack : Bool) : List BYTE :=
  if bPack then sphPackPtrAttr pData
  else if bText then pData ++ [0] else pData

/-- `CreateFieldRemap`: entry `i` is the slot of field `i` in the result, `none`
for `-1`. -/
def CreateFieldRemap (iNumFields : Nat) (pFieldIds : Option (List Nat)) : List (Option Nat) :=
  (List.range iNumFields).map (fun i =>
    match pFieldIds with
    | none => some i
    | some dFieldIds => BinarySearch dFieldIds i)

/-- The size `tResult.m_dFields` is resized to. -/
def resultSize (iNumFields : Nat) (pFieldIds : Option (List Nat)) : Nat :=
  match pFieldIds with
  | none => iNumFields
  | some dFieldIds => dFieldIds.length

/-- `Docstore_c::ReadFromFile` without a session reader: a positional read. -/
def Docstore_c.ReadFromFile (s : Docstore_c) (iLength tOffset : Nat) : List BYTE :=
  readBytes s.m_tFile tOffset iLength

/-- `Docstore_c::UncompressSmallBlock`. -/
def Docstore_c.UncompressSmallBlock (c : Compressor_i) (s : Docstore_c) (tBlock : Block_t) :
    BlockData_t :=
  let dBlock := s.ReadFromFile tBlock.m_uSize tBlock.m_tOffset
  let r0 : MemoryReader2_c := { m_pData := dBlock }
  let uFlags := r0.GetByte.1
  let r1 := r0.GetByte.2
  let uNumDocs := r1.UnzipInt.1
  let r2 := r1.UnzipInt.2
  let uSize := r2.UnzipInt.1
  let r3 := r2.UnzipInt.2
  let bCompressed := hasFlag uFlags BLOCK_FLAG_COMPRESSED
  let uCompressedLength := if bCompressed then r3.UnzipInt.1 else uSize
  let r4 := if bCompressed then r3.UnzipInt.2 else r3
  { m_uFlags := uFlags, m_uNumDocs := uNumDocs, m_uSize := uSize,
    m_pData :=
      if bCompressed then
        (c.Decompress (readBytes dBlock r4.m_iPos uCompressedLength) (List.replicate uSize 0)).2
      else readBytes dBlock r4.m_iPos uSize }

/-- What `ProcessSmallBlockDoc` reads and writes through its reference
arguments: the reader, the bitmask and `tResult.m_dFields`. -/
structure SmallDocState where
  tReader : MemoryReader2_c
  tEmptyFields : CSphBitvec
  tResult : List (List BYTE) := []
deriving DecidableEq, Repr

/-- The body of the field loop of `ProcessSmallBlockDoc` for field `iField`. -/
def processSmallBlockField (tFields : DocstoreFields_c) (dFieldInRset : List (Option Nat))
    (bPack bDocFound bHasBitmask : Bool) (st : SmallDocState) (iField : Nat) : SmallDocState :=
  if !bHasBitmask || !st.tEmptyFields.BitGet iField then
    let uFieldLength := st.tReader.UnzipInt.1
    let r1 := st.tReader.UnzipInt.2
    let tResult :=
      match bDocFound, dFieldInRset.getD iField none with
      | true, some iFieldInRset =>
        st.tResult.set iFieldInRset
          (PackData (readBytes r1.m_pData r1.m_iPos uFieldLength)
            ((tFields.GetField iField).m_eType = DOCSTORE_TEXT) bPack)
      | _, _ => st.tResult
    { st with tReader := r1.SetPos (r1.m_iPos + uFieldLength), tResult := tResult }
  else st

/-- `Docstore_c::ProcessSmallBlockDoc`: its result and the new values of the
reference arguments. -/
def ProcessSmallBlockDoc (tFields : DocstoreFields_c) (tCurDocRowID tRowID : Nat)
    (pFieldIds : Option (List Nat)) (dFieldInRset : List (Option Nat)) (bPack : Bool)
    (st : SmallDocState) : Bool × SmallDocState :=
  let bDocFound : Bool := tCurDocRowID = tRowID
  let tResult0 :=
    if bDocFound then
      st.tResult.take (resultSize tFields.GetNumFields pFieldIds)
        ++ List.replicate (resultSize tFields.GetNumFields pFieldIds - st.tResult.length) []
    else st.tResult
  let uBitMaskSize := st.tEmptyFields.GetSize * 4
  let uDocFlags := st.tReader.GetByte.1
  let r1 := st.tReader.GetByte.2
  if hasFlag uDocFlags DOC_FLAG_ALL_EMPTY then
    (bDocFound, { st with tReader := r1, tResult := tResult0.map (fun _ => []) })
  else
    let bHasBitmask := hasFlag uDocFlags DOC_FLAG_EMPTY_BITMASK
    let st1 : SmallDocState :=
      if bHasBitmask then
        { tReader := r1.SetPos (r1.m_iPos + uBitMaskSize),
          tEmptyFields := st.tEmptyFields.memcpy (readBytes r1.m_pData r1.m_iPos uBitMaskSize),
          tResult := tResult0 }
      else { st with tReader := r1, tResult := tResult0 }
    (bDocFound,
      (List.range tFields.GetNumFields).foldl
        (processSmallBlockField tFields dFieldInRset bPack bDocFound bHasBitmask) st1)

/-- The loop of `ReadDocFromSmallBlock` over the documents of the block, `n`
iterations left. -/
def readSmallBlockDocs (tFields : DocstoreFields_c) (tRowID : Nat)
    (pFieldIds : Option (List Nat)) (dFieldInRset : List (Option Nat)) (bPack : Bool) :
    Nat → Nat → SmallDocState → SmallDocState
  | 0, _, st => st
  | n + 1, tCurDocRowID, st =>
    let r := ProcessSmallBlockDoc tFields tCurDocRowID tRowID pFieldIds dFieldInRset bPack st
    if r.1 then r.2
    else readSmallBlockDocs tFields tRowID pFieldIds dFieldInRset bPack n
      ((tCurDocRowID + 1) % DWORD_MOD) r.2

/-- The block data `ReadDocFromSmallBlock` works on. `tCache` is what
`BlockCache_c::Find` answers for an offset of this store (`none` everywhere when
there is no cache): a hit gives the cached data, a miss `UncompressSmallBlock`. -/
def Docstore_c.smallBlockData (c : Compressor_i) (tCache : Nat → Option BlockData_t)
    (s : Docstore_c) (tBlock : Block_t) : BlockData_t :=
  match tCache tBlock.m_tOffset with
  | some tData => tData
  | none => s.UncompressSmallBlock c tBlock

/-- The number of iterations of the loop `for ( i = 0; i < (int)m_uNumDocs; i++ )`. -/
def smallBlockLoopCount (tBlockData : BlockData_t) : Nat :=
  if tBlockData.m_uNumDocs < 2147483648 then tBlockData.m_uNumDocs else 0

/-- `Docstore_c::ReadDocFromSmallBlock`; the cache's own bookkeeping (`Add` on a
miss, `Release` at the end) is not part of the result. -/
def Docstore_c.ReadDocFromSmallBlock (c : Compressor_i) (tCache : Nat → Option BlockData_t)
    (s : Docstore_c) (tBlock : Block_t) (tRowID : Nat) (pFieldIds : Option (List Nat))
    (bPack : Bool) : DocstoreDoc_t :=
  let tBlockData := s.smallBlockData c tCache tBlock
  let dFieldInRset := CreateFieldRemap s.m_tFields.GetNumFields pFieldIds
  let st0 : SmallDocState :=
    { tReader := { m_pData := readBytes tBlockData.m_pData 0 tBlockData.m_uSize },
      tEmptyFields := CSphBitvec.Init s.m_tFields.GetNumFields }
  { m_dFields :=
      (readSmallBlockDocs s.m_tFields tRowID pFieldIds dFieldInRset bPack
        (smallBlockLoopCount tBlockData) tBlock.m_tRowID st0).tResult }

/-- The record `Docstore_c::FieldInfo_t`. -/
structure FieldInfo_t where
  m_uFlags : BYTE := 0
  m_uCompressedLen : Nat := 0
  m_uUncompressedLen : Nat := 0
deriving DecidableEq, Repr, Inhabited

/-- `Docstore_c::UncompressBigBlockField`. -/
def Docstore_c.UncompressBigBlockField (c : Compressor_i) (s : Docstore_c) (tOffset : Nat)
    (tInfo : FieldInfo_t) : BlockData_t :=
  let bCompressed := hasFlag tInfo.m_uFlags FIELD_FLAG_COMPRESSED
  let uDataLen := if bCompressed then tInfo.m_uCompressedLen else tInfo.m_uUncompressedLen
  let dField := s.ReadFromFile uDataLen tOffset
  { m_uSize := tInfo.m_uUncompressedLen,
    m_pData :=
      if bCompressed then (c.Decompress dField (List.replicate tInfo.m_uUncompressedLen 0)).2
      else dField }

/-- `Docstore_c::ProcessBigBlockField`: the new values of `tOffset` and of
`tResult.m_dFields`. -/
def Docstore_c.ProcessBigBlockField (c : Compressor_i) (tCache : Nat → Option BlockData_t)
    (s : Docstore_c) (iField : Nat) (tInfo : FieldInfo_t) (iFieldInRset : Option Nat)
    (bPack : Bool) (tOffset : Nat) (tResult : List (List BYTE)) : Nat × List (List BYTE) :=
  if hasFlag tInfo.m_uFlags FIELD_FLAG_EMPTY then (tOffset, tResult)
  else
    let bCompressed := hasFlag tInfo.m_uFlags FIELD_FLAG_COMPRESSED
    let tOffsetDelta := if bCompressed then tInfo.m_uCompressedLen else tInfo.m_uUncompressedLen
    match iFieldInRset with
    | none => (tOffset + tOffsetDelta, tResult)
    | some iSlot =>
      let tBlockData :=
        match tCache tOffset with
        | some tData => tData
        | none => s.UncompressBigBlockField c tOffset tInfo
      (tOffset + tOffsetDelta,
        tResult.set iSlot
          (PackData (readBytes tBlockData.m_pData 0 tBlockData.m_uSize)
            ((s.m_tFields.GetField iField).m_eType = DOCSTORE_TEXT) bPack))

/-- The loop of `ReadDocFromBigBlock` that reads the permutation, `n` entries left. -/
def readFieldSort : Nat → MemoryReader2_c → List Nat × MemoryReader2_c
  | 0, r => ([], r)
  | n + 1, r => (r.UnzipInt.1 :: (readFieldSort n r.UnzipInt.2).1, (readFieldSort n r.UnzipInt.2).2)

/-- The field at place `i` of a big block: `bNeedReorder ? dFieldSort[i] : i`. -/
def bigFieldOf (bNeedReorder : Bool) (dFieldSort : List Nat) (i : Nat) : Nat :=
  if bNeedReorder then dFieldSort.getD i 0 else i

/-- The body of the metadata loop of `ReadDocFromBigBlock` for place `i`. -/
def readBigFieldInfo (bNeedReorder : Bool) (dFieldSort : List Nat)
    (st : List FieldInfo_t × MemoryReader2_c) (i : Nat) : List FieldInfo_t × MemoryReader2_c :=
  let iField := bigFieldOf bNeedReorder dFieldSort i
  let tInfo := st.1.getD iField default
  let uFlags := st.2.GetByte.1
  let r1 := st.2.GetByte.2
  if hasFlag uFlags FIELD_FLAG_EMPTY then
    (st.1.set iField { tInfo with m_uFlags := uFlags }, r1)
  else
    let uUncompressedLen := r1.UnzipInt.1
    let r2 := r1.UnzipInt.2
    if hasFlag uFlags FIELD_FLAG_COMPRESSED then
      (st.1.set iField
        { m_uFlags := uFlags, m_uUncompressedLen := uUncompressedLen,
          m_uCompressedLen := r2.UnzipInt.1 }, r2.UnzipInt.2)
    else
      (st.1.set iField
        { tInfo with m_uFlags := uFlags, m_uUncompressedLen := uUncompressedLen }, r2)

/-- What `ReadDocFromBigBlock` reads from the block header: `bNeedReorder`,
`dFieldSort` and `dFieldInfo`. -/
structure BigBlockHeader where
  bNeedReorder : Bool
  dFieldSort : List Nat
  dFieldInfo : List FieldInfo_t
deriving DecidableEq, Repr

/-- The first half of `Docstore_c::ReadDocFromBigBlock`: the block header is read
and decoded. -/
def Docstore_c.readBigBlockHeader (s : Docstore_c) (tBlock : Block_t) : BigBlockHeader :=
  let iNumFields := s.m_tFields.GetNumFields
  let dBlockHeader := s.ReadFromFile tBlock.m_uHeaderSize tBlock.m_tOffset
  let r0 : MemoryReader2_c := { m_pData := dBlockHeader }
  let uBlockFlags := r0.GetByte.1
  let bNeedReorder := hasFlag uBlockFlags BLOCK_FLAG_FIELD_REORDER
  let tSort := if bNeedReorder then readFieldSort iNumFields r0.GetByte.2 else ([], r0.GetByte.2)
  { bNeedReorder := bNeedReorder, dFieldSort := tSort.1,
    dFieldInfo :=
      ((List.range iNumFields).foldl (readBigFieldInfo bNeedReorder tSort.1)
        (List.replicate iNumFields default, tSort.2)).1 }

/-- The body of the last loop of `ReadDocFromBigBlock` for place `i`; the state
is `tOffset` and `tResult.m_dFields`. -/
def Docstore_c.readBigBlockField (c : Compressor_i) (tCache : Nat → Option BlockData_t)
    (s : Docstore_c) (h : BigBlockHeader) (dFieldInRset : List (Option Nat)) (bPack : Bool)
    (acc : Nat × List (List BYTE)) (i : Nat) : Nat × List (List BYTE) :=
  let iField := bigFieldOf h.bNeedReorder h.dFieldSort i
  s.ProcessBigBlockField c tCache iField (h.dFieldInfo.getD iField default)
    (dFieldInRset.getD iField none) bPack acc.1 acc.2

/-- `Docstore_c::ReadDocFromBigBlock`. -/
def Docstore_c.ReadDocFromBigBlock (c : Compressor_i) (tCache : Nat → Option BlockData_t)
    (s : Docstore_c) (tBlock : Block_t) (pFieldIds : Option (List Nat)) (bPack : Bool) :
    DocstoreDoc_t :=
  let iNumFields := s.m_tFields.GetNumFields
  let h := s.readBigBlockHeader tBlock
  let dFieldInRset := CreateFieldRemap iNumFields pFieldIds
  let tResult0 : List (List BYTE) := List.replicate (resultSize iNumFields pFieldIds) []
  { m_dFields :=
      ((List.range iNumFields).foldl (s.readBigBlockField c tCache h dFieldInRset bPack)
        (tBlock.m_tOffset + tBlock.m_uHeaderSize, tResult0)).2 }

/-- `Docstore_c::GetDoc`; `c` is the compressor `m_pCompressor` that `Init`
created, and `none` stands for the dereference of the null block that `FindBlock`
returns for a row below the first block. -/
def Docstore_c.GetDoc (c : Compressor_i) (tCache : Nat → Option BlockData_t) (s : Docstore_c)
    (tRowID : Nat) (pFieldIds : Option (List Nat)) (bPack : Bool) : Option DocstoreDoc_t :=
  match FindBlock s.m_dBlocks tRowID with
  | none => none
  | some iBlock =>
    let tBlock := s.m_dBlocks.getD iBlock default
    if tBlock.m_eType = BLOCK_TYPE_SMALL then
      some (s.ReadDocFromSmallBlock c tCache tBlock tRowID pFieldIds bPack)
    else some (s.ReadDocFromBigBlock c tCache tBlock pFieldIds bPack)

/-! ## In-memory store -/

/-- The state of `DocstoreRT_c`; an entry of `m_dDocs` is the packed document it
points to, `none` for a null pointer. -/
structure DocstoreRT_c where
  m_dDocs : List (Option (List BYTE)) := []
  m_tFields : DocstoreFields_c := {}
  m_iAllocated : Int := 0
deriving Repr

/-- The length `AddDoc` keeps of field `i`: a text field loses one trailing zero. -/
def rtFieldLength (tFields : DocstoreFields_c) (dField : List BYTE) (i : Nat) : Nat :=
  if (tFields.GetField i).m_eType = DOCSTORE_TEXT ∧ dField.length > 0
      ∧ dField.getD (dField.length - 1) 0 = 0
  then dField.length - 1 else dField.length

/-- The second loop of `DocstoreRT_c::AddDoc`, from field `i` on: the packed bytes. -/
def rtPackFields (tFields : DocstoreFields_c) : List (List BYTE) → Nat → List BYTE
  | [], _ => []
  | dField :: rest, i =>
    ZipInt (rtFieldLength tFields dField i) ++ dField.take (rtFieldLength tFields dField i)
      ++ rtPackFields tFields rest (i + 1)

/-- `DocstoreRT_c::AddDoc`. -/
def DocstoreRT_c.AddDoc (s : DocstoreRT_c) (_tRowID : Nat) (tDoc : Doc_t) : DocstoreRT_c :=
  let pPacked := rtPackFields s.m_tFields tDoc.m_dFields 0
  { s with m_dDocs := s.m_dDocs ++ [some pPacked],
           m_iAllocated := s.m_iAllocated + pPacked.length }

/-- The body of the loop of `DocstoreRT_c::GetDoc` for field `iField`; the state
is the bytes from `pDoc` on and `tResult.m_dFields`. -/
def rtGetField (tFields : DocstoreFields_c) (dFieldInRset : List (Option Nat)) (bPack : Bool)
    (st : List BYTE × List (List BYTE)) (iField : Nat) : List BYTE × List (List BYTE) :=
  let uFieldLength := (unzipBytes st.1).1 % DWORD_MOD
  let pDoc := st.1.drop (unzipBytes st.1).2
  (pDoc.drop uFieldLength,
    match dFieldInRset.getD iField none with
    | some iFieldInRset =>
      st.2.set iFieldInRset
        (PackData (readBytes pDoc 0 uFieldLength)
          ((tFields.GetField iField).m_eType = DOCSTORE_TEXT) bPack)
    | none => st.2)

/-- `DocstoreRT_c::GetDoc`; `none` stands for a row that `m_dDocs` does not hold
(an index out of range or a leaked document). -/
def DocstoreRT_c.GetDoc (s : DocstoreRT_c) (tRowID : Nat) (pFieldIds : Option (List Nat))
    (bPack : Bool) : Option DocstoreDoc_t :=
  match s.m_dDocs.getD tRowID none with
  | none => none
  | some pDoc =>
    some
      { m_dFields :=
          ((List.range s.m_tFields.GetNumFields).foldl
            (rtGetField s.m_tFields (CreateFieldRemap s.m_tFields.GetNumFields pFieldIds) bPack)
            (pDoc, List.replicate (resultSize s.m_tFields.GetNumFields pFieldIds) [])).2 }

/-! ## Runs of the builder -/

/-- The byte length of an input document: the sum of the lengths of its fields. -/
def docBytes (tDoc : Doc_t) : Nat := (tDoc.m_dFields.map List.length).sum

/-- The pending document `AddDoc` appends for an input document. -/
def storedDocOf (tFields : DocstoreFields_c) (d : Nat × Doc_t) : StoredDoc_t :=
  { m_tRowID := d.1,
    m_dFields := (List.range tFields.GetNumFields).map (storedField tFields d.2) }

/-- A run of `AddDoc` calls, one per `(RowID, document)` pair. -/
def AddDocs (c : Compressor_i) (s : DocstoreBuilder_c) (docs : List (Nat × Doc_t)) :
    DocstoreBuilder_c :=
  docs.foldl (fun s d => s.AddDoc c d.1 d.2) s

/-- The input documents of a run that are pending in state `s`: the last
`m_dStoredDocs.GetLength()` ones. -/
def pendingInputs (s : DocstoreBuilder_c) (docs : List (Nat × Doc_t)) : List (Nat × Doc_t) :=
  docs.drop (docs.length - s.m_dStoredDocs.length)

/-- The block type of the directory entry that `WriteBlock` appends to the
directory in state `s`: the byte that follows the entry's RowID varint. -/
def flushedBlockType (c : Compressor_i) (s : DocstoreBuilder_c) : BYTE :=
  let dEntry := (s.WriteBlock c).m_dHeader.drop s.m_dHeader.length
  dEntry.getD (unzipBytes dEntry).2 0

/-- The block type of the directory entry that `WriteBlock` appends to the
directory in state `s`, read as `Docstore_c::Init` reads an entry: the byte that
follows the entry's RowID varint; `none` when the call appends no such byte. -/
def flushedEntryType (c : Compressor_i) (s : DocstoreBuilder_c) : Option BYTE :=
  let dEntry := (s.WriteBlock c).m_dHeader.drop s.m_dHeader.length
  dEntry[(unzipBytes dEntry).2]?

/-! ## The boundary scenarios of the spec -/

/-- What `BlockCache_c::Find` answers when there is no cache or it is empty. -/
def noCache : Nat → Option BlockData_t := fun _ => none

/-- A builder with `block_size = 1024`, no compression and a registry of one
TEXT field named `f`. -/
def boundaryBuilder : DocstoreBuilder_c :=
  (({ m_uBlockSize := 1024 } : DocstoreBuilder_c).AddField [102] DOCSTORE_TEXT).1

/-- The file for doc 0 = 600 bytes of `'a'` and doc 1 = 600 bytes of `'b'`. -/
def twoSmallDocsFile : List BYTE :=
  (((boundaryBuilder.AddDoc Compressor_None_c 0 { m_dFields := [List.replicate 600 97] }).AddDoc
    Compressor_None_c 1 { m_dFields := [List.replicate 600 98] }).Finalize
      Compressor_None_c).m_tWriter

/-- The file for one doc of 2048 bytes of `'c'`. -/
def oneBigDocFile : List BYTE :=
  ((boundaryBuilder.AddDoc Compressor_None_c 0 { m_dFields := [List.replicate 2048 99] }).Finalize
    Compressor_None_c).m_tWriter

/-- The file for doc 0 = 600 bytes of `'a'` and doc 1 = 2048 bytes of `'c'`. -/
def smallThenBigFile : List BYTE :=
  (((boundaryBuilder.AddDoc Compressor_None_c 0 { m_dFields := [List.replicate 600 97] }).AddDoc
    Compressor_None_c 1 { m_dFields := [List.replicate 2048 99] }).Finalize
      Compressor_None_c).m_tWriter

/-- The file for doc 0 = 300 bytes of `'a'` and doc 1 = 300 bytes of `'b'`, which
are pending together when `Finalize` flushes. -/
def twoPendingDocsFile : List BYTE :=
  (((boundaryBuilder.AddDoc Compressor_None_c 0 { m_dFields := [List.replicate 300 97] }).AddDoc
    Compressor_None_c 1 { m_dFields := [List.replicate 300 98] }).Finalize
      Compressor_None_c).m_tWriter

/-- The number of documents the small block `iBlock` of an opened store holds,
as its block header says. -/
def smallBlockNumDocs (c : Compressor_i) (s : Docstore_c) (iBlock : Nat) : Nat :=
  (s.smallBlockData c noCache (s.m_dBlocks.getD iBlock default)).m_uNumDocs

/-- The sum of the `uncompressed_len` values in the header of the big block
`iBlock` of an opened store. -/
def bigBlockUncompressedLen (s : Docstore_c) (iBlock : Nat) : Nat :=
  ((s.readBigBlockHeader (s.m_dBlocks.getD iBlock default)).dFieldInfo.map
    (fun tInfo => tInfo.m_uUncompressedLen)).sum

/-- A builder with `block_size = 4`, no compression and one TEXT field. -/
def tinyBuilder : DocstoreBuilder_c :=
  (({ m_uBlockSize := 4 } : DocstoreBuilder_c).AddField [102] DOCSTORE_TEXT).1

/-- The file for the single document `"abc\0"` in a store with `block_size = 4`. -/
def nulDocFile : List BYTE :=
  ((tinyBuilder.AddDoc Compressor_None_c 0 { m_dFields := [[97, 98, 99, 0]] }).Finalize
    Compressor_None_c).m_tWriter

/-- The file for the single document with one empty TEXT field. -/
def emptyTextFile : List BYTE :=
  ((boundaryBuilder.AddDoc Compressor_None_c 0 { m_dFields := [[]] }).Finalize
    Compressor_None_c).m_tWriter

/-- A builder with `block_size = 1024`, no compression and two TEXT fields. -/
def twoTextBuilder : DocstoreBuilder_c :=
  ((boundaryBuilder.AddField [103] DOCSTORE_TEXT).1)

/-- The file for the single document with an empty and a one-byte TEXT field. -/
def emptyAndByteFile : List BYTE :=
  ((twoTextBuilder.AddDoc Compressor_None_c 0 { m_dFields := [[], [5]] }).Finalize
    Compressor_None_c).m_tWriter

/-- The number of TEXT fields of a registry. -/
def numTextFields (tFields : DocstoreFields_c) : Nat :=
  (tFields.m_dFields.map (fun f => if f.m_eType = DOCSTORE_TEXT then 1 else 0)).sum

/-- The byte length of a pending document as stored: the sum of the lengths of
its fields, which `WriteBigBlock` writes as their `uncompressed_len`. -/
def storedBytes (tDoc : StoredDoc_t) : Nat := (tDoc.m_dFields.map List.length).sum

/-- The store `CreateDocstore` returns for a file, an empty store when `Init` fails. -/
def openedStore (tFile : List BYTE) : Docstore_c :=
  (Docstore_c.Init tFile).getD
    { m_uBlockSize := 0, m_eCompression := Compression_e.NONE, m_tFile := [], m_dBlocks := [],
      m_tFields := {} }

/-- The in-memory store with one TEXT field that holds the single document with
an empty field. -/
def emptyTextRT : DocstoreRT_c :=
  ({ m_tFields := boundaryBuilder.m_tFields } : DocstoreRT_c).AddDoc 0 { m_dFields := [[]] }

/-! ## A lossless codec for the reorder scenario -/

/-- The first byte of every pair of a byte run made of equal pairs. -/
def twinHalve : List BYTE → Option (List BYTE)
  | [] => some []
  | [_] => none
  | a :: b :: rest => if a = b then (twinHalve rest).map (fun h => a :: h) else none

/-- A `Compressor_i` that halves the runs made of equal pairs and stores every
other run uncompressed; decompression doubles every byte. -/
def Compressor_Twin_c : Compressor_i where
  Compress := fun dUncompressed dCompressed =>
    match twinHalve dUncompressed with
    | some h => if dUncompressed.length < 64 then (false, dCompressed) else (true, h)
    | none => (false, dCompressed)
  Decompress := fun dCompressed _ => (true, dCompressed.flatMap (fun b => [b, b]))

/-- A builder with `block_size = 1024` and three BINARY fields. -/
def reorderBuilder : DocstoreBuilder_c :=
  ((((({ m_uBlockSize := 1024 } : DocstoreBuilder_c).AddField [97] DOCSTORE_BIN).1.AddField [98]
    DOCSTORE_BIN).1).AddField [99] DOCSTORE_BIN).1

/-- A document whose three fields of 400, 100 and 2000 bytes the twin codec
compresses to 200, 50 and 1000 bytes. -/
def reorderDoc : Doc_t :=
  { m_dFields := [List.replicate 400 1, List.replicate 100 2, List.replicate 2000 3] }

/-- The builder with the reorder document pending. -/
def reorderPending : DocstoreBuilder_c := reorderBuilder.AddDoc Compressor_Twin_c 0 reorderDoc

/-- The file for the reorder document. -/
def reorderFile : List BYTE := (reorderPending.Finalize Compressor_Twin_c).m_tWriter

/-- The fields of `dAll` that the ids `dFieldIds` name, in the order of the ids. -/
def projectFields (dFieldIds : List Nat) (dAll : List (List BYTE)) : List (List BYTE) :=
  dFieldIds.map (fun i => dAll.getD i [])

/-- What the field loop of `ProcessSmallBlockDoc` leaves in the result for the
fields of a document, from field `iField` on, when it reads what
`writeSmallBlockFields` wrote: the packed field where the field was written, an
empty entry where the bitmask marks the field. -/
def decodedSmallFields (tFields : DocstoreFields_c) (bPack bHasBitmask : Bool)
    (tEmptyFields : CSphBitvec) : List (List BYTE) → Nat → List (List BYTE)
  | [], _ => []
  | tField :: rest, iField =>
    (if !bHasBitmask || !tEmptyFields.BitGet iField then
        PackData tField ((tFields.GetField iField).m_eType = DOCSTORE_TEXT) bPack
      else [])
      :: decodedSmallFields tFields bPack bHasBitmask tEmptyFields rest (iField + 1)

/-! ## Single-precision arithmetic

The `float` values `Compressor_LZ4_c::Compress` computes are finite and not
negative. Such a value is kept as the exact fraction `num / 2 ^ shift`; an
operation gives the nearest value with 24 significant bits, the one with the even
significand of two that are equally near (IEEE 754 binary32 in the default
rounding mode). The exponent range of `float` is not modelled: what the code
computes from two `int`s lies between `2 ^ -31` and `2 ^ 32`. -/

/-- A finite `float` that is not negative: the value `num / 2 ^ shift`. -/
structure Float_t where
  num : Nat
  shift : Nat
deriving DecidableEq, Repr

/-- The integer nearest to `p / q`, the even one of two that are equally near. -/
def roundHalfEven (p q : Nat) : Nat :=
  if 2 * (p % q) < q then p / q
  else if q < 2 * (p % q) then p / q + 1
  else p / q + p / q % 2

/-- The loop `while ( n >= 2 ) { n /= 2; e++; }` that counts the halvings of
`n`, run for at most `fuel` steps. -/
def highBitFrom : Nat → Nat → Nat
  | 0, _ => 0
  | fuel + 1, n => if 2 ≤ n then highBitFrom fuel (n / 2) + 1 else 0

/-- The exponent `e` with `2 ^ e ≤ n < 2 ^ (e + 1)`, for `0 < n`. -/
def highBit (n : Nat) : Nat := highBitFrom n n

/-- The least `j` with `q ≤ p * 2 ^ j`, for `0 < p < q`. -/
def binaryShift (p q : Nat) : Nat :=
  if q ≤ p * 2 ^ (highBit q - highBit p) then highBit q - highBit p
  else highBit q - highBit p + 1

/-- The `float` nearest to `p / q`, for `0 < q`: with `2 ^ e ≤ p / q < 2 ^ (e + 1)`
the fraction is rounded to a multiple of `2 ^ (e - 23)`. -/
def Float_t.round (p q : Nat) : Float_t :=
  if p = 0 then ⟨0, 0⟩
  else if q ≤ p then
    if 23 ≤ highBit (p / q) then
      ⟨roundHalfEven p (q * 2 ^ (highBit (p / q) - 23)) * 2 ^ (highBit (p / q) - 23), 0⟩
    else ⟨roundHalfEven (p * 2 ^ (23 - highBit (p / q))) q, 23 - highBit (p / q)⟩
  else ⟨roundHalfEven (p * 2 ^ (binaryShift p q + 23)) q, binaryShift p q + 23⟩

/-- The conversion of an `int` that is not negative to `float`. -/
def Float_t.ofInt (i : Nat) : Float_t := Float_t.round i 1

/-- The conversion `int ( a )` of a `float`: the fraction is dropped. -/
def Float_t.toInt (a : Float_t) : Nat := a.num / 2 ^ a.shift

/-- The `float` quotient `a / b`. -/
def Float_t.div (a b : Float_t) : Float_t :=
  Float_t.round (a.num * 2 ^ b.shift) (b.num * 2 ^ a.shift)

/-- The `float` product `a * b`. -/
def Float_t.mul (a b : Float_t) : Float_t :=
  Float_t.round (a.num * b.num) (2 ^ (a.shift + b.shift))

/-- The comparison `a > b` of two `float`s. -/
def Float_t.gt (a b : Float_t) : Bool :=
  decide (b.num * 2 ^ a.shift < a.num * 2 ^ b.shift)

/-! ## The LZ4 codecs -/

/-- Modelled from the spec: what `Compressor_LZ4_c` takes from outside `src`, the
routines of the LZ4 library. `LZ4_compress_default` and `LZ4_compress_HC` get the
source bytes and the output vector (its length is the capacity handed to the
routine) and give the `int` they return and the content of the output vector
after the call; `LZ4_decompress_safe` gets the compressed bytes and the capacity
of the output and gives the `int` it returns and the output. -/
structure LZ4_t where
  LZ4_compress_default : List BYTE → List BYTE → Int × List BYTE
  LZ4_compress_HC : List BYTE → List BYTE → Int → Int × List BYTE
  LZ4_decompress_safe : List BYTE → Nat → Int × List BYTE

/-- The constant `MIN_COMPRESSIBLE_SIZE` of `Compressor_LZ4_c::Compress`. -/
def MIN_COMPRESSIBLE_SIZE : Nat := 64

/-- The constant `WORST_COMPRESSION_RATIO = 0.95f` of `Compressor_LZ4_c::Compress`:
the `float` nearest to 0.95. -/
def WORST_COMPRESSION_RATIO : Float_t := Float_t.round 95 100

/-- Modelled from the spec: `CSphVector::Resize` (not in src) on a byte vector. -/
def resizeBytes (v : List BYTE) (n : Nat) : List BYTE :=
  v.take n ++ List.replicate (n - v.length) 0

/-- The size `int ( dUncompressed.GetLength()*1.5f )` that `Compress` gives the
output vector before the call of the routine. -/
def compressedCapacity (iLength : Nat) : Nat :=
  ((Float_t.ofInt iLength).mul (Float_t.round 3 2)).toInt

/-- The test `float(iCompressedSize)/dUncompressed.GetLength() > WORST_COMPRESSION_RATIO`
of `Compress`, for a size that is not negative. -/
def aboveWorstRatio (iCompressedSize iLength : Nat) : Bool :=
  ((Float_t.ofInt iCompressedSize).div (Float_t.ofInt iLength)).gt WORST_COMPRESSION_RATIO

/-- `Compressor_LZ4_c::Compress` over the virtual `DoCompression`: the result and
the output vector. -/
def Compressor_LZ4_c.Compress (DoCompression : List BYTE → List BYTE → Int × List BYTE)
    (dUncompressed dCompressed : List BYTE) : Bool × List BYTE :=
  if dUncompressed.length < MIN_COMPRESSIBLE_SIZE then (false, dCompressed)
  else
    let dResized := resizeBytes dCompressed (compressedCapacity dUncompressed.length)
    let iCompressedSize := (DoCompression dUncompressed dResized).1
    let dCompressed := (DoCompression dUncompressed dResized).2
    if iCompressedSize < 0 || aboveWorstRatio iCompressedSize.toNat dUncompressed.length then
      (false, dCompressed)
    else (true, resizeBytes dCompressed iCompressedSize.toNat)

/-- `Compressor_LZ4_c::Decompress`. -/
def Compressor_LZ4_c.Decompress (lz : LZ4_t) (dCompressed dDecompressed : List BYTE) :
    Bool × List BYTE :=
  (decide ((lz.LZ4_decompress_safe dCompressed dDecompressed.length).1 = dDecompressed.length),
    (lz.LZ4_decompress_safe dCompressed dDecompressed.length).2)

/-- The class `Compressor_LZ4_c`; its `DoCompression` is `LZ4_compress_default`. -/
def Compressor_LZ4_c (lz : LZ4_t) : Compressor_i where
  Compress := Compressor_LZ4_c.Compress lz.LZ4_compress_default
  Decompress := Compressor_LZ4_c.Decompress lz

/-- The class `Compressor_LZ4HC_c`: `Compressor_LZ4_c` with `DoCompression`
overridden by `LZ4_compress_HC` at `m_iCompressionLevel`. -/
def Compressor_LZ4HC_c (lz : LZ4_t) (iCompressionLevel : Int) : Compressor_i where
  Compress :=
    Compressor_LZ4_c.Compress
      (fun dUncompressed dCompressed =>
        lz.LZ4_compress_HC dUncompressed dCompressed iCompressionLevel)
  Decompress := Compressor_LZ4_c.Decompress lz

/-- `CreateCompressor`. -/
def CreateCompressor (lz : LZ4_t) (eComp : Compression_e) (iCompressionLevel : Int) :
    Compressor_i :=
  match eComp with
  | Compression_e.LZ4 => Compressor_LZ4_c lz
  | Compression_e.LZ4HC => Compressor_LZ4HC_c lz iCompressionLevel
  | Compression_e.NONE => Compressor_None_c

/-- The size the LZ4 routine of a codec produces for an input in `Compress`: what
`DoCompression` returns for the input and the output vector `Compress` has
resized. -/
def DoCompression (lz : LZ4_t) (eComp : Compression_e) (iCompressionLevel : Int)
    (dUncompressed dCompressed : List BYTE) : Int :=
  match eComp with
  | Compression_e.LZ4HC =>
    (lz.LZ4_compress_HC dUncompressed
      (resizeBytes dCompressed (compressedCapacity dUncompressed.length)) iCompressionLevel).1
  | _ =>
    (lz.LZ4_compress_default dUncompressed
      (resizeBytes dCompressed (compressedCapacity dUncompressed.length))).1

/-- The body of the small block the builder is about to write: the content of
`m_dBuffer` that `WriteSmallBlock` hands to the codec. -/
def DocstoreBuilder_c.smallBlockBody (s : DocstoreBuilder_c) : List BYTE :=
  s.m_dStoredDocs.flatMap (writeSmallBlockDoc s.m_tFields.GetNumFields)

/-- An LZ4 library for the scenarios: routines that report 10 bytes for every
input, and a decompressor that fails. -/
def lz4Ten : LZ4_t where
  LZ4_compress_default := fun _ _ => (10, List.replicate 10 0)
  LZ4_compress_HC := fun _ _ _ => (10, List.replicate 10 0)
  LZ4_decompress_safe := fun _ _ => (-1, [])

/-- An LZ4 library for the scenarios: routines that report 9500001 bytes for
every input and leave the output vector as it is, and a decompressor that
fails. -/
def lz4Near : LZ4_t where
  LZ4_compress_default := fun _ dCompressed => (9500001, dCompressed)
  LZ4_compress_HC := fun _ dCompressed _ => (9500001, dCompressed)
  LZ4_decompress_safe := fun _ _ => (-1, [])

/-- A builder with `block_size = 1024`, one TEXT field and a pending document of
three bytes. -/
def shortPending : DocstoreBuilder_c :=
  boundaryBuilder.AddDoc (Compressor_LZ4_c lz4Ten) 0 { m_dFields := [[1, 2, 3]] }

/-! ## The version check of `Init` -/

/-- Modelled from the spec: `%d` of `SetSprintf` (not in src) on a `DWORD`: the
decimal digits of the value taken as a 32-bit `int`. -/
def sprintfD (u : Nat) : String :=
  if u % DWORD_MOD < 2147483648 then toString (u % DWORD_MOD)
  else "-" ++ toString (DWORD_MOD - u % DWORD_MOD)

/-- The message of the version check of `Docstore_c::Init`:
`"Unable to load docstore: %s is v.%d, binary is v.%d"`. -/
def versionError (sFilename : String) (uStorageVersion : Nat) : String :=
  "Unable to load docstore: " ++ sFilename ++ " is v." ++ sprintfD uStorageVersion
    ++ ", binary is v." ++ sprintfD STORAGE_VERSION

/-- `Docstore_c::Init` on an opened file together with what it writes to
`sError` (`none` when it leaves `sError` alone): the version check writes its
message and returns false, every later `return false` writes nothing. -/
def Docstore_c.InitWithError (sFilename : String) (tFile : List BYTE) :
    Option Docstore_c × Option String :=
  let r0 : CSphReader := { m_pBuff := tFile }
  let uStorageVersion := r0.GetDword.1
  if uStorageVersion > STORAGE_VERSION then
    (none, some (versionError sFilename uStorageVersion))
  else (Docstore_c.Init tFile, none)

/-- The `u32` storage version at the head of a file, as `Init` reads it. -/
def storageVersion (tFile : List BYTE) : Nat :=
  (({ m_pBuff := tFile } : CSphReader).GetDword).1

/-! ## Lookup in the field registry -/

/-- `DocstoreFields_c::GetFieldId`: `m_hFields[sCompound]`, `none` when the hash
has no such key. -/
def DocstoreFields_c.GetFieldId (f : DocstoreFields_c) (sName : List BYTE) (eType : Nat) :
    Option Nat :=
  f.m_hFields.lookup (compoundKey sName eType)

/-- A run of `AddField` calls, each with a name and a type: the registry and the
ids returned, in call order. -/
def AddFields (f : DocstoreFields_c) : List (List BYTE × Nat) → DocstoreFields_c × List Nat
  | [] => (f, [])
  | fld :: rest =>
    ((AddFields (f.AddField fld.1 fld.2).1 rest).1,
      (f.AddField fld.1 fld.2).2 :: (AddFields (f.AddField fld.1 fld.2).1 rest).2)

/-- The bytes `WriteInitialHeader` puts before the two reserved slots: the
version, the block size, the compression byte and the saved registry. -/
def DocstoreBuilder_c.headerBytes (s : DocstoreBuilder_c) : List BYTE :=
  PutDword STORAGE_VERSION ++ PutDword s.m_uBlockSize ++ [Compression2Byte s.m_eCompression]
    ++ s.m_tFields.Save

/-- The reader `Docstore_c::Init` hands to `DocstoreFields_c::Load`: the file
behind the version, the block size and the compression byte. -/
def registryReader (tFile : List BYTE) : CSphReader :=
  ((({ m_pBuff := tFile } : CSphReader).GetDword.2).GetDword.2).GetByte.2

/-! ## Block cache -/

/-- The key `BlockCache_c::HashKey_t`. -/
structure HashKey_t where
  m_uUID : Nat
  m_tOffset : Nat
deriving DecidableEq, Repr

/-- The node `BlockCache_c::LinkedBlock_t`. The links `m_pPrev` and `m_pNext` are
the order of the list the cache keeps its nodes in. -/
structure LinkedBlock_t extends BlockData_t where
  m_iRefcount : Int := 0
  m_tKey : HashKey_t
deriving DecidableEq, Repr

/-- The class `BlockCache_c`. `m_dBlocks` is the linked list from `m_pHead` (the
first element) to `m_pTail` (the last one); `m_tHash` maps a key to the node of
the list that carries it. -/
structure BlockCache_c where
  m_dBlocks : List LinkedBlock_t := []
  m_iCacheSize : Int := 0
  m_iMemUsed : Int := 0
deriving DecidableEq, Repr

/-- The constructor `BlockCache_c ( iCacheSize )`. -/
def BlockCache_c.create (iCacheSize : Int) : BlockCache_c := { m_iCacheSize := iCacheSize }

/-- The lookup `m_tHash.Find ( { uUID, tOffset } )`: the node with the key. -/
def BlockCache_c.hashFind (cache : BlockCache_c) (uUID tOffset : Nat) : Option LinkedBlock_t :=
  cache.m_dBlocks.find? (fun b => decide (b.m_tKey = ⟨uUID, tOffset⟩))

/-- `BlockCache_c::HaveSpaceFor`. -/
def BlockCache_c.HaveSpaceFor (cache : BlockCache_c) (uSpaceNeeded : Nat) : Bool :=
  decide (cache.m_iMemUsed + (uSpaceNeeded : Int) ≤ cache.m_iCacheSize)

/-- `BlockCache_c::MoveToHead` of the node with a key: the node is unlinked and
becomes the head, the other nodes keep their order. -/
def BlockCache_c.MoveToHead (cache : BlockCache_c) (pBlock : LinkedBlock_t) : BlockCache_c :=
  { cache with
    m_dBlocks := pBlock :: cache.m_dBlocks.eraseP (fun b => decide (b.m_tKey = pBlock.m_tKey)) }

/-- `BlockCache_c::Find`: the data copied to `tData` on a hit (`none` is the
result `false`) and the cache afterwards, in which the node found is the head
and has its reference count raised. -/
def BlockCache_c.Find (cache : BlockCache_c) (uUID tOffset : Nat) :
    Option BlockData_t × BlockCache_c :=
  match cache.hashFind uUID tOffset with
  | none => (none, cache)
  | some pBlock =>
    (some pBlock.toBlockData_t,
      cache.MoveToHead { pBlock with m_iRefcount := pBlock.m_iRefcount + 1 })

/-- The first node with a key gets its reference count lowered by one. -/
def releaseFirst (tKey : HashKey_t) : List LinkedBlock_t → List LinkedBlock_t
  | [] => []
  | b :: rest =>
    if b.m_tKey = tKey then { b with m_iRefcount := b.m_iRefcount - 1 } :: rest
    else b :: releaseFirst tKey rest

/-- `BlockCache_c::Release`; `none` when the hash has no node with the key
(`assert(ppBlock)`, then a null pointer is read). -/
def BlockCache_c.Release (cache : BlockCache_c) (uUID tOffset : Nat) : Option BlockCache_c :=
  match cache.hashFind uUID tOffset with
  | none => none
  | some _ => some { cache with m_dBlocks := releaseFirst ⟨uUID, tOffset⟩ cache.m_dBlocks }

/-- The loop of `BlockCache_c::DeleteAll` from a node on, with `Delete` applied to
every node of the store: the nodes left and `m_iMemUsed`. `uSizeof` is
`sizeof(LinkedBlock_t)`. -/
def deleteAllFrom (uSizeof : Nat) (uUID : Nat) :
    List LinkedBlock_t → Int → List LinkedBlock_t × Int
  | [], iMemUsed => ([], iMemUsed)
  | b :: rest, iMemUsed =>
    if b.m_tKey.m_uUID = uUID then
      deleteAllFrom uSizeof uUID rest (iMemUsed - ((b.m_uSize + uSizeof : Nat) : Int))
    else
      (b :: (deleteAllFrom uSizeof uUID rest iMemUsed).1,
        (deleteAllFrom uSizeof uUID rest iMemUsed).2)

/-- `BlockCache_c::DeleteAll`. -/
def BlockCache_c.DeleteAll (uSizeof : Nat) (cache : BlockCache_c) (uUID : Nat) : BlockCache_c :=
  { cache with
    m_dBlocks := (deleteAllFrom uSizeof uUID cache.m_dBlocks cache.m_iMemUsed).1,
    m_iMemUsed := (deleteAllFrom uSizeof uUID cache.m_dBlocks cache.m_iMemUsed).2 }

/-- The loop of `BlockCache_c::SweepUnused` from a node on towards the head; the
list argument starts at that node and follows `m_pPrev`. It gives the nodes left
(in the same direction) and `m_iMemUsed`. -/
def sweepFrom (uSizeof : Nat) (iCacheSize : Int) (uSpaceNeeded : Nat) :
    List LinkedBlock_t → Int → List LinkedBlock_t × Int
  | [], iMemUsed => ([], iMemUsed)
  | b :: prev, iMemUsed =>
    if iMemUsed + (uSpaceNeeded : Int) ≤ iCacheSize then (b :: prev, iMemUsed)
    else if b.m_iRefcount = 0 then
      sweepFrom uSizeof iCacheSize uSpaceNeeded prev
        (iMemUsed - ((b.m_uSize + uSizeof : Nat) : Int))
    else
      (b :: (sweepFrom uSizeof iCacheSize uSpaceNeeded prev iMemUsed).1,
        (sweepFrom uSizeof iCacheSize uSpaceNeeded prev iMemUsed).2)

/-- `BlockCache_c::SweepUnused`: the walk starts at `m_pTail`. -/
def BlockCache_c.SweepUnused (uSizeof : Nat) (cache : BlockCache_c) (uSpaceNeeded : Nat) :
    BlockCache_c :=
  { cache with
    m_dBlocks := (sweepFrom uSizeof cache.m_iCacheSize uSpaceNeeded cache.m_dBlocks.reverse
      cache.m_iMemUsed).1.reverse,
    m_iMemUsed := (sweepFrom uSizeof cache.m_iCacheSize uSpaceNeeded cache.m_dBlocks.reverse
      cache.m_iMemUsed).2 }

/-- The private `BlockCache_c::Add ( LinkedBlock_t * )`: the node becomes the head. -/
def BlockCache_c.AddBlock (uSizeof : Nat) (cache : BlockCache_c) (pBlock : LinkedBlock_t) :
    BlockCache_c :=
  { cache with
    m_dBlocks := pBlock :: cache.m_dBlocks,
    m_iMemUsed := cache.m_iMemUsed + ((pBlock.m_uSize + uSizeof : Nat) : Int) }

/-- The `DWORD` `MAX_BLOCK_SIZE = m_iCacheSize/64` of `BlockCache_c::Add`. -/
def BlockCache_c.MAX_BLOCK_SIZE (cache : BlockCache_c) : Nat :=
  ((Int.tdiv cache.m_iCacheSize 64) % (DWORD_MOD : Int)).toNat

/-- The public `BlockCache_c::Add`: its result and the cache afterwards.
`uSizeof` is `sizeof(LinkedBlock_t)`. The result is `none` when the block is to
be inserted and the hash already has its key, which `assert ( !ppBlock )` and
`Verify ( m_tHash.Add ( ... ) )` exclude. -/
def BlockCache_c.Add (uSizeof : Nat) (cache : BlockCache_c) (uUID tOffset : Nat)
    (tData : BlockData_t) : Option (Bool × BlockCache_c) :=
  let uSpaceNeeded := (tData.m_uSize + uSizeof) % DWORD_MOD
  let insert (cache : BlockCache_c) : Option (Bool × BlockCache_c) :=
    if (cache.hashFind uUID tOffset).isSome then none
    else some (true,
      cache.AddBlock uSizeof { toBlockData_t := tData, m_iRefcount := 1, m_tKey := ⟨uUID, tOffset⟩ })
  if !cache.HaveSpaceFor uSpaceNeeded then
    if uSpaceNeeded > cache.MAX_BLOCK_SIZE then some (false, cache)
    else if !(cache.SweepUnused uSizeof uSpaceNeeded).HaveSpaceFor uSpaceNeeded then
      some (false, cache.SweepUnused uSizeof uSpaceNeeded)
    else insert (cache.SweepUnused uSizeof uSpaceNeeded)
  else insert cache

/-- An operation on the block cache. -/
inductive CacheOp where
  | find (uUID tOffset : Nat)
  | add (uUID tOffset : Nat) (tData : BlockData_t)
  | release (uUID tOffset : Nat)
  | deleteAll (uUID : Nat)
deriving DecidableEq, Repr

/-- The cache after an operation, `none` when the operation is outside the
domain of the code. -/
def BlockCache_c.step (uSizeof : Nat) (cache : BlockCache_c) : CacheOp → Option BlockCache_c
  | CacheOp.find uUID tOffset => some (cache.Find uUID tOffset).2
  | CacheOp.add uUID tOffset tData => (cache.Add uSizeof uUID tOffset tData).map Prod.snd
  | CacheOp.release uUID tOffset => cache.Release uUID tOffset
  | CacheOp.deleteAll uUID => some (cache.DeleteAll uSizeof uUID)

/-- The cache after a sequence of operations. -/
def BlockCache_c.run (uSizeof : Nat) (cache : BlockCache_c) : List CacheOp → Option BlockCache_c
  | [] => some cache
  | op :: rest =>
    match cache.step uSizeof op with
    | none => none
    | some cache1 => cache1.run uSizeof rest

/-- The sum of `m_uSize + sizeof(LinkedBlock_t)` over the nodes of a list. -/
def memOf (uSizeof : Nat) (dBlocks : List LinkedBlock_t) : Int :=
  (dBlocks.map (fun b => ((b.m_uSize + uSizeof : Nat) : Int))).sum

/-- The keys of the resident nodes, from the head to the tail. -/
def BlockCache_c.keys (cache : BlockCache_c) : List HashKey_t :=
  cache.m_dBlocks.map (fun b => b.m_tKey)

/-- The reference count of the node with a key, `none` when no node has it. -/
def BlockCache_c.refcount (cache : BlockCache_c) (uUID tOffset : Nat) : Option Int :=
  (cache.hashFind uUID tOffset).map (fun b => b.m_iRefcount)

/-- A block for the cache scenarios: block number `uNum` with `uSize` bytes. -/
def cacheBlock (uNum uSize : Nat) : BlockData_t :=
  { m_uNumDocs := uNum, m_pData := [uNum], m_uSize := uSize }

/-- The node `Add` makes for a block. -/
def newBlock (uUID tOffset : Nat) (tData : BlockData_t) : LinkedBlock_t :=
  { toBlockData_t := tData, m_iRefcount := 1, m_tKey := ⟨uUID, tOffset⟩ }

/-- The start of the pinning scenario of the spec for blocks of `uSize` bytes:
blocks 1, 2 and 3 are added, blocks 2 and 3 are released, the reference to
block 1 is held. -/
def pinScenario (uSize : Nat) : List CacheOp :=
  [CacheOp.add 0 1 (cacheBlock 1 uSize), CacheOp.add 0 2 (cacheBlock 2 uSize),
   CacheOp.release 0 2, CacheOp.add 0 3 (cacheBlock 3 uSize), CacheOp.release 0 3]

/-- The cache after `pinScenario` with capacity 4096, blocks of 1024 bytes and
`sizeof(LinkedBlock_t) = 64`. -/
def pinCache : BlockCache_c :=
  ((BlockCache_c.create 4096).run 64 (pinScenario 1024)).getD {}

/-- Blocks `uFrom .. uFrom + n - 1` of 36 bytes are added, each released right
after it was added. -/
def addReleased : Nat → Nat → List CacheOp
  | 0, _ => []
  | n + 1, uFrom =>
    CacheOp.add 0 uFrom (cacheBlock uFrom 36) :: CacheOp.release 0 uFrom :: addReleased n (uFrom + 1)

/-- The pinning scenario with blocks that pass the size limit: capacity 6400,
`sizeof(LinkedBlock_t) = 64` and blocks of 36 bytes, so that 64 blocks fill the
cache. Block 1 is added and held, blocks 2..65 are added and released. -/
def lruCache : BlockCache_c :=
  ((BlockCache_c.create 6400).run 64
    (CacheOp.add 0 1 (cacheBlock 1 36) :: addReleased 64 2)).getD {}

/-- The cache of `lruCache` after block 1 is released and block 66 added. -/
def lruCacheNext : BlockCache_c :=
  (lruCache.run 64 [CacheOp.release 0 1, CacheOp.add 0 66 (cacheBlock 66 36)]).getD {}

/-- A sequence of `Find` (`true`) and `Release` (`false`) calls for one key. -/
def findsAndReleases (uUID tOffset : Nat) (dCalls : List Bool) : List CacheOp :=
  dCalls.map (fun bFind => if bFind then CacheOp.find uUID tOffset else CacheOp.release uUID tOffset)

/-- The cache after `pinScenario` for capacity `C`, blocks of `C/4` bytes and
`sizeof(LinkedBlock_t) = uSizeof`: blocks 3, 2 and 1 from the head on, blocks 3
and 2 unreferenced, block 1 with reference count `iRefcount`. -/
def pinnedState (C uSizeof : Nat) (iRefcount : Int) : BlockCache_c :=
  { m_dBlocks :=
      [{ newBlock 0 3 (cacheBlock 3 (C / 4)) with m_iRefcount := 0 },
       { newBlock 0 2 (cacheBlock 2 (C / 4)) with m_iRefcount := 0 },
       { newBlock 0 1 (cacheBlock 1 (C / 4)) with m_iRefcount := iRefcount }],
    m_iCacheSize := C,
    m_iMemUsed := 3 * ((C / 4 + uSizeof : Nat) : Int) }

/-! ## The payload the spec stores for a field -/

/-- The spec's rule for the payload of a field ("for each TEXT field, strip at
most one trailing NUL byte before storing"): a TEXT input that is not empty and
ends in NUL loses that one byte, every other input is stored as it is. -/
def specStoredPayload (bText : Bool) (dField : List BYTE) : List BYTE :=
  if bText ∧ dField ≠ [] ∧ dField.getLast? = some 0 then dField.dropLast else dField

/-- The payloads the spec stores for the fields of a document, from field
`iField` on. -/
def specStoredPayloads (tFields : DocstoreFields_c) : List (List BYTE) → Nat → List (List BYTE)
  | [], _ => []
  | dField :: rest, iField =>
    specStoredPayload ((tFields.GetField iField).m_eType = DOCSTORE_TEXT) dField
      :: specStoredPayloads tFields rest (iField + 1)

/-- The packed form of a document in the in-memory store: every payload behind
the varint of its length. -/
def rtEncode (dPayloads : List (List BYTE)) : List BYTE :=
  dPayloads.flatMap (fun p => ZipInt p.length ++ p)

/-! ## The parts of a big block -/

/-- The fields of the big block `WriteBigBlock` is about to write, in the order
it writes them: `bNeedReorder ? m_dFieldSort[i].first : i` for every place `i`. -/
def DocstoreBuilder_c.bigBlockOrder (c : Compressor_i) (s : DocstoreBuilder_c) : List Nat :=
  (List.range s.m_tFields.GetNumFields).map
    (bigFieldAt (s.bigBlockScan c).bNeedReorder (s.bigBlockFieldSort c))

/-- The bytes `WriteBigBlock` writes from `tOnDiskHeaderStart` up to the first
field body: the block flags, the field reorder map and the per-field metadata. -/
def DocstoreBuilder_c.bigBlockHeaderBytes (c : Compressor_i) (s : DocstoreBuilder_c) :
    List BYTE :=
  [if (s.bigBlockScan c).bNeedReorder then BLOCK_FLAG_FIELD_REORDER else 0]
    ++ (if (s.bigBlockScan c).bNeedReorder
          then (s.bigBlockFieldSort c).flatMap (fun i => ZipInt i.1) else [])
    ++ (s.bigBlockOrder c).flatMap
        (writeBigFieldInfo (s.bigBlockScan c) (s.m_dStoredDocs.getD 0 default).m_dFields)

/-- The field bodies `WriteBigBlock` writes behind the header. -/
def DocstoreBuilder_c.bigBlockBodies (c : Compressor_i) (s : DocstoreBuilder_c) : List BYTE :=
  (s.bigBlockOrder c).flatMap
    (writeBigFieldBody (s.bigBlockScan c) (s.m_dStoredDocs.getD 0 default).m_dFields)

/-- A builder with `block_size = 16`, no compression and two BINARY fields. -/
def twoBinBuilder : DocstoreBuilder_c :=
  ((({ m_uBlockSize := 16 } : DocstoreBuilder_c).AddField [97] DOCSTORE_BIN).1.AddField [98]
    DOCSTORE_BIN).1

/-- The builder `twoBinBuilder` with one pending document: a field of 20
bytes followed by a field of 5 bytes. -/
def descendingPending : DocstoreBuilder_c :=
  twoBinBuilder.AddDoc Compressor_None_c 0
    { m_dFields := [List.replicate 20 1, List.replicate 5 2] }

/-- The file of the store that holds the document of `descendingPending`. -/
def descendingFile : List BYTE := (descendingPending.Finalize Compressor_None_c).m_tWriter

/-! ## Reader cache -/

/-- The key `DocstoreReaders_c::HashKey_t`. -/
structure DocstoreReaders_c.HashKey_t where
  m_iSessionId : Int
  m_uDocstoreId : Nat
deriving DecidableEq, Repr

/-- Modelled from the spec: the buffered `CSphReader` the reader cache owns (not
in src): the file `SetFile` gave it and the buffer size `GetBufferSize` returns. -/
structure BufferedReader where
  m_tFile : List BYTE
  m_iBufferSize : Int
deriving DecidableEq, Repr

/-- The class `DocstoreReaders_c`. Modelled from the spec: the table `m_tHash`
(`OpenHash_T` is not in src) is the list of its entries in the order `Iterate`
visits them. -/
structure DocstoreReaders_c where
  m_iTotalReaderSize : Int := 0
  m_tHash : List (DocstoreReaders_c.HashKey_t × BufferedReader) := []
deriving DecidableEq, Repr

/-- Modelled from the spec: `OpenHash_T::Find` (not in src). -/
def readersHashFind (dHash : List (DocstoreReaders_c.HashKey_t × BufferedReader))
    (tKey : DocstoreReaders_c.HashKey_t) : Option BufferedReader :=
  (dHash.find? (fun e => decide (e.1 = tKey))).map (fun e => e.2)

/-- Modelled from the spec: `OpenHash_T::Add` (not in src): a key the table has
is not added again and the result is `false`. -/
def readersHashAdd (dHash : List (DocstoreReaders_c.HashKey_t × BufferedReader))
    (tKey : DocstoreReaders_c.HashKey_t) (pReader : BufferedReader) :
    Bool × List (DocstoreReaders_c.HashKey_t × BufferedReader) :=
  if (readersHashFind dHash tKey).isSome then (false, dHash)
  else (true, dHash ++ [(tKey, pReader)])

/-- Modelled from the spec: `OpenHash_T::Delete` (not in src). -/
def readersHashDelete (dHash : List (DocstoreReaders_c.HashKey_t × BufferedReader))
    (tKey : DocstoreReaders_c.HashKey_t) :
    List (DocstoreReaders_c.HashKey_t × BufferedReader) :=
  dHash.filter (fun e => !decide (e.1 = tKey))

/-- The conversion `(int)` of a value: the 32-bit two's complement reading. The
same wrap-around stands for the result of an `int` multiplication. -/
def toInt32 (v : Int) : Int := (v + 2147483648) % 4294967296 - 2147483648

/-- `DocstoreReaders_c::MIN_READER_CACHE_SIZE`. -/
def MIN_READER_CACHE_SIZE : Int := 262144

/-- `DocstoreReaders_c::MAX_READER_CACHE_SIZE`. -/
def MAX_READER_CACHE_SIZE : Int := 1048576

/-- `DocstoreReaders_c::MAX_TOTAL_READER_SIZE`. -/
def MAX_TOTAL_READER_SIZE : Int := 8388608

/-- The `iBufferSize` that `DocstoreReaders_c::CreateReader` computes. -/
def readerBufferSize (uBlockSize : Nat) : Int :=
  max (min (toInt32 (toInt32 uBlockSize * 8)) MAX_READER_CACHE_SIZE) MIN_READER_CACHE_SIZE

/-- `DocstoreReaders_c::CreateReader`. -/
def DocstoreReaders_c.CreateReader (s : DocstoreReaders_c) (iSessionId : Int)
    (uDocstoreId : Nat) (tFile : List BYTE) (uBlockSize : Nat) : DocstoreReaders_c :=
  let iBufferSize := readerBufferSize uBlockSize
  if iBufferSize ≤ toInt32 uBlockSize then s
  else if s.m_iTotalReaderSize + iBufferSize > MAX_TOTAL_READER_SIZE then s
  else
    { m_tHash := (readersHashAdd s.m_tHash ⟨iSessionId, uDocstoreId⟩ ⟨tFile, iBufferSize⟩).2,
      m_iTotalReaderSize := s.m_iTotalReaderSize + iBufferSize }

/-- `DocstoreReaders_c::GetReader`. -/
def DocstoreReaders_c.GetReader (s : DocstoreReaders_c) (iSessionId : Int) (uDocstoreId : Nat) :
    Option BufferedReader :=
  readersHashFind s.m_tHash ⟨iSessionId, uDocstoreId⟩

/-- `DocstoreReaders_c::Delete`. -/
def DocstoreReaders_c.Delete (s : DocstoreReaders_c) (pReader : BufferedReader)
    (tKey : DocstoreReaders_c.HashKey_t) : DocstoreReaders_c :=
  { m_iTotalReaderSize := s.m_iTotalReaderSize - pReader.m_iBufferSize,
    m_tHash := readersHashDelete s.m_tHash tKey }

/-- The loop `while ( (ppReader = m_tHash.Iterate ( &iIndex, &tKey )) != nullptr )`
of `DeleteBySessionId` and `DeleteByDocstoreId` over the entries still to visit:
an entry whose key passes the test is deleted. -/
def deleteReadersWhere (bTest : DocstoreReaders_c.HashKey_t → Bool) :
    List (DocstoreReaders_c.HashKey_t × BufferedReader) → DocstoreReaders_c → DocstoreReaders_c
  | [], s => s
  | e :: rest, s => deleteReadersWhere bTest rest (if bTest e.1 then s.Delete e.2 e.1 else s)

/-- `DocstoreReaders_c::DeleteBySessionId`. -/
def DocstoreReaders_c.DeleteBySessionId (s : DocstoreReaders_c) (iSessionId : Int) :
    DocstoreReaders_c :=
  deleteReadersWhere (fun tKey => decide (tKey.m_iSessionId = iSessionId)) s.m_tHash s

/-- `DocstoreReaders_c::DeleteByDocstoreId`. -/
def DocstoreReaders_c.DeleteByDocstoreId (s : DocstoreReaders_c) (uDocstoreId : Nat) :
    DocstoreReaders_c :=
  deleteReadersWhere (fun tKey => decide (tKey.m_uDocstoreId = uDocstoreId)) s.m_tHash s

/-- `Docstore_c::~Docstore_c` of the store with UID `uUID`: the two singletons
afterwards; `none` is a singleton that `Get()` does not return.
`uSizeof` is `sizeof(LinkedBlock_t)`. -/
def Docstore_c.destroy (uSizeof uUID : Nat) (pBlockCache : Option BlockCache_c)
    (pReaders : Option DocstoreReaders_c) : Option BlockCache_c × Option DocstoreReaders_c :=
  (pBlockCache.map (fun cache => cache.DeleteAll uSizeof uUID),
    pReaders.map (fun tReaders => tReaders.DeleteByDocstoreId uUID))

/-- `DocstoreSession_c::~DocstoreSession_c` of the session with UID `iUID`: the
reader cache afterwards. -/
def DocstoreSession_c.destroy (iUID : Int) (pReaders : Option DocstoreReaders_c) :
    Option DocstoreReaders_c :=
  pReaders.map (fun tReaders => tReaders.DeleteBySessionId iUID)

/-- An operation on the reader cache. -/
inductive ReaderOp where
  | create (iSessionId : Int) (uDocstoreId : Nat) (tFile : List BYTE) (uBlockSize : Nat)
  | closeSession (iSessionId : Int)
  | closeStore (uDocstoreId : Nat)
deriving DecidableEq, Repr

/-- The reader cache after an operation. -/
def DocstoreReaders_c.step (s : DocstoreReaders_c) : ReaderOp → DocstoreReaders_c
  | ReaderOp.create iSessionId uDocstoreId tFile uBlockSize =>
    s.CreateReader iSessionId uDocstoreId tFile uBlockSize
  | ReaderOp.closeSession iSessionId => s.DeleteBySessionId iSessionId
  | ReaderOp.closeStore uDocstoreId => s.DeleteByDocstoreId uDocstoreId

/-- The reader cache after a sequence of operations. -/
def DocstoreReaders_c.run (s : DocstoreReaders_c) (ops : List ReaderOp) : DocstoreReaders_c :=
  ops.foldl DocstoreReaders_c.step s

/-- Whether no `CreateReader` of a sequence of operations is called for a key the
table already has. -/
def freshCreates : DocstoreReaders_c → List ReaderOp → Bool
  | _, [] => true
  | s, op :: rest =>
    (match op with
      | ReaderOp.create iSessionId uDocstoreId _ _ =>
        (s.GetReader iSessionId uDocstoreId).isNone
      | _ => true) && freshCreates (s.step op) rest

/-- The sum of the buffer sizes of the readers of a table. -/
def readersSize (dHash : List (DocstoreReaders_c.HashKey_t × BufferedReader)) : Int :=
  (dHash.map (fun e => e.2.m_iBufferSize)).sum

/-- The buffer size the spec gives a reader: `clamp(8 * block_size, 256 KiB, 1 MiB)`. -/
def specReaderBufferSize (uBlockSize : Nat) : Int :=
  max 262144 (min (8 * (uBlockSize : Int)) 1048576)

/-- The reader cache of two sessions on the stores 7 and 8 with `block_size = 16384`. -/
def twoSessionReaders : DocstoreReaders_c :=
  ({} : DocstoreReaders_c).run
    [ReaderOp.create 1 7 [1] 16384, ReaderOp.create 2 7 [1] 16384, ReaderOp.create 1 8 [2] 16384]

/-- A builder with `block_size = 4`, no compression and two TEXT fields. -/
def tinyTwoTextBuilder : DocstoreBuilder_c := (tinyBuilder.AddField [103] DOCSTORE_TEXT).1

/-- The file for the single document with an empty TEXT field and a TEXT field of
five bytes, which the builder writes as a big block. -/
def emptyInBigFile : List BYTE :=
  ((tinyTwoTextBuilder.AddDoc Compressor_None_c 0 { m_dFields := [[], [1, 2, 3, 4, 5]] }).Finalize
    Compressor_None_c).m_tWriter

/-- The in-memory store with the two TEXT fields of `tinyTwoTextBuilder` that
holds the document of `emptyInBigFile`. -/
def emptyInBigRT : DocstoreRT_c :=
  ({ m_tFields := tinyTwoTextBuilder.m_tFields } : DocstoreRT_c).AddDoc 0
    { m_dFields := [[], [1, 2, 3, 4, 5]] }

/-! ## Runs of the in-memory store -/

/-- A run of `DocstoreRT_c::AddDoc` calls, each for the row `m_dDocs.GetLength()`. -/
def DocstoreRT_c.AddDocs (s : DocstoreRT_c) (docs : List Doc_t) : DocstoreRT_c :=
  docs.foldl (fun s d => s.AddDoc s.m_dDocs.length d) s

/-- What the loop of `DocstoreRT_c::GetDoc` puts into the result for the payloads
of a packed document, from field `iField` on, when all fields are asked for. -/
def rtDecodedFields (tFields : DocstoreFields_c) (bPack : Bool) :
    List (List BYTE) → Nat → List (List BYTE)
  | [], _ => []
  | tField :: rest, iField =>
    PackData tField ((tFields.GetField iField).m_eType = DOCSTORE_TEXT) bPack
      :: rtDecodedFields tFields bPack rest (iField + 1)

/-- The in-memory store with the two TEXT fields of `twoTextBuilder`. -/
def twoTextRT : DocstoreRT_c := { m_tFields := twoTextBuilder.m_tFields }

/-! ## In-memory store: `Save` and `Load` -/

/-- Modelled from the spec: `CSphReader::GetBytes` (not in src): the bytes read and
the advanced reader; bytes past the end read as zero and raise the error flag. -/
def CSphReader.GetBytes (r : CSphReader) (iSize : Nat) : List BYTE × CSphReader :=
  (readBytes r.m_pBuff r.m_iPos iSize,
    { r with m_iPos := r.m_iPos + iSize,
             m_bError := r.m_bError || decide (r.m_pBuff.length < r.m_iPos + iSize) })

/-- The loop of `DocstoreRT_c::GetDocSize` with `iNumFields` fields left: how far
`p` moves, each field by its varint and by the length the varint gives. -/
def rtDocSize : Nat → List BYTE → Nat
  | 0, _ => 0
  | iNumFields + 1, p =>
    let iStep := (unzipBytes p).2 + (unzipBytes p).1 % DWORD_MOD
    iStep + rtDocSize iNumFields (p.drop iStep)

/-- `DocstoreRT_c::GetDocSize`: the pointer difference `p-pDoc` as an `int`. -/
def DocstoreRT_c.GetDocSize (s : DocstoreRT_c) (pDoc : List BYTE) : Int :=
  toInt32 (rtDocSize s.m_tFields.GetNumFields pDoc)

/-- The loop of `DocstoreRT_c::Save` over the documents left: the writer
afterwards. The result is `none` when a document is a null pointer, which
`GetDocSize` reads, or when its size is negative as an `int`. -/
def rtSaveDocs (s : DocstoreRT_c) : List (Option (List BYTE)) → List BYTE → Option (List BYTE)
  | [], tWriter => some tWriter
  | none :: _, _ => none
  | some pDoc :: rest, tWriter =>
    let iDocLen := s.GetDocSize pDoc
    if iDocLen < 0 then none
    else rtSaveDocs s rest
      (tWriter ++ ZipInt iDocLen.toNat ++ readBytes pDoc 0 iDocLen.toNat)

/-- `DocstoreRT_c::Save`: the bytes of the writer afterwards. -/
def DocstoreRT_c.Save (s : DocstoreRT_c) (tWriter : List BYTE) : Option (List BYTE) :=
  rtSaveDocs s s.m_dDocs (tWriter ++ ZipInt s.m_dDocs.length)

/-- The loop of `DocstoreRT_c::Load` with `uNumDocs` documents left: the
documents read so far with `m_iAllocated`, and the reader. -/
def rtLoadDocs : Nat → CSphReader → List (Option (List BYTE)) × Int →
    (List (Option (List BYTE)) × Int) × CSphReader
  | 0, tReader, acc => (acc, tReader)
  | uNumDocs + 1, tReader, acc =>
    let uDocLen := tReader.Unzip.1 % DWORD_MOD
    let tRead := tReader.Unzip.2.GetBytes uDocLen
    rtLoadDocs uNumDocs tRead.2 (acc.1 ++ [some tRead.1], acc.2 + (uDocLen : Int))

/-- `DocstoreRT_c::Load`: its result, the store and the reader afterwards. The
result is `none` when the count read is negative as an `int`, the argument of
`Resize`. -/
def DocstoreRT_c.Load (s : DocstoreRT_c) (tReader : CSphReader) :
    Option (Bool × DocstoreRT_c × CSphReader) :=
  let uNumDocs := tReader.Unzip.1 % DWORD_MOD
  if toInt32 uNumDocs < 0 then none
  else
    let tLoaded := rtLoadDocs uNumDocs tReader.Unzip.2 ([], s.m_iAllocated)
    some (!tLoaded.2.m_bError,
      { s with m_dDocs := tLoaded.1.1, m_iAllocated := tLoaded.1.2 }, tLoaded.2)

/-- `DocstoreRT_c::LeakPackedDoc`: the document and the store afterwards; `none`
when the row is a null pointer, which `GetDocSize` reads. -/
def DocstoreRT_c.LeakPackedDoc (s : DocstoreRT_c) (tRowID : Nat) :
    Option (List BYTE × DocstoreRT_c) :=
  match s.m_dDocs.getD tRowID none with
  | none => none
  | some pPacked =>
    some (pPacked,
      { s with m_dDocs := s.m_dDocs.set tRowID none,
               m_iAllocated := s.m_iAllocated - s.GetDocSize pPacked })

/-- `DocstoreRT_c::AddPackedDoc`. -/
def DocstoreRT_c.AddPackedDoc (s : DocstoreRT_c) (_tRowID : Nat) (pDoc : List BYTE) :
    DocstoreRT_c :=
  { s with m_dDocs := s.m_dDocs ++ [some pDoc],
           m_iAllocated := s.m_iAllocated + s.GetDocSize pDoc }

/-- The bytes of the packed documents of a store, a null pointer counting zero. -/
def rtPayloadBytes (dDocs : List (Option (List BYTE))) : Int :=
  (dDocs.map (fun x => ((x.getD []).length : Int))).sum

/-- Whether an entry of `m_dDocs` is a document that takes exactly the bytes
`GetDocSize` finds for it, fewer than `2^31`. -/
def rtDocOk (iNumFields : Nat) : Option (List BYTE) → Bool
  | none => false
  | some pDoc => decide (rtDocSize iNumFields pDoc = pDoc.length)
      && decide (pDoc.length < 2147483648)

/-- Whether a store holds fewer than `2^31` documents, none leaked and each of
the size `GetDocSize` finds, and accounts for exactly their bytes. -/
def DocstoreRT_c.wellFormed (s : DocstoreRT_c) : Bool :=
  s.m_dDocs.all (rtDocOk s.m_tFields.GetNumFields) && decide (s.m_dDocs.length < 2147483648)
    && decide (s.m_iAllocated = rtPayloadBytes s.m_dDocs)

/-- The bytes the spec has `Save` write: the varint count, then per document a
varint byte length and the bytes. -/
def specSavedBytes (dDocs : List (List BYTE)) : List BYTE :=
  ZipInt dDocs.length ++ dDocs.flatMap (fun pDoc => ZipInt pDoc.length ++ pDoc)

/-- The in-memory store `twoTextRT` with two documents. -/
def twoDocsRT : DocstoreRT_c :=
  twoTextRT.AddDocs [{ m_dFields := [[1], [2]] }, { m_dFields := [[104, 105, 0, 0], []] }]

/-! ## Reading a big block the builder wrote -/

/-- The `FieldInfo_t` that the metadata `writeBigFieldInfo` writes for a field
stands for: its flags and, for a field that is not empty, its lengths. -/
def writtenFieldInfo (st : BigBlockScan) (dFields : List (List BYTE)) (iField : Nat) :
    FieldInfo_t :=
  let bCompressed := st.tCompressedFields.BitGet iField
  let bEmpty : Bool := (dFields.getD iField []).length = 0
  { m_uFlags :=
      (if bCompressed then FIELD_FLAG_COMPRESSED else 0) + (if bEmpty then FIELD_FLAG_EMPTY else 0),
    m_uUncompressedLen := if bEmpty then 0 else (dFields.getD iField []).length,
    m_uCompressedLen :=
      if bEmpty || !bCompressed then 0 else (st.m_dCompressedBuffers.getD iField []).length }

/-- The bytes a reader is to return for a stored field of a big block: nothing
for an empty field, the stored bytes as `PackData` hands them out otherwise. -/
def bigFieldReturned (tFields : DocstoreFields_c) (dFields : List (List BYTE)) (bPack : Bool)
    (iField : Nat) : List BYTE :=
  if (dFields.getD iField []).length = 0 then []
  else PackData (dFields.getD iField []) ((tFields.GetField iField).m_eType = DOCSTORE_TEXT) bPack

/-! ## `GetJoinAttrName` (joinsorter.cpp)

Strings are lists of bytes (the characters before the terminating NUL).  The
loop `while ( true )` is run with fuel; `szStart` points into the buffer `sMod`
had before the first `SetSprintf`, so the comparison `szFound > szStart` is the
comparison of the found position with 0 until `sMod` is assigned, and a
parameter `cmpStale` (told the found position) afterwards. -/

/-- The position of the first occurrence of `needle` in `hay`, counted from
`iPos` (`strstr`). -/
def strstrFrom (needle : List BYTE) : List BYTE → Nat → Option Nat
  | [], iPos => if needle = [] then some iPos else none
  | b :: rest, iPos =>
    if (b :: rest).take needle.length = needle then some iPos
    else strstrFrom needle rest (iPos + 1)

/-- The call `strstr ( szHay, szNeedle )` as an index into `hay`. -/
def strstr (hay needle : List BYTE) : Option Nat := strstrFrom needle hay 0

/-- The test `( c>='0' && c<='9' ) || ( c>='a' && c<='z' ) || ( c>='A' && c<='Z' ) || c=='_'`. -/
def isJoinNameChar (c : BYTE) : Bool :=
  (decide (48 ≤ c) && decide (c ≤ 57)) || (decide (97 ≤ c) && decide (c ≤ 122))
    || (decide (65 ≤ c) && decide (c ≤ 90)) || decide (c = 95)

/-- The outcome of the loop of `GetJoinAttrName`: it was left by `break` with the
values of `sMod` and `bRightTable`, or it read the character before the start
of `sMod`, or it was still running when the fuel ended. -/
inductive JoinLoop_t where
  | finished (sMod : List BYTE) (bRightTable : Bool)
  | readBeforeStart
  | running
  deriving DecidableEq, Repr

/-- The loop `while ( true )` of `GetJoinAttrName`; `bAssigned` tells whether
`sMod.SetSprintf` has run. -/
def joinAttrLoop (cmpStale : Nat → Bool) (sPrefix : List BYTE) :
    Nat → List BYTE → Bool → Bool → JoinLoop_t
  | 0, _, _, _ => JoinLoop_t.running
  | fuel + 1, sMod, bRightTable, bAssigned =>
    match strstr sMod sPrefix with
    | none => JoinLoop_t.finished sMod bRightTable
    | some iStart =>
      let bAfterStart := if bAssigned then cmpStale iStart else decide (0 < iStart)
      if bAfterStart && decide (iStart = 0) then JoinLoop_t.readBeforeStart
      else if bAfterStart && isJoinNameChar (sMod.getD (iStart - 1) 0) then
        joinAttrLoop cmpStale sPrefix fuel sMod bRightTable bAssigned
      else
        let sNewExprPre := if 0 < iStart then sMod.take iStart else []
        let iPostLen : Int := (sMod.length : Int) - iStart - sPrefix.length
        let sNewExprPost :=
          if 0 < iPostLen then (sMod.drop (iStart + sPrefix.length)).take iPostLen.toNat else []
        joinAttrLoop cmpStale sPrefix fuel (sNewExprPre ++ sNewExprPost) true true

/-- The function `GetJoinAttrName ( sAttr, sJoinedIndex, pModified )`: the
returned flag and the value assigned to `*pModified`, when there is one; with
the outcome of the loop when it was not left by `break`. -/
def GetJoinAttrName (cmpStale : Nat → Bool) (fuel : Nat) (sAttr sJoinedIndex : List BYTE) :
    JoinLoop_t ⊕ (Bool × Option (List BYTE)) :=
  match joinAttrLoop cmpStale (sJoinedIndex ++ [46]) fuel sAttr false false with
  | JoinLoop_t.finished sMod bRightTable =>
    if bRightTable then Sum.inr (true, some sMod) else Sum.inr (false, none)
  | tOther => Sum.inl tOther

/-- The expression `xtbl.attr`. -/
def xtblAttr : List BYTE := [120, 116, 98, 108, 46, 97, 116, 116, 114]

/-- The expression `tbl.attr`. -/
def tblAttr : List BYTE := [116, 98, 108, 46, 97, 116, 116, 114]

/-- The index name `tbl`. -/
def tblName : List BYTE := [116, 98, 108]

/-! ## In-memory store: accounting -/

/-- `DocstoreRT_c::AllocatedBytes`; `iLengthBytes` is the value of
`m_dDocs.GetLengthBytes64()`, the bytes of the pointer array. -/
def DocstoreRT_c.AllocatedBytes (s : DocstoreRT_c) (iLengthBytes : Int) : Int :=
  s.m_iAllocated + iLengthBytes

/-- The first loop of `DocstoreRT_c::AddDoc`, from field `i` on: `iPackedLen`
before it is cut to an `int`. -/
def rtPackedLen (tFields : DocstoreFields_c) : List (List BYTE) → Nat → Nat
  | [], _ => 0
  | dField :: rest, i =>
    sphCalcZippedLen (rtFieldLength tFields dField i) + rtFieldLength tFields dField i
      + rtPackedLen tFields rest (i + 1)

/-- A call on the in-memory store; `AddDoc` and `AddPackedDoc` are called for the
row `m_dDocs.GetLength()`. -/
inductive RtOp where
  | addDoc (tDoc : Doc_t)
  | addPackedDoc (pDoc : List BYTE)
  | leakPackedDoc (tRowID : Nat)
deriving Repr

/-- The store after a call, `none` when `LeakPackedDoc` reads a null pointer. -/
def DocstoreRT_c.step (s : DocstoreRT_c) : RtOp → Option DocstoreRT_c
  | RtOp.addDoc tDoc => some (s.AddDoc s.m_dDocs.length tDoc)
  | RtOp.addPackedDoc pDoc => some (s.AddPackedDoc s.m_dDocs.length pDoc)
  | RtOp.leakPackedDoc tRowID => (s.LeakPackedDoc tRowID).map Prod.snd

/-- The store after a sequence of calls. -/
def DocstoreRT_c.run (s : DocstoreRT_c) : List RtOp → Option DocstoreRT_c
  | [] => some s
  | op :: rest =>
    match s.step op with
    | none => none
    | some s1 => s1.run rest

/-- The sum over the documents held (a leaked one counts zero) of what the loop
of `GetDocSize` finds: per field the bytes of the varint and the length it
gives. -/
def rtHeldSize (iNumFields : Nat) (dDocs : List (Option (List BYTE))) : Int :=
  (dDocs.map (fun x => match x with
    | none => (0 : Int)
    | some pDoc => (rtDocSize iNumFields pDoc : Int))).sum

/-- Whether the argument of a call fits the store: a document of `AddDoc` has one
payload per field and packs to fewer than `2^31` bytes, a document of
`AddPackedDoc` has exactly the bytes `GetDocSize` finds, fewer than `2^31`. -/
def rtOpOk (tFields : DocstoreFields_c) : RtOp → Bool
  | RtOp.addDoc tDoc =>
    decide (tDoc.m_dFields.length = tFields.GetNumFields)
      && tDoc.m_dFields.all (fun f => decide (f.length < DWORD_MOD))
      && decide ((rtPackFields tFields tDoc.m_dFields 0).length < 2147483648)
  | RtOp.addPackedDoc pDoc =>
    decide (rtDocSize tFields.GetNumFields pDoc = pDoc.length)
      && decide (pDoc.length < 2147483648)
  | RtOp.leakPackedDoc _ => true

/-- Two documents are added to `twoTextRT`, the first one is leaked and added
again as a packed document. -/
def moveOps : List RtOp :=
  [RtOp.addDoc { m_dFields := [[1], [2]] }, RtOp.addDoc { m_dFields := [[104, 105, 0, 0], []] },
   RtOp.leakPackedDoc 0, RtOp.addPackedDoc [1, 1, 1, 2]]

/-- The store after `moveOps`. -/
def movedRT : DocstoreRT_c :=
  { m_dDocs := [none, some [3, 104, 105, 0, 0], some [1, 1, 1, 2]],
    m_tFields := twoTextBuilder.m_tFields,
    m_iAllocated := 9 }

/-! ## The two forms of a document of a small block -/

/-- A builder with `block_size = 1024`, no compression and six TEXT fields. -/
def sixTextBuilder : DocstoreBuilder_c :=
  (((((twoTextBuilder.AddField [104] DOCSTORE_TEXT).1.AddField [105] DOCSTORE_TEXT).1.AddField
    [106] DOCSTORE_TEXT).1.AddField [107] DOCSTORE_TEXT).1)

/-- A document with five empty TEXT fields and one of one byte: `WriteSmallBlock`
writes it with the bitmask of its empty fields. -/
def bitmaskDoc : Doc_t := { m_dFields := [[], [], [], [], [], [120]] }

/-- A document with one empty TEXT field and five of one byte: `WriteSmallBlock`
writes every field of it, the empty one as length 0. -/
def listedDoc : Doc_t := { m_dFields := [[], [121], [121], [121], [121], [120]] }

/-- The file for the documents `bitmaskDoc` (row 0) and `listedDoc` (row 1). -/
def twoFormsFile : List BYTE :=
  (((sixTextBuilder.AddDoc Compressor_None_c 0 bitmaskDoc).AddDoc Compressor_None_c 1
    listedDoc).Finalize Compressor_None_c).m_tWriter

/-! ## The directory of a run of the builder -/

/-- The first statement of `WriteBlock`: `if ( !m_tWriter.GetPos() ) WriteInitialHeader()`. -/
def DocstoreBuilder_c.withInitialHeader (s : DocstoreBuilder_c) : DocstoreBuilder_c :=
  if s.m_tWriter.length = 0 then s.WriteInitialHeader else s

/-- What `WriteBlock` records for the block of the pending documents, before the
delta coding of `WriteSmallBlockHeader` and `WriteBigBlockHeader`: the row id
`m_dStoredDocs[0].m_tRowID`, the type, the offset `tBlockOffset` and (for a big
block) the size `tHeaderSize` handed to them; `m_uSize` is the number of bytes
the call adds to the file behind the initial header. -/
def DocstoreBuilder_c.recordedBlock (c : Compressor_i) (s : DocstoreBuilder_c) : Block_t :=
  let s0 := s.withInitialHeader
  let bBigBlock : Bool := s0.m_dStoredDocs.length = 1 && decide (s0.m_uStoredLen ≥ s0.m_uBlockSize)
  { m_tOffset := s0.m_tWriter.length,
    m_uSize := (s.WriteBlock c).m_tWriter.length - s0.m_tWriter.length,
    m_uHeaderSize := if bBigBlock then (s0.bigBlockHeaderBytes c).length else 0,
    m_tRowID := (s0.m_dStoredDocs.getD 0 default).m_tRowID,
    m_eType := if bBigBlock then BLOCK_TYPE_BIG else BLOCK_TYPE_SMALL }

/-- The block a call of `WriteBlock` writes, with the documents it holds; no
block when no document is pending. -/
def DocstoreBuilder_c.flushed (c : Compressor_i) (s : DocstoreBuilder_c) :
    List (Block_t × List StoredDoc_t) :=
  if s.m_dStoredDocs = [] then [] else [(s.recordedBlock c, s.m_dStoredDocs)]

/-- The blocks written by a run of `AddDoc` calls followed by `Finalize`, in the
order of the `WriteBlock` calls. -/
def recordedBlocks (c : Compressor_i) :
    DocstoreBuilder_c → List (Nat × Doc_t) → List (Block_t × List StoredDoc_t)
  | s, [] => s.flushed c
  | s, d :: rest =>
    (if (s.m_uStoredLen + docLen d.2) % DWORD_MOD > s.m_uBlockSize then s.flushed c else [])
      ++ recordedBlocks c (s.AddDoc c d.1 d.2) rest

/-- The bytes `WriteSmallBlockHeader` and `WriteBigBlockHeader` put into
`m_dHeader` for a list of blocks, the row ids and offsets delta-coded from
`tPrevBlockRowID` and `tPrevBlockOffset`. -/
def directoryBytes : List Block_t → Nat → Nat → List BYTE
  | [], _, _ => []
  | b :: rest, tPrevBlockRowID, tPrevBlockOffset =>
    ZipInt ((b.m_tRowID + DWORD_MOD - tPrevBlockRowID) % DWORD_MOD) ++ [b.m_eType]
      ++ ZipOffset (b.m_tOffset - tPrevBlockOffset)
      ++ (if b.m_eType = BLOCK_TYPE_BIG then ZipInt b.m_uHeaderSize else [])
      ++ directoryBytes rest b.m_tRowID b.m_tOffset

/-- Whether the blocks of a list lie one behind the other from `tStart` up to
`tEnd`, each of one byte or more. -/
def chained : Nat → List Block_t → Nat → Prop
  | tStart, [], tEnd => tStart = tEnd
  | tStart, b :: rest, tEnd =>
    b.m_tOffset = tStart ∧ 0 < b.m_uSize ∧ chained (tStart + b.m_uSize) rest tEnd

/-- A builder on which no document was added and nothing was written. -/
def DocstoreBuilder_c.fresh (s : DocstoreBuilder_c) : Prop :=
  s.m_tWriter = [] ∧ s.m_dHeader = [] ∧ s.m_dStoredDocs = [] ∧ s.m_uStoredLen = 0
    ∧ s.m_iNumBlocks = 0 ∧ s.m_tPrevBlockOffset = 0 ∧ s.m_tPrevBlockRowID = 0

/-- The block count `Docstore_c::Init` reads from a file (`uNumBlocks`). -/
def initNumBlocks (tFile : List BYTE) : Nat :=
  (DocstoreFields_c.Load {} (registryReader tFile)).2.GetDword.1

/-- The offset of the directory `Docstore_c::Init` reads from a file
(`tHeaderOffset`). -/
def initHeaderOffset (tFile : List BYTE) : Nat :=
  (DocstoreFields_c.Load {} (registryReader tFile)).2.GetDword.2.GetOffset.1

/-! ## Block cache: the nodes in memory

The block cache with its nodes at addresses: a pointer is the address of a node,
`none` is `nullptr`, and the memory gives the node at an address (`none` where no
node is allocated). A read through a pointer to no node is outside the domain of
the code; the functions return `none` there. -/

/-- The node `BlockCache_c::LinkedBlock_t` with its links `m_pPrev` and `m_pNext`. -/
structure LinkedNode_t where
  m_tBlock : LinkedBlock_t
  m_pPrev : Option Nat := none
  m_pNext : Option Nat := none
deriving DecidableEq, Repr

/-- The class `BlockCache_c` with `m_pHead`, `m_pTail`, the entries of `m_tHash`
(key and pointer) and the memory of the nodes. -/
structure PtrCache_c where
  m_pHead : Option Nat := none
  m_pTail : Option Nat := none
  m_iCacheSize : Int := 0
  m_iMemUsed : Int := 0
  m_tHash : List (HashKey_t × Nat) := []
  m_dNodes : Nat → Option LinkedNode_t := fun _ => none

/-- The constructor `BlockCache_c ( iCacheSize )`. -/
def PtrCache_c.create (iCacheSize : Int) : PtrCache_c := { m_iCacheSize := iCacheSize }

/-- Modelled from the spec: `OpenHash_T::Find` (not in src): the pointer stored
for a key. -/
def ptrHashFind (dHash : List (HashKey_t × Nat)) (tKey : HashKey_t) : Option Nat :=
  (dHash.find? (fun e => decide (e.1 = tKey))).map Prod.snd

/-- Modelled from the spec: `OpenHash_T::Add` (not in src): the entries with the
new one, `none` for the result `false` when the key is there already. -/
def ptrHashAdd (dHash : List (HashKey_t × Nat)) (tKey : HashKey_t) (p : Nat) :
    Option (List (HashKey_t × Nat)) :=
  if (ptrHashFind dHash tKey).isSome then none else some (dHash ++ [(tKey, p)])

/-- Modelled from the spec: `OpenHash_T::Delete` (not in src): the entries
without the key, `none` for the result `false` when the key is not there. -/
def ptrHashDelete (dHash : List (HashKey_t × Nat)) (tKey : HashKey_t) :
    Option (List (HashKey_t × Nat)) :=
  if (ptrHashFind dHash tKey).isSome then some (dHash.filter (fun e => !decide (e.1 = tKey)))
  else none

/-- A write of a node to the memory at `p`. -/
def PtrCache_c.setNode (s : PtrCache_c) (p : Nat) (n : LinkedNode_t) : PtrCache_c :=
  { s with m_dNodes := Function.update s.m_dNodes p (some n) }

/-- The assignment `p->m_pNext = pNext`. -/
def PtrCache_c.setNext (s : PtrCache_c) (p : Nat) (pNext : Option Nat) : Option PtrCache_c :=
  match s.m_dNodes p with
  | none => none
  | some n => some (s.setNode p { n with m_pNext := pNext })

/-- The assignment `p->m_pPrev = pPrev`. -/
def PtrCache_c.setPrev (s : PtrCache_c) (p : Nat) (pPrev : Option Nat) : Option PtrCache_c :=
  match s.m_dNodes p with
  | none => none
  | some n => some (s.setNode p { n with m_pPrev := pPrev })

/-- The two statements `if ( pBlock->m_pPrev ) pBlock->m_pPrev->m_pNext = pBlock->m_pNext;`
and `if ( pBlock->m_pNext ) pBlock->m_pNext->m_pPrev = pBlock->m_pPrev;` of
`MoveToHead` and of `Delete`. -/
def PtrCache_c.unlink (s : PtrCache_c) (pBlock : Nat) : Option PtrCache_c :=
  match s.m_dNodes pBlock with
  | none => none
  | some n =>
    match (match n.m_pPrev with
      | some q => s.setNext q n.m_pNext
      | none => some s) with
    | none => none
    | some s1 =>
      match s1.m_dNodes pBlock with
      | none => none
      | some n1 =>
        match n1.m_pNext with
        | some q => s1.setPrev q n1.m_pPrev
        | none => some s1

/-- `BlockCache_c::MoveToHead`. -/
def PtrCache_c.MoveToHead (s : PtrCache_c) (pBlock : Nat) : Option PtrCache_c :=
  if s.m_pHead = some pBlock then some s
  else
    match s.m_dNodes pBlock with
    | none => none
    | some n =>
      match (if s.m_pTail = some pBlock then { s with m_pTail := n.m_pPrev } else s).unlink
        pBlock with
      | none => none
      | some s2 =>
        match s2.m_dNodes pBlock with
        | none => none
        | some n2 =>
          match s2.m_pHead with
          | none => none
          | some pHead =>
            match (s2.setNode pBlock { n2 with m_pPrev := none, m_pNext := s2.m_pHead }).setPrev
              pHead (some pBlock) with
            | none => none
            | some s4 => some { s4 with m_pHead := some pBlock }

/-- The private `BlockCache_c::Add ( LinkedBlock_t * )`; `none` also when
`m_tHash.Add` gives `false`, which `Verify` excludes. -/
def PtrCache_c.AddNode (uSizeof : Nat) (s : PtrCache_c) (pBlock : Nat) : Option PtrCache_c :=
  match s.m_dNodes pBlock with
  | none => none
  | some n =>
    match (match s.m_pHead with
      | some pHead => (s.setNode pBlock { n with m_pNext := s.m_pHead }).setPrev pHead (some pBlock)
      | none => some (s.setNode pBlock { n with m_pNext := s.m_pHead })) with
    | none => none
    | some s2 =>
      match ptrHashAdd s2.m_tHash n.m_tBlock.m_tKey pBlock with
      | none => none
      | some dHash =>
        some { s2 with
          m_pTail := if s2.m_pTail = none then some pBlock else s2.m_pTail,
          m_pHead := some pBlock,
          m_tHash := dHash,
          m_iMemUsed := s2.m_iMemUsed + ((n.m_tBlock.m_uSize + uSizeof : Nat) : Int) }

/-- `BlockCache_c::Delete`; `none` also when `m_tHash.Delete` gives `false`,
which `Verify` excludes. The node is freed. -/
def PtrCache_c.Delete (uSizeof : Nat) (s : PtrCache_c) (pBlock : Nat) : Option PtrCache_c :=
  match s.m_dNodes pBlock with
  | none => none
  | some n =>
    match ptrHashDelete s.m_tHash n.m_tBlock.m_tKey with
    | none => none
    | some dHash =>
      match ({ s with
          m_tHash := dHash,
          m_pHead := if s.m_pHead = some pBlock then n.m_pNext else s.m_pHead,
          m_pTail := if s.m_pTail = some pBlock then n.m_pPrev else s.m_pTail } :
            PtrCache_c).unlink pBlock with
      | none => none
      | some s4 =>
        some { s4 with
          m_iMemUsed := s4.m_iMemUsed - ((n.m_tBlock.m_uSize + uSizeof : Nat) : Int),
          m_dNodes := Function.update s4.m_dNodes pBlock none }

/-- `BlockCache_c::HaveSpaceFor`. -/
def PtrCache_c.HaveSpaceFor (s : PtrCache_c) (uSpaceNeeded : Nat) : Bool :=
  decide (s.m_iMemUsed + (uSpaceNeeded : Int) ≤ s.m_iCacheSize)

/-- `BlockCache_c::Find`: the data copied to `tData` on a hit (`none` is the
result `false`) and the cache afterwards. -/
def PtrCache_c.Find (s : PtrCache_c) (uUID tOffset : Nat) :
    Option (Option BlockData_t × PtrCache_c) :=
  match ptrHashFind s.m_tHash ⟨uUID, tOffset⟩ with
  | none => some (none, s)
  | some p =>
    match s.MoveToHead p with
    | none => none
    | some s1 =>
      match s1.m_dNodes p with
      | none => none
      | some n =>
        some (some n.m_tBlock.toBlockData_t,
          s1.setNode p
            { n with m_tBlock := { n.m_tBlock with m_iRefcount := n.m_tBlock.m_iRefcount + 1 } })

/-- `BlockCache_c::Release`. -/
def PtrCache_c.Release (s : PtrCache_c) (uUID tOffset : Nat) : Option PtrCache_c :=
  match ptrHashFind s.m_tHash ⟨uUID, tOffset⟩ with
  | none => none
  | some p =>
    match s.m_dNodes p with
    | none => none
    | some n =>
      some (s.setNode p
        { n with m_tBlock := { n.m_tBlock with m_iRefcount := n.m_tBlock.m_iRefcount - 1 } })

/-- The loop of `BlockCache_c::DeleteAll` from `pBlock` on, run for at most
`fuel` iterations (`none` when they do not reach `nullptr`). -/
def ptrDeleteAllLoop (uSizeof uUID : Nat) : Nat → Option Nat → PtrCache_c → Option PtrCache_c
  | _, none, s => some s
  | 0, some _, _ => none
  | fuel + 1, some pBlock, s =>
    match s.m_dNodes pBlock with
    | none => none
    | some n =>
      if n.m_tBlock.m_tKey.m_uUID = uUID then
        match s.Delete uSizeof pBlock with
        | none => none
        | some s1 => ptrDeleteAllLoop uSizeof uUID fuel n.m_pNext s1
      else ptrDeleteAllLoop uSizeof uUID fuel n.m_pNext s

/-- `BlockCache_c::DeleteAll`; the loop is given one iteration per entry of the
hash. -/
def PtrCache_c.DeleteAll (uSizeof : Nat) (s : PtrCache_c) (uUID : Nat) : Option PtrCache_c :=
  ptrDeleteAllLoop uSizeof uUID s.m_tHash.length s.m_pHead s

/-- The loop of `BlockCache_c::SweepUnused` from `pBlock` on, run for at most
`fuel` iterations. -/
def ptrSweepLoop (uSizeof uSpaceNeeded : Nat) : Nat → Option Nat → PtrCache_c → Option PtrCache_c
  | _, none, s => some s
  | fuel, some pBlock, s =>
    if s.HaveSpaceFor uSpaceNeeded then some s
    else
      match fuel with
      | 0 => none
      | fuel1 + 1 =>
        match s.m_dNodes pBlock with
        | none => none
        | some n =>
          if n.m_tBlock.m_iRefcount = 0 then
            match s.Delete uSizeof pBlock with
            | none => none
            | some s1 => ptrSweepLoop uSizeof uSpaceNeeded fuel1 n.m_pPrev s1
          else ptrSweepLoop uSizeof uSpaceNeeded fuel1 n.m_pPrev s

/-- `BlockCache_c::SweepUnused`; the loop is given one iteration per entry of
the hash. -/
def PtrCache_c.SweepUnused (uSizeof : Nat) (s : PtrCache_c) (uSpaceNeeded : Nat) :
    Option PtrCache_c :=
  ptrSweepLoop uSizeof uSpaceNeeded s.m_tHash.length s.m_pTail s

/-- The `DWORD` `MAX_BLOCK_SIZE = m_iCacheSize/64` of `BlockCache_c::Add`. -/
def PtrCache_c.MAX_BLOCK_SIZE (s : PtrCache_c) : Nat :=
  ((Int.tdiv s.m_iCacheSize 64) % (DWORD_MOD : Int)).toNat

/-- The node the public `BlockCache_c::Add` makes by `new LinkedBlock_t`, with
the data, one reference and the key; its links are null. -/
def newNode (uUID tOffset : Nat) (tData : BlockData_t) : LinkedNode_t :=
  { m_tBlock := newBlock uUID tOffset tData }

/-- The part of the public `BlockCache_c::Add` behind the space check: the node
is made at the address `pNew` that `new` returns, which holds no node, and
added. `none` also when the key is in the hash, which `assert ( !ppBlock )`
excludes. -/
def PtrCache_c.insert (uSizeof : Nat) (s : PtrCache_c) (uUID tOffset : Nat)
    (tData : BlockData_t) (pNew : Nat) : Option (Bool × PtrCache_c) :=
  if (ptrHashFind s.m_tHash ⟨uUID, tOffset⟩).isSome then none
  else if (s.m_dNodes pNew).isSome then none
  else
    ((s.setNode pNew (newNode uUID tOffset tData)).AddNode uSizeof pNew).map
      (fun s1 => (true, s1))

/-- The public `BlockCache_c::Add`: its result and the cache afterwards. -/
def PtrCache_c.Add (uSizeof : Nat) (s : PtrCache_c) (uUID tOffset : Nat) (tData : BlockData_t)
    (pNew : Nat) : Option (Bool × PtrCache_c) :=
  if !s.HaveSpaceFor ((tData.m_uSize + uSizeof) % DWORD_MOD) then
    if (tData.m_uSize + uSizeof) % DWORD_MOD > s.MAX_BLOCK_SIZE then some (false, s)
    else
      match s.SweepUnused uSizeof ((tData.m_uSize + uSizeof) % DWORD_MOD) with
      | none => none
      | some s1 =>
        if !s1.HaveSpaceFor ((tData.m_uSize + uSizeof) % DWORD_MOD) then some (false, s1)
        else s1.insert uSizeof uUID tOffset tData pNew
  else s.insert uSizeof uUID tOffset tData pNew

/-- An operation on the block cache; `add` names the address `new` returns. -/
inductive PtrOp where
  | find (uUID tOffset : Nat)
  | add (uUID tOffset : Nat) (tData : BlockData_t) (pNew : Nat)
  | release (uUID tOffset : Nat)
  | deleteAll (uUID : Nat)
deriving DecidableEq, Repr

/-- The cache after an operation, `none` when the operation is outside the
domain of the code. -/
def PtrCache_c.step (uSizeof : Nat) (s : PtrCache_c) : PtrOp → Option PtrCache_c
  | PtrOp.find uUID tOffset => (s.Find uUID tOffset).map Prod.snd
  | PtrOp.add uUID tOffset tData pNew => (s.Add uSizeof uUID tOffset tData pNew).map Prod.snd
  | PtrOp.release uUID tOffset => s.Release uUID tOffset
  | PtrOp.deleteAll uUID => s.DeleteAll uSizeof uUID

/-- The cache after a sequence of operations. -/
def PtrCache_c.run (uSizeof : Nat) (s : PtrCache_c) : List PtrOp → Option PtrCache_c
  | [] => some s
  | op :: rest =>
    match s.step uSizeof op with
    | none => none
    | some s1 => s1.run uSizeof rest

/-- The links of the node at an address. -/
def linkAt (m : Nat → Option LinkedNode_t) (p : Nat) : Option (Option Nat × Option Nat) :=
  (m p).map (fun n => (n.m_pPrev, n.m_pNext))

/-- The first address of a list, `pElse` for the empty list. -/
def firstOr (l : List Nat) (pElse : Option Nat) : Option Nat :=
  match l with
  | [] => pElse
  | q :: _ => some q

/-- The last address of a list, `pElse` for the empty list. -/
def lastOr (l : List Nat) (pElse : Option Nat) : Option Nat :=
  match l.getLast? with
  | none => pElse
  | some q => some q

/-- The nodes at the addresses of a list are linked in the order of the list,
the first one back to `pPrev`, the last one on to `pNext`. -/
def seg (m : Nat → Option LinkedNode_t) : Option Nat → List Nat → Option Nat → Prop
  | _, [], _ => True
  | pPrev, p :: rest, pNext =>
    linkAt m p = some (pPrev, firstOr rest pNext) ∧ seg m (some p) rest pNext

/-- The addresses reached from `p` over `m_pNext`, at most `fuel` of them. -/
def walkNext (m : Nat → Option LinkedNode_t) : Nat → Option Nat → List Nat
  | 0, _ => []
  | _, none => []
  | fuel + 1, some p => p :: walkNext m fuel ((m p).bind (fun n => n.m_pNext))

/-- The addresses reached from `p` over `m_pPrev`, at most `fuel` of them. -/
def walkPrev (m : Nat → Option LinkedNode_t) : Nat → Option Nat → List Nat
  | 0, _ => []
  | _, none => []
  | fuel + 1, some p => p :: walkPrev m fuel ((m p).bind (fun n => n.m_pPrev))

/-- The structure of the cache over the list `ids` of the addresses of its
nodes, from the head to the tail. -/
def PtrCache_c.linked (s : PtrCache_c) (ids : List Nat) : Prop :=
  ids.Nodup ∧ s.m_pHead = ids.head? ∧ s.m_pTail = ids.getLast? ∧
  seg s.m_dNodes none ids none ∧
  (∀ p, (s.m_dNodes p).isSome = true → p ∈ ids) ∧
  (s.m_tHash.map Prod.fst).Nodup ∧
  (s.m_tHash.map Prod.snd).Perm ids ∧
  (∀ e ∈ s.m_tHash, ∃ n, s.m_dNodes e.2 = some n ∧ n.m_tBlock.m_tKey = e.1)


/-- Blocks 1, 2 and 3 are added at the addresses 100, 101 and 102 and released,
block 1 is found again, block 2 is removed with its store and added again at the
address 101. -/
def ptrOps : List PtrOp :=
  [PtrOp.add 0 1 (cacheBlock 1 8) 100, PtrOp.release 0 1,
   PtrOp.add 1 2 (cacheBlock 2 8) 101, PtrOp.release 1 2,
   PtrOp.add 0 3 (cacheBlock 3 8) 102, PtrOp.release 0 3,
   PtrOp.find 0 1, PtrOp.deleteAll 1, PtrOp.add 1 2 (cacheBlock 2 8) 101]

/-- The cache after `ptrOps` with capacity 4096 and `sizeof(LinkedBlock_t) = 64`. -/
def ptrCache : PtrCache_c := ((PtrCache_c.create 4096).run 64 ptrOps).getD {}

/-! ## Binary search -/

theorem sphBinarySearchFirstLoop_spec (keys : List Nat) (tRef : Nat)
    (hs : ∀ i j, i < j → j < keys.length → keys.getD i 0 < keys.getD j 0) :
    ∀ fuel lo hi, lo ≤ hi → hi < keys.length → hi - lo ≤ fuel →
      (∀ j, j < lo → keys.getD j 0 < tRef) →
      (hi + 1 = keys.length ∨ tRef ≤ keys.getD hi 0) →
      let p := sphBinarySearchFirstLoop keys tRef fuel lo hi
      p < keys.length ∧ (∀ j, j < p → keys.getD j 0 < tRef) ∧
        (p + 1 = keys.length ∨ tRef ≤ keys.getD p 0) := by
  intro fuel
  induction fuel with
  | zero =>
    intro lo hi hle hlt hf hlow hhigh
    have : lo = hi := by omega
    subst this
    simp only [sphBinarySearchFirstLoop]
    exact ⟨hlt, hlow, hhigh⟩
  | succ n ih =>
    intro lo hi hle hlt hf hlow hhigh
    simp only [sphBinarySearchFirstLoop]
    by_cases heq : lo = hi
    · subst heq
      simp only [if_true]
      exact ⟨hlt, hlow, hhigh⟩
    · simp only [heq, if_false]
      have hmid : lo + (hi - lo) / 2 < hi := by omega
      by_cases hk : keys.getD (lo + (hi - lo) / 2) 0 < tRef
      · simp only [hk, if_true]
        apply ih (lo + (hi - lo) / 2 + 1) hi (by omega) hlt (by omega) _ hhigh
        intro j hj
        by_cases hjm : j = lo + (hi - lo) / 2
        · rw [hjm]; exact hk
        · have := hs j (lo + (hi - lo) / 2) (by omega) (by omega)
          omega
      · simp only [hk, if_false]
        apply ih lo (lo + (hi - lo) / 2) (by omega) (by omega) (by omega) hlow
        right; omega

theorem FindBlock_keys_getD (m_dBlocks : List Block_t) (i : Nat) (hi : i < m_dBlocks.length) :
    (m_dBlocks.map (fun b => b.m_tRowID)).getD i 0 = (m_dBlocks.getD i default).m_tRowID := by
  simp [List.getD_eq_getElem?_getD, List.getElem?_eq_getElem, hi]

theorem FindBlock_strictMono (m_dBlocks : List Block_t)
    (hasc : m_dBlocks.Pairwise (fun a b => a.m_tRowID < b.m_tRowID)) :
    ∀ i j, i < j → j < m_dBlocks.length →
      (m_dBlocks.getD i default).m_tRowID < (m_dBlocks.getD j default).m_tRowID := by
  intro i j hij hj
  have h := (List.pairwise_iff_getElem.mp hasc) i j (by omega) hj hij
  simpa [List.getD_eq_getElem?_getD, List.getElem?_eq_getElem, hj, (by omega : i < m_dBlocks.length)] using h

/-- The result of `FindBlock` on a non-empty directory with strictly ascending
first RowIDs. -/
theorem FindBlock_spec (m_dBlocks : List Block_t) (r : Nat)
    (hne : m_dBlocks ≠ [])
    (hasc : m_dBlocks.Pairwise (fun a b => a.m_tRowID < b.m_tRowID)) :
    (FindBlock m_dBlocks r = none ↔ r < (m_dBlocks.head hne).m_tRowID) ∧
    (∀ i, FindBlock m_dBlocks r = some i ↔
      (i < m_dBlocks.length ∧ (m_dBlocks.getD i default).m_tRowID ≤ r ∧
        (i + 1 = m_dBlocks.length ∨ r < (m_dBlocks.getD (i + 1) default).m_tRowID))) := by
  have hlen : 0 < m_dBlocks.length := List.length_pos.mpr hne
  have hmono := FindBlock_strictMono m_dBlocks hasc
  have hhead : (m_dBlocks.head hne).m_tRowID = (m_dBlocks.getD 0 default).m_tRowID := by
    cases m_dBlocks with
    | nil => exact absurd rfl hne
    | cons a t => simp
  have hklen : (m_dBlocks.map (fun b => b.m_tRowID)).length = m_dBlocks.length := by simp
  have hs : ∀ i j, i < j → j < (m_dBlocks.map (fun b => b.m_tRowID)).length →
      (m_dBlocks.map (fun b => b.m_tRowID)).getD i 0
        < (m_dBlocks.map (fun b => b.m_tRowID)).getD j 0 := by
    intro i j hij hj
    rw [hklen] at hj
    rw [FindBlock_keys_getD _ i (by omega), FindBlock_keys_getD _ j hj]
    exact hmono i j hij hj
  have hspec := sphBinarySearchFirstLoop_spec (m_dBlocks.map (fun b => b.m_tRowID)) r hs
    (m_dBlocks.map (fun b => b.m_tRowID)).length 0
    ((m_dBlocks.map (fun b => b.m_tRowID)).length - 1)
    (by omega) (by omega) (by omega) (by intro j hj; omega) (by left; omega)
  simp only at hspec
  generalize hp : sphBinarySearchFirstLoop (m_dBlocks.map (fun b => b.m_tRowID)) r
    (m_dBlocks.map (fun b => b.m_tRowID)).length 0
    ((m_dBlocks.map (fun b => b.m_tRowID)).length - 1) = p at hspec
  obtain ⟨hplt, hplow, hphigh⟩ := hspec
  rw [hklen] at hplt hphigh
  have hplow2 : ∀ j, j < p → (m_dBlocks.getD j default).m_tRowID < r := by
    intro j hj
    have := hplow j hj
    rwa [FindBlock_keys_getD _ j (by omega)] at this
  rw [FindBlock_keys_getD _ p hplt] at hphigh
  have hFB : FindBlock m_dBlocks r =
      if (m_dBlocks.getD p default).m_tRowID > r then
        (if p = 0 then none else some (p - 1)) else some p := by
    unfold FindBlock sphBinarySearchFirst
    rw [if_neg (by omega)]
    simp only [hp]
  -- uniqueness of the block that brackets the row
  have huniq : ∀ i k, i < m_dBlocks.length → k < m_dBlocks.length →
      (m_dBlocks.getD i default).m_tRowID ≤ r →
      (i + 1 = m_dBlocks.length ∨ r < (m_dBlocks.getD (i + 1) default).m_tRowID) →
      (m_dBlocks.getD k default).m_tRowID ≤ r →
      (k + 1 = m_dBlocks.length ∨ r < (m_dBlocks.getD (k + 1) default).m_tRowID) →
      i = k := by
    intro i k hi hk hi1 hi2 hk1 hk2
    by_contra hne2
    rcases Nat.lt_or_gt_of_ne hne2 with h | h
    · rcases hi2 with h2 | h2
      · omega
      · have := hmono (i + 1) k
        by_cases hik : i + 1 = k
        · subst hik; omega
        · have := this (by omega) hk; omega
    · rcases hk2 with h2 | h2
      · omega
      · have := hmono (k + 1) i
        by_cases hik : k + 1 = i
        · subst hik; omega
        · have := this (by omega) hi; omega
  -- the block returned when the search succeeds
  have hgood : ∀ q, FindBlock m_dBlocks r = some q →
      (q < m_dBlocks.length ∧ (m_dBlocks.getD q default).m_tRowID ≤ r ∧
        (q + 1 = m_dBlocks.length ∨ r < (m_dBlocks.getD (q + 1) default).m_tRowID)) := by
    intro q hq
    rw [hFB] at hq
    by_cases hgt : (m_dBlocks.getD p default).m_tRowID > r
    · rw [if_pos hgt] at hq
      by_cases hp0 : p = 0
      · rw [if_pos hp0] at hq; cases hq
      · rw [if_neg hp0] at hq
        have hq2 : q = p - 1 := by injection hq with h; exact h.symm
        subst hq2
        refine ⟨by omega, ?_, ?_⟩
        · have := hplow2 (p - 1) (by omega); omega
        · right
          have : p - 1 + 1 = p := by omega
          rw [this]; exact hgt
    · rw [if_neg hgt] at hq
      have hq2 : q = p := by injection hq with h; exact h.symm
      subst hq2
      refine ⟨hplt, by omega, ?_⟩
      rcases hphigh with h | h
      · left; exact h
      · by_cases hl : q + 1 = m_dBlocks.length
        · left; exact hl
        · right
          have := hmono q (q + 1) (by omega) (by omega)
          omega
  have hnone : FindBlock m_dBlocks r = none ↔ r < (m_dBlocks.getD 0 default).m_tRowID := by
    rw [hFB]
    constructor
    · intro h
      by_cases hgt : (m_dBlocks.getD p default).m_tRowID > r
      · rw [if_pos hgt] at h
        by_cases hp0 : p = 0
        · subst hp0; exact hgt
        · rw [if_neg hp0] at h; cases h
      · rw [if_neg hgt] at h; cases h
    · intro h
      have hp0 : p = 0 := by
        by_contra hp0
        have := hplow2 0 (by omega)
        omega
      subst hp0
      rw [if_pos h, if_pos rfl]
  refine ⟨by rw [hhead]; exact hnone, ?_⟩
  intro i
  constructor
  · exact hgood i
  · intro hi
    obtain ⟨hi0, hi1, hi2⟩ := hi
    cases hfb : FindBlock m_dBlocks r with
    | none =>
      have h0 := hnone.mp hfb
      by_cases hi00 : i = 0
      · subst hi00; omega
      · have := hmono 0 i (by omega) hi0; omega
    | some q =>
      obtain ⟨hq0, hq1, hq2⟩ := hgood q hfb
      rw [huniq i q hi0 hq0 hi1 hi2 hq1 hq2]

/-- C8: on a non-empty directory with strictly ascending first RowIDs, `FindBlock`
answers "not found" exactly for the rows below the first block, and otherwise
returns exactly the one block `i` with `first_row_id[i] <= r` that is the last
block or has `r < first_row_id[i+1]`. -/
theorem C8_FindBlock_spec (m_dBlocks : List Block_t) (r : Nat)
    (hne : m_dBlocks ≠ [])
    (hasc : m_dBlocks.Pairwise (fun a b => a.m_tRowID < b.m_tRowID)) :
    (FindBlock m_dBlocks r = none ↔ r < (m_dBlocks.head hne).m_tRowID) ∧
    (∀ i, FindBlock m_dBlocks r = some i ↔
      (i < m_dBlocks.length ∧ (m_dBlocks.getD i default).m_tRowID ≤ r ∧
        (i + 1 = m_dBlocks.length ∨ r < (m_dBlocks.getD (i + 1) default).m_tRowID))) :=
  FindBlock_spec m_dBlocks r hne hasc

theorem C8_FindBlock_spec_witness :
    ([{ m_tRowID := 3 }, { m_tRowID := 7 }] : List Block_t) ≠ [] ∧
    FindBlock [{ m_tRowID := 3 }, { m_tRowID := 7 }] 5 = some 0 :=
  ⟨by simp, ((C8_FindBlock_spec [{ m_tRowID := 3 }, { m_tRowID := 7 }] 5 (by simp)
    (by simp)).2 0).mpr ⟨by decide, by decide, by decide⟩⟩

theorem getD_append_cons {α : Type} (pre : List α) (x : α) (post : List α) (d : α) :
    (pre ++ x :: post).getD pre.length d = x := by
  induction pre with
  | nil => rfl
  | cons a t ih => simpa using ih

theorem markEmptyFields_allEmpty (iElements : Nat) :
    ∀ (dFields : List (List BYTE)) (A : List Bool) (m : Nat),
      (∀ f ∈ dFields, f = []) → dFields.length ≤ m →
      markEmptyFields dFields A.length { m_pData := A ++ List.replicate m false, m_iElements := iElements }
        = { m_pData := A ++ List.replicate dFields.length true
              ++ List.replicate (m - dFields.length) false, m_iElements := iElements } := by
  intro dFields
  induction dFields with
  | nil => intro A m _ _; simp [markEmptyFields]
  | cons f rest ih =>
    intro A m hall hlen
    have hf : f = [] := hall f (List.mem_cons_self _ _)
    subst hf
    simp only [List.length_cons] at hlen
    obtain ⟨m', rfl⟩ : ∃ m', m = m' + 1 := ⟨m - 1, by omega⟩
    have hset : (A ++ List.replicate (m' + 1) false).set A.length true
        = (A ++ [true]) ++ List.replicate m' false := by
      simp [List.replicate_succ, List.set_append]
    have := ih (A ++ [true]) m' (fun g hg => hall g (List.mem_cons_of_mem _ hg)) (by omega)
    simp only [List.length_append, List.length_singleton] at this
    simp only [markEmptyFields, List.length_nil, if_true, CSphBitvec.BitSet, hset, this]
    simp [List.replicate_succ, List.append_assoc]

theorem List_map_const_nil {α : Type} (l : List α) :
    l.map (fun _ => ([] : List BYTE)) = List.replicate l.length [] := by
  induction l with
  | nil => rfl
  | cons a t ih => simp [List.replicate_succ, ih]

/-- C10: a document whose stored fields are all empty is written into the
small-block body as the single byte 0x01 (ALL_EMPTY), and `ProcessSmallBlockDoc`
reads exactly that one byte and returns only empty fields, which for a request of
all fields is the document itself. -/
theorem C10_all_empty_doc (tFields : DocstoreFields_c) (tDoc : StoredDoc_t)
    (hlen : tDoc.m_dFields.length = tFields.GetNumFields)
    (hempty : ∀ f ∈ tDoc.m_dFields, f = []) :
    writeSmallBlockDoc tFields.GetNumFields tDoc = [1] ∧
    (∀ (pre post : List BYTE) (tRowID : Nat) (pFieldIds : Option (List Nat))
        (dFieldInRset : List (Option Nat)) (bPack : Bool) (st : SmallDocState),
      st.tReader = { m_pData := pre ++ writeSmallBlockDoc tFields.GetNumFields tDoc ++ post,
                     m_iPos := pre.length } →
      ProcessSmallBlockDoc tFields tRowID tRowID pFieldIds dFieldInRset bPack st
        = (true, { st with
            tReader := { st.tReader with m_iPos := pre.length + 1 },
            tResult := List.replicate (resultSize tFields.GetNumFields pFieldIds) [] })) ∧
    List.replicate (resultSize tFields.GetNumFields none) [] = tDoc.m_dFields := by
  have henc : writeSmallBlockDoc tFields.GetNumFields tDoc = [1] := by
    unfold writeSmallBlockDoc
    have h := markEmptyFields_allEmpty tFields.GetNumFields tDoc.m_dFields []
      (32 * ((tFields.GetNumFields + 31) / 32)) hempty (by omega)
    simp only [List.length_nil, List.nil_append] at h
    simp only [CSphBitvec.Init, CSphBitvec.Clear, CSphBitvec.GetSize, h, CSphBitvec.BitCount]
    simp [List.count_replicate, hlen, DOC_FLAG_ALL_EMPTY]
  refine ⟨henc, ?_, ?_⟩
  · intro pre post tRowID pFieldIds dFieldInRset bPack st hst
    rw [henc] at hst
    have hbyte : st.tReader.GetByte.1 = 1 := by
      simp only [MemoryReader2_c.GetByte, hst, List.append_assoc, List.singleton_append]
      exact getD_append_cons pre 1 post 0
    have hflag : hasFlag st.tReader.GetByte.1 DOC_FLAG_ALL_EMPTY = true := by
      rw [hbyte]; decide
    unfold ProcessSmallBlockDoc
    simp only [hflag, if_true, decide_True]
    simp only [List.map_append, List_map_const_nil, List.length_take, List.length_replicate,
      MemoryReader2_c.GetByte, hst]
    congr 2
    rw [← List.replicate_add]
    congr 1
    omega
  · simp only [resultSize, ← hlen]
    symm
    apply List.eq_replicate_iff.mpr
    exact ⟨rfl, hempty⟩

theorem C10_all_empty_doc_witness :
    writeSmallBlockDoc 10 { m_tRowID := 0, m_dFields := List.replicate 10 [] } = [1] :=
  (C10_all_empty_doc
    { m_dFields := List.replicate 10 { m_sName := [102], m_eType := DOCSTORE_TEXT } }
    { m_tRowID := 0, m_dFields := List.replicate 10 [] } (by decide) (by decide)).1

/-! ## Varints -/

theorem zipGroups_lt (fuel : Nat) : ∀ (v b : Nat), b ∈ zipGroups fuel v → b < 256 := by
  induction fuel with
  | zero => intro v b hb; simp [zipGroups] at hb
  | succ n ih =>
    intro v b hb
    unfold zipGroups at hb
    by_cases hv : v < 128
    · rw [if_pos hv] at hb
      have : b = v := by simpa using hb
      omega
    · rw [if_neg hv] at hb
      rcases List.mem_cons.mp hb with h | h
      · omega
      · exact ih _ _ h

theorem unzipBytes_zipGroups (fuel : Nat) : ∀ (v : Nat) (rest : List BYTE), v < 128 ^ (fuel + 1) →
    unzipBytes (zipGroups (fuel + 1) v ++ rest) = (v, (zipGroups (fuel + 1) v).length) := by
  induction fuel with
  | zero =>
    intro v rest h
    have hv : v < 128 := by simpa using h
    simp [zipGroups, hv, unzipBytes]
  | succ n ih =>
    intro v rest h
    unfold zipGroups
    by_cases hv : v < 128
    · simp [hv, unzipBytes]
    · have hlt : v / 128 < 128 ^ (n + 1) := by
        rw [Nat.div_lt_iff_lt_mul (by norm_num)]
        rw [pow_succ] at h
        exact h
      simp only [hv, if_false, List.cons_append, unzipBytes, ih (v / 128) rest hlt,
        List.length_cons]
      have h1 : ¬ (v % 128 + 128 < 128) := by omega
      simp only [h1, if_false]
      congr 1
      omega

theorem unzipBytes_ZipInt (v : Nat) (rest : List BYTE) :
    unzipBytes (ZipInt v ++ rest) = (v % DWORD_MOD, (ZipInt v).length) := by
  unfold ZipInt
  apply unzipBytes_zipGroups
  have : v % DWORD_MOD < DWORD_MOD := Nat.mod_lt _ (by decide)
  have h2 : DWORD_MOD ≤ 128 ^ 5 := by decide
  omega

theorem unzipBytes_ZipOffset (v : Nat) (rest : List BYTE) :
    unzipBytes (ZipOffset v ++ rest)
      = (v % 18446744073709551616, (ZipOffset v).length) := by
  unfold ZipOffset
  apply unzipBytes_zipGroups
  have : v % 18446744073709551616 < 18446744073709551616 := Nat.mod_lt _ (by decide)
  have h2 : 18446744073709551616 ≤ 128 ^ 10 := by decide
  omega

theorem zipGroups_length_pos (fuel v : Nat) : 0 < (zipGroups (fuel + 1) v).length := by
  unfold zipGroups
  split <;> simp

/-! ## Effect of `WriteBlock` and `AddDoc` on the builder state -/

theorem WriteBlock_fields (c : Compressor_i) (s : DocstoreBuilder_c) :
    (s.WriteBlock c).m_tFields = s.m_tFields := by
  unfold DocstoreBuilder_c.WriteBlock
  by_cases hw : s.m_tWriter.length = 0 <;> by_cases hd : s.m_dStoredDocs = [] <;>
    by_cases hb : (s.m_dStoredDocs.length = 1 ∧ s.m_uStoredLen ≥ s.m_uBlockSize) <;>
    simp [hw, hd, hb, DocstoreBuilder_c.WriteInitialHeader, DocstoreBuilder_c.WriteBigBlock,
      DocstoreBuilder_c.WriteBigBlockHeader, DocstoreBuilder_c.WriteSmallBlock,
      DocstoreBuilder_c.WriteSmallBlockHeader]

theorem WriteBlock_blockSize (c : Compressor_i) (s : DocstoreBuilder_c) :
    (s.WriteBlock c).m_uBlockSize = s.m_uBlockSize := by
  unfold DocstoreBuilder_c.WriteBlock
  by_cases hw : s.m_tWriter.length = 0 <;> by_cases hd : s.m_dStoredDocs = [] <;>
    by_cases hb : (s.m_dStoredDocs.length = 1 ∧ s.m_uStoredLen ≥ s.m_uBlockSize) <;>
    simp [hw, hd, hb, DocstoreBuilder_c.WriteInitialHeader, DocstoreBuilder_c.WriteBigBlock,
      DocstoreBuilder_c.WriteBigBlockHeader, DocstoreBuilder_c.WriteSmallBlock,
      DocstoreBuilder_c.WriteSmallBlockHeader]

theorem WriteBlock_storedDocs (c : Compressor_i) (s : DocstoreBuilder_c) :
    (s.WriteBlock c).m_dStoredDocs = [] := by
  unfold DocstoreBuilder_c.WriteBlock
  by_cases hw : s.m_tWriter.length = 0 <;> by_cases hd : s.m_dStoredDocs = [] <;>
    simp [hw, hd, DocstoreBuilder_c.WriteInitialHeader]

theorem WriteBlock_storedLen (c : Compressor_i) (s : DocstoreBuilder_c) :
    (s.WriteBlock c).m_uStoredLen = if s.m_dStoredDocs = [] then s.m_uStoredLen else 0 := by
  unfold DocstoreBuilder_c.WriteBlock
  by_cases hw : s.m_tWriter.length = 0 <;> by_cases hd : s.m_dStoredDocs = [] <;>
    simp [hw, hd, DocstoreBuilder_c.WriteInitialHeader]

theorem WriteBlock_numBlocks (c : Compressor_i) (s : DocstoreBuilder_c) :
    (s.WriteBlock c).m_iNumBlocks
      = if s.m_dStoredDocs = [] then s.m_iNumBlocks else s.m_iNumBlocks + 1 := by
  unfold DocstoreBuilder_c.WriteBlock
  by_cases hw : s.m_tWriter.length = 0 <;> by_cases hd : s.m_dStoredDocs = [] <;>
    by_cases hb : (s.m_dStoredDocs.length = 1 ∧ s.m_uStoredLen ≥ s.m_uBlockSize) <;>
    simp [hw, hd, hb, DocstoreBuilder_c.WriteInitialHeader, DocstoreBuilder_c.WriteBigBlock,
      DocstoreBuilder_c.WriteBigBlockHeader, DocstoreBuilder_c.WriteSmallBlock,
      DocstoreBuilder_c.WriteSmallBlockHeader]

theorem WriteBlock_header_empty (c : Compressor_i) (s : DocstoreBuilder_c)
    (he : s.m_dStoredDocs = []) : (s.WriteBlock c).m_dHeader = s.m_dHeader := by
  unfold DocstoreBuilder_c.WriteBlock
  by_cases hw : s.m_tWriter.length = 0 <;>
    simp [hw, he, DocstoreBuilder_c.WriteInitialHeader]

theorem WriteBlock_header_nonempty (c : Compressor_i) (s : DocstoreBuilder_c)
    (hne : s.m_dStoredDocs ≠ []) :
    ∃ tail : List BYTE,
      (s.WriteBlock c).m_dHeader = s.m_dHeader
        ++ (ZipInt (((s.m_dStoredDocs.getD 0 default).m_tRowID + DWORD_MOD - s.m_tPrevBlockRowID)
            % DWORD_MOD)
        ++ ((if s.m_dStoredDocs.length = 1 ∧ s.m_uBlockSize ≤ s.m_uStoredLen
            then BLOCK_TYPE_BIG else BLOCK_TYPE_SMALL) :: tail)) := by
  unfold DocstoreBuilder_c.WriteBlock
  by_cases hw : s.m_tWriter.length = 0 <;>
    by_cases hb : (s.m_dStoredDocs.length = 1 ∧ s.m_uBlockSize ≤ s.m_uStoredLen)
  all_goals
    simp only [hw, hne, hb, if_true, if_false, List.length_eq_zero, ge_iff_le,
      Bool.and_eq_true, decide_eq_true_eq, Bool.decide_and,
      DocstoreBuilder_c.WriteInitialHeader, DocstoreBuilder_c.WriteBigBlock,
      DocstoreBuilder_c.WriteBigBlockHeader, DocstoreBuilder_c.WriteSmallBlock,
      DocstoreBuilder_c.WriteSmallBlockHeader, List.append_assoc, List.singleton_append]
    exact ⟨_, rfl⟩

theorem docLen_foldl (l : List (List BYTE)) : ∀ u0 : Nat,
    (l.foldl (fun uLen i => (uLen + i.length) % DWORD_MOD) u0) % DWORD_MOD
      = (u0 + (l.map List.length).sum) % DWORD_MOD := by
  induction l with
  | nil => intro u0; simp
  | cons a t ih =>
    intro u0
    simp only [List.foldl_cons, List.map_cons, List.sum_cons]
    rw [ih]
    rw [Nat.add_mod, Nat.mod_mod, ← Nat.add_mod]
    congr 1
    omega

theorem docLen_lt (l : List (List BYTE)) : ∀ u0 : Nat, u0 < DWORD_MOD →
    l.foldl (fun uLen i => (uLen + i.length) % DWORD_MOD) u0 < DWORD_MOD := by
  induction l with
  | nil => intro u0 h; simpa using h
  | cons a t ih =>
    intro u0 _
    simp only [List.foldl_cons]
    exact ih _ (Nat.mod_lt _ (by decide))

/-- The `DWORD` that `AddDoc` computes is the byte length of the document modulo `2^32`. -/
theorem docLen_eq (d : Doc_t) : docLen d = docBytes d % DWORD_MOD := by
  have h1 := docLen_foldl d.m_dFields 0
  have h2 := docLen_lt d.m_dFields 0 (by decide)
  unfold docLen docBytes
  rw [Nat.mod_eq_of_lt h2] at h1
  simpa using h1

theorem AddDoc_fields (c : Compressor_i) (s : DocstoreBuilder_c) (r : Nat) (d : Doc_t) :
    (s.AddDoc c r d).m_tFields = s.m_tFields := by
  unfold DocstoreBuilder_c.AddDoc
  by_cases h : (s.m_uStoredLen + docLen d) % DWORD_MOD > s.m_uBlockSize <;>
    simp [h, WriteBlock_fields]

theorem AddDoc_blockSize (c : Compressor_i) (s : DocstoreBuilder_c) (r : Nat) (d : Doc_t) :
    (s.AddDoc c r d).m_uBlockSize = s.m_uBlockSize := by
  unfold DocstoreBuilder_c.AddDoc
  by_cases h : (s.m_uStoredLen + docLen d) % DWORD_MOD > s.m_uBlockSize <;>
    simp [h, WriteBlock_blockSize]

theorem AddDoc_storedDocs (c : Compressor_i) (s : DocstoreBuilder_c) (r : Nat) (d : Doc_t) :
    (s.AddDoc c r d).m_dStoredDocs
      = (if (s.m_uStoredLen + docLen d) % DWORD_MOD > s.m_uBlockSize then []
          else s.m_dStoredDocs) ++ [storedDocOf s.m_tFields (r, d)] := by
  unfold DocstoreBuilder_c.AddDoc storedDocOf
  by_cases h : (s.m_uStoredLen + docLen d) % DWORD_MOD > s.m_uBlockSize <;>
    simp [h, WriteBlock_fields, WriteBlock_storedDocs]

theorem AddDoc_storedLen (c : Compressor_i) (s : DocstoreBuilder_c) (r : Nat) (d : Doc_t) :
    (s.AddDoc c r d).m_uStoredLen
      = ((if (s.m_uStoredLen + docLen d) % DWORD_MOD > s.m_uBlockSize ∧ s.m_dStoredDocs ≠ []
            then 0 else s.m_uStoredLen) + docLen d) % DWORD_MOD := by
  unfold DocstoreBuilder_c.AddDoc
  by_cases h : (s.m_uStoredLen + docLen d) % DWORD_MOD > s.m_uBlockSize <;>
    by_cases hd : s.m_dStoredDocs = [] <;>
    simp [h, hd, WriteBlock_storedLen]

theorem AddDoc_numBlocks (c : Compressor_i) (s : DocstoreBuilder_c) (r : Nat) (d : Doc_t) :
    (s.AddDoc c r d).m_iNumBlocks
      = if (s.m_uStoredLen + docLen d) % DWORD_MOD > s.m_uBlockSize ∧ s.m_dStoredDocs ≠ []
          then s.m_iNumBlocks + 1 else s.m_iNumBlocks := by
  unfold DocstoreBuilder_c.AddDoc
  by_cases h : (s.m_uStoredLen + docLen d) % DWORD_MOD > s.m_uBlockSize <;>
    by_cases hd : s.m_dStoredDocs = [] <;>
    simp [h, hd, WriteBlock_numBlocks]

theorem AddDocs_snoc (c : Compressor_i) (s : DocstoreBuilder_c) (pre : List (Nat × Doc_t))
    (a : Nat × Doc_t) : AddDocs c s (pre ++ [a]) = (AddDocs c s pre).AddDoc c a.1 a.2 := by
  simp [AddDocs, List.foldl_append]

/-- The invariant of a run of `AddDoc` calls that starts without pending
documents: the registry and the block size are those of the start, the pending
documents are the stored forms of the last inputs, and `m_uStoredLen` is the sum
of the input byte lengths of those inputs (modulo `2^32`). -/
theorem AddDocs_invariant (c : Compressor_i) (sInit : DocstoreBuilder_c)
    (h1 : sInit.m_dStoredDocs = []) (h2 : sInit.m_uStoredLen = 0) (pre : List (Nat × Doc_t)) :
    (AddDocs c sInit pre).m_tFields = sInit.m_tFields ∧
    (AddDocs c sInit pre).m_uBlockSize = sInit.m_uBlockSize ∧
    (AddDocs c sInit pre).m_dStoredDocs.length ≤ pre.length ∧
    (AddDocs c sInit pre).m_dStoredDocs
      = (pendingInputs (AddDocs c sInit pre) pre).map (storedDocOf sInit.m_tFields) ∧
    (AddDocs c sInit pre).m_uStoredLen
      = ((pendingInputs (AddDocs c sInit pre) pre).map (fun d => docBytes d.2)).sum % DWORD_MOD := by
  induction pre using List.reverseRecOn with
  | nil => simp [AddDocs, pendingInputs, h1, h2]
  | append_singleton l a ih =>
    obtain ⟨ihF, ihB, ihL, ihD, ihS⟩ := ih
    rw [AddDocs_snoc]
    generalize AddDocs c sInit l = s at *
    have hdocs := AddDoc_storedDocs c s a.1 a.2
    have hlen := AddDoc_storedLen c s a.1 a.2
    refine ⟨by rw [AddDoc_fields, ihF], by rw [AddDoc_blockSize, ihB], ?_, ?_, ?_⟩
    · rw [hdocs]
      split
      · simp
      · simp only [List.length_append, List.length_singleton]; omega
    · by_cases hc : (s.m_uStoredLen + docLen a.2) % DWORD_MOD > s.m_uBlockSize
      · rw [if_pos hc] at hdocs
        simp only [pendingInputs, hdocs, List.nil_append, List.length_singleton,
          List.length_append, ihF]
        have : l.length + 1 - 1 = l.length := by omega
        rw [this, List.drop_left]
        rfl
      · rw [if_neg hc] at hdocs
        simp only [pendingInputs, hdocs, List.length_singleton, List.length_append, ihF]
        have : l.length + 1 - (s.m_dStoredDocs.length + 1) = l.length - s.m_dStoredDocs.length := by
          omega
        rw [this, List.drop_append_of_le_length (by omega), List.map_append]
        conv_lhs => rw [ihD]
        simp [pendingInputs, ihF]
    · by_cases hc : (s.m_uStoredLen + docLen a.2) % DWORD_MOD > s.m_uBlockSize
      · rw [if_pos hc] at hdocs
        have hs0 : (if (s.m_uStoredLen + docLen a.2) % DWORD_MOD > s.m_uBlockSize
            ∧ s.m_dStoredDocs ≠ [] then 0 else s.m_uStoredLen) = 0 := by
          by_cases hd : s.m_dStoredDocs = []
          · simp only [hd, ne_eq, not_true_eq_false, and_false, if_false]
            rw [ihS]
            simp [pendingInputs, hd]
          · simp [hc, hd]
        rw [hlen, hs0]
        simp only [pendingInputs, hdocs, List.nil_append, List.length_singleton,
          List.length_append]
        have : l.length + 1 - 1 = l.length := by omega
        rw [this, List.drop_left]
        simp [docLen_eq]
      · rw [if_neg hc] at hdocs
        rw [hlen]
        simp only [hc, false_and, if_false]
        simp only [pendingInputs, hdocs, List.length_singleton, List.length_append]
        have : l.length + 1 - (s.m_dStoredDocs.length + 1) = l.length - s.m_dStoredDocs.length := by
          omega
        rw [this, List.drop_append_of_le_length (by omega), List.map_append, List.sum_append,
          ihS, docLen_eq]
        simp only [pendingInputs, List.map_cons, List.map_nil, List.sum_cons, List.sum_nil,
          Nat.add_zero]
        rw [← Nat.add_mod]

/-! ## The boundary scenarios -/

theorem WriteTrailingHeader_numBlocks (s : DocstoreBuilder_c) :
    s.WriteTrailingHeader.m_iNumBlocks = s.m_iNumBlocks := rfl

theorem boundaryBuilder_fresh :
    boundaryBuilder.m_dStoredDocs = [] ∧ boundaryBuilder.m_uStoredLen = 0 ∧
    boundaryBuilder.m_uBlockSize = 1024 ∧ boundaryBuilder.m_iNumBlocks = 0 := by
  decide

theorem docLen_single (n b : Nat) (h : n < DWORD_MOD) :
    docLen { m_dFields := [List.replicate n b] } = n := by
  rw [docLen_eq]
  simp [docBytes, Nat.mod_eq_of_lt h]

/-- Two documents of which the first fits the block and the second does not fit
beside it end in two blocks. -/
theorem two_docs_two_blocks (c : Compressor_i) (s : DocstoreBuilder_c) (d0 d1 : Doc_t)
    (hd : s.m_dStoredDocs = []) (hl : s.m_uStoredLen = 0) (hn : s.m_iNumBlocks = 0)
    (h0 : ¬ (0 + docLen d0) % DWORD_MOD > s.m_uBlockSize)
    (h1 : ((0 + docLen d0) % DWORD_MOD + docLen d1) % DWORD_MOD > s.m_uBlockSize) :
    (((s.AddDoc c 0 d0).AddDoc c 1 d1).Finalize c).m_iNumBlocks = 2 := by
  have a1 : (s.AddDoc c 0 d0).m_dStoredDocs = [storedDocOf s.m_tFields (0, d0)] := by
    rw [AddDoc_storedDocs, hl, if_neg h0, hd]; rfl
  have a2 : (s.AddDoc c 0 d0).m_uStoredLen = (0 + docLen d0) % DWORD_MOD := by
    rw [AddDoc_storedLen, hl, if_neg (fun h => h0 h.1)]
  have a3 : (s.AddDoc c 0 d0).m_iNumBlocks = 0 := by
    rw [AddDoc_numBlocks, hl, if_neg (fun h => h0 h.1), hn]
  have a4 : (s.AddDoc c 0 d0).m_uBlockSize = s.m_uBlockSize := AddDoc_blockSize c s 0 d0
  have b1 : ((s.AddDoc c 0 d0).AddDoc c 1 d1).m_dStoredDocs
      = [storedDocOf (s.AddDoc c 0 d0).m_tFields (1, d1)] := by
    rw [AddDoc_storedDocs, a2, a4, if_pos h1]; rfl
  have b3 : ((s.AddDoc c 0 d0).AddDoc c 1 d1).m_iNumBlocks = 1 := by
    rw [AddDoc_numBlocks, a2, a4, a1, a3, if_pos ⟨h1, by simp⟩]
  rw [DocstoreBuilder_c.Finalize, WriteTrailingHeader_numBlocks, WriteBlock_numBlocks, b1, b3,
    if_neg (by simp)]

/-- C3 (as stated, refuted): the file built from the two 600-byte documents with
`block_size = 1024` does not have a directory of one entry. -/
theorem C3_single_block_refuted :
    ¬ ∃ st, Docstore_c.Init twoSmallDocsFile = some st ∧ st.m_dBlocks.length = 1 := by
  have h : (Docstore_c.Init twoSmallDocsFile).map (fun st => st.m_dBlocks.length) = some 2 := by
    decide!
  rintro ⟨st, hst, hl⟩
  rw [hst] at h
  simp only [Option.map_some', Option.some.injEq] at h
  omega

/-- C3 (amended): with one TEXT field and `block_size = 1024`, doc 0 = 600 × 'a'
and doc 1 = 600 × 'b' followed by `Finalize` give two blocks whatever the codec;
without compression the directory has the two entries (RowID 0, SMALL) and
(RowID 1, SMALL), each block holds one document and `GetDoc` returns doc 0 and
doc 1 from them. -/
theorem C3_two_small_blocks :
    (∀ c : Compressor_i,
      (((boundaryBuilder.AddDoc c 0 { m_dFields := [List.replicate 600 97] }).AddDoc c 1
        { m_dFields := [List.replicate 600 98] }).Finalize c).m_iNumBlocks = 2) ∧
    (Docstore_c.Init twoSmallDocsFile).map
        (fun st => st.m_dBlocks.map (fun b => (b.m_tRowID, b.m_eType)))
      = some [(0, BLOCK_TYPE_SMALL), (1, BLOCK_TYPE_SMALL)] ∧
    (Docstore_c.Init twoSmallDocsFile).map
        (fun st => (smallBlockNumDocs Compressor_None_c st 0,
          smallBlockNumDocs Compressor_None_c st 1)) = some (1, 1) ∧
    (Docstore_c.Init twoSmallDocsFile).bind
        (fun st => st.GetDoc Compressor_None_c noCache 0 none false)
      = some { m_dFields := [List.replicate 600 97 ++ [0]] } ∧
    (Docstore_c.Init twoSmallDocsFile).bind
        (fun st => st.GetDoc Compressor_None_c noCache 1 none false)
      = some { m_dFields := [List.replicate 600 98 ++ [0]] } := by
  refine ⟨?_, by decide!, by decide!, by decide!, by decide!⟩
  intro c
  exact two_docs_two_blocks c boundaryBuilder _ _ boundaryBuilder_fresh.1 boundaryBuilder_fresh.2.1
    boundaryBuilder_fresh.2.2.2 (by
      rw [docLen_single _ _ (by decide), boundaryBuilder_fresh.2.2.1]; decide)
    (by rw [docLen_single _ _ (by decide), docLen_single _ _ (by decide),
          boundaryBuilder_fresh.2.2.1]; decide)

/-! ## Block choice at flush time -/

theorem flushedBlockType_eq (c : Compressor_i) (s : DocstoreBuilder_c)
    (hne : s.m_dStoredDocs ≠ []) :
    flushedBlockType c s =
      if s.m_dStoredDocs.length = 1 ∧ s.m_uBlockSize ≤ s.m_uStoredLen
      then BLOCK_TYPE_BIG else BLOCK_TYPE_SMALL := by
  obtain ⟨tail, h⟩ := WriteBlock_header_nonempty c s hne
  unfold flushedBlockType
  simp only [h, List.drop_left, unzipBytes_ZipInt]
  exact getD_append_cons _ _ _ _

/-- After an `AddDoc` in a run, the pending buffer is not empty, and when it holds
one document `m_uStoredLen` is the byte length of the document just added. -/
theorem AddDoc_last (c : Compressor_i) (sInit : DocstoreBuilder_c)
    (h1 : sInit.m_dStoredDocs = []) (h2 : sInit.m_uStoredLen = 0)
    (pre : List (Nat × Doc_t)) (r : Nat) (d : Doc_t) :
    ((AddDocs c sInit pre).AddDoc c r d).m_dStoredDocs ≠ [] ∧
    (((AddDocs c sInit pre).AddDoc c r d).m_dStoredDocs.length = 1 →
      ((AddDocs c sInit pre).AddDoc c r d).m_dStoredDocs = [storedDocOf sInit.m_tFields (r, d)] ∧
      ((AddDocs c sInit pre).AddDoc c r d).m_uStoredLen = docBytes d % DWORD_MOD) := by
  have hinv := AddDocs_invariant c sInit h1 h2 (pre ++ [(r, d)])
  rw [AddDocs_snoc] at hinv
  obtain ⟨_, _, _, hD, hS⟩ := hinv
  refine ⟨?_, ?_⟩
  · rw [AddDoc_storedDocs]; simp
  · intro hlen
    have hp : pendingInputs ((AddDocs c sInit pre).AddDoc c r d) (pre ++ [(r, d)]) = [(r, d)] := by
      simp only [pendingInputs, hlen, List.length_append, List.length_singleton]
      have : pre.length + 1 - 1 = pre.length := by omega
      rw [this, List.drop_left]
    rw [hp] at hD hS
    exact ⟨by simpa using hD, by simpa using hS⟩

/-! ## The flush rule of `AddDoc` -/

theorem AddDoc_writer (c : Compressor_i) (s : DocstoreBuilder_c) (r : Nat) (d : Doc_t) :
    (s.AddDoc c r d).m_tWriter
      = (if (s.m_uStoredLen + docLen d) % DWORD_MOD > s.m_uBlockSize then s.WriteBlock c
          else s).m_tWriter := by
  unfold DocstoreBuilder_c.AddDoc
  by_cases h : (s.m_uStoredLen + docLen d) % DWORD_MOD > s.m_uBlockSize <;> simp [h]

theorem AddDoc_header (c : Compressor_i) (s : DocstoreBuilder_c) (r : Nat) (d : Doc_t) :
    (s.AddDoc c r d).m_dHeader
      = (if (s.m_uStoredLen + docLen d) % DWORD_MOD > s.m_uBlockSize then s.WriteBlock c
          else s).m_dHeader := by
  unfold DocstoreBuilder_c.AddDoc
  by_cases h : (s.m_uStoredLen + docLen d) % DWORD_MOD > s.m_uBlockSize <;> simp [h]

/-- C5: in a run of `AddDoc` calls, with `stored_len` the total input byte length
of the pending documents (which `m_uStoredLen` equals) and `doc_len` that of the
new document: if `stored_len + doc_len > block_size` the pending documents are
written by `WriteBlock` (one more block when there are pending documents) and the
new document is then the only pending one; otherwise nothing is written and the
new document is appended behind the pending ones. With `block_size = 1024`, a
600-byte doc 0 and a 2048-byte doc 1 give the directory (RowID 0, SMALL),
(RowID 1, BIG), the small block holding one document. -/
theorem C5_AddDoc_flush_rule (c : Compressor_i) (sInit : DocstoreBuilder_c)
    (pre : List (Nat × Doc_t)) (r : Nat) (d : Doc_t)
    (h1 : sInit.m_dStoredDocs = []) (h2 : sInit.m_uStoredLen = 0)
    (hfit : ((pendingInputs (AddDocs c sInit pre) pre).map (fun x => docBytes x.2)).sum
      + docBytes d < DWORD_MOD) :
    (AddDocs c sInit pre).m_uStoredLen
      = ((pendingInputs (AddDocs c sInit pre) pre).map (fun x => docBytes x.2)).sum ∧
    (AddDocs c sInit pre).m_dStoredDocs
      = (pendingInputs (AddDocs c sInit pre) pre).map (storedDocOf sInit.m_tFields) ∧
    (((pendingInputs (AddDocs c sInit pre) pre).map (fun x => docBytes x.2)).sum + docBytes d
        > sInit.m_uBlockSize →
      ((AddDocs c sInit pre).AddDoc c r d).m_dStoredDocs = [storedDocOf sInit.m_tFields (r, d)] ∧
      ((AddDocs c sInit pre).AddDoc c r d).m_tWriter = ((AddDocs c sInit pre).WriteBlock c).m_tWriter ∧
      ((AddDocs c sInit pre).AddDoc c r d).m_dHeader = ((AddDocs c sInit pre).WriteBlock c).m_dHeader ∧
      ((AddDocs c sInit pre).AddDoc c r d).m_iNumBlocks
        = ((AddDocs c sInit pre).WriteBlock c).m_iNumBlocks) ∧
    (¬ ((pendingInputs (AddDocs c sInit pre) pre).map (fun x => docBytes x.2)).sum + docBytes d
        > sInit.m_uBlockSize →
      ((AddDocs c sInit pre).AddDoc c r d).m_dStoredDocs
        = (AddDocs c sInit pre).m_dStoredDocs ++ [storedDocOf sInit.m_tFields (r, d)] ∧
      ((AddDocs c sInit pre).AddDoc c r d).m_tWriter = (AddDocs c sInit pre).m_tWriter ∧
      ((AddDocs c sInit pre).AddDoc c r d).m_dHeader = (AddDocs c sInit pre).m_dHeader ∧
      ((AddDocs c sInit pre).AddDoc c r d).m_iNumBlocks = (AddDocs c sInit pre).m_iNumBlocks) ∧
    ((AddDocs c sInit pre).m_dStoredDocs ≠ [] →
      (((AddDocs c sInit pre).AddDoc c r d).m_iNumBlocks = (AddDocs c sInit pre).m_iNumBlocks + 1 ↔
        ((pendingInputs (AddDocs c sInit pre) pre).map (fun x => docBytes x.2)).sum + docBytes d
          > sInit.m_uBlockSize)) ∧
    (Docstore_c.Init smallThenBigFile).map
        (fun st => (st.m_dBlocks.map (fun b => (b.m_tRowID, b.m_eType)),
          smallBlockNumDocs Compressor_None_c st 0))
      = some ([(0, BLOCK_TYPE_SMALL), (1, BLOCK_TYPE_BIG)], 1) ∧
    (Docstore_c.Init smallThenBigFile).bind
        (fun st => st.GetDoc Compressor_None_c noCache 0 none false)
      = some { m_dFields := [List.replicate 600 97 ++ [0]] } ∧
    (Docstore_c.Init smallThenBigFile).bind
        (fun st => st.GetDoc Compressor_None_c noCache 1 none false)
      = some { m_dFields := [List.replicate 2048 99 ++ [0]] } := by
  obtain ⟨hF, hB, _, hD, hS⟩ := AddDocs_invariant c sInit h1 h2 pre
  generalize AddDocs c sInit pre = s at *
  generalize hsum : ((pendingInputs s pre).map (fun x => docBytes x.2)).sum = stored_len at *
  have hSL : s.m_uStoredLen = stored_len := by rw [hS]; exact Nat.mod_eq_of_lt (by omega)
  have hdl : docLen d = docBytes d := by rw [docLen_eq]; exact Nat.mod_eq_of_lt (by omega)
  have hcond : (s.m_uStoredLen + docLen d) % DWORD_MOD = stored_len + docBytes d := by
    rw [hSL, hdl]; exact Nat.mod_eq_of_lt hfit
  refine ⟨hSL, hD, ?_, ?_, ?_, by decide!, by decide!, by decide!⟩
  · intro hgt
    have hc : (s.m_uStoredLen + docLen d) % DWORD_MOD > s.m_uBlockSize := by
      rw [hcond, hB]; exact hgt
    refine ⟨?_, ?_, ?_, ?_⟩
    · rw [AddDoc_storedDocs, if_pos hc, hF]; rfl
    · rw [AddDoc_writer, if_pos hc]
    · rw [AddDoc_header, if_pos hc]
    · rw [AddDoc_numBlocks, WriteBlock_numBlocks]
      by_cases hd : s.m_dStoredDocs = []
      · simp [hd]
      · simp [hd, hc]
  · intro hgt
    have hc : ¬ (s.m_uStoredLen + docLen d) % DWORD_MOD > s.m_uBlockSize := by
      rw [hcond, hB]; exact hgt
    refine ⟨?_, ?_, ?_, ?_⟩
    · rw [AddDoc_storedDocs, if_neg hc, hF]
    · rw [AddDoc_writer, if_neg hc]
    · rw [AddDoc_header, if_neg hc]
    · rw [AddDoc_numBlocks, if_neg (fun h => hc h.1)]
  · intro hne
    rw [AddDoc_numBlocks, hcond, hB]
    by_cases hgt : stored_len + docBytes d > sInit.m_uBlockSize
    · simp [hgt, hne]
    · simp [hgt]

theorem C5_AddDoc_flush_rule_witness :
    ((pendingInputs (AddDocs Compressor_None_c boundaryBuilder
          [(0, { m_dFields := [List.replicate 600 97] })])
        [(0, { m_dFields := [List.replicate 600 97] })]).map (fun x => docBytes x.2)).sum
      + docBytes { m_dFields := [List.replicate 2048 99] } < DWORD_MOD ∧
    ((AddDocs Compressor_None_c boundaryBuilder
        [(0, { m_dFields := [List.replicate 600 97] })]).AddDoc Compressor_None_c 1
      { m_dFields := [List.replicate 2048 99] }).m_dStoredDocs
      = [storedDocOf boundaryBuilder.m_tFields (1, { m_dFields := [List.replicate 2048 99] })] :=
  ⟨by decide!,
   ((C5_AddDoc_flush_rule Compressor_None_c boundaryBuilder
      [(0, { m_dFields := [List.replicate 600 97] })] 1
      { m_dFields := [List.replicate 2048 99] } (by decide) (by decide)
      (by decide!)).2.2.1 (by decide!)).1⟩

/-! ## Size of the document of a big block -/

theorem sum_map_eq_sum_range {α : Type} (f : α → Nat) (dflt : α) (l : List α) :
    (l.map f).sum = ((List.range l.length).map (fun i => f (l.getD i dflt))).sum := by
  induction l with
  | nil => rfl
  | cons a t ih =>
    rw [List.length_cons, List.range_succ_eq_map, List.map_cons, List.map_cons, List.sum_cons,
      List.sum_cons, List.map_map, ih]
    rfl

theorem storedField_length (tFields : DocstoreFields_c) (d : Doc_t) (i : Nat) :
    (d.m_dFields.getD i []).length
      ≤ (storedField tFields d i).length
        + (if (tFields.GetField i).m_eType = DOCSTORE_TEXT then 1 else 0) := by
  unfold storedField
  simp only [List.length_take]
  split
  · rename_i h
    rw [if_pos h.1]
    omega
  · split <;> omega

/-- The stored form of a document is shorter than the input by at most one byte
per TEXT field. -/
theorem storedBytes_ge (tFields : DocstoreFields_c) (r : Nat) (d : Doc_t)
    (hnum : d.m_dFields.length = tFields.GetNumFields) :
    docBytes d ≤ storedBytes (storedDocOf tFields (r, d)) + numTextFields tFields := by
  unfold docBytes storedBytes numTextFields storedDocOf
  unfold DocstoreFields_c.GetNumFields at *
  rw [sum_map_eq_sum_range List.length [] d.m_dFields, hnum,
    sum_map_eq_sum_range (fun f => if f.m_eType = DOCSTORE_TEXT then 1 else 0) default
      tFields.m_dFields, List.map_map, ← List.sum_map_add]
  apply List.sum_le_sum
  intro i _
  exact storedField_length tFields d i

/-- C6 (as stated, refuted): the store with `block_size = 4` built from the one
document `"abc\\0"` has a BIG block whose `uncompressed_len` values sum to 3. -/
theorem C6_stored_size_refuted :
    ∃ st, Docstore_c.Init nulDocFile = some st ∧
      (st.m_dBlocks.getD 0 default).m_eType = BLOCK_TYPE_BIG ∧
      bigBlockUncompressedLen st 0 < st.m_uBlockSize := by
  have h : (Docstore_c.Init nulDocFile).map
      (fun st => ((st.m_dBlocks.getD 0 default).m_eType, bigBlockUncompressedLen st 0,
        st.m_uBlockSize)) = some (BLOCK_TYPE_BIG, 3, 4) := by decide!
  cases hI : Docstore_c.Init nulDocFile with
  | none => rw [hI] at h; cases h
  | some st =>
    rw [hI] at h
    simp only [Option.map_some', Option.some.injEq, Prod.mk.injEq] at h
    exact ⟨st, rfl, h.1, by rw [h.2.1, h.2.2]; decide⟩

/-- C6 (amended): whenever the builder writes a BIG block (the directory entry of
a flush after a run of `AddDoc` calls ending with document `d` has type BIG),
exactly one document is pending, it is the stored form of `d`, the byte length of
`d` as passed to `AddDoc` is at least `block_size`, and the stored form is shorter
than that by at most one byte per TEXT field. -/
theorem C6_big_block_input_size (c : Compressor_i) (sInit : DocstoreBuilder_c)
    (pre : List (Nat × Doc_t)) (r : Nat) (d : Doc_t)
    (h1 : sInit.m_dStoredDocs = []) (h2 : sInit.m_uStoredLen = 0)
    (hfit : docBytes d < DWORD_MOD)
    (hnum : d.m_dFields.length = sInit.m_tFields.GetNumFields)
    (hbig : flushedBlockType c ((AddDocs c sInit pre).AddDoc c r d) = BLOCK_TYPE_BIG) :
    ((AddDocs c sInit pre).AddDoc c r d).m_dStoredDocs = [storedDocOf sInit.m_tFields (r, d)] ∧
    sInit.m_uBlockSize ≤ docBytes d ∧
    sInit.m_uBlockSize ≤ storedBytes (storedDocOf sInit.m_tFields (r, d))
      + numTextFields sInit.m_tFields := by
  obtain ⟨hne, hone⟩ := AddDoc_last c sInit h1 h2 pre r d
  have hB : ((AddDocs c sInit pre).AddDoc c r d).m_uBlockSize = sInit.m_uBlockSize := by
    rw [AddDoc_blockSize]; exact (AddDocs_invariant c sInit h1 h2 pre).2.1
  have hty := flushedBlockType_eq c _ hne
  rw [hB, hbig] at hty
  have hcond : ((AddDocs c sInit pre).AddDoc c r d).m_dStoredDocs.length = 1 ∧
      sInit.m_uBlockSize ≤ ((AddDocs c sInit pre).AddDoc c r d).m_uStoredLen := by
    by_contra hc
    rw [if_neg hc] at hty
    exact absurd hty (by decide)
  obtain ⟨hdocs, hlen⟩ := hone hcond.1
  have hsz : sInit.m_uBlockSize ≤ docBytes d := by
    have := hcond.2
    rwa [hlen, Nat.mod_eq_of_lt hfit] at this
  exact ⟨hdocs, hsz, le_trans hsz (storedBytes_ge sInit.m_tFields r d hnum)⟩

theorem C6_big_block_input_size_witness :
    flushedBlockType Compressor_None_c
      ((AddDocs Compressor_None_c tinyBuilder []).AddDoc Compressor_None_c 0
        { m_dFields := [[97, 98, 99, 0]] }) = BLOCK_TYPE_BIG ∧
    tinyBuilder.m_uBlockSize ≤ docBytes { m_dFields := [[97, 98, 99, 0]] } :=
  ⟨by decide,
   (C6_big_block_input_size Compressor_None_c tinyBuilder [] 0 { m_dFields := [[97, 98, 99, 0]] }
      (by decide) (by decide) (by decide) (by decide) (by decide)).2.1⟩

/-! ## Empty TEXT fields and unknown rows -/

/-- C1 (failing input): a document whose only TEXT field is empty is stored as
ALL_EMPTY and `GetDoc ( 0, all fields, pack=false )` returns the field with no
bytes at all, not as the single NUL byte the round trip promises; the same empty
TEXT field beside a non-empty field (stored as a zero length) and in the in-memory
store does come back as a single NUL. -/
theorem C1_empty_text_field_without_nul :
    (Docstore_c.Init emptyTextFile).bind
        (fun st => st.GetDoc Compressor_None_c noCache 0 none false)
      = some { m_dFields := [[]] } ∧
    (Docstore_c.Init emptyAndByteFile).bind
        (fun st => st.GetDoc Compressor_None_c noCache 0 none false)
      = some { m_dFields := [[0], [5, 0]] } ∧
    emptyTextRT.GetDoc 0 none false = some { m_dFields := [[0]] } := by
  refine ⟨by decide!, by decide!, by decide!⟩

theorem processSmallBlockField_notFound (tFields : DocstoreFields_c)
    (dFieldInRset : List (Option Nat)) (bPack bHasBitmask : Bool) (st : SmallDocState)
    (iField : Nat) :
    (processSmallBlockField tFields dFieldInRset bPack false bHasBitmask st iField).tResult
      = st.tResult := by
  unfold processSmallBlockField
  split <;> rfl

theorem processSmallBlockFields_notFound (tFields : DocstoreFields_c)
    (dFieldInRset : List (Option Nat)) (bPack bHasBitmask : Bool) (l : List Nat) :
    ∀ st : SmallDocState,
      (l.foldl (processSmallBlockField tFields dFieldInRset bPack false bHasBitmask) st).tResult
        = st.tResult := by
  induction l with
  | nil => intro st; rfl
  | cons a t ih =>
    intro st
    rw [List.foldl_cons, ih, processSmallBlockField_notFound]

theorem ProcessSmallBlockDoc_notFound (tFields : DocstoreFields_c) (tCur tRowID : Nat)
    (pFieldIds : Option (List Nat)) (dFieldInRset : List (Option Nat)) (bPack : Bool)
    (st : SmallDocState) (hne : tCur ≠ tRowID) (hres : st.tResult = []) :
    (ProcessSmallBlockDoc tFields tCur tRowID pFieldIds dFieldInRset bPack st).1 = false ∧
    (ProcessSmallBlockDoc tFields tCur tRowID pFieldIds dFieldInRset bPack st).2.tResult = [] := by
  unfold ProcessSmallBlockDoc
  have hd : decide (tCur = tRowID) = false := by simp [hne]
  simp only [hd, Bool.false_eq_true, if_false]
  split
  · simp [hres]
  · refine ⟨rfl, ?_⟩
    rw [processSmallBlockFields_notFound]
    split <;> exact hres

theorem readSmallBlockDocs_notFound (tFields : DocstoreFields_c) (tRowID : Nat)
    (pFieldIds : Option (List Nat)) (dFieldInRset : List (Option Nat)) (bPack : Bool)
    (hr : tRowID < DWORD_MOD) :
    ∀ (n tCur : Nat) (st : SmallDocState), tCur + n ≤ tRowID → st.tResult = [] →
      (readSmallBlockDocs tFields tRowID pFieldIds dFieldInRset bPack n tCur st).tResult = [] := by
  intro n
  induction n with
  | zero => intro tCur st _ hres; simpa [readSmallBlockDocs] using hres
  | succ m ih =>
    intro tCur st hle hres
    have hne : tCur ≠ tRowID := by omega
    obtain ⟨hf, hr2⟩ := ProcessSmallBlockDoc_notFound tFields tCur tRowID pFieldIds dFieldInRset
      bPack st hne hres
    simp only [readSmallBlockDocs, hf, Bool.false_eq_true, if_false]
    have hmod : (tCur + 1) % DWORD_MOD = tCur + 1 := Nat.mod_eq_of_lt (by omega)
    rw [hmod]
    exact ih (tCur + 1) _ (by omega) hr2

/-- C7 (as stated, refuted): in the store that holds the single row 0 in a BIG
block, `GetDoc` on row 7, which was never added, returns the document of row 0. -/
theorem C7_unknown_row_refuted :
    (Docstore_c.Init nulDocFile).bind
        (fun st => st.GetDoc Compressor_None_c noCache 7 none false)
      = some { m_dFields := [[97, 98, 99, 0]] } ∧
    (Docstore_c.Init nulDocFile).bind
        (fun st => st.GetDoc Compressor_None_c noCache 7 none false)
      ≠ some { m_dFields := [] } := by
  refine ⟨by decide!, by decide!⟩

/-- C7 (amended): for a row above the rows of the SMALL block that `FindBlock`
selects (any row above the last stored one when the last block is SMALL) `GetDoc`
returns a result with zero fields; for a row below the first block of the
directory `FindBlock` finds no block and `GetDoc`, which asserts that one was
found, has no result. -/
theorem C7_unknown_row (c : Compressor_i) (tCache : Nat → Option BlockData_t) (s : Docstore_c)
    (r : Nat) (pFieldIds : Option (List Nat)) (bPack : Bool) :
    (∀ i, FindBlock s.m_dBlocks r = some i →
      (s.m_dBlocks.getD i default).m_eType = BLOCK_TYPE_SMALL → r < DWORD_MOD →
      (s.m_dBlocks.getD i default).m_tRowID
        + (s.smallBlockData c tCache (s.m_dBlocks.getD i default)).m_uNumDocs ≤ r →
      s.GetDoc c tCache r pFieldIds bPack = some { m_dFields := [] }) ∧
    (∀ hne : s.m_dBlocks ≠ [], s.m_dBlocks.Pairwise (fun a b => a.m_tRowID < b.m_tRowID) →
      r < (s.m_dBlocks.head hne).m_tRowID → s.GetDoc c tCache r pFieldIds bPack = none) := by
  refine ⟨?_, ?_⟩
  · intro i hfb hty hr hle
    unfold Docstore_c.GetDoc
    simp only [hfb, hty, if_true]
    unfold Docstore_c.ReadDocFromSmallBlock
    simp only
    rw [readSmallBlockDocs_notFound _ _ _ _ _ hr _ _ _ _ rfl]
    have : smallBlockLoopCount (s.smallBlockData c tCache (s.m_dBlocks.getD i default))
        ≤ (s.smallBlockData c tCache (s.m_dBlocks.getD i default)).m_uNumDocs := by
      unfold smallBlockLoopCount
      split <;> omega
    omega
  · intro hne hasc hlt
    unfold Docstore_c.GetDoc
    rw [((FindBlock_spec s.m_dBlocks r hne hasc).1).mpr hlt]

theorem C7_unknown_row_witness :
    FindBlock (openedStore twoSmallDocsFile).m_dBlocks 5 = some 1 ∧
    (openedStore twoSmallDocsFile).GetDoc Compressor_None_c noCache 5 none false
      = some { m_dFields := [] } :=
  ⟨by decide!,
   (C7_unknown_row Compressor_None_c noCache (openedStore twoSmallDocsFile) 5 none false).1 1
      (by decide!) (by decide!) (by decide) (by decide!)⟩

/-! ## Field reorder of a big block -/

theorem take_succ_set {α : Type} (v : α) : ∀ (l : List α) (i : Nat), i < l.length →
    (l.set i v).take (i + 1) = l.take i ++ [v] := by
  intro l
  induction l with
  | nil => intro i h; simp at h
  | cons a t ih =>
    intro i h
    cases i with
    | zero => simp
    | succ j =>
      simp only [List.set_cons_succ, List.take_succ_cons, List.cons_append]
      rw [ih j (by simpa using h)]

theorem fillFieldSort_spec (st : BigBlockScan) (dFields : List (List BYTE)) :
    ∀ (rest : List (List BYTE)) (iField : Nat) (dSort : List (Nat × Nat)),
      dSort.length = iField + rest.length →
      fillFieldSort st dFields rest iField dSort
        = dSort.take iField
          ++ (List.range' iField rest.length).map (fun i => (i, bigFieldStoredSize st dFields i)) := by
  intro rest
  induction rest with
  | nil =>
    intro iField dSort h
    simp only [List.length_nil, Nat.add_zero] at h
    simp [fillFieldSort, ← h]
  | cons x rest ih =>
    intro iField dSort h
    simp only [List.length_cons] at h
    rw [fillFieldSort, ih (iField + 1) _ (by rw [List.length_set]; omega),
      take_succ_set _ _ _ (by omega)]
    simp [List.range'_succ]

theorem resizeFieldSort_length (v : List (Nat × Nat)) (n : Nat) :
    (resizeFieldSort v n).length = n := by
  simp only [resizeFieldSort, List.length_append, List.length_take, List.length_replicate]
  omega

theorem range_map_getD {α : Type} (d : α) (l : List α) :
    (List.range l.length).map (fun i => l.getD i d) = l := by
  induction l with
  | nil => rfl
  | cons a t ih =>
    rw [List.length_cons, List.range_succ_eq_map, List.map_cons, List.map_map]
    simp only [List.getD_cons_zero]
    congr 1

/-- What `m_dFieldSort` holds when `WriteBigBlock` reorders the fields of a
document with one payload per registered field: a permutation of the pairs
(field, stored size), in ascending order of the stored size. -/
theorem bigBlockFieldSort_spec (c : Compressor_i) (s : DocstoreBuilder_c)
    (hlen : (s.m_dStoredDocs.getD 0 default).m_dFields.length = s.m_tFields.GetNumFields)
    (hre : (s.bigBlockScan c).bNeedReorder = true) :
    (s.bigBlockFieldSort c).Perm
      ((List.range s.m_tFields.GetNumFields).map
        (fun i => (i, bigFieldStoredSize (s.bigBlockScan c)
          (s.m_dStoredDocs.getD 0 default).m_dFields i))) ∧
    (s.bigBlockFieldSort c).Sorted (fun a b => a.2 ≤ b.2) := by
  unfold DocstoreBuilder_c.bigBlockFieldSort
  rw [if_pos hre]
  have hfill := fillFieldSort_spec (s.bigBlockScan c) (s.m_dStoredDocs.getD 0 default).m_dFields
    (s.m_dStoredDocs.getD 0 default).m_dFields 0
    (resizeFieldSort s.m_dFieldSort s.m_tFields.GetNumFields)
    (by rw [resizeFieldSort_length, hlen]; omega)
  rw [hfill, hlen]
  simp only [List.take_zero, List.nil_append, sortFieldSort]
  rw [List.range_eq_range']
  haveI : IsTotal (Nat × Nat) (fun a b => a.2 ≤ b.2) := ⟨fun a b => Nat.le_total a.2 b.2⟩
  haveI : IsTrans (Nat × Nat) (fun a b => a.2 ≤ b.2) := ⟨fun _ _ _ h1 h2 => Nat.le_trans h1 h2⟩
  exact ⟨List.perm_insertionSort _ _, List.sorted_insertionSort _ _⟩

theorem WriteBigBlock_writer (c : Compressor_i) (s : DocstoreBuilder_c) :
    (s.WriteBigBlock c).m_tWriter
      = s.m_tWriter
        ++ ((if (s.bigBlockScan c).bNeedReorder then BLOCK_FLAG_FIELD_REORDER else 0)
          :: ((if (s.bigBlockScan c).bNeedReorder
                then (s.bigBlockFieldSort c).flatMap (fun i => ZipInt i.1) else [])
            ++ (List.range s.m_tFields.GetNumFields).flatMap
                (fun i => writeBigFieldInfo (s.bigBlockScan c)
                  (s.m_dStoredDocs.getD 0 default).m_dFields
                  (bigFieldAt (s.bigBlockScan c).bNeedReorder (s.bigBlockFieldSort c) i))
            ++ (List.range s.m_tFields.GetNumFields).flatMap
                (fun i => writeBigFieldBody (s.bigBlockScan c)
                  (s.m_dStoredDocs.getD 0 default).m_dFields
                  (bigFieldAt (s.bigBlockScan c).bNeedReorder (s.bigBlockFieldSort c) i)))) := by
  simp [DocstoreBuilder_c.WriteBigBlock, DocstoreBuilder_c.WriteBigBlockHeader, List.append_assoc]

theorem range_flatMap_getD {α β : Type} (d : α) (f : α → List β) (l : List α) :
    (List.range l.length).flatMap (fun i => f (l.getD i d)) = l.flatMap f := by
  have h := range_map_getD d l
  conv_rhs => rw [← h]
  rw [List.flatMap_map]

/-- C9: whenever the builder writes FIELD_REORDER as the flags of a big block
(for a pending document with one payload per registered field), the block it
writes is the flags byte, the permutation table, the per-field metadata and the
field bodies, the last three in one and the same field order; that order is a
permutation of `0..num_fields-1` along which the stored sizes (compressed length
if compressed, raw length otherwise) do not decrease, and the body of a non-empty
field has exactly its stored size. For fields compressed to 200, 50 and 1000
bytes the reader finds the permutation table `[1, 0, 2]`, the sizes 50, 200, 1000
in file order, and the original bytes of fields 0 and 2. -/
theorem C9_field_reorder_layout (c : Compressor_i) (s : DocstoreBuilder_c)
    (hlen : (s.m_dStoredDocs.getD 0 default).m_dFields.length = s.m_tFields.GetNumFields)
    (hflag : (s.WriteBigBlock c).m_tWriter.getD s.m_tWriter.length 0 = BLOCK_FLAG_FIELD_REORDER) :
    ((s.bigBlockFieldSort c).map Prod.fst).Perm (List.range s.m_tFields.GetNumFields) ∧
    (((s.bigBlockFieldSort c).map Prod.fst).map
      (bigFieldStoredSize (s.bigBlockScan c) (s.m_dStoredDocs.getD 0 default).m_dFields)).Sorted
        (fun a b => a ≤ b) ∧
    (s.WriteBigBlock c).m_tWriter
      = s.m_tWriter ++ [BLOCK_FLAG_FIELD_REORDER]
        ++ ((s.bigBlockFieldSort c).map Prod.fst).flatMap ZipInt
        ++ ((s.bigBlockFieldSort c).map Prod.fst).flatMap
            (writeBigFieldInfo (s.bigBlockScan c) (s.m_dStoredDocs.getD 0 default).m_dFields)
        ++ ((s.bigBlockFieldSort c).map Prod.fst).flatMap
            (writeBigFieldBody (s.bigBlockScan c) (s.m_dStoredDocs.getD 0 default).m_dFields) ∧
    (∀ i, (s.m_dStoredDocs.getD 0 default).m_dFields.getD i [] ≠ [] →
      (writeBigFieldBody (s.bigBlockScan c) (s.m_dStoredDocs.getD 0 default).m_dFields i).length
        = bigFieldStoredSize (s.bigBlockScan c) (s.m_dStoredDocs.getD 0 default).m_dFields i) ∧
    (Docstore_c.Init reorderFile).map
        (fun st =>
          ((st.readBigBlockHeader (st.m_dBlocks.getD 0 default)).bNeedReorder,
           (st.readBigBlockHeader (st.m_dBlocks.getD 0 default)).dFieldSort,
           (st.readBigBlockHeader (st.m_dBlocks.getD 0 default)).dFieldSort.map
              (fun i => ((st.readBigBlockHeader (st.m_dBlocks.getD 0 default)).dFieldInfo.getD i
                default).m_uCompressedLen)))
      = some (true, [1, 0, 2], [50, 200, 1000]) ∧
    (Docstore_c.Init reorderFile).bind
        (fun st => st.GetDoc Compressor_Twin_c noCache 0 (some [0, 2]) false)
      = some { m_dFields := [List.replicate 400 1, List.replicate 2000 3] } := by
  have hw := WriteBigBlock_writer c s
  have hre : (s.bigBlockScan c).bNeedReorder = true := by
    rw [hw, getD_append_cons] at hflag
    by_contra hc
    rw [if_neg hc] at hflag
    exact absurd hflag (by decide)
  obtain ⟨hperm, hsorted⟩ := bigBlockFieldSort_spec c s hlen hre
  have hl : (s.bigBlockFieldSort c).length = s.m_tFields.GetNumFields := by
    rw [hperm.length_eq]; simp
  have hsnd : ∀ x ∈ s.bigBlockFieldSort c,
      bigFieldStoredSize (s.bigBlockScan c) (s.m_dStoredDocs.getD 0 default).m_dFields x.1 = x.2 := by
    intro x hx
    have hx2 := hperm.mem_iff.mp hx
    simp only [List.mem_map, List.mem_range] at hx2
    obtain ⟨i, _, rfl⟩ := hx2
    rfl
  refine ⟨?_, ?_, ?_, ?_, by decide!, by decide!⟩
  · have := hperm.map Prod.fst
    simpa [List.map_map, Function.comp_def] using this
  · rw [List.map_map]
    have hmap : (s.bigBlockFieldSort c).map
          (bigFieldStoredSize (s.bigBlockScan c) (s.m_dStoredDocs.getD 0 default).m_dFields
            ∘ Prod.fst)
        = (s.bigBlockFieldSort c).map Prod.snd := by
      apply List.map_congr_left
      intro x hx
      exact hsnd x hx
    rw [hmap]
    exact (List.pairwise_map.mpr hsorted)
  · rw [hw]
    simp only [hre, if_true, bigFieldAt]
    rw [← hl]
    rw [range_flatMap_getD (0, 0)
        (fun x => writeBigFieldInfo (s.bigBlockScan c) (s.m_dStoredDocs.getD 0 default).m_dFields x.1),
      range_flatMap_getD (0, 0)
        (fun x => writeBigFieldBody (s.bigBlockScan c) (s.m_dStoredDocs.getD 0 default).m_dFields x.1)]
    simp [List.flatMap_map, List.append_assoc]
  · intro i hi
    unfold writeBigFieldBody bigFieldStoredSize
    have : ¬ ((s.m_dStoredDocs.getD 0 default).m_dFields.getD i []).length = 0 := by
      intro h0; exact hi (List.length_eq_zero.mp h0)
    simp only [this, decide_False, Bool.false_eq_true, if_false]
    split <;> rfl

theorem C9_field_reorder_layout_witness :
    (reorderPending.WriteBigBlock Compressor_Twin_c).m_tWriter.getD reorderPending.m_tWriter.length 0
      = BLOCK_FLAG_FIELD_REORDER ∧
    ((reorderPending.bigBlockFieldSort Compressor_Twin_c).map Prod.fst).Perm
      (List.range reorderPending.m_tFields.GetNumFields) :=
  ⟨by decide!,
   (C9_field_reorder_layout Compressor_Twin_c reorderPending (by decide!) (by decide!)).1⟩

/-! ## Subset projection -/

theorem BinarySearch_some_iff (keys : List Nat) (tRef j : Nat)
    (hasc : keys.Pairwise (fun a b => a < b)) :
    BinarySearch keys tRef = some j ↔ (j < keys.length ∧ keys.getD j 0 = tRef) := by
  have hmono : ∀ i k, i < k → k < keys.length → keys.getD i 0 < keys.getD k 0 := by
    intro i k hik hk
    have h := (List.pairwise_iff_getElem.mp hasc) i k (by omega) hk hik
    simpa [List.getD_eq_getElem?_getD, List.getElem?_eq_getElem, hk,
      (by omega : i < keys.length)] using h
  unfold BinarySearch sphBinarySearchFirst
  by_cases h0 : keys.length = 0
  · simp only [h0, if_true]
    constructor
    · intro h; cases h
    · intro h; omega
  · simp only [h0, if_false]
    have hspec := sphBinarySearchFirstLoop_spec keys tRef hmono keys.length 0 (keys.length - 1)
      (by omega) (by omega) (by omega) (by intro j hj; omega) (by left; omega)
    simp only at hspec
    generalize sphBinarySearchFirstLoop keys tRef keys.length 0 (keys.length - 1) = p at hspec
    obtain ⟨hplt, hplow, hphigh⟩ := hspec
    constructor
    · intro h
      by_cases hk : keys.getD p 0 = tRef
      · rw [if_pos hk] at h
        have : p = j := by injection h
        subst this
        exact ⟨hplt, hk⟩
      · rw [if_neg hk] at h; cases h
    · rintro ⟨hj, hk⟩
      have hpj : p = j := by
        by_contra hne
        rcases Nat.lt_or_gt_of_ne hne with h | h
        · rcases hphigh with h2 | h2
          · omega
          · have := hmono p j h hj; omega
        · have := hplow j h; omega
      subst hpj
      rw [if_pos hk]

theorem BinarySearch_none_iff (keys : List Nat) (tRef : Nat)
    (hasc : keys.Pairwise (fun a b => a < b)) :
    BinarySearch keys tRef = none ↔ tRef ∉ keys := by
  constructor
  · intro h hmem
    obtain ⟨j, hj, hjk⟩ := List.getElem_of_mem hmem
    have : BinarySearch keys tRef = some j :=
      (BinarySearch_some_iff keys tRef j hasc).mpr
        ⟨hj, by simp [List.getD_eq_getElem?_getD, List.getElem?_eq_getElem, hj, hjk]⟩
    rw [h] at this; cases this
  · intro h
    cases hb : BinarySearch keys tRef with
    | none => rfl
    | some j =>
      obtain ⟨hj, hjk⟩ := (BinarySearch_some_iff keys tRef j hasc).mp hb
      exfalso
      apply h
      rw [← hjk, List.getD_eq_getElem _ _ hj]
      exact List.getElem_mem hj

theorem getD_set_eq {α : Type} (l : List α) (i k : Nat) (x d : α) :
    (l.set i x).getD k d = if k = i ∧ i < l.length then x else l.getD k d := by
  simp only [List.getD_eq_getElem?_getD, List.getElem?_set]
  by_cases h : i = k
  · subst h
    by_cases h2 : i < l.length
    · simp [h2]
    · simp [h2, List.getElem?_eq_none (Nat.le_of_not_lt h2)]
  · have : ¬ k = i := fun hh => h hh.symm
    simp [h, this]

theorem map_set_of_nodup {β : Type} (f : Nat → β) (x : β) (i : Nat) :
    ∀ (ids : List Nat) (j : Nat), ids.Nodup → j < ids.length → ids.getD j 0 = i →
      (ids.map f).set j x = ids.map (fun k => if k = i then x else f k) := by
  intro ids
  induction ids with
  | nil => intro j _ h; simp at h
  | cons a t ih =>
    intro j hnd hj hji
    have hnd' := List.nodup_cons.mp hnd
    cases j with
    | zero =>
      simp only [List.getD_cons_zero] at hji
      subst hji
      simp only [List.map_cons, List.set_cons_zero, if_true]
      congr 1
      apply List.map_congr_left
      intro k hk
      have : k ≠ a := fun h => hnd'.1 (h ▸ hk)
      simp [this]
    | succ j' =>
      simp only [List.getD_cons_succ] at hji
      have hmem : i ∈ t := by
        rw [← hji, List.getD_eq_getElem _ _ (by simpa using hj)]
        exact List.getElem_mem _
      have hai : a ≠ i := fun h => hnd'.1 (h ▸ hmem)
      simp only [List.map_cons, List.set_cons_succ, hai, if_false]
      rw [ih j' hnd'.2 (by simpa using hj) hji]

/-- One write of a field into the result keeps the projection: writing field `i`
of the result for all fields corresponds, in the result for the ids, to writing
the slot `CreateFieldRemap` gives for `i`. -/
theorem remap_step (n : Nat) (ids : List Nat) (hasc : ids.Pairwise (fun a b => a < b))
    (i : Nat) (x : List BYTE) (dAll : List (List BYTE)) (hall : dAll.length = n) :
    (match (CreateFieldRemap n (some ids)).getD i none with
      | some k => (projectFields ids dAll).set k x
      | none => projectFields ids dAll)
      = projectFields ids
          (match (CreateFieldRemap n none).getD i none with
            | some k => dAll.set k x
            | none => dAll) ∧
    (match (CreateFieldRemap n none).getD i none with
      | some k => dAll.set k x
      | none => dAll).length = n := by
  by_cases hi : i < n
  · have hA : (CreateFieldRemap n none).getD i none = some i := by
      simp [CreateFieldRemap, List.getD_eq_getElem?_getD, List.getElem?_eq_getElem, hi]
    have hS : (CreateFieldRemap n (some ids)).getD i none = BinarySearch ids i := by
      simp [CreateFieldRemap, List.getD_eq_getElem?_getD, List.getElem?_eq_getElem, hi]
    rw [hA, hS]
    refine ⟨?_, by simp [hall]⟩
    have hproj : projectFields ids (dAll.set i x)
        = ids.map (fun k => if k = i then x else dAll.getD k []) := by
      unfold projectFields
      apply List.map_congr_left
      intro k _
      rw [getD_set_eq]
      by_cases hk : k = i
      · simp [hk, hall, hi]
      · simp [hk]
    simp only [hproj]
    cases hb : BinarySearch ids i with
    | none =>
      have hnot := (BinarySearch_none_iff ids i hasc).mp hb
      simp only [projectFields]
      apply List.map_congr_left
      intro k hk
      have : k ≠ i := fun h => hnot (h ▸ hk)
      simp [this]
    | some j =>
      obtain ⟨hj, hji⟩ := (BinarySearch_some_iff ids i j hasc).mp hb
      simp only [projectFields]
      exact map_set_of_nodup _ x i ids j (hasc.imp (fun h => Nat.ne_of_lt h)) hj hji
  · have hr : (List.range n)[i]? = none :=
      List.getElem?_eq_none (by simp; omega)
    have hA : (CreateFieldRemap n none).getD i none = none := by
      simp [CreateFieldRemap, List.getD_eq_getElem?_getD, hr]
    have hS : (CreateFieldRemap n (some ids)).getD i none = none := by
      simp [CreateFieldRemap, List.getD_eq_getElem?_getD, hr]
    rw [hA, hS]
    exact ⟨rfl, hall⟩

theorem projectFields_replicate (ids : List Nat) (n : Nat) :
    projectFields ids (List.replicate n []) = List.replicate ids.length [] := by
  unfold projectFields
  apply List.eq_replicate_iff.mpr
  refine ⟨by simp, ?_⟩
  intro b hb
  simp only [List.mem_map] at hb
  obtain ⟨k, _, rfl⟩ := hb
  simp only [List.getD_eq_getElem?_getD, List.getElem?_replicate]
  split <;> rfl

theorem processSmallBlockField_lock (tFields : DocstoreFields_c) (n : Nat) (ids : List Nat)
    (hasc : ids.Pairwise (fun a b => a < b)) (bPack bHasBitmask : Bool) (i : Nat)
    (stA stS : SmallDocState) (hR : stA.tReader = stS.tReader)
    (hE : stA.tEmptyFields = stS.tEmptyFields) (hL : stA.tResult.length = n)
    (hP : stS.tResult = projectFields ids stA.tResult) :
    (processSmallBlockField tFields (CreateFieldRemap n none) bPack true bHasBitmask stA i).tReader
      = (processSmallBlockField tFields (CreateFieldRemap n (some ids)) bPack true bHasBitmask
          stS i).tReader ∧
    (processSmallBlockField tFields (CreateFieldRemap n none) bPack true bHasBitmask stA
        i).tEmptyFields
      = (processSmallBlockField tFields (CreateFieldRemap n (some ids)) bPack true bHasBitmask
          stS i).tEmptyFields ∧
    (processSmallBlockField tFields (CreateFieldRemap n none) bPack true bHasBitmask stA
        i).tResult.length = n ∧
    (processSmallBlockField tFields (CreateFieldRemap n (some ids)) bPack true bHasBitmask stS
        i).tResult
      = projectFields ids
          (processSmallBlockField tFields (CreateFieldRemap n none) bPack true bHasBitmask stA
            i).tResult := by
  obtain ⟨rdr, bv, resA⟩ := stA
  obtain ⟨rdr2, bv2, resS⟩ := stS
  simp only at hR hE hL hP
  subst hR hE hP
  unfold processSmallBlockField
  by_cases hc : (!bHasBitmask || !bv.BitGet i) = true
  · simp only [hc, if_true]
    have hstep := remap_step n ids hasc i
      (PackData (readBytes rdr.UnzipInt.2.m_pData rdr.UnzipInt.2.m_iPos rdr.UnzipInt.1)
        (decide ((tFields.GetField i).m_eType = DOCSTORE_TEXT)) bPack) resA hL
    obtain ⟨h1, h2⟩ := hstep
    cases hA : (CreateFieldRemap n none).getD i none <;>
      cases hS : (CreateFieldRemap n (some ids)).getD i none <;>
      rw [hA] at h1 h2 <;> rw [hS] at h1 <;> simp only at h1 h2 <;>
      refine ⟨?_, ?_, ?_, ?_⟩ <;> (try simp only [hA, hS]) <;>
      (try first | exact h1 | exact h2)
  · simp only [hc, if_false]
    exact ⟨rfl, rfl, hL, rfl⟩

theorem processSmallBlockFields_lock (tFields : DocstoreFields_c) (n : Nat) (ids : List Nat)
    (hasc : ids.Pairwise (fun a b => a < b)) (bPack bHasBitmask : Bool) (l : List Nat) :
    ∀ (stA stS : SmallDocState), stA.tReader = stS.tReader →
      stA.tEmptyFields = stS.tEmptyFields → stA.tResult.length = n →
      stS.tResult = projectFields ids stA.tResult →
      (l.foldl (processSmallBlockField tFields (CreateFieldRemap n none) bPack true bHasBitmask)
          stA).tReader
        = (l.foldl (processSmallBlockField tFields (CreateFieldRemap n (some ids)) bPack true
            bHasBitmask) stS).tReader ∧
      (l.foldl (processSmallBlockField tFields (CreateFieldRemap n none) bPack true bHasBitmask)
          stA).tEmptyFields
        = (l.foldl (processSmallBlockField tFields (CreateFieldRemap n (some ids)) bPack true
            bHasBitmask) stS).tEmptyFields ∧
      (l.foldl (processSmallBlockField tFields (CreateFieldRemap n none) bPack true bHasBitmask)
          stA).tResult.length = n ∧
      (l.foldl (processSmallBlockField tFields (CreateFieldRemap n (some ids)) bPack true
          bHasBitmask) stS).tResult
        = projectFields ids
            (l.foldl (processSmallBlockField tFields (CreateFieldRemap n none) bPack true
              bHasBitmask) stA).tResult := by
  induction l with
  | nil => intro stA stS hR hE hL hP; exact ⟨hR, hE, hL, hP⟩
  | cons a t ih =>
    intro stA stS hR hE hL hP
    obtain ⟨h1, h2, h3, h4⟩ :=
      processSmallBlockField_lock tFields n ids hasc bPack bHasBitmask a stA stS hR hE hL hP
    simp only [List.foldl_cons]
    exact ih _ _ h1 h2 h3 h4

theorem processSmallBlockField_reader (tFields : DocstoreFields_c)
    (rA rS : List (Option Nat)) (bPack bFound bHasBitmask : Bool) (i : Nat)
    (stA stS : SmallDocState) (hR : stA.tReader = stS.tReader)
    (hE : stA.tEmptyFields = stS.tEmptyFields) :
    (processSmallBlockField tFields rA bPack bFound bHasBitmask stA i).tReader
      = (processSmallBlockField tFields rS bPack bFound bHasBitmask stS i).tReader ∧
    (processSmallBlockField tFields rA bPack bFound bHasBitmask stA i).tEmptyFields
      = (processSmallBlockField tFields rS bPack bFound bHasBitmask stS i).tEmptyFields := by
  obtain ⟨rdr, bv, resA⟩ := stA
  obtain ⟨rdr2, bv2, resS⟩ := stS
  simp only at hR hE
  subst hR hE
  unfold processSmallBlockField
  split <;> exact ⟨rfl, rfl⟩

theorem processSmallBlockFields_reader (tFields : DocstoreFields_c)
    (rA rS : List (Option Nat)) (bPack bFound bHasBitmask : Bool) (l : List Nat) :
    ∀ (stA stS : SmallDocState), stA.tReader = stS.tReader →
      stA.tEmptyFields = stS.tEmptyFields →
      (l.foldl (processSmallBlockField tFields rA bPack bFound bHasBitmask) stA).tReader
        = (l.foldl (processSmallBlockField tFields rS bPack bFound bHasBitmask) stS).tReader ∧
      (l.foldl (processSmallBlockField tFields rA bPack bFound bHasBitmask) stA).tEmptyFields
        = (l.foldl (processSmallBlockField tFields rS bPack bFound bHasBitmask) stS).tEmptyFields := by
  induction l with
  | nil => intro stA stS hR hE; exact ⟨hR, hE⟩
  | cons a t ih =>
    intro stA stS hR hE
    obtain ⟨h1, h2⟩ := processSmallBlockField_reader tFields rA rS bPack bFound bHasBitmask a
      stA stS hR hE
    simp only [List.foldl_cons]
    exact ih _ _ h1 h2
theorem ProcessSmallBlockDoc_lock (tFields : DocstoreFields_c) (ids : List Nat)
    (hasc : ids.Pairwise (fun a b => a < b)) (tCur tRowID : Nat) (bPack : Bool)
    (stA stS : SmallDocState) (hR : stA.tReader = stS.tReader)
    (hE : stA.tEmptyFields = stS.tEmptyFields) (hA0 : stA.tResult = []) (hS0 : stS.tResult = []) :
    (ProcessSmallBlockDoc tFields tCur tRowID none
        (CreateFieldRemap tFields.GetNumFields none) bPack stA).1
      = (ProcessSmallBlockDoc tFields tCur tRowID (some ids)
          (CreateFieldRemap tFields.GetNumFields (some ids)) bPack stS).1 ∧
    (ProcessSmallBlockDoc tFields tCur tRowID none
        (CreateFieldRemap tFields.GetNumFields none) bPack stA).2.tReader
      = (ProcessSmallBlockDoc tFields tCur tRowID (some ids)
          (CreateFieldRemap tFields.GetNumFields (some ids)) bPack stS).2.tReader ∧
    (ProcessSmallBlockDoc tFields tCur tRowID none
        (CreateFieldRemap tFields.GetNumFields none) bPack stA).2.tEmptyFields
      = (ProcessSmallBlockDoc tFields tCur tRowID (some ids)
          (CreateFieldRemap tFields.GetNumFields (some ids)) bPack stS).2.tEmptyFields ∧
    ((ProcessSmallBlockDoc tFields tCur tRowID none
        (CreateFieldRemap tFields.GetNumFields none) bPack stA).1 = true →
      (ProcessSmallBlockDoc tFields tCur tRowID none
        (CreateFieldRemap tFields.GetNumFields none) bPack stA).2.tResult.length
          = tFields.GetNumFields ∧
      (ProcessSmallBlockDoc tFields tCur tRowID (some ids)
          (CreateFieldRemap tFields.GetNumFields (some ids)) bPack stS).2.tResult
        = projectFields ids
            (ProcessSmallBlockDoc tFields tCur tRowID none
              (CreateFieldRemap tFields.GetNumFields none) bPack stA).2.tResult) ∧
    ((ProcessSmallBlockDoc tFields tCur tRowID none
        (CreateFieldRemap tFields.GetNumFields none) bPack stA).1 = false →
      (ProcessSmallBlockDoc tFields tCur tRowID none
        (CreateFieldRemap tFields.GetNumFields none) bPack stA).2.tResult = [] ∧
      (ProcessSmallBlockDoc tFields tCur tRowID (some ids)
          (CreateFieldRemap tFields.GetNumFields (some ids)) bPack stS).2.tResult = []) := by
  obtain ⟨rdr, bv, resA⟩ := stA
  obtain ⟨rdr2, bv2, resS⟩ := stS
  simp only at hR hE hA0 hS0
  subst hR hE hA0 hS0
  by_cases hf : tCur = tRowID
  · subst hf
    unfold ProcessSmallBlockDoc
    simp only [decide_True, if_true, resultSize, List.take_nil, List.length_nil, Nat.sub_zero,
      List.nil_append]
    by_cases hall : hasFlag rdr.GetByte.1 DOC_FLAG_ALL_EMPTY = true
    · simp only [hall, if_true, List_map_const_nil, List.length_replicate,
        projectFields_replicate]
      exact ⟨trivial, trivial, trivial, fun _ => ⟨trivial, trivial⟩, fun h => by cases h⟩
    · simp only [hall, Bool.false_eq_true, if_false]
      have key : ∀ (stA stS : SmallDocState), stA.tReader = stS.tReader →
          stA.tEmptyFields = stS.tEmptyFields →
          stA.tResult = List.replicate tFields.GetNumFields [] →
          stS.tResult = List.replicate ids.length [] →
          _ := fun stA stS h1 h2 h3 h4 =>
        processSmallBlockFields_lock tFields tFields.GetNumFields ids hasc bPack
          (hasFlag rdr.GetByte.1 DOC_FLAG_EMPTY_BITMASK) (List.range tFields.GetNumFields)
          stA stS h1 h2 (by rw [h3]; simp) (by rw [h4, h3, projectFields_replicate])
      by_cases hbm : hasFlag rdr.GetByte.1 DOC_FLAG_EMPTY_BITMASK = true
      · simp only [hbm, if_true]
        obtain ⟨k1, k2, k3, k4⟩ := key
          { tReader := rdr.GetByte.2.SetPos (rdr.GetByte.2.m_iPos + bv.GetSize * 4),
            tEmptyFields := bv.memcpy
              (readBytes rdr.GetByte.2.m_pData rdr.GetByte.2.m_iPos (bv.GetSize * 4)),
            tResult := List.replicate tFields.GetNumFields [] }
          { tReader := rdr.GetByte.2.SetPos (rdr.GetByte.2.m_iPos + bv.GetSize * 4),
            tEmptyFields := bv.memcpy
              (readBytes rdr.GetByte.2.m_pData rdr.GetByte.2.m_iPos (bv.GetSize * 4)),
            tResult := List.replicate ids.length [] } rfl rfl rfl rfl
        rw [hbm] at k1 k2 k3 k4
        exact ⟨trivial, k1, k2, fun _ => ⟨k3, k4⟩, fun h => by cases h⟩
      · simp only [hbm, Bool.false_eq_true, if_false]
        obtain ⟨k1, k2, k3, k4⟩ := key
          { tReader := rdr.GetByte.2, tEmptyFields := bv,
            tResult := List.replicate tFields.GetNumFields [] }
          { tReader := rdr.GetByte.2, tEmptyFields := bv,
            tResult := List.replicate ids.length [] } rfl rfl rfl rfl
        have hbm' : hasFlag rdr.GetByte.1 DOC_FLAG_EMPTY_BITMASK = false := by
          simpa using hbm
        rw [hbm'] at k1 k2 k3 k4
        exact ⟨trivial, k1, k2, fun _ => ⟨k3, k4⟩, fun h => by cases h⟩
  · obtain ⟨a1, a2⟩ := ProcessSmallBlockDoc_notFound tFields tCur tRowID none
      (CreateFieldRemap tFields.GetNumFields none) bPack
      { tReader := rdr, tEmptyFields := bv, tResult := [] } hf rfl
    obtain ⟨s1, s2⟩ := ProcessSmallBlockDoc_notFound tFields tCur tRowID (some ids)
      (CreateFieldRemap tFields.GetNumFields (some ids)) bPack
      { tReader := rdr, tEmptyFields := bv, tResult := [] } hf rfl
    refine ⟨by rw [a1, s1], ?_, ?_, (fun h => by rw [a1] at h; cases h), fun _ => ⟨a2, s2⟩⟩
    · unfold ProcessSmallBlockDoc
      simp only
      split
      · rfl
      · split
        · refine (processSmallBlockFields_reader tFields _ _ bPack _ _ _ _ _ ?_ ?_).1 <;> rfl
        · refine (processSmallBlockFields_reader tFields _ _ bPack _ _ _ _ _ ?_ ?_).1 <;> rfl
    · unfold ProcessSmallBlockDoc
      simp only
      split
      · rfl
      · split
        · refine (processSmallBlockFields_reader tFields _ _ bPack _ _ _ _ _ ?_ ?_).2 <;> rfl
        · refine (processSmallBlockFields_reader tFields _ _ bPack _ _ _ _ _ ?_ ?_).2 <;> rfl
theorem readSmallBlockDocs_lock (tFields : DocstoreFields_c) (ids : List Nat)
    (hasc : ids.Pairwise (fun a b => a < b)) (tRowID : Nat) (bPack : Bool) :
    ∀ (m tCur : Nat) (stA stS : SmallDocState), stA.tReader = stS.tReader →
      stA.tEmptyFields = stS.tEmptyFields → stA.tResult = [] → stS.tResult = [] →
      ((readSmallBlockDocs tFields tRowID none (CreateFieldRemap tFields.GetNumFields none) bPack
            m tCur stA).tResult = [] ∧
        (readSmallBlockDocs tFields tRowID (some ids)
            (CreateFieldRemap tFields.GetNumFields (some ids)) bPack m tCur stS).tResult = []) ∨
      ((readSmallBlockDocs tFields tRowID none (CreateFieldRemap tFields.GetNumFields none) bPack
            m tCur stA).tResult.length = tFields.GetNumFields ∧
        (readSmallBlockDocs tFields tRowID (some ids)
            (CreateFieldRemap tFields.GetNumFields (some ids)) bPack m tCur stS).tResult
          = projectFields ids
              (readSmallBlockDocs tFields tRowID none
                (CreateFieldRemap tFields.GetNumFields none) bPack m tCur stA).tResult) := by
  intro m
  induction m with
  | zero =>
    intro tCur stA stS _ _ hA hS
    left
    exact ⟨by simpa [readSmallBlockDocs] using hA, by simpa [readSmallBlockDocs] using hS⟩
  | succ k ih =>
    intro tCur stA stS hR hE hA hS
    obtain ⟨h1, h2, h3, h4, h5⟩ :=
      ProcessSmallBlockDoc_lock tFields ids hasc tCur tRowID bPack stA stS hR hE hA hS
    simp only [readSmallBlockDocs]
    rw [← h1]
    cases hb : (ProcessSmallBlockDoc tFields tCur tRowID none
        (CreateFieldRemap tFields.GetNumFields none) bPack stA).1 with
    | true =>
      simp only [if_true]
      right
      exact h4 hb
    | false =>
      simp only [Bool.false_eq_true, if_false]
      exact ih _ _ _ h2 h3 (h5 hb).1 (h5 hb).2

/-- Subset projection for a small block: once the row is found, the fields read
for the ids are the fields with those ids of the result for all fields. -/
theorem ReadDocFromSmallBlock_projection (c : Compressor_i) (tCache : Nat → Option BlockData_t)
    (s : Docstore_c) (tBlock : Block_t) (r : Nat) (bPack : Bool) (ids : List Nat)
    (hasc : ids.Pairwise (fun a b => a < b))
    (hreg : ∀ i ∈ ids, i < s.m_tFields.GetNumFields)
    (hfound : (s.ReadDocFromSmallBlock c tCache tBlock r none bPack).m_dFields.length
      = s.m_tFields.GetNumFields) :
    (s.ReadDocFromSmallBlock c tCache tBlock r (some ids) bPack).m_dFields
      = projectFields ids (s.ReadDocFromSmallBlock c tCache tBlock r none bPack).m_dFields := by
  unfold Docstore_c.ReadDocFromSmallBlock at *
  simp only at *
  rcases readSmallBlockDocs_lock s.m_tFields ids hasc r bPack
      (smallBlockLoopCount (s.smallBlockData c tCache tBlock)) tBlock.m_tRowID
      { tReader := { m_pData := readBytes (s.smallBlockData c tCache tBlock).m_pData 0
                      (s.smallBlockData c tCache tBlock).m_uSize },
        tEmptyFields := CSphBitvec.Init s.m_tFields.GetNumFields }
      { tReader := { m_pData := readBytes (s.smallBlockData c tCache tBlock).m_pData 0
                      (s.smallBlockData c tCache tBlock).m_uSize },
        tEmptyFields := CSphBitvec.Init s.m_tFields.GetNumFields } rfl rfl rfl rfl
    with ⟨hA, hS⟩ | ⟨_, hP⟩
  · rw [hA] at hfound
    rw [hA, hS]
    have hn : s.m_tFields.GetNumFields = 0 := by simpa using hfound.symm
    have hids : ids = [] := by
      cases ids with
      | nil => rfl
      | cons a t =>
        have := hreg a (List.mem_cons_self _ _)
        omega
    rw [hids]
    rfl
  · exact hP
theorem readBigBlockField_lock (c : Compressor_i) (tCache : Nat → Option BlockData_t)
    (s : Docstore_c) (h : BigBlockHeader) (n : Nat) (ids : List Nat)
    (hasc : ids.Pairwise (fun a b => a < b)) (bPack : Bool) (i : Nat)
    (accA accS : Nat × List (List BYTE)) (hO : accA.1 = accS.1) (hL : accA.2.length = n)
    (hP : accS.2 = projectFields ids accA.2) :
    (s.readBigBlockField c tCache h (CreateFieldRemap n none) bPack accA i).1
      = (s.readBigBlockField c tCache h (CreateFieldRemap n (some ids)) bPack accS i).1 ∧
    (s.readBigBlockField c tCache h (CreateFieldRemap n none) bPack accA i).2.length = n ∧
    (s.readBigBlockField c tCache h (CreateFieldRemap n (some ids)) bPack accS i).2
      = projectFields ids
          (s.readBigBlockField c tCache h (CreateFieldRemap n none) bPack accA i).2 := by
  obtain ⟨off, resA⟩ := accA
  obtain ⟨off2, resS⟩ := accS
  simp only at hO hL hP
  subst hO hP
  unfold Docstore_c.readBigBlockField Docstore_c.ProcessBigBlockField
  simp only
  split
  · exact ⟨rfl, hL, rfl⟩
  · obtain ⟨h1, h2⟩ := remap_step n ids hasc (bigFieldOf h.bNeedReorder h.dFieldSort i)
      (PackData
        (readBytes
          (match tCache off with
            | some tData => tData
            | none => s.UncompressBigBlockField c off
                (h.dFieldInfo.getD (bigFieldOf h.bNeedReorder h.dFieldSort i) default)).m_pData 0
          (match tCache off with
            | some tData => tData
            | none => s.UncompressBigBlockField c off
                (h.dFieldInfo.getD (bigFieldOf h.bNeedReorder h.dFieldSort i) default)).m_uSize)
        (decide ((s.m_tFields.GetField (bigFieldOf h.bNeedReorder h.dFieldSort i)).m_eType
          = DOCSTORE_TEXT)) bPack) resA hL
    cases hA : (CreateFieldRemap n none).getD (bigFieldOf h.bNeedReorder h.dFieldSort i) none <;>
      cases hS : (CreateFieldRemap n (some ids)).getD
        (bigFieldOf h.bNeedReorder h.dFieldSort i) none <;>
      rw [hA] at h1 h2 <;> rw [hS] at h1 <;> simp only at h1 h2 <;>
      refine ⟨?_, ?_, ?_⟩ <;> (try simp only [hA, hS]) <;>
      (try first | exact h1 | exact h2)

theorem readBigBlockFields_lock (c : Compressor_i) (tCache : Nat → Option BlockData_t)
    (s : Docstore_c) (h : BigBlockHeader) (n : Nat) (ids : List Nat)
    (hasc : ids.Pairwise (fun a b => a < b)) (bPack : Bool) (l : List Nat) :
    ∀ (accA accS : Nat × List (List BYTE)), accA.1 = accS.1 → accA.2.length = n →
      accS.2 = projectFields ids accA.2 →
      (l.foldl (s.readBigBlockField c tCache h (CreateFieldRemap n none) bPack) accA).2.length = n ∧
      (l.foldl (s.readBigBlockField c tCache h (CreateFieldRemap n (some ids)) bPack) accS).2
        = projectFields ids
            (l.foldl (s.readBigBlockField c tCache h (CreateFieldRemap n none) bPack) accA).2 := by
  induction l with
  | nil => intro accA accS _ hL hP; exact ⟨hL, hP⟩
  | cons a t ih =>
    intro accA accS hO hL hP
    obtain ⟨h1, h2, h3⟩ := readBigBlockField_lock c tCache s h n ids hasc bPack a accA accS hO hL hP
    simp only [List.foldl_cons]
    exact ih _ _ h1 h2 h3

/-- Subset projection for a big block. -/
theorem ReadDocFromBigBlock_projection (c : Compressor_i) (tCache : Nat → Option BlockData_t)
    (s : Docstore_c) (tBlock : Block_t) (bPack : Bool) (ids : List Nat)
    (hasc : ids.Pairwise (fun a b => a < b)) :
    (s.ReadDocFromBigBlock c tCache tBlock (some ids) bPack).m_dFields
      = projectFields ids (s.ReadDocFromBigBlock c tCache tBlock none bPack).m_dFields := by
  unfold Docstore_c.ReadDocFromBigBlock
  simp only
  exact (readBigBlockFields_lock c tCache s (s.readBigBlockHeader tBlock) s.m_tFields.GetNumFields
    ids hasc bPack (List.range s.m_tFields.GetNumFields)
    (tBlock.m_tOffset + tBlock.m_uHeaderSize,
      List.replicate (resultSize s.m_tFields.GetNumFields none) [])
    (tBlock.m_tOffset + tBlock.m_uHeaderSize,
      List.replicate (resultSize s.m_tFields.GetNumFields (some ids)) [])
    rfl (by simp [resultSize])
    (by simp [resultSize, projectFields_replicate])).2

theorem rtGetField_lock (tFields : DocstoreFields_c) (n : Nat) (ids : List Nat)
    (hasc : ids.Pairwise (fun a b => a < b)) (bPack : Bool) (i : Nat)
    (stA stS : List BYTE × List (List BYTE)) (hO : stA.1 = stS.1) (hL : stA.2.length = n)
    (hP : stS.2 = projectFields ids stA.2) :
    (rtGetField tFields (CreateFieldRemap n none) bPack stA i).1
      = (rtGetField tFields (CreateFieldRemap n (some ids)) bPack stS i).1 ∧
    (rtGetField tFields (CreateFieldRemap n none) bPack stA i).2.length = n ∧
    (rtGetField tFields (CreateFieldRemap n (some ids)) bPack stS i).2
      = projectFields ids (rtGetField tFields (CreateFieldRemap n none) bPack stA i).2 := by
  obtain ⟨pDoc, resA⟩ := stA
  obtain ⟨pDoc2, resS⟩ := stS
  simp only at hO hL hP
  subst hO hP
  unfold rtGetField
  simp only
  obtain ⟨h1, h2⟩ := remap_step n ids hasc i
    (PackData (readBytes (pDoc.drop (unzipBytes pDoc).2) 0 ((unzipBytes pDoc).1 % DWORD_MOD))
      (decide ((tFields.GetField i).m_eType = DOCSTORE_TEXT)) bPack) resA hL
  cases hA : (CreateFieldRemap n none).getD i none <;>
    cases hS : (CreateFieldRemap n (some ids)).getD i none <;>
    rw [hA] at h1 h2 <;> rw [hS] at h1 <;> simp only at h1 h2 <;>
    refine ⟨?_, ?_, ?_⟩ <;> (try simp only [hA, hS]) <;>
    (try first | exact h1 | exact h2)

theorem rtGetFields_lock (tFields : DocstoreFields_c) (n : Nat) (ids : List Nat)
    (hasc : ids.Pairwise (fun a b => a < b)) (bPack : Bool) (l : List Nat) :
    ∀ (stA stS : List BYTE × List (List BYTE)), stA.1 = stS.1 → stA.2.length = n →
      stS.2 = projectFields ids stA.2 →
      (l.foldl (rtGetField tFields (CreateFieldRemap n none) bPack) stA).2.length = n ∧
      (l.foldl (rtGetField tFields (CreateFieldRemap n (some ids)) bPack) stS).2
        = projectFields ids (l.foldl (rtGetField tFields (CreateFieldRemap n none) bPack) stA).2 := by
  induction l with
  | nil => intro stA stS _ hL hP; exact ⟨hL, hP⟩
  | cons a t ih =>
    intro stA stS hO hL hP
    obtain ⟨h1, h2, h3⟩ := rtGetField_lock tFields n ids hasc bPack a stA stS hO hL hP
    simp only [List.foldl_cons]
    exact ih _ _ h1 h2 h3

/-- C2: for a row the store holds (`GetDoc` for all fields returns one field per
registered field), every pack flag and every strictly ascending list of registry
indices, `GetDoc` for the ids returns exactly the fields with those ids of the
result for all fields, in the order of the ids (so it has as many fields as ids
and its `j`-th field is field `ids[j]`); for rows of small blocks, of big blocks
and of the in-memory store. -/
theorem C2_subset_projection (c : Compressor_i) (tCache : Nat → Option BlockData_t)
    (s : Docstore_c) (rt : DocstoreRT_c) (r : Nat) (bPack : Bool) (ids : List Nat)
    (hasc : ids.Pairwise (fun a b => a < b)) :
    (∀ dAll, (∀ i ∈ ids, i < s.m_tFields.GetNumFields) →
      s.GetDoc c tCache r none bPack = some dAll →
      dAll.m_dFields.length = s.m_tFields.GetNumFields →
      s.GetDoc c tCache r (some ids) bPack
        = some { m_dFields := projectFields ids dAll.m_dFields }) ∧
    (∀ dAll, rt.GetDoc r none bPack = some dAll →
      rt.GetDoc r (some ids) bPack = some { m_dFields := projectFields ids dAll.m_dFields }) ∧
    (∀ dAll : List (List BYTE), (projectFields ids dAll).length = ids.length ∧
      ∀ j, j < ids.length → (projectFields ids dAll).getD j [] = dAll.getD (ids.getD j 0) []) := by
  refine ⟨?_, ?_, ?_⟩
  · intro dAll hreg hget hlen
    unfold Docstore_c.GetDoc at *
    cases hfb : FindBlock s.m_dBlocks r with
    | none => rw [hfb] at hget; cases hget
    | some iBlock =>
      rw [hfb] at hget
      simp only at hget ⊢
      by_cases hty : (s.m_dBlocks.getD iBlock default).m_eType = BLOCK_TYPE_SMALL
      · rw [if_pos hty] at hget ⊢
        have hd : dAll = s.ReadDocFromSmallBlock c tCache (s.m_dBlocks.getD iBlock default) r none
            bPack := by injection hget with h; exact h.symm
        subst hd
        rw [← ReadDocFromSmallBlock_projection c tCache s _ r bPack ids hasc hreg hlen]
      · rw [if_neg hty] at hget ⊢
        have hd : dAll = s.ReadDocFromBigBlock c tCache (s.m_dBlocks.getD iBlock default) none
            bPack := by injection hget with h; exact h.symm
        subst hd
        rw [← ReadDocFromBigBlock_projection c tCache s _ bPack ids hasc]
  · intro dAll hget
    unfold DocstoreRT_c.GetDoc at *
    cases hd : rt.m_dDocs.getD r none with
    | none => rw [hd] at hget; cases hget
    | some pDoc =>
      rw [hd] at hget
      simp only at hget ⊢
      injection hget with hget
      subst hget
      simp only
      rw [(rtGetFields_lock rt.m_tFields rt.m_tFields.GetNumFields ids hasc bPack
        (List.range rt.m_tFields.GetNumFields)
        (pDoc, List.replicate (resultSize rt.m_tFields.GetNumFields none) [])
        (pDoc, List.replicate (resultSize rt.m_tFields.GetNumFields (some ids)) [])
        rfl (by simp [resultSize])
        (by simp [resultSize, projectFields_replicate])).2]
  · intro dAll
    refine ⟨by simp [projectFields], ?_⟩
    intro j hj
    simp [projectFields, List.getD_eq_getElem?_getD, List.getElem?_eq_getElem, hj]

theorem C2_subset_projection_witness :
    ([1] : List Nat).Pairwise (fun a b => a < b) ∧
    (openedStore emptyAndByteFile).GetDoc Compressor_None_c noCache 0 (some [1]) false
      = some { m_dFields := projectFields [1] [[0], [5, 0]] } :=
  ⟨by simp,
   (C2_subset_projection Compressor_None_c noCache (openedStore emptyAndByteFile) {} 0 false [1]
      (by simp)).1 { m_dFields := [[0], [5, 0]] } (by decide!) (by decide!) (by decide!)⟩

/-! ## Round trip of one document of a small block -/

theorem bitsOfByte_byteOfBits (b0 b1 b2 b3 b4 b5 b6 b7 : Bool) :
    bitsOfByte (byteOfBits [b0, b1, b2, b3, b4, b5, b6, b7]) = [b0, b1, b2, b3, b4, b5, b6, b7] := by
  cases b0 <;> cases b1 <;> cases b2 <;> cases b3 <;> cases b4 <;> cases b5 <;> cases b6 <;>
    cases b7 <;> rfl

theorem bytesToBits_bitsToBytes : ∀ (k : Nat) (bits : List Bool), bits.length = 8 * k →
    bytesToBits (bitsToBytes k bits) = bits := by
  intro k
  induction k with
  | zero =>
    intro bits h
    have : bits = [] := List.length_eq_zero.mp (by simpa using h)
    subst this
    rfl
  | succ n ih =>
    intro bits h
    match bits, h with
    | b0 :: b1 :: b2 :: b3 :: b4 :: b5 :: b6 :: b7 :: rest, h =>
      have hr : rest.length = 8 * n := by
        simp only [List.length_cons] at h
        omega
      simp only [bitsToBytes, bytesToBits, List.flatMap_cons, List.take_succ_cons, List.take_zero,
        List.drop_succ_cons, List.drop_zero]
      rw [bitsOfByte_byteOfBits]
      have := ih rest hr
      simp only [bytesToBits] at this
      rw [this]
      rfl
    | [], h => exact absurd h (by simp only [List.length_cons, List.length_nil]; omega)
    | [_], h => exact absurd h (by simp only [List.length_cons, List.length_nil]; omega)
    | [_, _], h => exact absurd h (by simp only [List.length_cons, List.length_nil]; omega)
    | [_, _, _], h => exact absurd h (by simp only [List.length_cons, List.length_nil]; omega)
    | [_, _, _, _], h => exact absurd h (by simp only [List.length_cons, List.length_nil]; omega)
    | [_, _, _, _, _], h => exact absurd h (by simp only [List.length_cons, List.length_nil]; omega)
    | [_, _, _, _, _, _], h => exact absurd h (by simp only [List.length_cons, List.length_nil]; omega)
    | [_, _, _, _, _, _, _], h => exact absurd h (by simp only [List.length_cons, List.length_nil]; omega)

theorem bitsToBytes_length : ∀ (k : Nat) (bits : List Bool), (bitsToBytes k bits).length = k := by
  intro k
  induction k with
  | zero => intro bits; rfl
  | succ n ih => intro bits; simp [bitsToBytes, ih]

theorem markEmptyFields_spec (iElements : Nat) :
    ∀ (dFields : List (List BYTE)) (A : List Bool) (m : Nat), dFields.length ≤ m →
      markEmptyFields dFields A.length { m_pData := A ++ List.replicate m false, m_iElements := iElements }
        = { m_pData := A ++ dFields.map (fun f => decide (f.length = 0))
              ++ List.replicate (m - dFields.length) false, m_iElements := iElements } := by
  intro dFields
  induction dFields with
  | nil => intro A m _; simp [markEmptyFields]
  | cons f rest ih =>
    intro A m hlen
    simp only [List.length_cons] at hlen
    obtain ⟨m', rfl⟩ : ∃ m', m = m' + 1 := ⟨m - 1, by omega⟩
    have hset : (A ++ List.replicate (m' + 1) false).set A.length true
        = (A ++ [true]) ++ List.replicate m' false := by
      simp [List.replicate_succ, List.set_append]
    have hkeep : A ++ List.replicate (m' + 1) false = (A ++ [false]) ++ List.replicate m' false := by
      simp [List.replicate_succ]
    by_cases hf : f.length = 0
    · have := ih (A ++ [true]) m' (by omega)
      simp only [List.length_append, List.length_singleton] at this
      simp only [markEmptyFields, hf, if_true, CSphBitvec.BitSet, hset, this]
      simp [List.length_eq_zero.mp hf]
    · have := ih (A ++ [false]) m' (by omega)
      simp only [List.length_append, List.length_singleton] at this
      simp only [markEmptyFields, hf, if_false, hkeep, this]
      have hne : ¬ f = [] := fun h => hf (by rw [h]; rfl)
      simp [hne]

/-- The bitmask `WriteSmallBlock` computes for a document: bit `i` says whether
field `i` is empty, all other bits are clear. -/
theorem markEmptyFields_init (iNumFields : Nat) (dFields : List (List BYTE))
    (hlen : dFields.length = iNumFields) :
    markEmptyFields dFields 0 (CSphBitvec.Init iNumFields).Clear
      = { m_pData := dFields.map (fun f => decide (f.length = 0))
            ++ List.replicate (32 * ((iNumFields + 31) / 32) - iNumFields) false,
          m_iElements := iNumFields } := by
  have h := markEmptyFields_spec iNumFields dFields [] (32 * ((iNumFields + 31) / 32)) (by omega)
  simp only [List.length_nil, List.nil_append] at h
  simp only [CSphBitvec.Init, CSphBitvec.Clear, CSphBitvec.GetSize, h, hlen]
theorem readBytes_append (A f B : List BYTE) :
    readBytes (A ++ (f ++ B)) A.length f.length = f := by
  simp [readBytes, List.drop_left, List.take_left]

theorem set_append_cons {α : Type} (D : List α) (x y : α) (R : List α) :
    (D ++ x :: R).set D.length y = D ++ y :: R := by
  induction D with
  | nil => rfl
  | cons a t ih => simp [ih]

theorem CreateFieldRemap_none_getD (n i : Nat) (hi : i < n) :
    (CreateFieldRemap n none).getD i none = some i := by
  simp [CreateFieldRemap, List.getD_eq_getElem?_getD, List.getElem?_eq_getElem, hi]

/-- The field loop of `ProcessSmallBlockDoc` reads back what `writeSmallBlockFields`
wrote: it ends right behind the written bytes and has put every written field,
packed for output, into its place of the result. -/
theorem processSmallBlockFields_roundtrip (tFields : DocstoreFields_c) (n : Nat)
    (bPack bHasBitmask : Bool) (W E : CSphBitvec)
    (hWE : bHasBitmask = true → ∀ j, E.BitGet j = W.BitGet j) (post : List BYTE) :
    ∀ (rest : List (List BYTE)) (i : Nat) (A : List BYTE) (D : List (List BYTE)),
      i + rest.length = n → D.length = i → (∀ f ∈ rest, f.length < DWORD_MOD) →
      (List.range' i rest.length).foldl
          (processSmallBlockField tFields (CreateFieldRemap n none) bPack true bHasBitmask)
          { tReader := { m_pData := A ++ (writeSmallBlockFields bHasBitmask W rest i ++ post),
                         m_iPos := A.length },
            tEmptyFields := E,
            tResult := D ++ List.replicate rest.length [] }
        = { tReader := { m_pData := A ++ (writeSmallBlockFields bHasBitmask W rest i ++ post),
                         m_iPos := A.length + (writeSmallBlockFields bHasBitmask W rest i).length },
            tEmptyFields := E,
            tResult := D ++ decodedSmallFields tFields bPack bHasBitmask W rest i } := by
  intro rest
  induction rest with
  | nil =>
    intro i A D _ _ _
    simp [writeSmallBlockFields, decodedSmallFields]
  | cons f rest ih =>
    intro i A D hn hD hsz
    simp only [List.length_cons] at hn
    have hf : f.length < DWORD_MOD := hsz f (List.mem_cons_self _ _)
    have hrest : ∀ g ∈ rest, g.length < DWORD_MOD := fun g hg => hsz g (List.mem_cons_of_mem _ hg)
    have hEW : (!bHasBitmask || !E.BitGet i) = (!bHasBitmask || !W.BitGet i) := by
      cases hb : bHasBitmask with
      | false => rfl
      | true => rw [hWE hb i]
    simp only [List.length_cons, List.range'_succ, List.foldl_cons, writeSmallBlockFields,
      decodedSmallFields, List.replicate_succ]
    by_cases hv : (!bHasBitmask || !W.BitGet i) = true
    · have hv2 : (!bHasBitmask || !E.BitGet i) = true := by rw [hEW]; exact hv
      have hstep : processSmallBlockField tFields (CreateFieldRemap n none) bPack true bHasBitmask
          ⟨⟨A ++ ((ZipInt f.length ++ f)
              ++ writeSmallBlockFields bHasBitmask W rest (i + 1) ++ post), A.length⟩,
            E, D ++ [] :: List.replicate rest.length []⟩ i
          = ⟨⟨(A ++ (ZipInt f.length ++ f))
              ++ (writeSmallBlockFields bHasBitmask W rest (i + 1) ++ post),
              (A ++ (ZipInt f.length ++ f)).length⟩, E,
            (D ++ [PackData f ((tFields.GetField i).m_eType = DOCSTORE_TEXT) bPack])
              ++ List.replicate rest.length []⟩ := by
        unfold processSmallBlockField
        simp only [hv2, if_true, MemoryReader2_c.UnzipInt, MemoryReader2_c.SetPos,
          List.drop_left, List.append_assoc, unzipBytes_ZipInt, Nat.mod_eq_of_lt hf,
          CreateFieldRemap_none_getD n i (by omega)]
        have hrb : readBytes (A ++ (ZipInt f.length ++ (f ++
            (writeSmallBlockFields bHasBitmask W rest (i + 1) ++ post))))
            (A.length + (ZipInt f.length).length) f.length = f := by
          have := readBytes_append (A ++ ZipInt f.length) f
            (writeSmallBlockFields bHasBitmask W rest (i + 1) ++ post)
          simpa [List.append_assoc] using this
        rw [hrb, ← hD, set_append_cons]
        simp [List.append_assoc, Nat.add_assoc]
      simp only [if_pos hv]
      rw [hstep, ih (i + 1) (A ++ (ZipInt f.length ++ f))
        (D ++ [PackData f ((tFields.GetField i).m_eType = DOCSTORE_TEXT) bPack]) (by omega)
        (by simp [hD]) hrest]
      simp [List.append_assoc, Nat.add_assoc]
    · have hv2 : ¬ (!bHasBitmask || !E.BitGet i) = true := by rw [hEW]; exact hv
      have hstep : processSmallBlockField tFields (CreateFieldRemap n none) bPack true bHasBitmask
          ⟨⟨A ++ (([] : List BYTE)
              ++ writeSmallBlockFields bHasBitmask W rest (i + 1) ++ post), A.length⟩,
            E, D ++ [] :: List.replicate rest.length []⟩ i
          = ⟨⟨A ++ (writeSmallBlockFields bHasBitmask W rest (i + 1) ++ post), A.length⟩, E,
            (D ++ [[]]) ++ List.replicate rest.length []⟩ := by
        unfold processSmallBlockField
        simp [hv2]
      simp only [if_neg hv]
      rw [hstep, ih (i + 1) A (D ++ [[]]) (by omega) (by simp [hD]) hrest]
      simp [List.append_assoc]
theorem getD_append_left_len (A B : List BYTE) (x : BYTE) :
    (A ++ (x :: B)).getD A.length 0 = x := by
  induction A with
  | nil => rfl
  | cons a t ih => simpa using ih

theorem markEmptyFields_bits_length (iNumFields : Nat) (dFields : List (List BYTE))
    (hlen : dFields.length = iNumFields) :
    (markEmptyFields dFields 0 (CSphBitvec.Init iNumFields).Clear).m_pData.length
      = 8 * (4 * ((iNumFields + 31) / 32)) := by
  rw [markEmptyFields_init iNumFields dFields hlen]
  simp only [List.length_append, List.length_map, List.length_replicate, hlen]
  omega

theorem markEmptyFields_elements (iNumFields : Nat) (dFields : List (List BYTE))
    (hlen : dFields.length = iNumFields) :
    (markEmptyFields dFields 0 (CSphBitvec.Init iNumFields).Clear).m_iElements = iNumFields := by
  rw [markEmptyFields_init iNumFields dFields hlen]

/-- `ProcessSmallBlockDoc` on the bytes `WriteSmallBlock` wrote for a document,
when the row id is the wanted one and all fields are asked for: it reports the
document found, stops right behind the document, and leaves the decoded fields. -/
theorem ProcessSmallBlockDoc_written (tFields : DocstoreFields_c) (tDoc : StoredDoc_t)
    (hlen : tDoc.m_dFields.length = tFields.GetNumFields)
    (hsz : ∀ f ∈ tDoc.m_dFields, f.length < DWORD_MOD)
    (pre post : List BYTE) (tRowID : Nat) (bPack : Bool) (E : CSphBitvec)
    (hE : E.m_iElements = tFields.GetNumFields) :
    (ProcessSmallBlockDoc tFields tRowID tRowID none
        (CreateFieldRemap tFields.GetNumFields none) bPack
        ⟨⟨pre ++ (writeSmallBlockDoc tFields.GetNumFields tDoc ++ post), pre.length⟩, E, []⟩).1
      = true ∧
    (ProcessSmallBlockDoc tFields tRowID tRowID none
        (CreateFieldRemap tFields.GetNumFields none) bPack
        ⟨⟨pre ++ (writeSmallBlockDoc tFields.GetNumFields tDoc ++ post), pre.length⟩, E, []⟩).2.tReader
      = ⟨pre ++ (writeSmallBlockDoc tFields.GetNumFields tDoc ++ post),
          pre.length + (writeSmallBlockDoc tFields.GetNumFields tDoc).length⟩ ∧
    (ProcessSmallBlockDoc tFields tRowID tRowID none
        (CreateFieldRemap tFields.GetNumFields none) bPack
        ⟨⟨pre ++ (writeSmallBlockDoc tFields.GetNumFields tDoc ++ post), pre.length⟩, E, []⟩).2.tResult
      = (if (markEmptyFields tDoc.m_dFields 0 (CSphBitvec.Init tFields.GetNumFields).Clear).BitCount
            = tFields.GetNumFields
          then List.replicate tFields.GetNumFields []
          else decodedSmallFields tFields bPack
            ((markEmptyFields tDoc.m_dFields 0 (CSphBitvec.Init tFields.GetNumFields).Clear).BitCount ≠ 0
              && decide ((markEmptyFields tDoc.m_dFields 0
                  (CSphBitvec.Init tFields.GetNumFields).Clear).GetSize * 4
                < (markEmptyFields tDoc.m_dFields 0
                  (CSphBitvec.Init tFields.GetNumFields).Clear).BitCount))
            (markEmptyFields tDoc.m_dFields 0 (CSphBitvec.Init tFields.GetNumFields).Clear)
            tDoc.m_dFields 0) := by
  generalize hn : tFields.GetNumFields = n at *
  have hWlen := markEmptyFields_bits_length n tDoc.m_dFields hlen
  have hWel := markEmptyFields_elements n tDoc.m_dFields hlen
  generalize hW : markEmptyFields tDoc.m_dFields 0 (CSphBitvec.Init n).Clear = W at *
  obtain ⟨Wd, We⟩ := W
  simp only at hWlen hWel
  subst hWel
  by_cases hall : (CSphBitvec.mk Wd We).BitCount = We
  · have hw : writeSmallBlockDoc We tDoc = [DOC_FLAG_ALL_EMPTY] := by
      unfold writeSmallBlockDoc
      simp only [hW, hall, if_true]
    rw [hw]
    unfold ProcessSmallBlockDoc
    simp only [MemoryReader2_c.GetByte, List.singleton_append, getD_append_left_len, hn]
    simp [hasFlag, DOC_FLAG_ALL_EMPTY, resultSize, hall]
  · generalize hbm : ((CSphBitvec.mk Wd We).BitCount ≠ 0
        && decide ((CSphBitvec.mk Wd We).GetSize * 4 < (CSphBitvec.mk Wd We).BitCount)) = bm
    have hw : writeSmallBlockDoc We tDoc
        = (if bm then DOC_FLAG_EMPTY_BITMASK else 0) ::
          ((if bm then (CSphBitvec.mk Wd We).bytes else [])
            ++ writeSmallBlockFields bm (CSphBitvec.mk Wd We) tDoc.m_dFields 0) := by
      unfold writeSmallBlockDoc
      simp only [hW, hall, if_false, hbm]
      simp
    rw [hw, if_neg hall]
    have hloop := processSmallBlockFields_roundtrip tFields We bPack bm (CSphBitvec.mk Wd We)
    cases bm with
    | false =>
      have h := hloop E (by intro h; cases h) post tDoc.m_dFields 0 (pre ++ [0]) []
        (by omega) rfl hsz
      simp only [List.nil_append, List.length_append, List.length_singleton,
        List.append_assoc, List.singleton_append, hlen] at h
      unfold ProcessSmallBlockDoc
      simp only [MemoryReader2_c.GetByte, List.cons_append, getD_append_left_len, hn,
        List.range_eq_range']
      simp [hasFlag, DOC_FLAG_ALL_EMPTY, DOC_FLAG_EMPTY_BITMASK, resultSize, h, Nat.add_assoc,
        Nat.add_comm 1]
    | true =>
      have hmem : bytesToBits (CSphBitvec.mk Wd We).bytes = Wd := by
        unfold CSphBitvec.bytes CSphBitvec.GetSize
        exact bytesToBits_bitsToBytes _ _ hWlen
      have hblen : (CSphBitvec.mk Wd We).bytes.length = E.GetSize * 4 := by
        unfold CSphBitvec.bytes CSphBitvec.GetSize
        rw [bitsToBytes_length, hE]
        simp only
        omega
      have h := hloop ⟨Wd, E.m_iElements⟩ (by intro _ j; rfl) post tDoc.m_dFields 0
        (pre ++ DOC_FLAG_EMPTY_BITMASK :: (CSphBitvec.mk Wd We).bytes) [] (by omega) rfl hsz
      simp only [List.nil_append, List.length_append, List.length_cons,
        List.append_assoc, List.cons_append, hlen] at h
      have hrb : readBytes (pre ++ DOC_FLAG_EMPTY_BITMASK :: ((CSphBitvec.mk Wd We).bytes
            ++ (writeSmallBlockFields true (CSphBitvec.mk Wd We) tDoc.m_dFields 0 ++ post)))
          (pre.length + 1) (CSphBitvec.mk Wd We).bytes.length = (CSphBitvec.mk Wd We).bytes := by
        have := readBytes_append (pre ++ [DOC_FLAG_EMPTY_BITMASK]) (CSphBitvec.mk Wd We).bytes
          (writeSmallBlockFields true (CSphBitvec.mk Wd We) tDoc.m_dFields 0 ++ post)
        simpa [List.append_assoc] using this
      unfold ProcessSmallBlockDoc
      simp only [MemoryReader2_c.GetByte, List.cons_append, getD_append_left_len, hn,
        List.range_eq_range', if_true, List.append_assoc, MemoryReader2_c.SetPos]
      have hf1 : hasFlag DOC_FLAG_EMPTY_BITMASK DOC_FLAG_ALL_EMPTY = false := by decide
      have hf2 : hasFlag DOC_FLAG_EMPTY_BITMASK DOC_FLAG_EMPTY_BITMASK = true := by decide
      simp only [hf1, hf2, if_true, CSphBitvec.memcpy, ← hblen]
      simp only [hrb, hmem]
      simp [resultSize, h, Nat.add_assoc, Nat.add_comm 1]
theorem decodedSmallFields_length (tFields : DocstoreFields_c) (bPack bm : Bool) (W : CSphBitvec) :
    ∀ (rest : List (List BYTE)) (i : Nat),
      (decodedSmallFields tFields bPack bm W rest i).length = rest.length := by
  intro rest
  induction rest with
  | nil => intro i; rfl
  | cons f rest ih => intro i; simp [decodedSmallFields, ih]

theorem decodedSmallFields_getD (tFields : DocstoreFields_c) (bPack bm : Bool) (W : CSphBitvec) :
    ∀ (rest : List (List BYTE)) (i j : Nat), j < rest.length →
      (decodedSmallFields tFields bPack bm W rest i).getD j []
        = if !bm || !W.BitGet (i + j) then
            PackData (rest.getD j []) ((tFields.GetField (i + j)).m_eType = DOCSTORE_TEXT) bPack
          else [] := by
  intro rest
  induction rest with
  | nil => intro i j hj; simp at hj
  | cons f rest ih =>
    intro i j hj
    cases j with
    | zero => simp [decodedSmallFields]
    | succ k =>
      simp only [List.length_cons] at hj
      have := ih (i + 1) k (by omega)
      simp only [decodedSmallFields, List.getD_cons_succ, this]
      rw [show i + 1 + k = i + (k + 1) by omega]

theorem markEmptyFields_BitGet (iNumFields : Nat) (dFields : List (List BYTE))
    (hlen : dFields.length = iNumFields) (i : Nat) (hi : i < iNumFields) :
    (markEmptyFields dFields 0 (CSphBitvec.Init iNumFields).Clear).BitGet i
      = decide ((dFields.getD i []).length = 0) := by
  rw [markEmptyFields_init iNumFields dFields hlen]
  subst hlen
  simp only [CSphBitvec.BitGet, List.getD_eq_getElem?_getD]
  rw [List.getElem?_append_left (by simpa using hi)]
  simp [List.getElem?_eq_getElem hi]

theorem markEmptyFields_BitCount_all (iNumFields : Nat) (dFields : List (List BYTE))
    (hlen : dFields.length = iNumFields)
    (hall : (markEmptyFields dFields 0 (CSphBitvec.Init iNumFields).Clear).BitCount = iNumFields) :
    ∀ f ∈ dFields, f = [] := by
  rw [markEmptyFields_init iNumFields dFields hlen] at hall
  subst hlen
  simp only [CSphBitvec.BitCount, List.count_append, List.count_replicate] at hall
  have hc : (dFields.map (fun f => decide (f.length = 0))).count true
      = (dFields.map (fun f => decide (f.length = 0))).length := by
    simp only [List.length_map]
    simpa using hall
  intro f hf
  have := (List.count_eq_length.mp hc) (decide (f.length = 0)) (List.mem_map_of_mem _ hf)
  exact List.length_eq_zero.mp (of_decide_eq_true this.symm)

/-- Round trip of one document of a small block: when `ProcessSmallBlockDoc` is
at the bytes `WriteSmallBlock` wrote for a document whose row id is the wanted
one and all fields are asked for, it reports the document found, stops right
behind the document's bytes, and returns one entry per field: the stored bytes
packed for output, or, for a field stored empty, possibly no bytes at all. -/
theorem ProcessSmallBlockDoc_roundtrip (tFields : DocstoreFields_c) (tDoc : StoredDoc_t)
    (hlen : tDoc.m_dFields.length = tFields.GetNumFields)
    (hsz : ∀ f ∈ tDoc.m_dFields, f.length < DWORD_MOD)
    (pre post : List BYTE) (tRowID : Nat) (bPack : Bool) (E : CSphBitvec)
    (hE : E.m_iElements = tFields.GetNumFields) :
    (ProcessSmallBlockDoc tFields tRowID tRowID none
        (CreateFieldRemap tFields.GetNumFields none) bPack
        ⟨⟨pre ++ (writeSmallBlockDoc tFields.GetNumFields tDoc ++ post), pre.length⟩, E, []⟩).1
      = true ∧
    (ProcessSmallBlockDoc tFields tRowID tRowID none
        (CreateFieldRemap tFields.GetNumFields none) bPack
        ⟨⟨pre ++ (writeSmallBlockDoc tFields.GetNumFields tDoc ++ post), pre.length⟩, E, []⟩).2.tReader.m_iPos
      = pre.length + (writeSmallBlockDoc tFields.GetNumFields tDoc).length ∧
    (ProcessSmallBlockDoc tFields tRowID tRowID none
        (CreateFieldRemap tFields.GetNumFields none) bPack
        ⟨⟨pre ++ (writeSmallBlockDoc tFields.GetNumFields tDoc ++ post), pre.length⟩, E, []⟩).2.tResult.length
      = tFields.GetNumFields ∧
    ∀ i, i < tFields.GetNumFields →
      (ProcessSmallBlockDoc tFields tRowID tRowID none
          (CreateFieldRemap tFields.GetNumFields none) bPack
          ⟨⟨pre ++ (writeSmallBlockDoc tFields.GetNumFields tDoc ++ post), pre.length⟩, E, []⟩).2.tResult.getD i []
        = PackData (tDoc.m_dFields.getD i []) ((tFields.GetField i).m_eType = DOCSTORE_TEXT) bPack
      ∨ (tDoc.m_dFields.getD i [] = [] ∧
        (ProcessSmallBlockDoc tFields tRowID tRowID none
          (CreateFieldRemap tFields.GetNumFields none) bPack
          ⟨⟨pre ++ (writeSmallBlockDoc tFields.GetNumFields tDoc ++ post), pre.length⟩, E, []⟩).2.tResult.getD i []
          = []) := by
  obtain ⟨h1, h2, h3⟩ := ProcessSmallBlockDoc_written tFields tDoc hlen hsz pre post tRowID bPack E hE
  refine ⟨h1, by rw [h2], ?_, ?_⟩
  · rw [h3]
    split
    · simp
    · rw [decodedSmallFields_length, hlen]
  · intro i hi
    rw [h3]
    by_cases hall : (markEmptyFields tDoc.m_dFields 0
        (CSphBitvec.Init tFields.GetNumFields).Clear).BitCount = tFields.GetNumFields
    · right
      rw [if_pos hall]
      have hemp := markEmptyFields_BitCount_all _ _ hlen hall
      refine ⟨?_, by simp [List.getD_eq_getElem?_getD, hi]⟩
      have hi2 : i < tDoc.m_dFields.length := by omega
      rw [List.getD_eq_getElem?_getD, List.getElem?_eq_getElem hi2]
      exact hemp _ (List.getElem_mem _)
    · rw [if_neg hall, decodedSmallFields_getD _ _ _ _ _ _ _ (by omega)]
      simp only [Nat.zero_add]
      split
      · left; rfl
      · rename_i hv
        right
        refine ⟨?_, rfl⟩
        have hb : (markEmptyFields tDoc.m_dFields 0
            (CSphBitvec.Init tFields.GetNumFields).Clear).BitGet i = true := by
          cases hx : (markEmptyFields tDoc.m_dFields 0
            (CSphBitvec.Init tFields.GetNumFields).Clear).BitGet i with
          | true => rfl
          | false => rw [hx] at hv; simp at hv
        rw [markEmptyFields_BitGet _ _ hlen i hi] at hb
        exact List.length_eq_zero.mp (of_decide_eq_true hb)
theorem ProcessSmallBlockDoc_roundtrip_witness :
    (({ m_dFields := [[], [5]] } : StoredDoc_t).m_dFields.length
        = twoTextBuilder.m_tFields.GetNumFields ∧
      (∀ f ∈ ({ m_dFields := [[], [5]] } : StoredDoc_t).m_dFields, f.length < DWORD_MOD) ∧
      (CSphBitvec.Init 2).m_iElements = twoTextBuilder.m_tFields.GetNumFields) ∧
    (ProcessSmallBlockDoc twoTextBuilder.m_tFields 7 7 none
        (CreateFieldRemap twoTextBuilder.m_tFields.GetNumFields none) false
        ⟨⟨[9] ++ (writeSmallBlockDoc twoTextBuilder.m_tFields.GetNumFields
            { m_dFields := [[], [5]] } ++ [8]), [9].length⟩, CSphBitvec.Init 2, []⟩).1 = true :=
  ⟨⟨by decide, by decide, by decide⟩,
   (ProcessSmallBlockDoc_roundtrip twoTextBuilder.m_tFields { m_dFields := [[], [5]] }
      (by decide) (by decide) [9] [8] 7 false (CSphBitvec.Init 2) (by decide)).1⟩

/-! ## The version check of `Init` -/

/-- C12: opening a store fails with the message that names the file, the file's
version and the supported version if and only if the `u32` storage version read
from the header is greater than 1; `Init` writes a message in no other case, and
with a version of 0 or 1 the version check is passed: the message is not written
and the outcome is that of the rest of `Init` (a file of version 1, and the same
file with its version set to 0, both open). -/
theorem C12_version_check (sFilename : String) (tFile : List BYTE) :
    (Docstore_c.InitWithError sFilename tFile
        = (none, some (versionError sFilename (storageVersion tFile)))
      ↔ storageVersion tFile > 1) ∧
    ((Docstore_c.InitWithError sFilename tFile).2.isSome = true ↔ storageVersion tFile > 1) ∧
    (versionError sFilename (storageVersion tFile)
      = "Unable to load docstore: " ++ sFilename ++ " is v." ++ sprintfD (storageVersion tFile)
        ++ ", binary is v." ++ sprintfD 1) ∧
    (Docstore_c.InitWithError "idx.spds" (PutDword 2 ++ emptyTextFile.drop 4)).2
      = some "Unable to load docstore: idx.spds is v.2, binary is v.1" ∧
    (storageVersion emptyTextFile = 1 ∧
      (Docstore_c.InitWithError "idx.spds" emptyTextFile).1.isSome = true ∧
      (Docstore_c.InitWithError "idx.spds" emptyTextFile).2 = none) ∧
    (storageVersion (PutDword 0 ++ emptyTextFile.drop 4) = 0 ∧
      (Docstore_c.InitWithError "idx.spds" (PutDword 0 ++ emptyTextFile.drop 4)).1.isSome = true ∧
      (Docstore_c.InitWithError "idx.spds" (PutDword 0 ++ emptyTextFile.drop 4)).2 = none) := by
  refine ⟨?_, ?_, rfl, by decide!, ⟨by decide!, by decide!, by decide!⟩,
    ⟨by decide!, by decide!, by decide!⟩⟩
  · by_cases h : storageVersion tFile > 1
    · have h2 : (({ m_pBuff := tFile } : CSphReader).GetDword).1 > STORAGE_VERSION := h
      simp only [Docstore_c.InitWithError, if_pos h2, h, iff_true]
      rfl
    · have h2 : ¬ (({ m_pBuff := tFile } : CSphReader).GetDword).1 > STORAGE_VERSION := h
      simp only [Docstore_c.InitWithError, if_neg h2, h, iff_false]
      intro hc
      have := congrArg Prod.snd hc
      simp at this
  · by_cases h : storageVersion tFile > 1
    · have h2 : (({ m_pBuff := tFile } : CSphReader).GetDword).1 > STORAGE_VERSION := h
      simp only [Docstore_c.InitWithError, if_pos h2, h, iff_true]
      rfl
    · have h2 : ¬ (({ m_pBuff := tFile } : CSphReader).GetDword).1 > STORAGE_VERSION := h
      simp only [Docstore_c.InitWithError, if_neg h2, h, iff_false]
      simp
/-! ## Ids and lookup of the field registry -/

theorem toDigits_lt_ten (t : Nat) (ht : t < 10) : Nat.toDigits 10 t = [Nat.digitChar t] := by
  interval_cases t <;> rfl

theorem compoundKey_injective (n1 n2 : List BYTE) (t1 t2 : Nat) (h1 : t1 < 10) (h2 : t2 < 10)
    (h : compoundKey n1 t1 = compoundKey n2 t2) : n1 = n2 ∧ t1 = t2 := by
  unfold compoundKey at h
  rw [toDigits_lt_ten t1 h1, toDigits_lt_ten t2 h2] at h
  simp only [List.map_cons, List.map_nil, List.singleton_append, List.cons.injEq] at h
  refine ⟨h.2, ?_⟩
  have hd := h.1
  interval_cases t1 <;> interval_cases t2 <;> first | rfl | (exfalso; revert hd; decide)

/-- `AddField` appends the field and returns its position. -/
theorem AddField_fields (f : DocstoreFields_c) (sName : List BYTE) (eType : Nat) :
    (f.AddField sName eType).1.m_dFields = f.m_dFields ++ [{ m_sName := sName, m_eType := eType }] ∧
    (f.AddField sName eType).2 = f.m_dFields.length := ⟨rfl, rfl⟩

theorem AddFields_ids (fields : List (List BYTE × Nat)) :
    ∀ f : DocstoreFields_c,
      (AddFields f fields).2 = (List.range' f.m_dFields.length fields.length) ∧
      (AddFields f fields).1.m_dFields
        = f.m_dFields ++ fields.map (fun fld => { m_sName := fld.1, m_eType := fld.2 }) := by
  induction fields with
  | nil => intro f; simp [AddFields]
  | cons fld rest ih =>
    intro f
    obtain ⟨h1, h2⟩ := ih (f.AddField fld.1 fld.2).1
    simp only [AddFields, h1, h2, (AddField_fields f fld.1 fld.2).1, (AddField_fields f fld.1 fld.2).2,
      List.length_append, List.length_singleton, List.length_cons, List.range'_succ,
      List.map_cons, List.append_assoc, List.singleton_append, and_self]
    simp

theorem lookup_append_of_none {α β : Type} [BEq α] (l1 l2 : List (α × β)) (k : α)
    (h : l1.lookup k = none) : (l1 ++ l2).lookup k = l2.lookup k := by
  induction l1 with
  | nil => rfl
  | cons a t ih =>
    obtain ⟨a1, a2⟩ := a
    simp only [List.cons_append, List.lookup_cons] at h ⊢
    cases hk : (k == a1) with
    | true => rw [hk] at h; cases h
    | false => rw [hk] at h; simp only; exact ih h

theorem lookup_append_of_some {α β : Type} [BEq α] (l1 l2 : List (α × β)) (k : α) (v : β)
    (h : l1.lookup k = some v) : (l1 ++ l2).lookup k = some v := by
  induction l1 with
  | nil => cases h
  | cons a t ih =>
    obtain ⟨a1, a2⟩ := a
    simp only [List.cons_append, List.lookup_cons] at h ⊢
    cases hk : (k == a1) with
    | true => rw [hk] at h; exact h
    | false => rw [hk] at h; simp only; exact ih h

theorem AddFields_snoc (l : List (List BYTE × Nat)) (a : List BYTE × Nat) :
    ∀ f : DocstoreFields_c,
      (AddFields f (l ++ [a])).1 = ((AddFields f l).1.AddField a.1 a.2).1 := by
  induction l with
  | nil => intro f; rfl
  | cons b t ih => intro f; exact ih (f.AddField b.1 b.2).1

theorem AddFields_hash (l : List (List BYTE × Nat)) :
    (∀ k v, (AddFields {} l).1.m_hFields.lookup k = some v →
      v < l.length ∧ compoundKey (l.getD v default).1 (l.getD v default).2 = k) ∧
    ((l.map (fun fld => compoundKey fld.1 fld.2)).Nodup →
      ∀ i, i < l.length →
        (AddFields {} l).1.m_hFields.lookup (compoundKey (l.getD i default).1 (l.getD i default).2)
          = some i) := by
  induction l using List.reverseRecOn with
  | nil =>
    refine ⟨?_, ?_⟩
    · intro k v h; simp [AddFields] at h
    · intro _ i hi; simp at hi
  | append_singleton l a ih =>
    obtain ⟨ih1, ih2⟩ := ih
    have hlen : (AddFields {} l).1.m_dFields.length = l.length := by
      rw [(AddFields_ids l {}).2]; simp
    have hgetlt : ∀ v, v < l.length → (l ++ [a]).getD v default = l.getD v default := by
      intro v hv
      simp [List.getD_eq_getElem?_getD, List.getElem?_append_left hv]
    have hgetn : (l ++ [a]).getD l.length default = a := by
      simp [List.getD_eq_getElem?_getD]
    have part1 : ∀ k v, (AddFields {} (l ++ [a])).1.m_hFields.lookup k = some v →
        v < (l ++ [a]).length ∧
          compoundKey ((l ++ [a]).getD v default).1 ((l ++ [a]).getD v default).2 = k := by
      intro k v h
      rw [AddFields_snoc] at h
      simp only [DocstoreFields_c.AddField, hlen] at h
      simp only [List.length_append, List.length_singleton]
      split at h
      · obtain ⟨h1, h2⟩ := ih1 k v h
        exact ⟨by omega, by rw [hgetlt v h1]; exact h2⟩
      · cases hl : (AddFields {} l).1.m_hFields.lookup k with
        | some v2 =>
          rw [lookup_append_of_some _ _ _ _ hl] at h
          cases h
          obtain ⟨h1, h2⟩ := ih1 k v hl
          exact ⟨by omega, by rw [hgetlt v h1]; exact h2⟩
        | none =>
          rw [lookup_append_of_none _ _ _ hl] at h
          simp only [List.lookup_cons, List.lookup_nil] at h
          cases hk : (k == compoundKey a.1 a.2) with
          | true =>
            rw [hk] at h
            cases h
            have := eq_of_beq hk
            exact ⟨by omega, by rw [hgetn]; exact this.symm⟩
          | false => rw [hk] at h; cases h
    refine ⟨part1, ?_⟩
    intro hnd i hi
    simp only [List.map_append, List.map_cons, List.map_nil] at hnd
    have hnd2 := List.nodup_append.mp hnd
    have hnone : (AddFields {} l).1.m_hFields.lookup (compoundKey a.1 a.2) = none := by
      cases hl : (AddFields {} l).1.m_hFields.lookup (compoundKey a.1 a.2) with
      | none => rfl
      | some v =>
        exfalso
        obtain ⟨h1, h2⟩ := ih1 _ v hl
        have hmem : compoundKey a.1 a.2 ∈ l.map (fun fld => compoundKey fld.1 fld.2) := by
          rw [← h2]
          refine List.mem_map_of_mem (fun fld : List BYTE × Nat => compoundKey fld.1 fld.2) ?_
          rw [List.getD_eq_getElem?_getD, List.getElem?_eq_getElem h1]
          exact List.getElem_mem _
        exact hnd2.2.2 hmem (by simp)
    rw [AddFields_snoc]
    simp only [DocstoreFields_c.AddField, hlen, hnone, Option.isSome_none, Bool.false_eq_true, if_false]
    simp only [List.length_append, List.length_singleton] at hi
    by_cases hlt : i < l.length
    · rw [hgetlt i hlt]
      exact lookup_append_of_some _ _ _ _ (ih2 hnd2.1 i hlt)
    · have hi2 : i = l.length := by omega
      subst hi2
      rw [hgetn, lookup_append_of_none _ _ _ hnone]
      simp

/-- C13: in a run of `AddField` calls on an empty registry the k-th call (from 0)
returns k; when the (type, name) pairs of the run are pairwise distinct (types
being enumerators, below 10), `GetFieldId` of the name and type of the k-th
call returns the id k that the call returned; and a name registered once as TEXT
and once as BINARY has the two ids 0 and 1, which `GetFieldId` tells apart. -/
theorem C13_registry_ids (fields : List (List BYTE × Nat)) :
    (AddFields {} fields).2 = List.range fields.length ∧
    ((∀ fld ∈ fields, fld.2 < 10) → fields.Nodup → ∀ k, k < fields.length →
      (AddFields {} fields).2.getD k 0 = k ∧
      (AddFields {} fields).1.GetFieldId (fields.getD k default).1 (fields.getD k default).2
        = some ((AddFields {} fields).2.getD k 0)) ∧
    (∀ sName : List BYTE,
      (AddFields {} [(sName, DOCSTORE_TEXT), (sName, DOCSTORE_BIN)]).2 = [0, 1] ∧
      (AddFields {} [(sName, DOCSTORE_TEXT), (sName, DOCSTORE_BIN)]).1.GetFieldId sName DOCSTORE_TEXT
        = some 0 ∧
      (AddFields {} [(sName, DOCSTORE_TEXT), (sName, DOCSTORE_BIN)]).1.GetFieldId sName DOCSTORE_BIN
        = some 1) := by
  have hids : (AddFields {} fields).2 = List.range fields.length := by
    rw [(AddFields_ids fields {}).1, List.range_eq_range']
    rfl
  have hmain : ∀ l : List (List BYTE × Nat), (∀ fld ∈ l, fld.2 < 10) → l.Nodup →
      ∀ k, k < l.length →
        (AddFields {} l).1.GetFieldId (l.getD k default).1 (l.getD k default).2 = some k := by
    intro l ht hnd k hk
    refine (AddFields_hash l).2 ?_ k hk
    refine List.Nodup.map_on ?_ hnd
    intro x hx y hy hxy
    obtain ⟨h1, h2⟩ := compoundKey_injective x.1 y.1 x.2 y.2 (ht x hx) (ht y hy) hxy
    exact Prod.ext h1 h2
  refine ⟨hids, ?_, ?_⟩
  · intro ht hnd k hk
    have hk2 : (AddFields {} fields).2.getD k 0 = k := by
      rw [hids, List.getD_eq_getElem?_getD, List.getElem?_range hk]
      rfl
    exact ⟨hk2, by rw [hk2]; exact hmain fields ht hnd k hk⟩
  · intro sName
    have hnd : [(sName, DOCSTORE_TEXT), (sName, DOCSTORE_BIN)].Nodup := by
      simp [DOCSTORE_TEXT, DOCSTORE_BIN]
    have ht : ∀ fld ∈ [(sName, DOCSTORE_TEXT), (sName, DOCSTORE_BIN)], fld.2 < 10 := by
      intro fld hf
      simp only [List.mem_cons, List.mem_singleton, List.not_mem_nil, or_false] at hf
      rcases hf with rfl | rfl <;> simp [DOCSTORE_TEXT, DOCSTORE_BIN]
    exact ⟨rfl, hmain _ ht hnd 0 (by simp), hmain _ ht hnd 1 (by simp)⟩

theorem C13_registry_ids_witness :
    ((∀ fld ∈ [(([102] : List BYTE), DOCSTORE_TEXT), ([103], DOCSTORE_TEXT), ([102], DOCSTORE_BIN)],
        fld.2 < 10) ∧
      [(([102] : List BYTE), DOCSTORE_TEXT), ([103], DOCSTORE_TEXT), ([102], DOCSTORE_BIN)].Nodup ∧
      2 < [(([102] : List BYTE), DOCSTORE_TEXT), ([103], DOCSTORE_TEXT),
        ([102], DOCSTORE_BIN)].length) ∧
    (AddFields {} [([102], DOCSTORE_TEXT), ([103], DOCSTORE_TEXT), ([102], DOCSTORE_BIN)]).1.GetFieldId
        [102] DOCSTORE_BIN
      = some 2 :=
  ⟨⟨by decide, by decide, by decide⟩,
   ((C13_registry_ids [([102], DOCSTORE_TEXT), ([103], DOCSTORE_TEXT), ([102], DOCSTORE_BIN)]).2.1
      (by decide) (by decide) 2 (by decide)).2⟩
/-! ## Round trip of the field registry -/

theorem leValue_PutDword (v : Nat) (hv : v < DWORD_MOD) : leValue (PutDword v) = v := by
  unfold DWORD_MOD at hv
  simp only [PutDword, leValue]
  omega

theorem PutDword_length (v : Nat) : (PutDword v).length = 4 := rfl

theorem readBytes_mid (A f B : List BYTE) (n : Nat) (hn : n = f.length) :
    readBytes (A ++ (f ++ B)) A.length n = f := by
  subst hn
  simp [readBytes, List.drop_left, List.take_left]

theorem CSphReader_GetDword_at (A B : List BYTE) (v : Nat) (hv : v < DWORD_MOD) (e : Bool) :
    (CSphReader.GetDword ⟨A ++ (PutDword v ++ B), A.length, e⟩)
      = (v, ⟨A ++ (PutDword v ++ B), A.length + 4, e⟩) := by
  unfold CSphReader.GetDword
  simp only [readBytes_mid A (PutDword v) B 4 rfl, leValue_PutDword v hv]
  have : ¬ (A ++ (PutDword v ++ B)).length < A.length + 4 := by
    simp only [List.length_append, PutDword_length]; omega
  rw [decide_eq_false this, Bool.or_false]

theorem CSphReader_GetByte_at (A B : List BYTE) (b : BYTE) (e : Bool) :
    (CSphReader.GetByte ⟨A ++ (b :: B), A.length, e⟩)
      = (b, ⟨A ++ (b :: B), A.length + 1, e⟩) := by
  unfold CSphReader.GetByte
  have : ¬ (A ++ (b :: B)).length ≤ A.length := by
    simp only [List.length_append, List.length_cons]; omega
  rw [decide_eq_false this, Bool.or_false, getD_append_cons]

theorem CSphReader_GetString_at (A B : List BYTE) (sName : List BYTE)
    (hv : sName.length < DWORD_MOD) (e : Bool) :
    (CSphReader.GetString ⟨A ++ (PutDword sName.length ++ (sName ++ B)), A.length, e⟩)
      = (sName, ⟨A ++ (PutDword sName.length ++ (sName ++ B)),
          A.length + 4 + sName.length, e⟩) := by
  unfold CSphReader.GetString
  rw [CSphReader_GetDword_at A (sName ++ B) sName.length hv e]
  simp only
  have h1 : readBytes (A ++ (PutDword sName.length ++ (sName ++ B))) (A.length + 4) sName.length
      = sName := by
    have := readBytes_mid (A ++ PutDword sName.length) sName B sName.length rfl
    simpa [List.append_assoc, PutDword_length] using this
  have h2 : ¬ (A ++ (PutDword sName.length ++ (sName ++ B))).length
      < A.length + 4 + sName.length := by
    simp only [List.length_append, PutDword_length]; omega
  rw [h1, decide_eq_false h2, Bool.or_false]

/-- The loop of `Load` reads back the fields `Save` wrote, one `AddField` each,
and stops right behind them. -/
theorem loadFields_saved (l : List (List BYTE × Nat))
    (hname : ∀ fld ∈ l, fld.1.length < DWORD_MOD) :
    ∀ (g : DocstoreFields_c) (A B : List BYTE) (e : Bool),
      loadFields l.length g
          ⟨A ++ (l.flatMap (fun fld => [fld.2] ++ PutDword fld.1.length ++ fld.1) ++ B),
            A.length, e⟩
        = ((AddFields g l).1,
            ⟨A ++ (l.flatMap (fun fld => [fld.2] ++ PutDword fld.1.length ++ fld.1) ++ B),
              A.length + (l.flatMap (fun fld => [fld.2] ++ PutDword fld.1.length ++ fld.1)).length,
              e⟩) := by
  induction l with
  | nil => intro g A B e; simp [loadFields, AddFields]
  | cons fld rest ih =>
    intro g A B e
    have hf : fld.1.length < DWORD_MOD := hname fld (List.mem_cons_self _ _)
    have hrest : ∀ x ∈ rest, x.1.length < DWORD_MOD := fun x hx => hname x (List.mem_cons_of_mem _ hx)
    have hdata : A ++ ((fld :: rest).flatMap (fun fld => [fld.2] ++ PutDword fld.1.length ++ fld.1) ++ B)
        = A ++ (fld.2 :: (PutDword fld.1.length ++ (fld.1 ++
            (rest.flatMap (fun fld => [fld.2] ++ PutDword fld.1.length ++ fld.1) ++ B)))) := by
      simp [List.append_assoc]
    have hdata2 : A ++ (fld.2 :: (PutDword fld.1.length ++ (fld.1 ++
            (rest.flatMap (fun fld => [fld.2] ++ PutDword fld.1.length ++ fld.1) ++ B))))
        = (A ++ [fld.2]) ++ (PutDword fld.1.length ++ (fld.1 ++
            (rest.flatMap (fun fld => [fld.2] ++ PutDword fld.1.length ++ fld.1) ++ B))) := by
      simp [List.append_assoc]
    have hdata3 : (A ++ [fld.2]) ++ (PutDword fld.1.length ++ (fld.1 ++
            (rest.flatMap (fun fld => [fld.2] ++ PutDword fld.1.length ++ fld.1) ++ B)))
        = (A ++ [fld.2] ++ PutDword fld.1.length ++ fld.1) ++
            (rest.flatMap (fun fld => [fld.2] ++ PutDword fld.1.length ++ fld.1) ++ B) := by
      simp [List.append_assoc]
    have hpos : (A ++ [fld.2]).length = A.length + 1 := by simp
    have hpos2 : (A ++ [fld.2] ++ PutDword fld.1.length ++ fld.1).length
        = A.length + 1 + 4 + fld.1.length := by
      simp only [List.length_append, List.length_singleton, PutDword_length]
    rw [hdata]
    simp only [List.length_cons, loadFields, AddFields]
    rw [CSphReader_GetByte_at]
    simp only
    rw [hdata2, ← hpos, CSphReader_GetString_at _ _ _ hf]
    simp only
    rw [hdata3, hpos, ← hpos2, ih hrest]
    simp only [hpos2, List.flatMap_cons, List.length_append, List.length_cons, List.length_nil,
      PutDword_length, List.length_singleton]
    refine Prod.ext rfl ?_
    simp only [CSphReader.mk.injEq, true_and, and_true]
    omega

theorem Save_AddFields (l : List (List BYTE × Nat)) :
    (AddFields {} l).1.Save
      = PutDword l.length ++ l.flatMap (fun fld => [fld.2] ++ PutDword fld.1.length ++ fld.1) := by
  unfold DocstoreFields_c.Save DocstoreFields_c.GetNumFields
  rw [(AddFields_ids l {}).2]
  simp [List.flatMap_map]

/-- `Load` into an empty registry reads back what `Save` wrote for the registry
of a run of `AddField` calls, and stops right behind it. -/
theorem Load_Save (l : List (List BYTE × Nat)) (hn : l.length < 2147483648)
    (hname : ∀ fld ∈ l, fld.1.length < DWORD_MOD) (A B : List BYTE) (e : Bool) :
    DocstoreFields_c.Load {} ⟨A ++ ((AddFields {} l).1.Save ++ B), A.length, e⟩
      = ((AddFields {} l).1,
          ⟨A ++ ((AddFields {} l).1.Save ++ B), A.length + (AddFields {} l).1.Save.length, e⟩) := by
  rw [Save_AddFields]
  unfold DocstoreFields_c.Load
  have hdw : l.length < DWORD_MOD := by unfold DWORD_MOD; omega
  simp only [List.append_assoc]
  rw [CSphReader_GetDword_at A _ l.length hdw e]
  simp only [hn, if_true]
  have h := loadFields_saved l hname {} (A ++ PutDword l.length) B e
  simp only [List.append_assoc, List.length_append, PutDword_length] at h
  rw [h]
  simp only [List.length_append, PutDword_length]
  refine Prod.ext rfl ?_
  simp only [CSphReader.mk.injEq, true_and, and_true]
  omega

theorem WriteSmallBlock_writer (c : Compressor_i) (s : DocstoreBuilder_c) :
    (s.WriteSmallBlock c).m_tWriter
      = s.m_tWriter
        ++ ((if (c.Compress s.smallBlockBody
              ((resizeBuffers s.m_dCompressedBuffers 1).getD 0 [])).1 then BLOCK_FLAG_COMPRESSED else 0)
          :: (ZipInt s.m_dStoredDocs.length ++ ZipInt s.smallBlockBody.length
            ++ (if (c.Compress s.smallBlockBody
                ((resizeBuffers s.m_dCompressedBuffers 1).getD 0 [])).1
              then ZipInt (c.Compress s.smallBlockBody
                ((resizeBuffers s.m_dCompressedBuffers 1).getD 0 [])).2.length else [])
            ++ (if (c.Compress s.smallBlockBody
                ((resizeBuffers s.m_dCompressedBuffers 1).getD 0 [])).1
              then (c.Compress s.smallBlockBody
                ((resizeBuffers s.m_dCompressedBuffers 1).getD 0 [])).2 else s.smallBlockBody))) := by
  simp [DocstoreBuilder_c.WriteSmallBlock, DocstoreBuilder_c.WriteSmallBlockHeader,
    DocstoreBuilder_c.smallBlockBody, List.append_assoc]

theorem WriteBlock_file (c : Compressor_i) (s : DocstoreBuilder_c)
    (h : s.m_tWriter = [] ∨
      ∃ tail, s.m_tWriter = s.headerBytes ++ (PutDword 0 ++ PutOffset 0 ++ tail) ∧
        s.m_tHeaderOffset = s.headerBytes.length) :
    (∃ tail, (s.WriteBlock c).m_tWriter = s.headerBytes ++ (PutDword 0 ++ PutOffset 0 ++ tail) ∧
      (s.WriteBlock c).m_tHeaderOffset = s.headerBytes.length) ∧
    (s.WriteBlock c).headerBytes = s.headerBytes := by
  have key : ∀ s0 : DocstoreBuilder_c,
      (∃ tail, s0.m_tWriter = s.headerBytes ++ (PutDword 0 ++ PutOffset 0 ++ tail) ∧
        s0.m_tHeaderOffset = s.headerBytes.length) → s0.headerBytes = s.headerBytes →
      (∃ tail, (if s0.m_dStoredDocs.length = 0 then s0
          else
            { (if (s0.m_dStoredDocs.length = 1 && decide (s0.m_uStoredLen ≥ s0.m_uBlockSize)) = true
                then s0.WriteBigBlock c else s0.WriteSmallBlock c) with
              m_iNumBlocks := (if (s0.m_dStoredDocs.length = 1
                  && decide (s0.m_uStoredLen ≥ s0.m_uBlockSize)) = true
                then s0.WriteBigBlock c else s0.WriteSmallBlock c).m_iNumBlocks + 1,
              m_uStoredLen := 0, m_dStoredDocs := [] }).m_tWriter
            = s.headerBytes ++ (PutDword 0 ++ PutOffset 0 ++ tail) ∧
        (if s0.m_dStoredDocs.length = 0 then s0
          else
            { (if (s0.m_dStoredDocs.length = 1 && decide (s0.m_uStoredLen ≥ s0.m_uBlockSize)) = true
                then s0.WriteBigBlock c else s0.WriteSmallBlock c) with
              m_iNumBlocks := (if (s0.m_dStoredDocs.length = 1
                  && decide (s0.m_uStoredLen ≥ s0.m_uBlockSize)) = true
                then s0.WriteBigBlock c else s0.WriteSmallBlock c).m_iNumBlocks + 1,
              m_uStoredLen := 0, m_dStoredDocs := [] }).m_tHeaderOffset = s.headerBytes.length) ∧
      (if s0.m_dStoredDocs.length = 0 then s0
          else
            { (if (s0.m_dStoredDocs.length = 1 && decide (s0.m_uStoredLen ≥ s0.m_uBlockSize)) = true
                then s0.WriteBigBlock c else s0.WriteSmallBlock c) with
              m_iNumBlocks := (if (s0.m_dStoredDocs.length = 1
                  && decide (s0.m_uStoredLen ≥ s0.m_uBlockSize)) = true
                then s0.WriteBigBlock c else s0.WriteSmallBlock c).m_iNumBlocks + 1,
              m_uStoredLen := 0, m_dStoredDocs := [] }).headerBytes = s.headerBytes := by
    intro s0 hw hh
    obtain ⟨tail, hw1, hw2⟩ := hw
    by_cases hd : s0.m_dStoredDocs.length = 0
    · simp only [hd, if_true]
      exact ⟨⟨tail, hw1, hw2⟩, hh⟩
    · simp only [hd, if_false]
      by_cases hb : (s0.m_dStoredDocs.length = 1 && decide (s0.m_uStoredLen ≥ s0.m_uBlockSize)) = true
      · simp only [hb, if_true]
        obtain ⟨t, ht⟩ : ∃ t, (s0.WriteBigBlock c).m_tWriter = s0.m_tWriter ++ t :=
          ⟨_, WriteBigBlock_writer c s0⟩
        refine ⟨⟨tail ++ t, ?_, ?_⟩, ?_⟩
        · rw [ht, hw1]
          simp only [List.append_assoc]
        · simpa [DocstoreBuilder_c.WriteBigBlock, DocstoreBuilder_c.WriteBigBlockHeader] using hw2
        · simpa [DocstoreBuilder_c.headerBytes, DocstoreBuilder_c.WriteBigBlock,
            DocstoreBuilder_c.WriteBigBlockHeader] using hh
      · simp only [hb, Bool.false_eq_true, if_false]
        obtain ⟨t, ht⟩ : ∃ t, (s0.WriteSmallBlock c).m_tWriter = s0.m_tWriter ++ t :=
          ⟨_, WriteSmallBlock_writer c s0⟩
        refine ⟨⟨tail ++ t, ?_, ?_⟩, ?_⟩
        · rw [ht, hw1]
          simp only [List.append_assoc]
        · simpa [DocstoreBuilder_c.WriteSmallBlock, DocstoreBuilder_c.WriteSmallBlockHeader] using hw2
        · simpa [DocstoreBuilder_c.headerBytes, DocstoreBuilder_c.WriteSmallBlock,
            DocstoreBuilder_c.WriteSmallBlockHeader] using hh
  unfold DocstoreBuilder_c.WriteBlock
  by_cases hw : s.m_tWriter.length = 0
  · simp only [hw, if_true]
    refine key s.WriteInitialHeader ⟨[], ?_, ?_⟩ ?_
    · have : s.m_tWriter = [] := List.length_eq_zero.mp hw
      simp [DocstoreBuilder_c.WriteInitialHeader, DocstoreBuilder_c.headerBytes, this]
    · have : s.m_tWriter = [] := List.length_eq_zero.mp hw
      simp [DocstoreBuilder_c.WriteInitialHeader, DocstoreBuilder_c.headerBytes, this]
    · simp [DocstoreBuilder_c.WriteInitialHeader, DocstoreBuilder_c.headerBytes]
  · simp only [hw, if_false]
    rcases h with h | h
    · rw [h] at hw; simp at hw
    · exact key s h rfl

theorem AddDoc_file (c : Compressor_i) (s : DocstoreBuilder_c) (r : Nat) (d : Doc_t)
    (h : s.m_tWriter = [] ∨
      ∃ tail, s.m_tWriter = s.headerBytes ++ (PutDword 0 ++ PutOffset 0 ++ tail) ∧
        s.m_tHeaderOffset = s.headerBytes.length) :
    ((s.AddDoc c r d).m_tWriter = [] ∨
      ∃ tail, (s.AddDoc c r d).m_tWriter
          = (s.AddDoc c r d).headerBytes ++ (PutDword 0 ++ PutOffset 0 ++ tail) ∧
        (s.AddDoc c r d).m_tHeaderOffset = (s.AddDoc c r d).headerBytes.length) ∧
    (s.AddDoc c r d).headerBytes = s.headerBytes := by
  unfold DocstoreBuilder_c.AddDoc
  by_cases hc : (s.m_uStoredLen + docLen d) % DWORD_MOD > s.m_uBlockSize
  · simp only [hc, if_true]
    obtain ⟨⟨tail, h1, h2⟩, h3⟩ := WriteBlock_file c s h
    have hh : DocstoreBuilder_c.headerBytes
        { s.WriteBlock c with
          m_dStoredDocs := (s.WriteBlock c).m_dStoredDocs ++
            [{ m_tRowID := r,
               m_dFields := (List.range (s.WriteBlock c).m_tFields.GetNumFields).map
                (storedField (s.WriteBlock c).m_tFields d) }],
          m_uStoredLen := ((s.WriteBlock c).m_uStoredLen + docLen d) % DWORD_MOD }
        = s.headerBytes := h3
    refine ⟨Or.inr ⟨tail, ?_, ?_⟩, hh⟩
    · rw [hh]; exact h1
    · rw [hh]; exact h2
  · simp only [hc, if_false]
    exact ⟨h, rfl⟩

theorem AddDocs_file (c : Compressor_i) (s : DocstoreBuilder_c) (hs : s.m_tWriter = [])
    (docs : List (Nat × Doc_t)) :
    ((AddDocs c s docs).m_tWriter = [] ∨
      ∃ tail, (AddDocs c s docs).m_tWriter
          = (AddDocs c s docs).headerBytes ++ (PutDword 0 ++ PutOffset 0 ++ tail) ∧
        (AddDocs c s docs).m_tHeaderOffset = (AddDocs c s docs).headerBytes.length) ∧
    (AddDocs c s docs).headerBytes = s.headerBytes := by
  induction docs using List.reverseRecOn with
  | nil => exact ⟨Or.inl hs, rfl⟩
  | append_singleton l a ih =>
    rw [AddDocs_snoc]
    obtain ⟨h1, h2⟩ := AddDoc_file c (AddDocs c s l) a.1 a.2 ih.1
    exact ⟨h1, h2.trans ih.2⟩

theorem Finalize_file (c : Compressor_i) (s : DocstoreBuilder_c)
    (h : s.m_tWriter = [] ∨
      ∃ tail, s.m_tWriter = s.headerBytes ++ (PutDword 0 ++ PutOffset 0 ++ tail) ∧
        s.m_tHeaderOffset = s.headerBytes.length) :
    ∃ rest, (s.Finalize c).m_tWriter = s.headerBytes ++ rest := by
  obtain ⟨⟨tail, h1, h2⟩, _⟩ := WriteBlock_file c s h
  unfold DocstoreBuilder_c.Finalize DocstoreBuilder_c.WriteTrailingHeader
  simp only [h1, h2, List.append_assoc, List.take_left]
  exact ⟨_, rfl⟩

theorem registryReader_eq (tFile : List BYTE) :
    registryReader tFile = ⟨tFile, 9, (registryReader tFile).m_bError⟩ := rfl

theorem Init_fields (tFile : List BYTE) (st : Docstore_c) (h : Docstore_c.Init tFile = some st) :
    st.m_tFields = (DocstoreFields_c.Load {} (registryReader tFile)).1 := by
  unfold Docstore_c.Init at h
  simp only at h
  split at h
  · cases h
  · split at h
    · cases h
    · split at h
      · cases h
      · cases h
        rfl

theorem headerBytes_split (s : DocstoreBuilder_c) (rest : List BYTE) :
    s.headerBytes ++ rest
      = (PutDword STORAGE_VERSION ++ PutDword s.m_uBlockSize ++ [Compression2Byte s.m_eCompression])
        ++ (s.m_tFields.Save ++ rest) ∧
    (PutDword STORAGE_VERSION ++ PutDword s.m_uBlockSize
      ++ [Compression2Byte s.m_eCompression]).length = 9 := by
  refine ⟨by simp [DocstoreBuilder_c.headerBytes, List.append_assoc], rfl⟩

/-- C14: for the registry of a run of `AddField` calls (fewer than 2^31 fields,
names shorter than 2^32 bytes), `Load` into an empty registry of the bytes
`Save` wrote gives that registry back (the same number of fields, the same name
and type at every index, the same `GetFieldId` answers) and stops right behind
the bytes; so the registry `Init` loads from the header of a file the builder
wrote with this registry is the builder's. -/
theorem C14_registry_roundtrip (l : List (List BYTE × Nat)) (hn : l.length < 2147483648)
    (hname : ∀ fld ∈ l, fld.1.length < DWORD_MOD) :
    (∀ (A B : List BYTE) (e : Bool),
      DocstoreFields_c.Load {} ⟨A ++ ((AddFields {} l).1.Save ++ B), A.length, e⟩
        = ((AddFields {} l).1,
            ⟨A ++ ((AddFields {} l).1.Save ++ B), A.length + (AddFields {} l).1.Save.length, e⟩)) ∧
    (∀ (A B : List BYTE) (e : Bool),
      (DocstoreFields_c.Load {} ⟨A ++ ((AddFields {} l).1.Save ++ B), A.length, e⟩).1.GetNumFields
        = l.length ∧
      (∀ i, i < l.length →
        (DocstoreFields_c.Load {}
            ⟨A ++ ((AddFields {} l).1.Save ++ B), A.length, e⟩).1.GetField i
          = { m_sName := (l.getD i default).1, m_eType := (l.getD i default).2 }) ∧
      (∀ sName eType,
        (DocstoreFields_c.Load {}
            ⟨A ++ ((AddFields {} l).1.Save ++ B), A.length, e⟩).1.GetFieldId sName eType
          = (AddFields {} l).1.GetFieldId sName eType)) ∧
    (∀ (c : Compressor_i) (s : DocstoreBuilder_c) (docs : List (Nat × Doc_t)),
      s.m_tFields = (AddFields {} l).1 → s.m_tWriter = [] →
        (DocstoreFields_c.Load {}
          (registryReader ((AddDocs c s docs).Finalize c).m_tWriter)).1 = s.m_tFields ∧
        ∀ st, Docstore_c.Init ((AddDocs c s docs).Finalize c).m_tWriter = some st →
          st.m_tFields = s.m_tFields) ∧
    (Docstore_c.Init emptyAndByteFile).map (fun st => st.m_tFields)
      = some twoTextBuilder.m_tFields := by
  have hload := Load_Save l hn hname
  refine ⟨hload, ?_, ?_, by decide!⟩
  · intro A B e
    rw [hload A B e]
    refine ⟨?_, ?_, fun _ _ => rfl⟩
    · simp only [DocstoreFields_c.GetNumFields, (AddFields_ids l {}).2]
      simp
    · intro i hi
      simp only [DocstoreFields_c.GetField, (AddFields_ids l {}).2]
      simp [List.getD_eq_getElem?_getD, List.getElem?_eq_getElem, hi]
  · intro c s docs hf hw
    obtain ⟨hinv, hhb⟩ := AddDocs_file c s hw docs
    obtain ⟨rest, hfile⟩ := Finalize_file c (AddDocs c s docs) hinv
    have hreg : (DocstoreFields_c.Load {}
        (registryReader ((AddDocs c s docs).Finalize c).m_tWriter)).1 = s.m_tFields := by
      rw [registryReader_eq]
      generalize (registryReader ((AddDocs c s docs).Finalize c).m_tWriter).m_bError = e
      rw [hfile, hhb, (headerBytes_split s rest).1, hf]
      have h9 := (headerBytes_split s rest).2
      have := hload (PutDword STORAGE_VERSION ++ PutDword s.m_uBlockSize
        ++ [Compression2Byte s.m_eCompression]) rest e
      rw [h9] at this
      rw [this]
    exact ⟨hreg, fun st hst => (Init_fields _ st hst).trans hreg⟩

theorem C14_registry_roundtrip_witness :
    (([([102], DOCSTORE_TEXT), ([103], DOCSTORE_BIN)] : List (List BYTE × Nat)).length < 2147483648 ∧
      ∀ fld ∈ ([([102], DOCSTORE_TEXT), ([103], DOCSTORE_BIN)] : List (List BYTE × Nat)),
        fld.1.length < DWORD_MOD) ∧
    DocstoreFields_c.Load {}
        ⟨[7] ++ ((AddFields {} [([102], DOCSTORE_TEXT), ([103], DOCSTORE_BIN)]).1.Save ++ [8, 9]),
          [7].length, false⟩
      = ((AddFields {} [([102], DOCSTORE_TEXT), ([103], DOCSTORE_BIN)]).1,
          ⟨[7] ++ ((AddFields {} [([102], DOCSTORE_TEXT), ([103], DOCSTORE_BIN)]).1.Save ++ [8, 9]),
            [7].length + (AddFields {} [([102], DOCSTORE_TEXT), ([103], DOCSTORE_BIN)]).1.Save.length,
            false⟩) :=
  ⟨⟨by decide, by decide⟩,
   (C14_registry_roundtrip [([102], DOCSTORE_TEXT), ([103], DOCSTORE_BIN)] (by decide)
      (by decide)).1 [7] [8, 9] false⟩
/-! ## The contract of the codecs -/

theorem LZ4_Compress_iff (f : List BYTE → List BYTE → Int × List BYTE)
    (dUncompressed dCompressed : List BYTE) :
    (Compressor_LZ4_c.Compress f dUncompressed dCompressed).1 = true
      ↔ (64 ≤ dUncompressed.length ∧
          0 ≤ (f dUncompressed
            (resizeBytes dCompressed (compressedCapacity dUncompressed.length))).1 ∧
          aboveWorstRatio
            (f dUncompressed
              (resizeBytes dCompressed (compressedCapacity dUncompressed.length))).1.toNat
            dUncompressed.length = false) := by
  unfold Compressor_LZ4_c.Compress MIN_COMPRESSIBLE_SIZE
  by_cases h1 : dUncompressed.length < 64
  · simp only [h1, if_true]
    constructor
    · intro h; cases h
    · intro h; omega
  · simp only [h1, if_false]
    by_cases h2 : (f dUncompressed
        (resizeBytes dCompressed (compressedCapacity dUncompressed.length))).1 < 0
    · simp only [h2, decide_True, Bool.true_or, if_true]
      constructor
      · intro h; cases h
      · intro h; omega
    · cases h3 : aboveWorstRatio
          (f dUncompressed
            (resizeBytes dCompressed (compressedCapacity dUncompressed.length))).1.toNat
          dUncompressed.length with
      | true => simp [h2]
      | false =>
        simp only [h2, decide_False, Bool.or_self, Bool.false_eq_true, if_false, true_iff, and_true]
        omega

/-- The result of `Compress` of a codec that is not NONE, in terms of the size
its LZ4 routine produces. -/
theorem CreateCompressor_Compress_iff (lz : LZ4_t) (eComp : Compression_e)
    (iCompressionLevel : Int) (hne : eComp ≠ Compression_e.NONE)
    (dUncompressed dCompressed : List BYTE) :
    ((CreateCompressor lz eComp iCompressionLevel).Compress dUncompressed dCompressed).1 = true
      ↔ (64 ≤ dUncompressed.length ∧
          0 ≤ DoCompression lz eComp iCompressionLevel dUncompressed dCompressed ∧
          aboveWorstRatio
            (DoCompression lz eComp iCompressionLevel dUncompressed dCompressed).toNat
            dUncompressed.length = false) := by
  cases eComp with
  | NONE => exact absurd rfl hne
  | LZ4 => exact LZ4_Compress_iff lz.LZ4_compress_default dUncompressed dCompressed
  | LZ4HC =>
    exact LZ4_Compress_iff (fun d b => lz.LZ4_compress_HC d b iCompressionLevel)
      dUncompressed dCompressed

theorem LZ4_Compress_short (lz : LZ4_t) (eComp : Compression_e) (iCompressionLevel : Int)
    (dUncompressed dCompressed : List BYTE) (h : dUncompressed.length < 64) :
    ((CreateCompressor lz eComp iCompressionLevel).Compress dUncompressed dCompressed).1 = false := by
  cases eComp with
  | NONE => rfl
  | LZ4 =>
    cases hc : ((CreateCompressor lz Compression_e.LZ4 iCompressionLevel).Compress
      dUncompressed dCompressed).1 with
    | false => rfl
    | true =>
      have := (LZ4_Compress_iff lz.LZ4_compress_default dUncompressed dCompressed).mp hc
      omega
  | LZ4HC =>
    cases hc : ((CreateCompressor lz Compression_e.LZ4HC iCompressionLevel).Compress
      dUncompressed dCompressed).1 with
    | false => rfl
    | true =>
      have := (LZ4_Compress_iff (fun d b => lz.LZ4_compress_HC d b iCompressionLevel)
        dUncompressed dCompressed).mp hc
      omega

theorem getElem?_append_length {α : Type} (pre : List α) (x : α) (post : List α) :
    (pre ++ x :: post)[pre.length]? = some x := by
  induction pre with
  | nil => simp
  | cons a t ih => simpa using ih

/-! ## Single-precision rounding -/

theorem roundHalfEven_ge (p q : Nat) : p / q ≤ roundHalfEven p q := by
  unfold roundHalfEven
  split
  · exact Nat.le_refl _
  · split <;> omega

theorem roundHalfEven_le (p q : Nat) : roundHalfEven p q ≤ p / q + 1 := by
  unfold roundHalfEven
  split
  · omega
  · split <;> omega

theorem roundHalfEven_one (p : Nat) : roundHalfEven p 1 = p := by
  simp [roundHalfEven, Nat.mod_one]

/-- Rounding to the nearest integer gives more than an odd `K` exactly from the
midpoint `K + 1/2` on. -/
theorem roundHalfEven_gt_odd (P q K : Nat) (hq : 0 < q) (hK : K % 2 = 1) :
    K < roundHalfEven P q ↔ (2 * K + 1) * q ≤ 2 * P := by
  have hdm : q * (P / q) + P % q = P := Nat.div_add_mod P q
  have hr : P % q < q := Nat.mod_lt P hq
  have e1 : (2 * K + 1) * q = 2 * (q * K) + q := by ring
  rw [e1]
  rcases Nat.lt_trichotomy (P / q) K with hlt | heq | hgt
  · have h1 : q * (P / q + 1) ≤ q * K := Nat.mul_le_mul_left q hlt
    have h2 : q * (P / q + 1) = q * (P / q) + q := by ring
    have h3 := roundHalfEven_le P q
    constructor
    · intro h; omega
    · intro h; omega
  · unfold roundHalfEven
    rw [heq] at hdm ⊢
    constructor
    · intro h
      by_cases c1 : 2 * (P % q) < q
      · rw [if_pos c1] at h; omega
      · omega
    · intro h
      have c1 : ¬ 2 * (P % q) < q := by omega
      rw [if_neg c1]
      split <;> omega
  · have h1 : q * (K + 1) ≤ q * (P / q) := Nat.mul_le_mul_left q hgt
    have h2 : q * (K + 1) = q * K + q := by ring
    have h3 := roundHalfEven_ge P q
    constructor
    · intro _; omega
    · intro _; omega

theorem highBitFrom_bounds :
    ∀ (fuel n : Nat), n ≤ fuel → n ≠ 0 →
      2 ^ highBitFrom fuel n ≤ n ∧ n < 2 ^ (highBitFrom fuel n + 1) := by
  intro fuel
  induction fuel with
  | zero => intro n h h0; omega
  | succ k ih =>
    intro n h h0
    simp only [highBitFrom]
    by_cases h2 : 2 ≤ n
    · rw [if_pos h2]
      obtain ⟨a, b⟩ := ih (n / 2) (by omega) (by omega)
      rw [Nat.pow_succ, Nat.pow_succ]
      constructor <;> omega
    · rw [if_neg h2]
      have : n = 1 := by omega
      subst this
      decide

theorem highBit_bounds (n : Nat) (h : n ≠ 0) : 2 ^ highBit n ≤ n ∧ n < 2 ^ (highBit n + 1) :=
  highBitFrom_bounds n n (Nat.le_refl n) h

theorem highBit_lt (n k : Nat) (h : n ≠ 0) (hk : n < 2 ^ k) : highBit n < k := by
  by_contra hc
  have h1 : 2 ^ k ≤ 2 ^ highBit n := Nat.pow_le_pow_right (by decide) (by omega)
  have := (highBit_bounds n h).1
  omega

theorem le_highBit (n k : Nat) (h : n ≠ 0) (hk : 2 ^ k ≤ n) : k ≤ highBit n := by
  by_contra hc
  have h1 : 2 ^ (highBit n + 1) ≤ 2 ^ k := Nat.pow_le_pow_right (by decide) (by omega)
  have := (highBit_bounds n h).2
  omega

theorem binaryShift_spec (p q : Nat) (hp : 0 < p) (hpq : p < q) :
    q ≤ p * 2 ^ binaryShift p q ∧ p * 2 ^ binaryShift p q < 2 * q ∧ 1 ≤ binaryShift p q := by
  obtain ⟨pa, pb⟩ := highBit_bounds p (by omega)
  obtain ⟨qa, qb⟩ := highBit_bounds q (by omega)
  have hab : highBit p ≤ highBit q := by
    by_contra hc
    have : 2 ^ (highBit q + 1) ≤ 2 ^ highBit p := Nat.pow_le_pow_right (by decide) (by omega)
    omega
  have hsplit : 2 ^ highBit q = 2 ^ highBit p * 2 ^ (highBit q - highBit p) := by
    rw [← Nat.pow_add]; congr 1; omega
  have hlow : 2 ^ highBit q ≤ p * 2 ^ (highBit q - highBit p) := by
    rw [hsplit]; exact Nat.mul_le_mul_right _ pa
  have hup : p * 2 ^ (highBit q - highBit p) < 2 ^ (highBit q + 1) := by
    have : 2 ^ (highBit q + 1) = 2 ^ (highBit p + 1) * 2 ^ (highBit q - highBit p) := by
      rw [← Nat.pow_add]; congr 1; omega
    rw [this]
    exact Nat.mul_lt_mul_of_pos_right pb (Nat.two_pow_pos _)
  have hq2 : 2 ^ (highBit q + 1) = 2 * 2 ^ highBit q := by rw [Nat.pow_succ]; ring
  unfold binaryShift
  by_cases hc : q ≤ p * 2 ^ (highBit q - highBit p)
  · rw [if_pos hc]
    refine ⟨hc, by omega, ?_⟩
    by_contra h0
    have hz : highBit q - highBit p = 0 := by omega
    rw [hz] at hc
    simp at hc
    omega
  · rw [if_neg hc]
    have hs : p * 2 ^ (highBit q - highBit p + 1) = 2 * (p * 2 ^ (highBit q - highBit p)) := by
      rw [Nat.pow_succ]; ring
    rw [hs]
    refine ⟨by omega, by omega, by omega⟩

theorem WORST_COMPRESSION_RATIO_eq : WORST_COMPRESSION_RATIO = ⟨15938355, 24⟩ := by
  decide!

/-- The `float` nearest to `p / q` is greater than `0.95f` exactly when `p / q` is
at least `31876711 / 2 ^ 25`, the midpoint between `0.95f` and the next `float`. -/
theorem round_gt_worst (p q : Nat) (hq : 0 < q) :
    (Float_t.round p q).gt WORST_COMPRESSION_RATIO = true ↔ 31876711 * q ≤ 33554432 * p := by
  rw [WORST_COMPRESSION_RATIO_eq]
  unfold Float_t.round Float_t.gt
  by_cases hp0 : p = 0
  · subst hp0
    simp
    omega
  rw [if_neg hp0]
  by_cases hqp : q ≤ p
  · rw [if_pos hqp]
    have hd : p / q ≠ 0 := by
      have := (Nat.le_div_iff_mul_le hq).mpr (by simpa using hqp : 1 * q ≤ p)
      omega
    obtain ⟨la, _⟩ := highBit_bounds (p / q) hd
    have hle : q * 2 ^ highBit (p / q) ≤ p := by
      have h1 : q * 2 ^ highBit (p / q) ≤ q * (p / q) := Nat.mul_le_mul_left q la
      have h2 : q * (p / q) ≤ p := Nat.mul_div_le p q
      omega
    have hrhs : 31876711 * q ≤ 33554432 * p := by omega
    simp only [decide_eq_true_eq, hrhs, iff_true]
    by_cases he : 23 ≤ highBit (p / q)
    · rw [if_pos he]
      simp only [pow_zero, mul_one]
      have hpos : 0 < q * 2 ^ (highBit (p / q) - 23) := Nat.mul_pos hq (Nat.two_pow_pos _)
      have hM : 2 ^ 23 ≤ roundHalfEven p (q * 2 ^ (highBit (p / q) - 23)) := by
        refine Nat.le_trans ?_ (roundHalfEven_ge _ _)
        rw [Nat.le_div_iff_mul_le hpos]
        have : 2 ^ 23 * (q * 2 ^ (highBit (p / q) - 23)) = q * 2 ^ highBit (p / q) := by
          have h3 : 2 ^ highBit (p / q) = 2 ^ 23 * 2 ^ (highBit (p / q) - 23) := by
            rw [← Nat.pow_add]; congr 1; omega
          rw [h3]; ring
        rw [this]; exact hle
      have hone : 1 ≤ 2 ^ (highBit (p / q) - 23) := Nat.two_pow_pos _
      have := Nat.mul_le_mul hM hone
      have h24 : (0 : Nat) < 2 ^ 24 := by decide
      have h5 := Nat.mul_le_mul_right (2 ^ 24) this
      norm_num at h5 ⊢
      omega
    · rw [if_neg he]
      simp only
      have hM : 2 ^ 23 ≤ roundHalfEven (p * 2 ^ (23 - highBit (p / q))) q := by
        refine Nat.le_trans ?_ (roundHalfEven_ge _ _)
        rw [Nat.le_div_iff_mul_le hq]
        have h3 : 2 ^ 23 = 2 ^ highBit (p / q) * 2 ^ (23 - highBit (p / q)) := by
          rw [← Nat.pow_add]; congr 1; omega
        rw [h3]
        have := Nat.mul_le_mul_right (2 ^ (23 - highBit (p / q))) hle
        calc 2 ^ highBit (p / q) * 2 ^ (23 - highBit (p / q)) * q
            = q * 2 ^ highBit (p / q) * 2 ^ (23 - highBit (p / q)) := by ring
          _ ≤ p * 2 ^ (23 - highBit (p / q)) := this
      have hsh : 2 ^ (23 - highBit (p / q)) ≤ 2 ^ 23 :=
        Nat.pow_le_pow_right (by decide) (by omega)
      have h5 := Nat.mul_le_mul_right (2 ^ 24) hM
      have h6 := Nat.mul_le_mul_left 15938355 hsh
      norm_num at h5 h6 ⊢
      omega
  · rw [if_neg hqp]
    simp only [decide_eq_true_eq]
    obtain ⟨s1, s2, s3⟩ := binaryShift_spec p q (by omega) (by omega)
    by_cases hj : binaryShift p q = 1
    · rw [hj] at s1 s2 ⊢
      have hodd : 15938355 % 2 = 1 := by decide
      have key := roundHalfEven_gt_odd (p * 2 ^ (1 + 23)) q 15938355 hq hodd
      norm_num at key s1 s2 ⊢
      omega
    · have hj2 : 2 ≤ binaryShift p q := by omega
      have hpow : 2 ^ binaryShift p q = 4 * 2 ^ (binaryShift p q - 2) := by
        have : 2 ^ binaryShift p q = 2 ^ 2 * 2 ^ (binaryShift p q - 2) := by
          rw [← Nat.pow_add]; congr 1; omega
        rw [this]; norm_num
      have hge1 : 1 ≤ 2 ^ (binaryShift p q - 2) := Nat.two_pow_pos _
      have hp4 : 4 * p ≤ p * 2 ^ binaryShift p q := by
        rw [hpow]
        have := Nat.mul_le_mul_left (4 * p) hge1
        calc 4 * p = 4 * p * 1 := by ring
          _ ≤ 4 * p * 2 ^ (binaryShift p q - 2) := this
          _ = p * (4 * 2 ^ (binaryShift p q - 2)) := by ring
      have hrhs : ¬ 31876711 * q ≤ 33554432 * p := by omega
      simp only [hrhs, iff_false, not_lt]
      have hM : roundHalfEven (p * 2 ^ (binaryShift p q + 23)) q ≤ 2 ^ 24 := by
        refine Nat.le_trans (roundHalfEven_le _ _) ?_
        have : p * 2 ^ (binaryShift p q + 23) / q < 2 ^ 24 := by
          rw [Nat.div_lt_iff_lt_mul hq]
          have e : p * 2 ^ (binaryShift p q + 23) = p * 2 ^ binaryShift p q * 2 ^ 23 := by
            rw [Nat.pow_add]; ring
          rw [e]
          have := Nat.mul_lt_mul_of_pos_right s2 (by decide : 0 < 2 ^ 23)
          norm_num at this ⊢
          omega
        omega
      have e2 : 2 ^ (binaryShift p q + 23) = 2 ^ binaryShift p q * 2 ^ 23 := Nat.pow_add _ _ _
      rw [e2, hpow] at hM ⊢
      generalize 2 ^ (binaryShift p q - 2) = X at hge1 hM ⊢
      generalize roundHalfEven (p * (4 * X * 2 ^ 23)) q = M at hM ⊢
      norm_num at hM ⊢
      have e3 : 15938355 * (4 * X * 8388608) = 534802449039360 * X := by ring
      rw [e3]
      omega

theorem ofInt_exact (i : Nat) (h : i < 16777216) :
    (Float_t.ofInt i).num = i * 2 ^ (Float_t.ofInt i).shift := by
  unfold Float_t.ofInt Float_t.round
  by_cases h0 : i = 0
  · subst h0; simp
  rw [if_neg h0, if_pos (by omega), Nat.div_one]
  have hl : highBit i < 24 := highBit_lt i 24 h0 (by norm_num; exact h)
  by_cases he : 23 ≤ highBit i
  · rw [if_pos he]
    have : highBit i - 23 = 0 := by omega
    simp [this, roundHalfEven_one]
  · rw [if_neg he]
    simp [roundHalfEven_one]

/-- For sizes below `2 ^ 24`, which `float` holds exactly, the test of `Compress`
fires exactly when the ratio is at least `31876711 / 2 ^ 25`. -/
theorem aboveWorstRatio_iff (c n : Nat) (hc : c < 16777216) (hn0 : 0 < n) (hn : n < 16777216) :
    aboveWorstRatio c n = true ↔ 31876711 * n ≤ 33554432 * c := by
  unfold aboveWorstRatio Float_t.div
  rw [ofInt_exact c hc, ofInt_exact n hn]
  have hpos : 0 < 2 ^ (Float_t.ofInt n).shift * 2 ^ (Float_t.ofInt c).shift :=
    Nat.mul_pos (Nat.two_pow_pos _) (Nat.two_pow_pos _)
  rw [round_gt_worst _ _ (Nat.mul_pos (Nat.mul_pos hn0 (Nat.two_pow_pos _))
    (Nat.two_pow_pos _))]
  have e1 : 31876711 * (n * 2 ^ (Float_t.ofInt n).shift * 2 ^ (Float_t.ofInt c).shift)
      = (31876711 * n) * (2 ^ (Float_t.ofInt n).shift * 2 ^ (Float_t.ofInt c).shift) := by ring
  have e2 : 33554432 * (c * 2 ^ (Float_t.ofInt c).shift * 2 ^ (Float_t.ofInt n).shift)
      = (33554432 * c) * (2 ^ (Float_t.ofInt n).shift * 2 ^ (Float_t.ofInt c).shift) := by ring
  rw [e1, e2]
  constructor
  · intro h; exact Nat.le_of_mul_le_mul_right h hpos
  · intro h; exact Nat.mul_le_mul_right _ h

/-- For an input of at most 2796202 bytes the test of `Compress` is the exact
comparison of the ratio with 0.95. -/
theorem aboveWorstRatio_exact (c n : Nat) (hc : c < 16777216) (hn0 : 0 < n)
    (hn : n ≤ 2796202) : aboveWorstRatio c n = true ↔ 19 * n < 20 * c := by
  rw [aboveWorstRatio_iff c n hc hn0 (by omega)]
  omega

theorem ofInt_large (i : Nat) (h : 16777216 ≤ i) :
    (Float_t.ofInt i).shift = 0 ∧ 16777216 ≤ (Float_t.ofInt i).num := by
  have h0 : i ≠ 0 := by omega
  have hl : 24 ≤ highBit i := le_highBit i 24 h0 (by norm_num; exact h)
  obtain ⟨la, _⟩ := highBit_bounds i h0
  unfold Float_t.ofInt Float_t.round
  rw [if_neg h0, if_pos (by omega), Nat.div_one, if_pos (by omega)]
  refine ⟨rfl, ?_⟩
  simp only [one_mul]
  have hpos : 0 < 2 ^ (highBit i - 23) := Nat.two_pow_pos _
  have hsplit : 2 ^ highBit i = 2 ^ 23 * 2 ^ (highBit i - 23) := by
    rw [← Nat.pow_add]; congr 1; omega
  have hM : 2 ^ 23 ≤ roundHalfEven i (2 ^ (highBit i - 23)) := by
    refine Nat.le_trans ?_ (roundHalfEven_ge _ _)
    rw [Nat.le_div_iff_mul_le hpos, ← hsplit]
    exact la
  have h2 : 2 ^ 24 ≤ 2 ^ highBit i := Nat.pow_le_pow_right (by decide) hl
  have h3 := Nat.mul_le_mul_right (2 ^ (highBit i - 23)) hM
  rw [← hsplit] at h3
  norm_num at h2
  omega

/-- For an input below `2 ^ 24` bytes, a length `float` holds exactly, the test
of `Compress` fires exactly when the ratio is at least `31876711 / 2 ^ 25`. -/
theorem aboveWorstRatio_iff_of_length (c n : Nat) (hn0 : 0 < n) (hn : n < 16777216) :
    aboveWorstRatio c n = true ↔ 31876711 * n ≤ 33554432 * c := by
  by_cases hc : c < 16777216
  · exact aboveWorstRatio_iff c n hc hn0 hn
  · obtain ⟨c1, c2⟩ := ofInt_large c (by omega)
    have hr : 31876711 * n ≤ 33554432 * c := by omega
    simp only [hr, iff_true]
    unfold aboveWorstRatio Float_t.div
    rw [ofInt_exact n hn, c1]
    rw [round_gt_worst _ _ (by
      simp only [pow_zero, mul_one]
      exact Nat.mul_pos hn0 (Nat.two_pow_pos _))]
    simp only [pow_zero, mul_one]
    have h1 := Nat.mul_le_mul_right (2 ^ (Float_t.ofInt n).shift) c2
    have h2 : n * 2 ^ (Float_t.ofInt n).shift ≤ 16777216 * 2 ^ (Float_t.ofInt n).shift :=
      Nat.mul_le_mul_right _ (by omega)
    omega

theorem BitGet_BitSet_ne (b : CSphBitvec) (j k : Nat) (h : j ≠ k) :
    (b.BitSet j).BitGet k = b.BitGet k := by
  simp only [CSphBitvec.BitSet, CSphBitvec.BitGet, List.getD_eq_getElem?_getD]
  rw [List.getElem?_set_ne h]

/-- The bit of a field is left alone by the first loop of `WriteBigBlock` when
the codec does not compress the field. -/
theorem writeBigBlockScan_BitGet (c : Compressor_i) (k : Nat) :
    ∀ (dFields : List (List BYTE)) (iField : Nat) (st : BigBlockScan),
      (∀ j, j < dFields.length → iField + j = k →
        ∀ buf, (c.Compress (dFields.getD j []) buf).1 = false) →
      (writeBigBlockScan c dFields iField st).tCompressedFields.BitGet k
        = st.tCompressedFields.BitGet k := by
  intro dFields
  induction dFields with
  | nil => intro iField st _; rfl
  | cons f rest ih =>
    intro iField st h
    simp only [writeBigBlockScan]
    rw [ih (iField + 1) _ (by
      intro j hj hjk buf
      have := h (j + 1) (by simp only [List.length_cons]; omega) (by omega) buf
      simpa using this)]
    simp only
    by_cases hk : iField = k
    · have := h 0 (by simp) (by omega) (st.m_dCompressedBuffers.getD iField [])
      simp only [List.getD_cons_zero] at this
      rw [if_neg (by rw [this]; simp)]
    · split
      · exact BitGet_BitSet_ne _ _ _ hk
      · rfl

theorem BitGet_Init (n k : Nat) : (CSphBitvec.Init n).BitGet k = false := by
  simp only [CSphBitvec.Init, CSphBitvec.BitGet, List.getD_eq_getElem?_getD]
  cases h : (List.replicate (32 * ((n + 31) / 32)) false)[k]? with
  | none => rfl
  | some v =>
    have := List.getElem?_eq_some_iff.mp h
    obtain ⟨_, h2⟩ := this
    simp at h2
    simp [h2]

theorem bigBlockScan_not_compressed (c : Compressor_i) (s : DocstoreBuilder_c) (i : Nat)
    (h : ∀ buf, (c.Compress ((s.m_dStoredDocs.getD 0 default).m_dFields.getD i []) buf).1 = false) :
    (s.bigBlockScan c).tCompressedFields.BitGet i = false ∧
    hasFlag ((writeBigFieldInfo (s.bigBlockScan c) (s.m_dStoredDocs.getD 0 default).m_dFields
      i).getD 0 0) FIELD_FLAG_COMPRESSED = false := by
  have hb : (s.bigBlockScan c).tCompressedFields.BitGet i = false := by
    unfold DocstoreBuilder_c.bigBlockScan
    rw [writeBigBlockScan_BitGet c i _ 0 _ (by
      intro j _ hji buf
      have : j = i := by omega
      subst this
      exact h buf)]
    exact BitGet_Init _ _
  refine ⟨hb, ?_⟩
  unfold writeBigFieldInfo
  simp only [hb, Bool.false_eq_true, if_false, List.singleton_append, List.getD_cons_zero]
  split <;> decide

/-- The metadata of a field the codec does not compress starts with a flags byte
without `FIELD_FLAG_COMPRESSED`. -/
theorem bigFieldInfo_not_compressed (c : Compressor_i) (s : DocstoreBuilder_c) (i : Nat)
    (h : ∀ buf, (c.Compress ((s.m_dStoredDocs.getD 0 default).m_dFields.getD i []) buf).1 = false) :
    ∃ uFieldFlags : BYTE,
      (writeBigFieldInfo (s.bigBlockScan c) (s.m_dStoredDocs.getD 0 default).m_dFields i)[0]?
        = some uFieldFlags ∧
      hasFlag uFieldFlags FIELD_FLAG_COMPRESSED = false := by
  have hb := (bigBlockScan_not_compressed c s i h).1
  unfold writeBigFieldInfo
  simp only [hb, Bool.false_eq_true, if_false, List.singleton_append, List.getElem?_cons_zero]
  refine ⟨_, rfl, ?_⟩
  split <;> decide

/-- C11 (counterexample): for an input of 10000001 bytes the LZ4 routine of
`lz4Near` produces 9500001 bytes, so the ratio is above 0.95
(`20 * 9500001 > 19 * 10000001`); the single-precision quotient is `0.95f`, the
test `> 0.95f` does not fire, and `Compress` reports success. -/
theorem C11_exact_ratio_refuted :
    (List.replicate 10000001 (0 : BYTE)).length = 10000001 ∧
    DoCompression lz4Near Compression_e.LZ4 0 (List.replicate 10000001 0) [] = 9500001 ∧
    19 * 10000001 < 20 * 9500001 ∧
    (Float_t.ofInt 9500001).div (Float_t.ofInt 10000001) = WORST_COMPRESSION_RATIO ∧
    aboveWorstRatio 9500001 10000001 = false ∧
    ((CreateCompressor lz4Near Compression_e.LZ4 0).Compress
      (List.replicate 10000001 0) []).1 = true := by
  refine ⟨List.length_replicate _ _, rfl, by decide, by decide!, by decide!, ?_⟩
  rw [CreateCompressor_Compress_iff lz4Near Compression_e.LZ4 0 (by decide)]
  rw [List.length_replicate]
  exact ⟨by decide, by decide, by decide!⟩

/-- C11 (amended): for LZ4 and LZ4HC, `Compress` reports success if and only if
the input has at least 64 bytes and the single-precision test
`float(size)/len > 0.95f` on the size the LZ4 routine produced does not fire (a
negative result of the routine is refused). For an input below `2 ^ 24` bytes the
test fires exactly when `size / len` is at least `31876711 / 2 ^ 25`, and for an
input of at most 2796202 bytes exactly when `size / len > 0.95`, so there
`Compress` reports success if and only if the input has at least 64 bytes and
`size / len ≤ 0.95`. The NONE codec never reports success. So the builder writes
a small block whose body is shorter than 64 bytes, and every small block of a
NONE store, with the flags byte 0, and marks no field of a big block that is
shorter than 64 bytes, and no field of a NONE store, as compressed: the flags
byte it writes for the field is without `FIELD_FLAG_COMPRESSED`. -/
theorem C11_codec_contract (lz : LZ4_t) (iCompressionLevel : Int) :
    (∀ eComp, eComp ≠ Compression_e.NONE → ∀ dUncompressed dCompressed : List BYTE,
      0 ≤ DoCompression lz eComp iCompressionLevel dUncompressed dCompressed →
        (((CreateCompressor lz eComp iCompressionLevel).Compress dUncompressed dCompressed).1 = true
          ↔ (64 ≤ dUncompressed.length ∧
              aboveWorstRatio
                (DoCompression lz eComp iCompressionLevel dUncompressed dCompressed).toNat
                dUncompressed.length = false))) ∧
    (∀ iCompressedSize iLength : Nat, 0 < iLength → iLength < 16777216 →
      (aboveWorstRatio iCompressedSize iLength = true
        ↔ 31876711 * iLength ≤ 33554432 * iCompressedSize)) ∧
    (∀ eComp, eComp ≠ Compression_e.NONE → ∀ dUncompressed dCompressed : List BYTE,
      dUncompressed.length ≤ 2796202 →
      0 ≤ DoCompression lz eComp iCompressionLevel dUncompressed dCompressed →
        (((CreateCompressor lz eComp iCompressionLevel).Compress dUncompressed dCompressed).1 = true
          ↔ (64 ≤ dUncompressed.length ∧
              20 * DoCompression lz eComp iCompressionLevel dUncompressed dCompressed
                ≤ 19 * (dUncompressed.length : Int)))) ∧
    (∀ eComp, ∀ dUncompressed dCompressed : List BYTE,
      DoCompression lz eComp iCompressionLevel dUncompressed dCompressed < 0 →
        ((CreateCompressor lz eComp iCompressionLevel).Compress dUncompressed dCompressed).1
          = false) ∧
    (∀ dUncompressed dCompressed : List BYTE,
      ((CreateCompressor lz Compression_e.NONE iCompressionLevel).Compress
        dUncompressed dCompressed).1 = false) ∧
    (∀ eComp (s : DocstoreBuilder_c), (s.smallBlockBody.length < 64 ∨ eComp = Compression_e.NONE) →
      (s.WriteSmallBlock (CreateCompressor lz eComp iCompressionLevel)).m_tWriter[
        s.m_tWriter.length]? = some 0) ∧
    (∀ eComp (s : DocstoreBuilder_c) (i : Nat),
      (((s.m_dStoredDocs.getD 0 default).m_dFields.getD i []).length < 64
        ∨ eComp = Compression_e.NONE) →
      (s.bigBlockScan (CreateCompressor lz eComp iCompressionLevel)).tCompressedFields.BitGet i
        = false ∧
      ∃ uFieldFlags : BYTE,
        (writeBigFieldInfo (s.bigBlockScan (CreateCompressor lz eComp iCompressionLevel))
          (s.m_dStoredDocs.getD 0 default).m_dFields i)[0]? = some uFieldFlags ∧
        hasFlag uFieldFlags FIELD_FLAG_COMPRESSED = false) := by
  have hfail : ∀ eComp (d : List BYTE), (d.length < 64 ∨ eComp = Compression_e.NONE) →
      ∀ buf, ((CreateCompressor lz eComp iCompressionLevel).Compress d buf).1 = false := by
    intro eComp d h buf
    rcases h with h | h
    · exact LZ4_Compress_short lz eComp iCompressionLevel d buf h
    · subst h; rfl
  refine ⟨?_, ?_, ?_, ?_, fun _ _ => rfl, ?_, ?_⟩
  · intro eComp hne dU dC h0
    rw [CreateCompressor_Compress_iff lz eComp iCompressionLevel hne]
    exact ⟨fun h => ⟨h.1, h.2.2⟩, fun h => ⟨h.1, h0, h.2⟩⟩
  · intro c n hn0 hn
    exact aboveWorstRatio_iff_of_length c n hn0 hn
  · intro eComp hne dU dC hlen h0
    rw [CreateCompressor_Compress_iff lz eComp iCompressionLevel hne]
    constructor
    · rintro ⟨h64, _, hr⟩
      refine ⟨h64, ?_⟩
      have hnot : ¬ aboveWorstRatio
          (DoCompression lz eComp iCompressionLevel dU dC).toNat dU.length = true := by
        rw [hr]; decide
      rw [aboveWorstRatio_iff_of_length _ _ (by omega) (by omega)] at hnot
      omega
    · rintro ⟨h64, hr⟩
      refine ⟨h64, h0, ?_⟩
      cases ha : aboveWorstRatio
          (DoCompression lz eComp iCompressionLevel dU dC).toNat dU.length with
      | false => rfl
      | true =>
        rw [aboveWorstRatio_iff_of_length _ _ (by omega) (by omega)] at ha
        omega
  · intro eComp dU dC hneg
    cases eComp with
    | NONE => rfl
    | LZ4 =>
      cases hc : ((CreateCompressor lz Compression_e.LZ4 iCompressionLevel).Compress dU dC).1 with
      | false => rfl
      | true =>
        have := (CreateCompressor_Compress_iff lz Compression_e.LZ4 iCompressionLevel
          (by decide) dU dC).mp hc
        omega
    | LZ4HC =>
      cases hc : ((CreateCompressor lz Compression_e.LZ4HC iCompressionLevel).Compress dU dC).1 with
      | false => rfl
      | true =>
        have := (CreateCompressor_Compress_iff lz Compression_e.LZ4HC iCompressionLevel
          (by decide) dU dC).mp hc
        omega
  · intro eComp s h
    rw [WriteSmallBlock_writer, getElem?_append_length, hfail eComp _ h]
    rfl
  · intro eComp s i h
    exact ⟨(bigBlockScan_not_compressed _ s i (hfail eComp _ h)).1,
      bigFieldInfo_not_compressed _ s i (hfail eComp _ h)⟩

theorem C11_codec_contract_witness :
    ((CreateCompressor lz4Ten Compression_e.LZ4 0).Compress (List.replicate 100 0) []).1 = true ∧
    ((CreateCompressor lz4Ten Compression_e.LZ4 0).Compress (List.replicate 10 0) []).1 = false ∧
    (shortPending.WriteSmallBlock (CreateCompressor lz4Ten Compression_e.LZ4 0)).m_tWriter[
      shortPending.m_tWriter.length]? = some 0 :=
  ⟨((C11_codec_contract lz4Ten 0).2.2.1 Compression_e.LZ4 (by decide) (List.replicate 100 0) []
      (by decide) (by decide)).mpr ⟨by decide, by decide⟩,
   Bool.eq_false_iff.mpr (fun h =>
     absurd (((C11_codec_contract lz4Ten 0).1 Compression_e.LZ4 (by decide) (List.replicate 10 0) []
       (by decide)).mp h).1 (by decide)),
   (C11_codec_contract lz4Ten 0).2.2.2.2.2.1 Compression_e.LZ4 shortPending (Or.inl (by decide))⟩

/-! ## Block cache: memory accounting -/

theorem memOf_cons (k : Nat) (b : LinkedBlock_t) (l : List LinkedBlock_t) :
    memOf k (b :: l) = ((b.m_uSize + k : Nat) : Int) + memOf k l := by
  simp [memOf]

theorem memOf_append (k : Nat) (l1 l2 : List LinkedBlock_t) :
    memOf k (l1 ++ l2) = memOf k l1 + memOf k l2 := by
  simp [memOf]

theorem memOf_reverse (k : Nat) (l : List LinkedBlock_t) : memOf k l.reverse = memOf k l := by
  induction l with
  | nil => rfl
  | cons b t ih =>
    rw [List.reverse_cons, memOf_append, ih, memOf_cons, memOf_cons]
    simp [memOf]
    omega

theorem memOf_nonneg (k : Nat) (l : List LinkedBlock_t) : 0 ≤ memOf k l := by
  induction l with
  | nil => simp [memOf]
  | cons b t ih => rw [memOf_cons]; omega

theorem memOf_eraseP (k : Nat) (p : LinkedBlock_t → Bool) :
    ∀ (l : List LinkedBlock_t) (b : LinkedBlock_t), l.find? p = some b →
      memOf k l = ((b.m_uSize + k : Nat) : Int) + memOf k (l.eraseP p) := by
  intro l
  induction l with
  | nil => intro b h; cases h
  | cons a t ih =>
    intro b h
    rw [List.find?_cons] at h
    cases hp : p a with
    | true =>
      rw [hp] at h
      cases h
      simp [List.eraseP_cons, hp, memOf_cons]
    | false =>
      rw [hp] at h
      simp only [List.eraseP_cons, hp, memOf_cons, cond_false]
      rw [ih b h]
      omega

theorem memOf_releaseFirst (k : Nat) (tKey : HashKey_t) (l : List LinkedBlock_t) :
    memOf k (releaseFirst tKey l) = memOf k l := by
  induction l with
  | nil => rfl
  | cons a t ih =>
    simp only [releaseFirst]
    split
    · simp [memOf_cons]
    · simp [memOf_cons, ih]

theorem deleteAllFrom_mem (k uUID : Nat) :
    ∀ (l : List LinkedBlock_t) (m : Int),
      (deleteAllFrom k uUID l m).2 - memOf k (deleteAllFrom k uUID l m).1 = m - memOf k l ∧
      (deleteAllFrom k uUID l m).2 ≤ m := by
  intro l
  induction l with
  | nil => intro m; simp [deleteAllFrom, memOf]
  | cons a t ih =>
    intro m
    simp only [deleteAllFrom]
    split
    · obtain ⟨h1, h2⟩ := ih (m - ((a.m_uSize + k : Nat) : Int))
      rw [memOf_cons]
      constructor <;> omega
    · obtain ⟨h1, h2⟩ := ih m
      simp only [memOf_cons]
      constructor <;> omega

theorem sweepFrom_mem (k : Nat) (C : Int) (need : Nat) :
    ∀ (l : List LinkedBlock_t) (m : Int),
      (sweepFrom k C need l m).2 - memOf k (sweepFrom k C need l m).1 = m - memOf k l ∧
      (sweepFrom k C need l m).2 ≤ m := by
  intro l
  induction l with
  | nil => intro m; simp [sweepFrom, memOf]
  | cons a t ih =>
    intro m
    simp only [sweepFrom]
    split
    · simp
    · split
      · obtain ⟨h1, h2⟩ := ih (m - ((a.m_uSize + k : Nat) : Int))
        rw [memOf_cons]
        constructor <;> omega
      · obtain ⟨h1, h2⟩ := ih m
        simp only [memOf_cons]
        constructor <;> omega

/-- `Find` keeps `m_iMemUsed` equal to the sum over the nodes, and leaves it and
the capacity as they were. -/
theorem Find_mem (k : Nat) (cache : BlockCache_c) (uUID tOffset : Nat)
    (h : cache.m_iMemUsed = memOf k cache.m_dBlocks) :
    (cache.Find uUID tOffset).2.m_iMemUsed = memOf k (cache.Find uUID tOffset).2.m_dBlocks ∧
    (cache.Find uUID tOffset).2.m_iMemUsed = cache.m_iMemUsed ∧
    (cache.Find uUID tOffset).2.m_iCacheSize = cache.m_iCacheSize := by
  unfold BlockCache_c.Find
  cases hf : cache.hashFind uUID tOffset with
  | none => exact ⟨h, rfl, rfl⟩
  | some b =>
    simp only [BlockCache_c.MoveToHead]
    refine ⟨?_, by first | rfl | trivial, by first | rfl | trivial⟩
    have hk : b.m_tKey = ⟨uUID, tOffset⟩ := by
      have := List.find?_some hf
      simpa using this
    rw [memOf_cons, h, memOf_eraseP k _ _ b hf, hk]

theorem Release_mem (k : Nat) (cache cache1 : BlockCache_c) (uUID tOffset : Nat)
    (hr : cache.Release uUID tOffset = some cache1)
    (h : cache.m_iMemUsed = memOf k cache.m_dBlocks) :
    cache1.m_iMemUsed = memOf k cache1.m_dBlocks ∧ cache1.m_iMemUsed = cache.m_iMemUsed ∧
    cache1.m_iCacheSize = cache.m_iCacheSize := by
  unfold BlockCache_c.Release at hr
  cases hf : cache.hashFind uUID tOffset with
  | none => rw [hf] at hr; cases hr
  | some b =>
    rw [hf] at hr
    cases hr
    exact ⟨by simp only [memOf_releaseFirst]; exact h, rfl, rfl⟩

theorem DeleteAll_mem (k : Nat) (cache : BlockCache_c) (uUID : Nat)
    (h : cache.m_iMemUsed = memOf k cache.m_dBlocks) :
    (cache.DeleteAll k uUID).m_iMemUsed = memOf k (cache.DeleteAll k uUID).m_dBlocks ∧
    (cache.DeleteAll k uUID).m_iMemUsed ≤ cache.m_iMemUsed ∧
    (cache.DeleteAll k uUID).m_iCacheSize = cache.m_iCacheSize := by
  obtain ⟨h1, h2⟩ := deleteAllFrom_mem k uUID cache.m_dBlocks cache.m_iMemUsed
  simp only [BlockCache_c.DeleteAll]
  refine ⟨by omega, h2, by first | rfl | trivial⟩

theorem SweepUnused_mem (k : Nat) (cache : BlockCache_c) (need : Nat)
    (h : cache.m_iMemUsed = memOf k cache.m_dBlocks) :
    (cache.SweepUnused k need).m_iMemUsed = memOf k (cache.SweepUnused k need).m_dBlocks ∧
    (cache.SweepUnused k need).m_iMemUsed ≤ cache.m_iMemUsed ∧
    (cache.SweepUnused k need).m_iCacheSize = cache.m_iCacheSize := by
  obtain ⟨h1, h2⟩ := sweepFrom_mem k cache.m_iCacheSize need cache.m_dBlocks.reverse cache.m_iMemUsed
  simp only [BlockCache_c.SweepUnused]
  rw [memOf_reverse] at h1 ⊢
  refine ⟨by omega, h2, by first | rfl | trivial⟩

theorem Add_true (k : Nat) (cache cache1 : BlockCache_c) (uUID tOffset : Nat) (tData : BlockData_t)
    (h : cache.Add k uUID tOffset tData = some (true, cache1)) :
    ∃ base : BlockCache_c,
      (base = cache ∨
        (cache.HaveSpaceFor ((tData.m_uSize + k) % DWORD_MOD) = false ∧
          base = cache.SweepUnused k ((tData.m_uSize + k) % DWORD_MOD))) ∧
      base.HaveSpaceFor ((tData.m_uSize + k) % DWORD_MOD) = true ∧
      base.hashFind uUID tOffset = none ∧
      cache1 = base.AddBlock k
        { toBlockData_t := tData, m_iRefcount := 1, m_tKey := ⟨uUID, tOffset⟩ } := by
  unfold BlockCache_c.Add at h
  simp only at h
  cases hs : cache.HaveSpaceFor ((tData.m_uSize + k) % DWORD_MOD) with
  | true =>
    rw [hs] at h
    simp only [Bool.not_true, Bool.false_eq_true, if_false] at h
    cases hf : cache.hashFind uUID tOffset with
    | some b => rw [hf] at h; simp at h
    | none =>
      rw [hf] at h
      simp only [Option.isSome_none, Bool.false_eq_true, if_false, Option.some.injEq,
        Prod.mk.injEq, true_and] at h
      exact ⟨cache, Or.inl rfl, hs, hf, h.symm⟩
  | false =>
    rw [hs] at h
    simp only [Bool.not_false, if_true] at h
    split at h
    · simp at h
    · cases hs2 : (cache.SweepUnused k ((tData.m_uSize + k) % DWORD_MOD)).HaveSpaceFor
          ((tData.m_uSize + k) % DWORD_MOD) with
      | false => rw [hs2] at h; simp at h
      | true =>
        rw [hs2] at h
        simp only [Bool.not_true, Bool.false_eq_true, if_false] at h
        cases hf : (cache.SweepUnused k ((tData.m_uSize + k) % DWORD_MOD)).hashFind uUID tOffset with
        | some b => rw [hf] at h; simp at h
        | none =>
          rw [hf] at h
          simp only [Option.isSome_none, Bool.false_eq_true, if_false, Option.some.injEq,
            Prod.mk.injEq, true_and] at h
          exact ⟨_, Or.inr ⟨rfl, rfl⟩, hs2, hf, h.symm⟩

theorem Add_false (k : Nat) (cache cache1 : BlockCache_c) (uUID tOffset : Nat) (tData : BlockData_t)
    (h : cache.Add k uUID tOffset tData = some (false, cache1)) :
    cache1 = cache ∨ cache1 = cache.SweepUnused k ((tData.m_uSize + k) % DWORD_MOD) := by
  unfold BlockCache_c.Add at h
  simp only at h
  split at h
  · split at h
    · simp only [Option.some.injEq, Prod.mk.injEq, true_and] at h
      exact Or.inl h.symm
    · split at h
      · simp only [Option.some.injEq, Prod.mk.injEq, true_and] at h
        exact Or.inr h.symm
      · split at h
        · cases h
        · simp at h
  · split at h
    · cases h
    · simp at h

theorem Add_oversize (k : Nat) (cache : BlockCache_c) (uUID tOffset : Nat) (tData : BlockData_t)
    (hroom : cache.HaveSpaceFor ((tData.m_uSize + k) % DWORD_MOD) = false)
    (hbig : (tData.m_uSize + k) % DWORD_MOD > cache.MAX_BLOCK_SIZE) :
    cache.Add k uUID tOffset tData = some (false, cache) := by
  unfold BlockCache_c.Add
  simp only [hroom, Bool.not_false, if_true, hbig]

theorem Add_room (k : Nat) (cache : BlockCache_c) (uUID tOffset : Nat) (tData : BlockData_t)
    (hroom : cache.HaveSpaceFor ((tData.m_uSize + k) % DWORD_MOD) = true)
    (hnew : cache.hashFind uUID tOffset = none) :
    cache.Add k uUID tOffset tData
      = some (true, cache.AddBlock k
          { toBlockData_t := tData, m_iRefcount := 1, m_tKey := ⟨uUID, tOffset⟩ }) := by
  unfold BlockCache_c.Add
  simp only [hroom, Bool.not_true, Bool.false_eq_true, if_false, hnew, Option.isSome_none]

theorem Add_mem (k : Nat) (cache cache1 : BlockCache_c) (uUID tOffset : Nat) (tData : BlockData_t)
    (r : Bool) (h : cache.Add k uUID tOffset tData = some (r, cache1))
    (hsz : tData.m_uSize + k < DWORD_MOD)
    (hm : cache.m_iMemUsed = memOf k cache.m_dBlocks)
    (hc : cache.m_iMemUsed ≤ cache.m_iCacheSize) :
    cache1.m_iMemUsed = memOf k cache1.m_dBlocks ∧ cache1.m_iMemUsed ≤ cache1.m_iCacheSize ∧
    cache1.m_iCacheSize = cache.m_iCacheSize := by
  have hsw := SweepUnused_mem k cache ((tData.m_uSize + k) % DWORD_MOD) hm
  cases r with
  | false =>
    rcases Add_false k cache cache1 uUID tOffset tData h with h1 | h1
    · subst h1; exact ⟨hm, hc, rfl⟩
    · subst h1
      exact ⟨hsw.1, by rw [hsw.2.2]; omega, hsw.2.2⟩
  | true =>
    obtain ⟨base, hb, hroom, _, hc1⟩ := Add_true k cache cache1 uUID tOffset tData h
    have hbase : base.m_iMemUsed = memOf k base.m_dBlocks ∧ base.m_iCacheSize = cache.m_iCacheSize := by
      rcases hb with hb | ⟨_, hb⟩
      · subst hb; exact ⟨hm, rfl⟩
      · subst hb; exact ⟨hsw.1, hsw.2.2⟩
    subst hc1
    simp only [BlockCache_c.HaveSpaceFor, decide_eq_true_eq, Nat.mod_eq_of_lt hsz] at hroom
    simp only [BlockCache_c.AddBlock, memOf_cons]
    refine ⟨by omega, by omega, hbase.2⟩

theorem step_mem (k : Nat) (cache cache1 : BlockCache_c) (op : CacheOp)
    (h : cache.step k op = some cache1)
    (hsz : ∀ uUID tOffset tData, op = CacheOp.add uUID tOffset tData →
      tData.m_uSize + k < DWORD_MOD)
    (hm : cache.m_iMemUsed = memOf k cache.m_dBlocks)
    (hc : cache.m_iMemUsed ≤ cache.m_iCacheSize) :
    cache1.m_iMemUsed = memOf k cache1.m_dBlocks ∧ cache1.m_iMemUsed ≤ cache1.m_iCacheSize ∧
    cache1.m_iCacheSize = cache.m_iCacheSize := by
  cases op with
  | find uUID tOffset =>
    simp only [BlockCache_c.step, Option.some.injEq] at h
    subst h
    obtain ⟨h1, h2, h3⟩ := Find_mem k cache uUID tOffset hm
    exact ⟨h1, by rw [h2, h3]; exact hc, h3⟩
  | add uUID tOffset tData =>
    simp only [BlockCache_c.step, Option.map_eq_some', Prod.exists, exists_eq_right] at h
    obtain ⟨r, hr⟩ := h
    exact Add_mem k cache cache1 uUID tOffset tData r hr (hsz uUID tOffset tData rfl) hm hc
  | release uUID tOffset =>
    simp only [BlockCache_c.step] at h
    obtain ⟨h1, h2, h3⟩ := Release_mem k cache cache1 uUID tOffset h hm
    exact ⟨h1, by rw [h2, h3]; exact hc, h3⟩
  | deleteAll uUID =>
    simp only [BlockCache_c.step, Option.some.injEq] at h
    subst h
    obtain ⟨h1, h2, h3⟩ := DeleteAll_mem k cache uUID hm
    exact ⟨h1, by rw [h3]; omega, h3⟩

theorem run_mem (k : Nat) (ops : List CacheOp) :
    ∀ (cache cache1 : BlockCache_c), cache.run k ops = some cache1 →
      (∀ uUID tOffset tData, CacheOp.add uUID tOffset tData ∈ ops →
        tData.m_uSize + k < DWORD_MOD) →
      cache.m_iMemUsed = memOf k cache.m_dBlocks → cache.m_iMemUsed ≤ cache.m_iCacheSize →
      cache1.m_iMemUsed = memOf k cache1.m_dBlocks ∧ cache1.m_iMemUsed ≤ cache1.m_iCacheSize ∧
      cache1.m_iCacheSize = cache.m_iCacheSize := by
  induction ops with
  | nil =>
    intro cache cache1 h _ hm hc
    simp only [BlockCache_c.run, Option.some.injEq] at h
    subst h
    exact ⟨hm, hc, rfl⟩
  | cons op rest ih =>
    intro cache cache1 h hsz hm hc
    simp only [BlockCache_c.run] at h
    cases hs : cache.step k op with
    | none => rw [hs] at h; cases h
    | some c2 =>
      rw [hs] at h
      obtain ⟨h1, h2, h3⟩ := step_mem k cache c2 op hs
        (fun u o d hop => hsz u o d (by rw [hop]; exact List.mem_cons_self _ _)) hm hc
      obtain ⟨h4, h5, h6⟩ := ih c2 cache1 h
        (fun u o d hop => hsz u o d (List.mem_cons_of_mem _ hop)) h1 h2
      exact ⟨h4, h5, h6.trans h3⟩

/-- C15: after every sequence of `Find`, `Add`, `Release` and `DeleteAll` on a
cache created with capacity `C` (not negative) that the code accepts, with
blocks whose size plus `sizeof(LinkedBlock_t)` fits a `DWORD`, `m_iMemUsed` is the
sum of `m_uSize + sizeof(LinkedBlock_t)` over the resident nodes and is at most
`C`. -/
theorem C15_cache_memory_invariant (uSizeof : Nat) (C : Int) (hC : 0 ≤ C) (ops : List CacheOp)
    (hsz : ∀ uUID tOffset tData, CacheOp.add uUID tOffset tData ∈ ops →
      tData.m_uSize + uSizeof < DWORD_MOD)
    (cache : BlockCache_c) (hrun : (BlockCache_c.create C).run uSizeof ops = some cache) :
    cache.m_iMemUsed = memOf uSizeof cache.m_dBlocks ∧ cache.m_iMemUsed ≤ C ∧
    cache.m_iCacheSize = C := by
  obtain ⟨h1, h2, h3⟩ := run_mem uSizeof ops (BlockCache_c.create C) cache hrun hsz rfl hC
  have h4 : cache.m_iCacheSize = C := h3
  exact ⟨h1, by rw [← h4]; exact h2, h4⟩

theorem pinScenario_sizes (uSize k : Nat) (hsz : uSize + k < DWORD_MOD) :
    ∀ uUID tOffset tData, CacheOp.add uUID tOffset tData ∈ pinScenario uSize →
      tData.m_uSize + k < DWORD_MOD := by
  intro u o d hmem
  simp only [pinScenario, List.mem_cons, List.mem_singleton, List.not_mem_nil, or_false] at hmem
  rcases hmem with h | h | h | h | h <;> first | (cases h; exact hsz) | cases h

theorem C15_cache_memory_invariant_witness :
    ((0 : Int) ≤ 4096 ∧
      (∀ uUID tOffset tData, CacheOp.add uUID tOffset tData ∈ pinScenario 1024 →
        tData.m_uSize + 64 < DWORD_MOD) ∧
      (BlockCache_c.create 4096).run 64 (pinScenario 1024) = some pinCache) ∧
    (pinCache.m_iMemUsed = memOf 64 pinCache.m_dBlocks ∧ pinCache.m_iMemUsed ≤ 4096 ∧
      pinCache.m_iCacheSize = 4096) :=
  ⟨⟨by decide, pinScenario_sizes 1024 64 (by decide), by decide⟩,
   C15_cache_memory_invariant 64 4096 (by decide) (pinScenario 1024)
    (pinScenario_sizes 1024 64 (by decide)) pinCache (by decide)⟩

/-! ## Block cache: the size limit of `Add` -/

theorem MAX_BLOCK_SIZE_le (cache : BlockCache_c) (h : 0 ≤ cache.m_iCacheSize) :
    (cache.MAX_BLOCK_SIZE : Int) ≤ Int.tdiv cache.m_iCacheSize 64 := by
  unfold BlockCache_c.MAX_BLOCK_SIZE DWORD_MOD
  rw [Int.tdiv_eq_ediv h (by decide)]
  omega

/-- C16, refuted as stated: a block above a 64th of the capacity is added while
the cache has room for it. In an empty cache of capacity 6400 (with
`sizeof(LinkedBlock_t) = 64`) a block of 1000 bytes, more than 6400/64 = 100, is
added: `Add` returns true and `m_iMemUsed` becomes 1064. -/
theorem C16_oversize_added :
    (1000 : Int) > Int.tdiv (BlockCache_c.create 6400).m_iCacheSize 64 ∧
    ((BlockCache_c.create 6400).Add 64 7 0 (cacheBlock 1 1000)).map Prod.fst = some true ∧
    ((BlockCache_c.create 6400).Add 64 7 0 (cacheBlock 1 1000)).map (fun r => r.2.m_iMemUsed)
      = some 1064 ∧
    ((BlockCache_c.create 6400).Add 64 7 0 (cacheBlock 1 1000)).map (fun r => r.2.keys)
      = some [⟨7, 0⟩] := by
  decide

/-- C16 as amended: in a cache of capacity `C` that has no room for a block
(`m_iMemUsed` plus the block's size plus `sizeof(LinkedBlock_t)` exceeds `C`), an
attempt to add a block whose size plus `sizeof(LinkedBlock_t)` exceeds `C/64`
returns false and leaves the cache as it was; a block the cache has room for is
added whatever its size. -/
theorem C16_oversize_refusal (uSizeof : Nat) (cache : BlockCache_c) (uUID tOffset : Nat)
    (tData : BlockData_t) (hC : 0 ≤ cache.m_iCacheSize) (hsz : tData.m_uSize + uSizeof < DWORD_MOD) :
    (cache.m_iMemUsed + ((tData.m_uSize + uSizeof : Nat) : Int) > cache.m_iCacheSize →
      ((tData.m_uSize + uSizeof : Nat) : Int) > Int.tdiv cache.m_iCacheSize 64 →
        cache.Add uSizeof uUID tOffset tData = some (false, cache)) ∧
    (cache.m_iMemUsed + ((tData.m_uSize + uSizeof : Nat) : Int) ≤ cache.m_iCacheSize →
      cache.hashFind uUID tOffset = none →
        cache.Add uSizeof uUID tOffset tData
          = some (true, cache.AddBlock uSizeof (newBlock uUID tOffset tData))) := by
  constructor
  · intro h1 h2
    refine Add_oversize uSizeof cache uUID tOffset tData ?_ ?_
    · simp only [BlockCache_c.HaveSpaceFor, Nat.mod_eq_of_lt hsz, decide_eq_false_iff_not]
      omega
    · rw [Nat.mod_eq_of_lt hsz]
      have := MAX_BLOCK_SIZE_le cache hC
      omega
  · intro h1 h2
    refine Add_room uSizeof cache uUID tOffset tData ?_ h2
    simp only [BlockCache_c.HaveSpaceFor, Nat.mod_eq_of_lt hsz, decide_eq_true_eq]
    exact h1

theorem C16_oversize_refusal_witness :
    ((0 : Int) ≤ pinCache.m_iCacheSize ∧ (cacheBlock 4 1024).m_uSize + 64 < DWORD_MOD ∧
      pinCache.m_iMemUsed + (((cacheBlock 4 1024).m_uSize + 64 : Nat) : Int) > pinCache.m_iCacheSize ∧
      (((cacheBlock 4 1024).m_uSize + 64 : Nat) : Int) > Int.tdiv pinCache.m_iCacheSize 64) ∧
    pinCache.Add 64 0 4 (cacheBlock 4 1024) = some (false, pinCache) :=
  ⟨⟨by decide, by decide, by decide, by decide⟩,
   (C16_oversize_refusal 64 pinCache 0 4 (cacheBlock 4 1024) (by decide) (by decide)).1
    (by decide) (by decide)⟩

/-! ## Block cache: the pinning scenario -/

/-- C17, refuted as stated: with capacity 4096, `sizeof(LinkedBlock_t) = 64` and
blocks of 4096/4 = 1024 bytes, blocks 1, 2 and 3 are added (2 and 3 released);
adding block 4 and adding block 5 return false and leave the cache as it is, so
block 2 is still resident and blocks 4 and 5 are not; after block 1 is released,
adding block 6 returns false as well and block 1 stays resident. -/
theorem C17_scenario_refuted :
    (BlockCache_c.create 4096).run 64 (pinScenario (4096 / 4)) = some pinCache ∧
    pinCache.Add 64 0 4 (cacheBlock 4 (4096 / 4)) = some (false, pinCache) ∧
    pinCache.Add 64 0 5 (cacheBlock 5 (4096 / 4)) = some (false, pinCache) ∧
    pinCache.keys = [⟨0, 3⟩, ⟨0, 2⟩, ⟨0, 1⟩] ∧
    (pinCache.Release 0 1).bind
        (fun cache => (cache.Add 64 0 6 (cacheBlock 6 (4096 / 4))).map (fun r => (r.1, r.2.keys)))
      = some (false, [⟨0, 3⟩, ⟨0, 2⟩, ⟨0, 1⟩]) := by
  decide

theorem pinScenario_run (C k : Nat) (hfit : 3 * (C / 4 + k) ≤ C) (hdw : C / 4 + k < DWORD_MOD) :
    (BlockCache_c.create C).run k (pinScenario (C / 4))
      = some
        { m_dBlocks :=
            [{ newBlock 0 3 (cacheBlock 3 (C / 4)) with m_iRefcount := 0 },
             { newBlock 0 2 (cacheBlock 2 (C / 4)) with m_iRefcount := 0 },
             newBlock 0 1 (cacheBlock 1 (C / 4))],
          m_iCacheSize := C,
          m_iMemUsed := 3 * ((C / 4 + k : Nat) : Int) } := by
  have hmod : (C / 4 + k) % DWORD_MOD = C / 4 + k := Nat.mod_eq_of_lt hdw
  have e1 : (BlockCache_c.create C).Add k 0 1 (cacheBlock 1 (C / 4))
      = some (true, ⟨[newBlock 0 1 (cacheBlock 1 (C / 4))], C, ((C / 4 + k : Nat) : Int)⟩) := by
    rw [Add_room k (BlockCache_c.create C) 0 1 _ (by
      simp only [BlockCache_c.HaveSpaceFor, BlockCache_c.create, cacheBlock, hmod,
        decide_eq_true_eq]
      omega) rfl]
    simp [BlockCache_c.AddBlock, BlockCache_c.create, newBlock, cacheBlock]
  have e2 : (BlockCache_c.mk [newBlock 0 1 (cacheBlock 1 (C / 4))] C
        ((C / 4 + k : Nat) : Int)).Add k 0 2 (cacheBlock 2 (C / 4))
      = some (true, ⟨[newBlock 0 2 (cacheBlock 2 (C / 4)), newBlock 0 1 (cacheBlock 1 (C / 4))], C,
          2 * ((C / 4 + k : Nat) : Int)⟩) := by
    rw [Add_room k _ 0 2 _ (by
      simp only [BlockCache_c.HaveSpaceFor, cacheBlock, hmod, decide_eq_true_eq]
      omega) (by simp [BlockCache_c.hashFind, newBlock])]
    simp only [BlockCache_c.AddBlock, newBlock, cacheBlock, Option.some.injEq, Prod.mk.injEq,
      true_and, BlockCache_c.mk.injEq, and_true]
    omega
  have e3 : (BlockCache_c.mk [newBlock 0 2 (cacheBlock 2 (C / 4)),
        newBlock 0 1 (cacheBlock 1 (C / 4))] C (2 * ((C / 4 + k : Nat) : Int))).Release 0 2
      = some ⟨[{ newBlock 0 2 (cacheBlock 2 (C / 4)) with m_iRefcount := 0 },
          newBlock 0 1 (cacheBlock 1 (C / 4))], C, 2 * ((C / 4 + k : Nat) : Int)⟩ := by
    simp [BlockCache_c.Release, BlockCache_c.hashFind, newBlock, releaseFirst]
  have e4 : (BlockCache_c.mk [{ newBlock 0 2 (cacheBlock 2 (C / 4)) with m_iRefcount := 0 },
        newBlock 0 1 (cacheBlock 1 (C / 4))] C (2 * ((C / 4 + k : Nat) : Int))).Add k 0 3
          (cacheBlock 3 (C / 4))
      = some (true, ⟨[newBlock 0 3 (cacheBlock 3 (C / 4)),
          { newBlock 0 2 (cacheBlock 2 (C / 4)) with m_iRefcount := 0 },
          newBlock 0 1 (cacheBlock 1 (C / 4))], C, 3 * ((C / 4 + k : Nat) : Int)⟩) := by
    rw [Add_room k _ 0 3 _ (by
      simp only [BlockCache_c.HaveSpaceFor, cacheBlock, hmod, decide_eq_true_eq]
      omega) (by simp [BlockCache_c.hashFind, newBlock])]
    simp only [BlockCache_c.AddBlock, newBlock, cacheBlock, Option.some.injEq, Prod.mk.injEq,
      true_and, BlockCache_c.mk.injEq, and_true]
    omega
  have e5 : (BlockCache_c.mk [newBlock 0 3 (cacheBlock 3 (C / 4)),
        { newBlock 0 2 (cacheBlock 2 (C / 4)) with m_iRefcount := 0 },
        newBlock 0 1 (cacheBlock 1 (C / 4))] C (3 * ((C / 4 + k : Nat) : Int))).Release 0 3
      = some ⟨[{ newBlock 0 3 (cacheBlock 3 (C / 4)) with m_iRefcount := 0 },
          { newBlock 0 2 (cacheBlock 2 (C / 4)) with m_iRefcount := 0 },
          newBlock 0 1 (cacheBlock 1 (C / 4))], C, 3 * ((C / 4 + k : Nat) : Int)⟩ := by
    simp [BlockCache_c.Release, BlockCache_c.hashFind, newBlock, releaseFirst]
  simp only [pinScenario, BlockCache_c.run, BlockCache_c.step, e1, Option.map_some', e2, e3, e4, e5]

theorem pinnedState_refuses (C k : Nat) (hk : 0 < k) (hdw : C / 4 + k < DWORD_MOD)
    (iRefcount : Int) (uNum : Nat) :
    (pinnedState C k iRefcount).Add k 0 uNum (cacheBlock uNum (C / 4))
      = some (false, pinnedState C k iRefcount) := by
  have hmod : (C / 4 + k) % DWORD_MOD = C / 4 + k := Nat.mod_eq_of_lt hdw
  refine Add_oversize k _ 0 uNum _ ?_ ?_
  · simp only [BlockCache_c.HaveSpaceFor, pinnedState, cacheBlock, hmod, decide_eq_false_iff_not]
    omega
  · have h := MAX_BLOCK_SIZE_le (pinnedState C k iRefcount) (by simp [pinnedState])
    rw [Int.tdiv_eq_ediv (by simp [pinnedState]) (by decide)] at h
    simp only [pinnedState] at h
    simp only [cacheBlock, hmod]
    have h2 : (((pinnedState C k iRefcount).MAX_BLOCK_SIZE : Nat) : Int) ≤ (C : Int) / 64 := h
    omega

/-- C17 as amended: with capacity `C`, blocks of `C/4` bytes and a positive
`sizeof(LinkedBlock_t)` (three blocks fitting with their overhead), blocks 1, 2
and 3 are added and stay resident, block 1 referenced; adding block 4 or block 5
returns false and changes nothing, since no room is left and the block with its
overhead exceeds `C/64`: nothing is evicted. After block 1 is released, adding
block 6 returns false as well and block 1 stays resident. Eviction from the tail
that passes over a referenced node shows with blocks within the limit: with
capacity 6400, `sizeof(LinkedBlock_t) = 64` and 36-byte blocks 1..65 added, all
but block 1 released, block 1 is resident, block 2 is not, blocks 3..65 are;
after block 1 is released, adding block 66 evicts block 1. -/
theorem C17_pinning_scenario (C k : Nat) (hk : 0 < k) (hfit : 3 * (C / 4 + k) ≤ C)
    (hdw : C / 4 + k < DWORD_MOD) :
    (BlockCache_c.create C).run k (pinScenario (C / 4)) = some (pinnedState C k 1) ∧
    (pinnedState C k 1).keys = [⟨0, 3⟩, ⟨0, 2⟩, ⟨0, 1⟩] ∧
    (pinnedState C k 1).Add k 0 4 (cacheBlock 4 (C / 4)) = some (false, pinnedState C k 1) ∧
    (pinnedState C k 1).Add k 0 5 (cacheBlock 5 (C / 4)) = some (false, pinnedState C k 1) ∧
    (pinnedState C k 1).Release 0 1 = some (pinnedState C k 0) ∧
    (pinnedState C k 0).Add k 0 6 (cacheBlock 6 (C / 4)) = some (false, pinnedState C k 0) ∧
    (BlockCache_c.create 6400).run 64 (CacheOp.add 0 1 (cacheBlock 1 36) :: addReleased 64 2)
      = some lruCache ∧
    lruCache.keys.map (fun tKey => tKey.m_tOffset) = (List.range 63).reverse.map (fun i => i + 3) ++ [1] ∧
    lruCache.refcount 0 1 = some 1 ∧
    lruCache.run 64 [CacheOp.release 0 1, CacheOp.add 0 66 (cacheBlock 66 36)] = some lruCacheNext ∧
    lruCacheNext.keys.map (fun tKey => tKey.m_tOffset) = (List.range 64).reverse.map (fun i => i + 3) := by
  refine ⟨?_, rfl, pinnedState_refuses C k hk hdw 1 4, pinnedState_refuses C k hk hdw 1 5, ?_,
    pinnedState_refuses C k hk hdw 0 6, by decide!, by decide!, by decide!, by decide!, by decide!⟩
  · rw [pinScenario_run C k hfit hdw]
    rfl
  · simp [BlockCache_c.Release, BlockCache_c.hashFind, pinnedState, newBlock, releaseFirst]

theorem C17_pinning_scenario_witness :
    (0 < 64 ∧ 3 * (4096 / 4 + 64) ≤ 4096 ∧ 4096 / 4 + 64 < DWORD_MOD) ∧
    (pinnedState 4096 64 1).Add 64 0 4 (cacheBlock 4 (4096 / 4))
      = some (false, pinnedState 4096 64 1) :=
  ⟨⟨by decide, by decide, by decide⟩,
   (C17_pinning_scenario 4096 64 (by decide) (by decide) (by decide)).2.2.1⟩

/-! ## Block cache: `Find` -/

theorem hashFind_some (cache : BlockCache_c) (uUID tOffset : Nat) (b : LinkedBlock_t)
    (h : cache.hashFind uUID tOffset = some b) :
    b.m_tKey = ⟨uUID, tOffset⟩ ∧
    ∃ l1 l2, cache.m_dBlocks = l1 ++ b :: l2 ∧ (∀ a ∈ l1, a.m_tKey ≠ ⟨uUID, tOffset⟩) ∧
      cache.m_dBlocks.eraseP (fun x => decide (x.m_tKey = ⟨uUID, tOffset⟩)) = l1 ++ l2 := by
  unfold BlockCache_c.hashFind at h
  obtain ⟨hp, l1, l2, hl, hn⟩ := List.find?_eq_some.mp h
  have hk : b.m_tKey = ⟨uUID, tOffset⟩ := by simpa using hp
  have hn2 : ∀ a ∈ l1, a.m_tKey ≠ ⟨uUID, tOffset⟩ := by
    intro a ha
    have := hn a ha
    simpa using this
  refine ⟨hk, l1, l2, hl, hn2, ?_⟩
  rw [hl, List.eraseP_append_right _ (by
    intro x hx
    have := hn2 x hx
    simpa using this)]
  simp [List.eraseP_cons, hk]

theorem hashFind_none (cache : BlockCache_c) (uUID tOffset : Nat) :
    cache.hashFind uUID tOffset = none ↔ ∀ b ∈ cache.m_dBlocks, b.m_tKey ≠ ⟨uUID, tOffset⟩ := by
  unfold BlockCache_c.hashFind
  simp

theorem Find_hit (cache : BlockCache_c) (uUID tOffset : Nat) (b : LinkedBlock_t)
    (h : cache.hashFind uUID tOffset = some b) :
    cache.Find uUID tOffset
      = (some b.toBlockData_t,
          { cache with
            m_dBlocks := { b with m_iRefcount := b.m_iRefcount + 1 }
              :: cache.m_dBlocks.eraseP (fun x => decide (x.m_tKey = ⟨uUID, tOffset⟩)) }) := by
  unfold BlockCache_c.Find
  rw [h]
  simp only [BlockCache_c.MoveToHead, (hashFind_some cache uUID tOffset b h).1]

theorem Find_miss (cache : BlockCache_c) (uUID tOffset : Nat)
    (h : cache.hashFind uUID tOffset = none) : cache.Find uUID tOffset = (none, cache) := by
  unfold BlockCache_c.Find
  rw [h]

theorem mem_releaseFirst (tKey : HashKey_t) :
    ∀ (l : List LinkedBlock_t) (x : LinkedBlock_t), x ∈ releaseFirst tKey l →
      ∃ y ∈ l, y.m_tKey = x.m_tKey ∧ y.toBlockData_t = x.toBlockData_t := by
  intro l
  induction l with
  | nil => intro x hx; simp [releaseFirst] at hx
  | cons a t ih =>
    intro x hx
    simp only [releaseFirst] at hx
    split at hx
    · rcases List.mem_cons.mp hx with h | h
      · exact ⟨a, List.mem_cons_self _ _, by rw [h], by rw [h]⟩
      · exact ⟨x, List.mem_cons_of_mem _ h, rfl, rfl⟩
    · rcases List.mem_cons.mp hx with h | h
      · exact ⟨a, List.mem_cons_self _ _, by rw [h], by rw [h]⟩
      · obtain ⟨y, hy, h1, h2⟩ := ih x h
        exact ⟨y, List.mem_cons_of_mem _ hy, h1, h2⟩

theorem keys_releaseFirst (tKey : HashKey_t) (l : List LinkedBlock_t) :
    (releaseFirst tKey l).map (fun b => b.m_tKey) = l.map (fun b => b.m_tKey) := by
  induction l with
  | nil => rfl
  | cons a t ih =>
    simp only [releaseFirst]
    split
    · simp
    · simp [ih]

theorem deleteAllFrom_sublist (k uUID : Nat) :
    ∀ (l : List LinkedBlock_t) (m : Int), (deleteAllFrom k uUID l m).1.Sublist l := by
  intro l
  induction l with
  | nil => intro m; simp [deleteAllFrom]
  | cons a t ih =>
    intro m
    simp only [deleteAllFrom]
    split
    · exact List.Sublist.cons _ (ih _)
    · exact List.Sublist.cons₂ _ (ih _)

theorem sweepFrom_sublist (k : Nat) (C : Int) (need : Nat) :
    ∀ (l : List LinkedBlock_t) (m : Int), (sweepFrom k C need l m).1.Sublist l := by
  intro l
  induction l with
  | nil => intro m; simp [sweepFrom]
  | cons a t ih =>
    intro m
    simp only [sweepFrom]
    split
    · exact List.Sublist.refl _
    · split
      · exact List.Sublist.cons _ (ih _)
      · exact List.Sublist.cons₂ _ (ih _)

theorem SweepUnused_sublist (k : Nat) (cache : BlockCache_c) (need : Nat) :
    (cache.SweepUnused k need).m_dBlocks.Sublist cache.m_dBlocks := by
  have h := (sweepFrom_sublist k cache.m_iCacheSize need cache.m_dBlocks.reverse
    cache.m_iMemUsed).reverse
  simpa [BlockCache_c.SweepUnused] using h

/-- Every node of the cache after an operation carries the key and the data of
a node that was there before, or those of the `Add` that the operation is. -/
theorem step_origin (P : HashKey_t → BlockData_t → Prop) (k : Nat)
    (cache cache1 : BlockCache_c) (op : CacheOp) (h : cache.step k op = some cache1)
    (hinv : ∀ b ∈ cache.m_dBlocks, P b.m_tKey b.toBlockData_t)
    (hop : ∀ uUID tOffset tData, op = CacheOp.add uUID tOffset tData → P ⟨uUID, tOffset⟩ tData) :
    ∀ b ∈ cache1.m_dBlocks, P b.m_tKey b.toBlockData_t := by
  cases op with
  | find uUID tOffset =>
    simp only [BlockCache_c.step, Option.some.injEq] at h
    subst h
    cases hf : cache.hashFind uUID tOffset with
    | none => rw [Find_miss cache uUID tOffset hf]; exact hinv
    | some b0 =>
      rw [Find_hit cache uUID tOffset b0 hf]
      obtain ⟨_, l1, l2, hl, _, he⟩ := hashFind_some cache uUID tOffset b0 hf
      intro b hb
      simp only [he, List.mem_cons, List.mem_append] at hb
      have hb0 : b0 ∈ cache.m_dBlocks := by rw [hl]; simp
      rcases hb with hb | hb | hb
      · subst hb; exact hinv b0 hb0
      · exact hinv b (by rw [hl]; simp [hb])
      · exact hinv b (by rw [hl]; simp [hb])
  | add uUID tOffset tData =>
    simp only [BlockCache_c.step, Option.map_eq_some', Prod.exists, exists_eq_right] at h
    obtain ⟨r, hr⟩ := h
    have hsw : ∀ b ∈ (cache.SweepUnused k ((tData.m_uSize + k) % DWORD_MOD)).m_dBlocks,
        P b.m_tKey b.toBlockData_t :=
      fun b hb => hinv b ((SweepUnused_sublist k cache _).subset hb)
    cases r with
    | false =>
      rcases Add_false k cache cache1 uUID tOffset tData hr with h1 | h1
      · subst h1; exact hinv
      · subst h1; exact hsw
    | true =>
      obtain ⟨base, hb, _, _, hc1⟩ := Add_true k cache cache1 uUID tOffset tData hr
      subst hc1
      intro b hbm
      simp only [BlockCache_c.AddBlock, List.mem_cons] at hbm
      rcases hbm with hbm | hbm
      · subst hbm; exact hop uUID tOffset tData rfl
      · rcases hb with hb | ⟨_, hb⟩
        · subst hb; exact hinv b hbm
        · subst hb; exact hsw b hbm
  | release uUID tOffset =>
    simp only [BlockCache_c.step, BlockCache_c.Release] at h
    cases hf : cache.hashFind uUID tOffset with
    | none => rw [hf] at h; cases h
    | some b0 =>
      rw [hf] at h
      cases h
      intro b hb
      obtain ⟨y, hy, h1, h2⟩ := mem_releaseFirst _ _ b hb
      rw [← h1, ← h2]
      exact hinv y hy
  | deleteAll uUID =>
    simp only [BlockCache_c.step, Option.some.injEq] at h
    subst h
    intro b hb
    exact hinv b ((deleteAllFrom_sublist k uUID _ _).subset hb)

theorem run_origin (k : Nat) (ops : List CacheOp) :
    ∀ (cache cache1 : BlockCache_c), cache.run k ops = some cache1 →
      ∀ b ∈ cache1.m_dBlocks,
        (∃ b0 ∈ cache.m_dBlocks, b0.m_tKey = b.m_tKey ∧ b0.toBlockData_t = b.toBlockData_t) ∨
        CacheOp.add b.m_tKey.m_uUID b.m_tKey.m_tOffset b.toBlockData_t ∈ ops := by
  induction ops with
  | nil =>
    intro cache cache1 h b hb
    simp only [BlockCache_c.run, Option.some.injEq] at h
    subst h
    exact Or.inl ⟨b, hb, rfl, rfl⟩
  | cons op rest ih =>
    intro cache cache1 h b hb
    simp only [BlockCache_c.run] at h
    cases hs : cache.step k op with
    | none => rw [hs] at h; cases h
    | some c2 =>
      rw [hs] at h
      rcases ih c2 cache1 h b hb with ⟨b0, hb0, h1, h2⟩ | h1
      · have := step_origin
          (fun tKey tData => (∃ x ∈ cache.m_dBlocks, x.m_tKey = tKey ∧ x.toBlockData_t = tData) ∨
            op = CacheOp.add tKey.m_uUID tKey.m_tOffset tData) k cache c2 op hs
          (fun x hx => Or.inl ⟨x, hx, rfl, rfl⟩)
          (fun u o d hop => Or.inr hop) b0 hb0
        rw [h1, h2] at this
        rcases this with h3 | h3
        · exact Or.inl h3
        · exact Or.inr (by rw [h3]; exact List.mem_cons_self _ _)
      · exact Or.inr (List.mem_cons_of_mem _ h1)

theorem step_nodup (k : Nat) (cache cache1 : BlockCache_c) (op : CacheOp)
    (h : cache.step k op = some cache1) (hnd : cache.keys.Nodup) : cache1.keys.Nodup := by
  unfold BlockCache_c.keys at *
  cases op with
  | find uUID tOffset =>
    simp only [BlockCache_c.step, Option.some.injEq] at h
    subst h
    cases hf : cache.hashFind uUID tOffset with
    | none => rw [Find_miss cache uUID tOffset hf]; exact hnd
    | some b0 =>
      rw [Find_hit cache uUID tOffset b0 hf]
      obtain ⟨_, l1, l2, hl, _, he⟩ := hashFind_some cache uUID tOffset b0 hf
      simp only [he]
      rw [hl] at hnd
      have hp : ((l1 ++ b0 :: l2).map (fun b => b.m_tKey)).Perm
          (({ b0 with m_iRefcount := b0.m_iRefcount + 1 } :: (l1 ++ l2)).map (fun b => b.m_tKey)) := by
        simp only [List.map_append, List.map_cons]
        exact List.perm_middle
      exact hp.nodup_iff.mp hnd
  | add uUID tOffset tData =>
    simp only [BlockCache_c.step, Option.map_eq_some', Prod.exists, exists_eq_right] at h
    obtain ⟨r, hr⟩ := h
    have hsw : ((cache.SweepUnused k ((tData.m_uSize + k) % DWORD_MOD)).m_dBlocks.map
        (fun b => b.m_tKey)).Nodup :=
      List.Nodup.sublist ((SweepUnused_sublist k cache _).map _) hnd
    cases r with
    | false =>
      rcases Add_false k cache cache1 uUID tOffset tData hr with h1 | h1
      · subst h1; exact hnd
      · subst h1; exact hsw
    | true =>
      obtain ⟨base, hb, _, hnew, hc1⟩ := Add_true k cache cache1 uUID tOffset tData hr
      subst hc1
      have hbase : (base.m_dBlocks.map (fun b => b.m_tKey)).Nodup := by
        rcases hb with hb | ⟨_, hb⟩
        · subst hb; exact hnd
        · subst hb; exact hsw
      simp only [BlockCache_c.AddBlock, List.map_cons, List.nodup_cons]
      refine ⟨?_, hbase⟩
      intro hmem
      obtain ⟨x, hx, hxk⟩ := List.mem_map.mp hmem
      exact (hashFind_none base uUID tOffset).mp hnew x hx hxk
  | release uUID tOffset =>
    simp only [BlockCache_c.step, BlockCache_c.Release] at h
    cases hf : cache.hashFind uUID tOffset with
    | none => rw [hf] at h; cases h
    | some b0 =>
      rw [hf] at h
      cases h
      simp only [keys_releaseFirst]
      exact hnd
  | deleteAll uUID =>
    simp only [BlockCache_c.step, Option.some.injEq] at h
    subst h
    exact List.Nodup.sublist ((deleteAllFrom_sublist k uUID _ _).map _) hnd

theorem run_nodup (k : Nat) (ops : List CacheOp) :
    ∀ (cache cache1 : BlockCache_c), cache.run k ops = some cache1 → cache.keys.Nodup →
      cache1.keys.Nodup := by
  induction ops with
  | nil =>
    intro cache cache1 h hnd
    simp only [BlockCache_c.run, Option.some.injEq] at h
    subst h
    exact hnd
  | cons op rest ih =>
    intro cache cache1 h hnd
    simp only [BlockCache_c.run] at h
    cases hs : cache.step k op with
    | none => rw [hs] at h; cases h
    | some c2 =>
      rw [hs] at h
      exact ih c2 cache1 h (step_nodup k cache c2 op hs hnd)

/-- C18: `Find` hits if and only if a node with the key is resident. On a hit it
gives the flags, document count, payload and size of that node, which are those
that were given to the `Add` of the key; the node becomes the head with its
reference count raised by one, the other nodes keep their order, and nothing
else changes. On a miss the cache is unchanged. -/
theorem C18_cache_find (cache : BlockCache_c) (uUID tOffset : Nat) :
    ((cache.Find uUID tOffset).1.isSome = true
      ↔ ∃ b ∈ cache.m_dBlocks, b.m_tKey = ⟨uUID, tOffset⟩) ∧
    (∀ b, cache.hashFind uUID tOffset = some b →
      ∃ l1 l2, cache.m_dBlocks = l1 ++ b :: l2 ∧ (∀ a ∈ l1, a.m_tKey ≠ ⟨uUID, tOffset⟩) ∧
        b.m_tKey = ⟨uUID, tOffset⟩ ∧
        cache.Find uUID tOffset
          = (some b.toBlockData_t,
              { cache with
                m_dBlocks := { b with m_iRefcount := b.m_iRefcount + 1 } :: (l1 ++ l2) })) ∧
    ((cache.Find uUID tOffset).1 = none → (cache.Find uUID tOffset).2 = cache) ∧
    (∀ (uSizeof : Nat) (C : Int) (ops : List CacheOp),
      (BlockCache_c.create C).run uSizeof ops = some cache →
        cache.keys.Nodup ∧
        ∀ tData, (cache.Find uUID tOffset).1 = some tData →
          CacheOp.add uUID tOffset tData ∈ ops) := by
  refine ⟨?_, ?_, ?_, ?_⟩
  · cases hf : cache.hashFind uUID tOffset with
    | none =>
      rw [Find_miss cache uUID tOffset hf]
      have := (hashFind_none cache uUID tOffset).mp hf
      constructor
      · intro h; cases h
      · rintro ⟨b, hb, hk⟩; exact absurd hk (this b hb)
    | some b =>
      rw [Find_hit cache uUID tOffset b hf]
      obtain ⟨hk, l1, l2, hl, _, _⟩ := hashFind_some cache uUID tOffset b hf
      constructor
      · intro _; exact ⟨b, by rw [hl]; simp, hk⟩
      · intro _; rfl
  · intro b hf
    obtain ⟨hk, l1, l2, hl, hn, he⟩ := hashFind_some cache uUID tOffset b hf
    refine ⟨l1, l2, hl, hn, hk, ?_⟩
    rw [Find_hit cache uUID tOffset b hf, he]
  · intro h
    cases hf : cache.hashFind uUID tOffset with
    | none => rw [Find_miss cache uUID tOffset hf]
    | some b => rw [Find_hit cache uUID tOffset b hf] at h; cases h
  · intro k C ops hrun
    refine ⟨run_nodup k ops _ cache hrun (by simp [BlockCache_c.keys, BlockCache_c.create]), ?_⟩
    intro tData hfind
    cases hf : cache.hashFind uUID tOffset with
    | none => rw [Find_miss cache uUID tOffset hf] at hfind; cases hfind
    | some b =>
      rw [Find_hit cache uUID tOffset b hf] at hfind
      simp only [Option.some.injEq] at hfind
      obtain ⟨hk, l1, l2, hl, _, _⟩ := hashFind_some cache uUID tOffset b hf
      rcases run_origin k ops _ cache hrun b (by rw [hl]; simp) with ⟨b0, hb0, _⟩ | h
      · simp [BlockCache_c.create] at hb0
      · rw [hk, hfind] at h
        exact h

theorem C18_cache_find_witness :
    (BlockCache_c.create 4096).run 64 (pinScenario 1024) = some pinCache ∧
    (pinCache.keys.Nodup ∧
      ∀ tData, (pinCache.Find 0 2).1 = some tData → CacheOp.add 0 2 tData ∈ pinScenario 1024) ∧
    (pinCache.Find 0 2).1 = some (cacheBlock 2 1024) ∧
    (pinCache.Find 0 2).2.keys = [⟨0, 2⟩, ⟨0, 3⟩, ⟨0, 1⟩] ∧
    (pinCache.Find 0 2).2.refcount 0 2 = some 1 :=
  ⟨by decide, (C18_cache_find pinCache 0 2).2.2.2 64 4096 (pinScenario 1024) (by decide),
    by decide, by decide, by decide⟩

/-! ## Block cache: `Add` and `Release` -/

theorem hashFind_head (cache : BlockCache_c) (uUID tOffset : Nat) (b : LinkedBlock_t)
    (l : List LinkedBlock_t) (hl : cache.m_dBlocks = b :: l) (hk : b.m_tKey = ⟨uUID, tOffset⟩) :
    cache.hashFind uUID tOffset = some b := by
  unfold BlockCache_c.hashFind
  rw [hl]
  simp [hk]

/-- C19: whenever `Add` returns true, the cache is the one left by the sweep (the
cache itself when it had room), whose nodes are nodes of the old cache in their
old order, with the new node in front of them as the head; the new node has
reference count 1 and carries the data, `m_iMemUsed` has grown by the size of
the data plus `sizeof(LinkedBlock_t)` over its value after the sweep, and a
`Find` of the key that follows gives the data. -/
theorem C19_cache_add (uSizeof : Nat) (cache cache1 : BlockCache_c) (uUID tOffset : Nat)
    (tData : BlockData_t) (h : cache.Add uSizeof uUID tOffset tData = some (true, cache1)) :
    cache1.m_dBlocks
      = newBlock uUID tOffset tData
        :: (if cache.HaveSpaceFor ((tData.m_uSize + uSizeof) % DWORD_MOD) then cache
            else cache.SweepUnused uSizeof ((tData.m_uSize + uSizeof) % DWORD_MOD)).m_dBlocks ∧
    (if cache.HaveSpaceFor ((tData.m_uSize + uSizeof) % DWORD_MOD) then cache
      else cache.SweepUnused uSizeof ((tData.m_uSize + uSizeof) % DWORD_MOD)).m_dBlocks.Sublist
        cache.m_dBlocks ∧
    cache1.refcount uUID tOffset = some 1 ∧
    cache1.m_iMemUsed
      = (if cache.HaveSpaceFor ((tData.m_uSize + uSizeof) % DWORD_MOD) then cache
          else cache.SweepUnused uSizeof ((tData.m_uSize + uSizeof) % DWORD_MOD)).m_iMemUsed
        + ((tData.m_uSize + uSizeof : Nat) : Int) ∧
    cache1.m_iCacheSize = cache.m_iCacheSize ∧
    (cache1.Find uUID tOffset).1 = some tData := by
  obtain ⟨base, hb, hroom, _, hc1⟩ := Add_true uSizeof cache cache1 uUID tOffset tData h
  have hbase : base = (if cache.HaveSpaceFor ((tData.m_uSize + uSizeof) % DWORD_MOD) then cache
      else cache.SweepUnused uSizeof ((tData.m_uSize + uSizeof) % DWORD_MOD)) := by
    rcases hb with hb | ⟨h1, hb⟩
    · subst hb; rw [hroom]; rfl
    · rw [h1]; exact hb
  rw [← hbase]
  have hsub : base.m_dBlocks.Sublist cache.m_dBlocks := by
    rcases hb with hb | ⟨_, hb⟩
    · subst hb; exact List.Sublist.refl _
    · subst hb; exact SweepUnused_sublist uSizeof cache _
  have hcap : base.m_iCacheSize = cache.m_iCacheSize := by
    rcases hb with hb | ⟨_, hb⟩
    · subst hb; rfl
    · subst hb; rfl
  subst hc1
  have hfind : (base.AddBlock uSizeof (newBlock uUID tOffset tData)).hashFind uUID tOffset
      = some (newBlock uUID tOffset tData) :=
    hashFind_head _ uUID tOffset _ base.m_dBlocks rfl rfl
  refine ⟨rfl, hsub, ?_, rfl, hcap, ?_⟩
  · change ((base.AddBlock uSizeof (newBlock uUID tOffset tData)).hashFind uUID tOffset).map _ = _
    rw [hfind]
    rfl
  · change ((base.AddBlock uSizeof (newBlock uUID tOffset tData)).Find uUID tOffset).1 = _
    rw [Find_hit _ uUID tOffset _ hfind]
    rfl

theorem C19_cache_add_witness :
    ((lruCache.Release 0 1).getD {}).Add 64 0 66 (cacheBlock 66 36) = some (true, lruCacheNext) ∧
    lruCacheNext.refcount 0 66 = some 1 ∧
    (lruCacheNext.Find 0 66).1 = some (cacheBlock 66 36) :=
  ⟨by decide!,
   (C19_cache_add 64 ((lruCache.Release 0 1).getD {}) lruCacheNext 0 66 (cacheBlock 66 36)
      (by decide!)).2.2.1,
   (C19_cache_add 64 ((lruCache.Release 0 1).getD {}) lruCacheNext 0 66 (cacheBlock 66 36)
      (by decide!)).2.2.2.2.2⟩

theorem releaseFirst_split (tKey : HashKey_t) (b : LinkedBlock_t) (l2 : List LinkedBlock_t)
    (hk : b.m_tKey = tKey) :
    ∀ l1 : List LinkedBlock_t, (∀ a ∈ l1, a.m_tKey ≠ tKey) →
      releaseFirst tKey (l1 ++ b :: l2)
        = l1 ++ { b with m_iRefcount := b.m_iRefcount - 1 } :: l2 := by
  intro l1
  induction l1 with
  | nil => intro _; simp [releaseFirst, hk]
  | cons a t ih =>
    intro h
    have ha : a.m_tKey ≠ tKey := h a (List.mem_cons_self _ _)
    have := ih (fun x hx => h x (List.mem_cons_of_mem _ hx))
    simp only [List.cons_append, releaseFirst, ha, if_false]
    exact congrArg (List.cons a) this

theorem Release_hit (cache : BlockCache_c) (uUID tOffset : Nat) (b : LinkedBlock_t)
    (h : cache.hashFind uUID tOffset = some b) :
    ∃ l1 l2, cache.m_dBlocks = l1 ++ b :: l2 ∧ (∀ a ∈ l1, a.m_tKey ≠ ⟨uUID, tOffset⟩) ∧
      b.m_tKey = ⟨uUID, tOffset⟩ ∧
      cache.Release uUID tOffset
        = some { cache with
            m_dBlocks := l1 ++ { b with m_iRefcount := b.m_iRefcount - 1 } :: l2 } := by
  obtain ⟨hk, l1, l2, hl, hn, _⟩ := hashFind_some cache uUID tOffset b h
  refine ⟨l1, l2, hl, hn, hk, ?_⟩
  unfold BlockCache_c.Release
  rw [h]
  simp only
  rw [hl, releaseFirst_split _ b l2 hk l1 hn]

theorem hashFind_split (cache : BlockCache_c) (uUID tOffset : Nat) (b : LinkedBlock_t)
    (l1 l2 : List LinkedBlock_t) (hl : cache.m_dBlocks = l1 ++ b :: l2)
    (hn : ∀ a ∈ l1, a.m_tKey ≠ ⟨uUID, tOffset⟩) (hk : b.m_tKey = ⟨uUID, tOffset⟩) :
    cache.hashFind uUID tOffset = some b := by
  unfold BlockCache_c.hashFind
  rw [hl]
  refine List.find?_eq_some.mpr ⟨by simp [hk], l1, l2, rfl, ?_⟩
  intro a ha
  simp [hn a ha]

theorem refcount_Find (cache : BlockCache_c) (uUID tOffset : Nat) (c : Int)
    (h : cache.refcount uUID tOffset = some c) :
    (cache.Find uUID tOffset).2.refcount uUID tOffset = some (c + 1) := by
  unfold BlockCache_c.refcount at h
  cases hf : cache.hashFind uUID tOffset with
  | none => rw [hf] at h; cases h
  | some b =>
    rw [hf] at h
    simp only [Option.map_some', Option.some.injEq] at h
    rw [Find_hit cache uUID tOffset b hf]
    unfold BlockCache_c.refcount
    rw [hashFind_head _ uUID tOffset { b with m_iRefcount := b.m_iRefcount + 1 } _ rfl
      (hashFind_some cache uUID tOffset b hf).1]
    simp [h]

theorem refcount_Release (cache : BlockCache_c) (uUID tOffset : Nat) (c : Int)
    (h : cache.refcount uUID tOffset = some c) :
    ∃ cache1, cache.Release uUID tOffset = some cache1 ∧
      cache1.refcount uUID tOffset = some (c - 1) := by
  unfold BlockCache_c.refcount at h
  cases hf : cache.hashFind uUID tOffset with
  | none => rw [hf] at h; cases h
  | some b =>
    rw [hf] at h
    simp only [Option.map_some', Option.some.injEq] at h
    obtain ⟨l1, l2, hl, hn, hk, hr⟩ := Release_hit cache uUID tOffset b hf
    refine ⟨_, hr, ?_⟩
    unfold BlockCache_c.refcount
    rw [hashFind_split _ uUID tOffset { b with m_iRefcount := b.m_iRefcount - 1 } l1 l2 rfl hn hk]
    simp [h]

theorem refcount_run (k uUID tOffset : Nat) (dCalls : List Bool) :
    ∀ (cache : BlockCache_c) (c : Int), cache.refcount uUID tOffset = some c →
      ∃ cache1, cache.run k (findsAndReleases uUID tOffset dCalls) = some cache1 ∧
        cache1.refcount uUID tOffset
          = some (c + (dCalls.count true : Int) - (dCalls.count false : Int)) := by
  induction dCalls with
  | nil =>
    intro cache c h
    exact ⟨cache, rfl, by simpa using h⟩
  | cons bFind rest ih =>
    intro cache c h
    cases bFind with
    | true =>
      obtain ⟨cache1, h1, h2⟩ := ih (cache.Find uUID tOffset).2 (c + 1)
        (refcount_Find cache uUID tOffset c h)
      refine ⟨cache1, ?_, ?_⟩
      · simpa [findsAndReleases, BlockCache_c.run, BlockCache_c.step] using h1
      · rw [h2]
        have e1 : (true :: rest).count true = rest.count true + 1 := by simp
        have e2 : (true :: rest).count false = rest.count false := by simp
        rw [e1, e2]
        congr 1
        push_cast
        omega
    | false =>
      obtain ⟨c2, hr, hc2⟩ := refcount_Release cache uUID tOffset c h
      obtain ⟨cache1, h1, h2⟩ := ih c2 (c - 1) hc2
      refine ⟨cache1, ?_, ?_⟩
      · simpa [findsAndReleases, BlockCache_c.run, BlockCache_c.step, hr] using h1
      · rw [h2]
        have e1 : (false :: rest).count true = rest.count true := by simp
        have e2 : (false :: rest).count false = rest.count false + 1 := by simp
        rw [e1, e2]
        congr 1
        push_cast
        omega

/-- C20: `Release` of a resident key lowers the reference count of the node
with the key by one and changes nothing else: the nodes, their order, the other
reference counts, `m_iMemUsed` and the capacity are the same. Hence after an
`Add` that returned true, followed by `Find` and `Release` calls of the key in
any order, `h` of them `Find` and `r` of them `Release`, the reference count of
the key is `1 + h - r`. -/
theorem C20_cache_release (cache : BlockCache_c) (uUID tOffset : Nat) :
    (∀ b, cache.hashFind uUID tOffset = some b →
      ∃ l1 l2, cache.m_dBlocks = l1 ++ b :: l2 ∧ (∀ a ∈ l1, a.m_tKey ≠ ⟨uUID, tOffset⟩) ∧
        b.m_tKey = ⟨uUID, tOffset⟩ ∧
        cache.Release uUID tOffset
          = some { cache with
              m_dBlocks := l1 ++ { b with m_iRefcount := b.m_iRefcount - 1 } :: l2 }) ∧
    (∀ (uSizeof : Nat) (tData : BlockData_t) (cache1 : BlockCache_c),
      cache.Add uSizeof uUID tOffset tData = some (true, cache1) →
        ∀ dCalls : List Bool,
          ∃ cache2, cache1.run uSizeof (findsAndReleases uUID tOffset dCalls) = some cache2 ∧
            cache2.refcount uUID tOffset
              = some (1 + (dCalls.count true : Int) - (dCalls.count false : Int))) := by
  refine ⟨fun b h => Release_hit cache uUID tOffset b h, ?_⟩
  intro k tData cache1 hadd dCalls
  obtain ⟨base, _, _, _, hc1⟩ := Add_true k cache cache1 uUID tOffset tData hadd
  have h1 : cache1.refcount uUID tOffset = some 1 := by
    subst hc1
    unfold BlockCache_c.refcount
    rw [hashFind_head _ uUID tOffset
      { toBlockData_t := tData, m_iRefcount := 1, m_tKey := ⟨uUID, tOffset⟩ } base.m_dBlocks rfl rfl]
    rfl
  exact refcount_run k uUID tOffset dCalls cache1 1 h1

theorem C20_cache_release_witness :
    (BlockCache_c.create 4096).Add 64 0 1 (cacheBlock 1 1024)
      = some (true, (BlockCache_c.create 4096).AddBlock 64 (newBlock 0 1 (cacheBlock 1 1024))) ∧
    ∃ cache2,
      ((BlockCache_c.create 4096).AddBlock 64 (newBlock 0 1 (cacheBlock 1 1024))).run 64
          (findsAndReleases 0 1 [true, false, false, true, true]) = some cache2 ∧
        cache2.refcount 0 1
          = some (1 + (([true, false, false, true, true] : List Bool).count true : Int)
              - (([true, false, false, true, true] : List Bool).count false : Int)) :=
  ⟨by decide,
   (C20_cache_release (BlockCache_c.create 4096) 0 1).2 64 (cacheBlock 1 1024) _ (by decide)
    [true, false, false, true, true]⟩

/-! ## Trailing NUL of a TEXT field -/

theorem getLast?_eq_getD (d : List BYTE) (hne : d ≠ []) :
    d.getLast? = some (d.getD (d.length - 1) 0) := by
  rw [List.getLast?_eq_getElem?, List.getD_eq_getElem?_getD]
  have : d.length - 1 < d.length := by
    have := List.length_pos.mpr hne
    omega
  rw [List.getElem?_eq_getElem this]
  rfl

theorem stripCondition_iff (eType : Nat) (d : List BYTE) :
    (eType = DOCSTORE_TEXT ∧ d.length > 0 ∧ d.getD (d.length - 1) 0 = 0)
      ↔ (decide (eType = DOCSTORE_TEXT) = true ∧ d ≠ [] ∧ d.getLast? = some 0) := by
  by_cases hne : d = []
  · subst hne
    constructor
    · intro h; exact absurd h.2.1 (by decide)
    · intro h; exact absurd rfl h.2.1
  · rw [getLast?_eq_getD d hne]
    have hpos : d.length > 0 := List.length_pos.mpr hne
    constructor
    · intro h; exact ⟨decide_eq_true h.1, hne, by rw [h.2.2]⟩
    · intro h; exact ⟨of_decide_eq_true h.1, hpos, Option.some.inj h.2.2⟩

theorem storedField_spec (tFields : DocstoreFields_c) (tDoc : Doc_t) (i : Nat) :
    storedField tFields tDoc i
      = specStoredPayload ((tFields.GetField i).m_eType = DOCSTORE_TEXT)
          (tDoc.m_dFields.getD i []) := by
  unfold storedField specStoredPayload
  simp only
  generalize tDoc.m_dFields.getD i [] = d
  have hiff := stripCondition_iff (tFields.GetField i).m_eType d
  by_cases hc : ((tFields.GetField i).m_eType = DOCSTORE_TEXT ∧ d.length > 0
      ∧ d.getD (d.length - 1) 0 = 0)
  · rw [if_pos hc, if_pos (hiff.mp hc), List.dropLast_eq_take]
  · rw [if_neg hc, if_neg (fun h => hc (hiff.mpr h)), List.take_length]

theorem rtFieldLength_spec (tFields : DocstoreFields_c) (d : List BYTE) (i : Nat) :
    d.take (rtFieldLength tFields d i)
      = specStoredPayload ((tFields.GetField i).m_eType = DOCSTORE_TEXT) d := by
  unfold rtFieldLength specStoredPayload
  have hiff := stripCondition_iff (tFields.GetField i).m_eType d
  by_cases hc : ((tFields.GetField i).m_eType = DOCSTORE_TEXT ∧ d.length > 0
      ∧ d.getD (d.length - 1) 0 = 0)
  · rw [if_pos hc, if_pos (hiff.mp hc), List.dropLast_eq_take]
  · rw [if_neg hc, if_neg (fun h => hc (hiff.mpr h)), List.take_length]

theorem rtFieldLength_length (tFields : DocstoreFields_c) (d : List BYTE) (i : Nat) :
    rtFieldLength tFields d i
      = (specStoredPayload ((tFields.GetField i).m_eType = DOCSTORE_TEXT) d).length := by
  rw [← rtFieldLength_spec, List.length_take]
  have : rtFieldLength tFields d i ≤ d.length := by
    unfold rtFieldLength
    split <;> omega
  omega

theorem rtPackFields_spec (tFields : DocstoreFields_c) :
    ∀ (dFields : List (List BYTE)) (i : Nat),
      rtPackFields tFields dFields i = rtEncode (specStoredPayloads tFields dFields i) := by
  intro dFields
  induction dFields with
  | nil => intro i; rfl
  | cons d rest ih =>
    intro i
    simp only [rtPackFields, specStoredPayloads, rtEncode, List.flatMap_cons]
    rw [rtFieldLength_spec, rtFieldLength_length, ih (i + 1)]
    simp [rtEncode, List.append_assoc]

theorem specStoredPayload_cases (bText : Bool) (d : List BYTE) :
    (bText = true → d ≠ [] → d.getLast? = some 0 →
      specStoredPayload bText d = d.dropLast ∧
        (specStoredPayload bText d).length + 1 = d.length ∧
        specStoredPayload bText d ++ [0] = d) ∧
    ((bText = false ∨ d = [] ∨ d.getLast? ≠ some 0) → specStoredPayload bText d = d) := by
  unfold specStoredPayload
  constructor
  · intro h1 h2 h3
    simp only [h1, h2, h3, ne_eq, not_false_eq_true, and_self, if_true, true_and]
    have hl := List.dropLast_append_getLast? 0 (by simpa using h3)
    refine ⟨?_, hl⟩
    have := congrArg List.length hl
    simpa using this
  · intro h
    rcases h with h | h | h
    · simp [h]
    · simp [h]
    · simp [h]

/-- C27: in the builder's `AddDoc` and in the in-memory `AddDoc` the payload kept
for a field is the spec's: a TEXT input that is not empty and ends in NUL loses
exactly that one byte, every other TEXT input and every BINARY input is kept
unchanged. The builder appends the pending document with these payloads, the
in-memory store appends the packed document made of them. -/
theorem C27_trailing_nul_strip (c : Compressor_i) (s : DocstoreBuilder_c) (rt : DocstoreRT_c)
    (tRowID : Nat) (tDoc : Doc_t) :
    (s.AddDoc c tRowID tDoc).m_dStoredDocs.getLast?
      = some
        { m_tRowID := tRowID,
          m_dFields := (List.range s.m_tFields.GetNumFields).map
            (fun i => specStoredPayload ((s.m_tFields.GetField i).m_eType = DOCSTORE_TEXT)
              (tDoc.m_dFields.getD i [])) } ∧
    (rt.AddDoc tRowID tDoc).m_dDocs
      = rt.m_dDocs ++ [some (rtEncode (specStoredPayloads rt.m_tFields tDoc.m_dFields 0))] ∧
    (∀ d : List BYTE, specStoredPayload false d = d) ∧
    (∀ d : List BYTE, d ≠ [] → d.getLast? = some 0 →
      specStoredPayload true d = d.dropLast ∧ (specStoredPayload true d).length + 1 = d.length ∧
        specStoredPayload true d ++ [0] = d) ∧
    (∀ d : List BYTE, (d = [] ∨ d.getLast? ≠ some 0) → specStoredPayload true d = d) := by
  refine ⟨?_, ?_, ?_, ?_, ?_⟩
  · rw [AddDoc_storedDocs, List.getLast?_concat]
    have hmap : (List.range s.m_tFields.GetNumFields).map (storedField s.m_tFields tDoc)
        = (List.range s.m_tFields.GetNumFields).map
            (fun i => specStoredPayload ((s.m_tFields.GetField i).m_eType = DOCSTORE_TEXT)
              (tDoc.m_dFields.getD i [])) :=
      List.map_congr_left (fun i _ => storedField_spec s.m_tFields tDoc i)
    simp only [storedDocOf, hmap]
  · unfold DocstoreRT_c.AddDoc
    simp only [rtPackFields_spec]
  · intro d
    exact (specStoredPayload_cases false d).2 (Or.inl rfl)
  · intro d h1 h2
    exact (specStoredPayload_cases true d).1 rfl h1 h2
  · intro d h
    exact (specStoredPayload_cases true d).2 (Or.inr h)

theorem C27_trailing_nul_strip_witness :
    (([97, 0, 0] : List BYTE) ≠ [] ∧ ([97, 0, 0] : List BYTE).getLast? = some 0) ∧
    (specStoredPayload true [97, 0, 0] = ([97, 0, 0] : List BYTE).dropLast ∧
      (specStoredPayload true [97, 0, 0]).length + 1 = ([97, 0, 0] : List BYTE).length ∧
      specStoredPayload true [97, 0, 0] ++ [0] = [97, 0, 0]) :=
  ⟨⟨by decide, by decide⟩,
   (C27_trailing_nul_strip Compressor_None_c boundaryBuilder {} 0 { m_dFields := [] }).2.2.2.1
    [97, 0, 0] (by decide) (by decide)⟩

/-! ## Header size and reorder flag of a big block -/

theorem WriteBigBlock_parts (c : Compressor_i) (s : DocstoreBuilder_c) :
    (s.WriteBigBlock c).m_tWriter = s.m_tWriter ++ s.bigBlockHeaderBytes c ++ s.bigBlockBodies c ∧
    (s.WriteBigBlock c).m_dHeader
      = s.m_dHeader
        ++ ZipInt (((s.m_dStoredDocs.getD 0 default).m_tRowID + DWORD_MOD - s.m_tPrevBlockRowID)
            % DWORD_MOD)
        ++ [BLOCK_TYPE_BIG]
        ++ ZipOffset (s.m_tWriter.length - s.m_tPrevBlockOffset)
        ++ ZipInt (s.bigBlockHeaderBytes c).length := by
  constructor
  · simp [DocstoreBuilder_c.WriteBigBlock, DocstoreBuilder_c.WriteBigBlockHeader,
      DocstoreBuilder_c.bigBlockHeaderBytes, DocstoreBuilder_c.bigBlockBodies,
      DocstoreBuilder_c.bigBlockOrder, List.flatMap_map, List.append_assoc]
  · simp [DocstoreBuilder_c.WriteBigBlock, DocstoreBuilder_c.WriteBigBlockHeader,
      DocstoreBuilder_c.bigBlockHeaderBytes, DocstoreBuilder_c.bigBlockOrder, List.flatMap_map,
      List.append_assoc]

/-- C30: for every big block the builder writes, the header size it records in
the directory (the last varint of the block's entry) is the number of bytes it
wrote from the block flags through the per-field metadata: 1 for the flags, the
field reorder map if FIELD_REORDER is set, and the flags and length varints of the
fields; it is not zero, and the field bodies start at the block's offset plus the
header size. A reader gets the same number back from the entry as long as it fits
a `DWORD`. -/
theorem C30_big_block_header_size (c : Compressor_i) (s : DocstoreBuilder_c) :
    (s.WriteBigBlock c).m_dHeader
      = s.m_dHeader
        ++ ZipInt (((s.m_dStoredDocs.getD 0 default).m_tRowID + DWORD_MOD - s.m_tPrevBlockRowID)
            % DWORD_MOD)
        ++ [BLOCK_TYPE_BIG]
        ++ ZipOffset (s.m_tWriter.length - s.m_tPrevBlockOffset)
        ++ ZipInt (s.bigBlockHeaderBytes c).length ∧
    (s.bigBlockHeaderBytes c).length
      = 1 + (if (s.bigBlockScan c).bNeedReorder
              then ((s.bigBlockFieldSort c).flatMap (fun i => ZipInt i.1)).length else 0)
          + ((s.bigBlockOrder c).flatMap
              (writeBigFieldInfo (s.bigBlockScan c)
                (s.m_dStoredDocs.getD 0 default).m_dFields)).length ∧
    (s.bigBlockHeaderBytes c).length ≠ 0 ∧
    (s.WriteBigBlock c).m_tWriter = s.m_tWriter ++ s.bigBlockHeaderBytes c ++ s.bigBlockBodies c ∧
    (s.WriteBigBlock c).m_tWriter.drop (s.m_tWriter.length + (s.bigBlockHeaderBytes c).length)
      = s.bigBlockBodies c ∧
    (∀ rest : List BYTE, (s.bigBlockHeaderBytes c).length < DWORD_MOD →
      (unzipBytes (ZipInt (s.bigBlockHeaderBytes c).length ++ rest)).1
        = (s.bigBlockHeaderBytes c).length) ∧
    (Docstore_c.Init descendingFile).map
        (fun st => (st.m_dBlocks.map (fun b => (b.m_eType, b.m_uHeaderSize)),
          (descendingPending.bigBlockHeaderBytes Compressor_None_c).length))
      = some ([(BLOCK_TYPE_BIG, 5)], 5) := by
  obtain ⟨hw, hh⟩ := WriteBigBlock_parts c s
  have hlen : (s.bigBlockHeaderBytes c).length
      = 1 + (if (s.bigBlockScan c).bNeedReorder
              then ((s.bigBlockFieldSort c).flatMap (fun i => ZipInt i.1)).length else 0)
          + ((s.bigBlockOrder c).flatMap
              (writeBigFieldInfo (s.bigBlockScan c)
                (s.m_dStoredDocs.getD 0 default).m_dFields)).length := by
    unfold DocstoreBuilder_c.bigBlockHeaderBytes
    split <;> simp [List.length_append] <;> omega
  refine ⟨hh, hlen, by omega, hw, ?_, ?_, by decide!⟩
  · rw [hw, ← List.length_append]
    exact List.drop_left _ _
  · intro rest hlt
    rw [unzipBytes_ZipInt]
    exact Nat.mod_eq_of_lt hlt

theorem C30_big_block_header_size_witness :
    (descendingPending.bigBlockHeaderBytes Compressor_None_c).length < DWORD_MOD ∧
    (unzipBytes (ZipInt (descendingPending.bigBlockHeaderBytes Compressor_None_c).length
        ++ [7])).1
      = (descendingPending.bigBlockHeaderBytes Compressor_None_c).length :=
  ⟨by decide!,
   (C30_big_block_header_size Compressor_None_c descendingPending).2.2.2.2.2.1 [7] (by decide!)⟩

theorem scan_None_iPrevSize :
    ∀ (dFields : List (List BYTE)) (iField : Nat) (st : BigBlockScan),
      (∀ b ∈ st.m_dCompressedBuffers, b = []) → st.iPrevSize = 0 →
        (writeBigBlockScan Compressor_None_c dFields iField st).bNeedReorder = st.bNeedReorder := by
  intro dFields
  induction dFields with
  | nil => intro iField st _ _; rfl
  | cons f rest ih =>
    intro iField st hb hp
    have hget : st.m_dCompressedBuffers.getD iField [] = [] := by
      rw [List.getD_eq_getElem?_getD]
      cases h : st.m_dCompressedBuffers[iField]? with
      | none => rfl
      | some v => exact hb v (List.mem_iff_getElem?.2 ⟨_, h⟩)
    simp only [writeBigBlockScan, Compressor_None_c]
    refine (ih (iField + 1) _ ?_ ?_).trans ?_
    · intro b hbm
      simp only [hget] at hbm
      rcases List.mem_or_eq_of_mem_set hbm with h | h
      · exact hb b h
      · exact h
    · show (st.m_dCompressedBuffers.getD iField []).length = 0
      rw [hget]; rfl
    · simp [hp]

/-- With the NONE codec and empty compression buffers the first loop of
`WriteBigBlock` never asks for a reorder, whatever the sizes of the fields. -/
theorem bigBlockScan_None_no_reorder (s : DocstoreBuilder_c)
    (hb : ∀ b ∈ s.m_dCompressedBuffers, b = []) :
    (s.bigBlockScan Compressor_None_c).bNeedReorder = false := by
  unfold DocstoreBuilder_c.bigBlockScan
  rw [scan_None_iPrevSize _ _ _ ?_ rfl]
  intro b hbm
  simp only [resizeBuffers, List.mem_append, List.mem_replicate] at hbm
  rcases hbm with h | h
  · exact hb b (List.mem_of_mem_take h)
  · exact h.2

/-- C28 (failing input): with the NONE codec the builder does not set
FIELD_REORDER. With `block_size = 16`, a document whose first field has 20 bytes and
whose second field has 5 bytes is written as a big block with stored sizes 20 and 5,
a later field smaller than an earlier one, and block flags 0; the reader finds no
reorder map. The first loop of `WriteBigBlock` compares each stored size with the
length of the previous compression buffer, which the NONE codec leaves empty. -/
theorem C28_no_reorder_with_NONE :
    (bigFieldStoredSize (descendingPending.bigBlockScan Compressor_None_c)
        (descendingPending.m_dStoredDocs.getD 0 default).m_dFields 0 = 20 ∧
      bigFieldStoredSize (descendingPending.bigBlockScan Compressor_None_c)
        (descendingPending.m_dStoredDocs.getD 0 default).m_dFields 1 = 5) ∧
    (descendingPending.bigBlockScan Compressor_None_c).bNeedReorder = false ∧
    (descendingPending.WriteBigBlock Compressor_None_c).m_tWriter.getD
        descendingPending.m_tWriter.length 0 = 0 ∧
    (Docstore_c.Init descendingFile).map
        (fun st => (st.m_dBlocks.map (fun b => b.m_eType),
          (st.readBigBlockHeader (st.m_dBlocks.getD 0 default)).bNeedReorder))
      = some ([BLOCK_TYPE_BIG], false) := by
  refine ⟨⟨by decide!, by decide!⟩, by decide!, by decide!, by decide!⟩

/-! ## Reader cache and store close -/

theorem deleteAllFrom_filter (k uUID : Nat) :
    ∀ (l : List LinkedBlock_t) (m : Int),
      (deleteAllFrom k uUID l m).1 = l.filter (fun b => !decide (b.m_tKey.m_uUID = uUID)) := by
  intro l
  induction l with
  | nil => intro m; rfl
  | cons a t ih =>
    intro m
    simp only [deleteAllFrom]
    by_cases h : a.m_tKey.m_uUID = uUID
    · rw [if_pos h, ih]
      simp [List.filter_cons, h]
    · rw [if_neg h, ih]
      simp [List.filter_cons, h]

theorem readersSize_filter (bTest : DocstoreReaders_c.HashKey_t → Bool) :
    ∀ l : List (DocstoreReaders_c.HashKey_t × BufferedReader),
      readersSize l = readersSize (l.filter (fun e => bTest e.1))
        + readersSize (l.filter (fun e => !bTest e.1)) := by
  intro l
  induction l with
  | nil => rfl
  | cons a t ih =>
    unfold readersSize at ih ⊢
    cases h : bTest a.1 <;> simp [List.filter_cons, h] <;> omega

theorem deleteReadersWhere_spec (bTest : DocstoreReaders_c.HashKey_t → Bool) :
    ∀ (l : List (DocstoreReaders_c.HashKey_t × BufferedReader)) (s : DocstoreReaders_c),
      (deleteReadersWhere bTest l s).m_tHash
        = s.m_tHash.filter (fun e => !(l.any (fun x => bTest x.1 && decide (x.1 = e.1)))) ∧
      (deleteReadersWhere bTest l s).m_iTotalReaderSize
        = s.m_iTotalReaderSize - readersSize (l.filter (fun e => bTest e.1)) := by
  intro l
  induction l with
  | nil => intro s; simp [deleteReadersWhere, readersSize]
  | cons a t ih =>
    intro s
    simp only [deleteReadersWhere]
    cases h : bTest a.1
    · obtain ⟨h1, h2⟩ := ih s
      simp only [Bool.false_eq_true, if_false]
      refine ⟨?_, ?_⟩
      · rw [h1]; simp [h]
      · rw [h2]; simp [List.filter_cons, h]
    · obtain ⟨h1, h2⟩ := ih (s.Delete a.2 a.1)
      simp only [if_true]
      refine ⟨?_, ?_⟩
      · rw [h1]
        simp only [DocstoreReaders_c.Delete, readersHashDelete, List.filter_filter, List.any_cons,
          h, Bool.true_and]
        apply List.filter_congr
        intro e _
        cases h3 : decide (a.1 = e.1) <;> cases h4 : decide (e.1 = a.1) <;> simp_all
      · rw [h2]
        simp only [DocstoreReaders_c.Delete, List.filter_cons, h, if_true]
        unfold readersSize
        simp only [List.map_cons, List.sum_cons]
        omega

theorem deleteReadersWhere_self (bTest : DocstoreReaders_c.HashKey_t → Bool)
    (s : DocstoreReaders_c) :
    (deleteReadersWhere bTest s.m_tHash s).m_tHash = s.m_tHash.filter (fun e => !bTest e.1) ∧
    (deleteReadersWhere bTest s.m_tHash s).m_iTotalReaderSize
      = s.m_iTotalReaderSize - readersSize (s.m_tHash.filter (fun e => bTest e.1)) := by
  obtain ⟨h1, h2⟩ := deleteReadersWhere_spec bTest s.m_tHash s
  refine ⟨?_, h2⟩
  rw [h1]
  apply List.filter_congr
  intro e he
  cases h : bTest e.1
  · simp only [Bool.not_false, Bool.not_eq_true', List.any_eq_false, Bool.and_eq_true,
      decide_eq_true_eq, not_and]
    intro x _ hx hxe
    rw [hxe, h] at hx
    cases hx
  · simp only [Bool.not_true, Bool.not_eq_false', List.any_eq_true, Bool.and_eq_true,
      decide_eq_true_eq]
    exact ⟨e, he, h, rfl⟩

theorem readersHashFind_filter_none (bKeep : DocstoreReaders_c.HashKey_t → Bool)
    (l : List (DocstoreReaders_c.HashKey_t × BufferedReader)) (tKey : DocstoreReaders_c.HashKey_t)
    (h : bKeep tKey = false) :
    readersHashFind (l.filter (fun e => bKeep e.1)) tKey = none := by
  unfold readersHashFind
  rw [Option.map_eq_none', List.find?_eq_none]
  intro e he
  simp only [List.mem_filter] at he
  simp only [decide_eq_true_eq]
  intro hk
  rw [hk, h] at he
  cases he.2

theorem readersHashFind_filter_keep (bKeep : DocstoreReaders_c.HashKey_t → Bool)
    (l : List (DocstoreReaders_c.HashKey_t × BufferedReader)) (tKey : DocstoreReaders_c.HashKey_t)
    (h : bKeep tKey = true) :
    readersHashFind (l.filter (fun e => bKeep e.1)) tKey = readersHashFind l tKey := by
  unfold readersHashFind
  congr 1
  induction l with
  | nil => rfl
  | cons a t ih =>
    by_cases hk : a.1 = tKey
    · have : bKeep a.1 = true := by rw [hk]; exact h
      simp [List.filter_cons, h, List.find?_cons, hk]
    · cases hb : bKeep a.1
      · simp [List.filter_cons, hb, List.find?_cons, hk, ih]
      · simp [List.filter_cons, hb, List.find?_cons, hk, ih]

theorem hashFind_filter_keep (uKeep : Nat → Bool) (l : List LinkedBlock_t) (tKey : HashKey_t)
    (h : uKeep tKey.m_uUID = true) :
    (l.filter (fun b => uKeep b.m_tKey.m_uUID)).find? (fun b => decide (b.m_tKey = tKey))
      = l.find? (fun b => decide (b.m_tKey = tKey)) := by
  induction l with
  | nil => rfl
  | cons a t ih =>
    by_cases hk : a.m_tKey = tKey
    · have : uKeep a.m_tKey.m_uUID = true := by rw [hk]; exact h
      simp [List.filter_cons, h, List.find?_cons, hk]
    · cases hb : uKeep a.m_tKey.m_uUID
      · simp [List.filter_cons, hb, List.find?_cons, hk, ih]
      · simp [List.filter_cons, hb, List.find?_cons, hk, ih]

/-- C21: after the store with UID `uUID` is destroyed, the block cache is the
cache from before without the entries whose key has UID `uUID`, the other entries
unchanged and in the same order, so no lookup with UID `uUID` finds an entry and
every lookup with another UID finds what it found before; the reader cache is the
table from before without the readers whose key has store id `uUID`, so
`GetReader` finds no reader of the store and, for every other store, the reader
it found before. -/
theorem C21_store_close (uSizeof uUID : Nat) (cache : BlockCache_c)
    (tReaders : DocstoreReaders_c) :
    Docstore_c.destroy uSizeof uUID (some cache) (some tReaders)
      = (some (cache.DeleteAll uSizeof uUID), some (tReaders.DeleteByDocstoreId uUID)) ∧
    (cache.DeleteAll uSizeof uUID).m_dBlocks
      = cache.m_dBlocks.filter (fun b => !decide (b.m_tKey.m_uUID = uUID)) ∧
    (∀ b ∈ (cache.DeleteAll uSizeof uUID).m_dBlocks, b.m_tKey.m_uUID ≠ uUID) ∧
    (∀ tOffset, (cache.DeleteAll uSizeof uUID).hashFind uUID tOffset = none) ∧
    (∀ uOther tOffset, uOther ≠ uUID →
      (cache.DeleteAll uSizeof uUID).hashFind uOther tOffset = cache.hashFind uOther tOffset) ∧
    (tReaders.DeleteByDocstoreId uUID).m_tHash
      = tReaders.m_tHash.filter (fun e => !decide (e.1.m_uDocstoreId = uUID)) ∧
    (∀ e ∈ (tReaders.DeleteByDocstoreId uUID).m_tHash, e.1.m_uDocstoreId ≠ uUID) ∧
    (∀ iSessionId, (tReaders.DeleteByDocstoreId uUID).GetReader iSessionId uUID = none) ∧
    (∀ iSessionId uOther, uOther ≠ uUID →
      (tReaders.DeleteByDocstoreId uUID).GetReader iSessionId uOther
        = tReaders.GetReader iSessionId uOther) := by
  have hB : (cache.DeleteAll uSizeof uUID).m_dBlocks
      = cache.m_dBlocks.filter (fun b => !decide (b.m_tKey.m_uUID = uUID)) :=
    deleteAllFrom_filter uSizeof uUID cache.m_dBlocks cache.m_iMemUsed
  have hR : (tReaders.DeleteByDocstoreId uUID).m_tHash
      = tReaders.m_tHash.filter (fun e => !decide (e.1.m_uDocstoreId = uUID)) :=
    (deleteReadersWhere_self (fun tKey => decide (tKey.m_uDocstoreId = uUID)) tReaders).1
  refine ⟨rfl, hB, ?_, ?_, ?_, hR, ?_, ?_, ?_⟩
  · intro b hb
    rw [hB] at hb
    simpa using (List.mem_filter.mp hb).2
  · intro tOffset
    unfold BlockCache_c.hashFind
    rw [hB, List.find?_eq_none]
    intro b hb
    have := (List.mem_filter.mp hb).2
    simp only [Bool.not_eq_true', decide_eq_false_iff_not] at this
    simp only [decide_eq_true_eq]
    intro hk
    rw [hk] at this
    exact this rfl
  · intro uOther tOffset hne
    unfold BlockCache_c.hashFind
    rw [hB]
    exact hashFind_filter_keep (fun u => !decide (u = uUID)) cache.m_dBlocks ⟨uOther, tOffset⟩
      (by simpa using hne)
  · intro e he
    rw [hR] at he
    simpa using (List.mem_filter.mp he).2
  · intro iSessionId
    unfold DocstoreReaders_c.GetReader
    rw [hR]
    exact readersHashFind_filter_none (fun k => !decide (k.m_uDocstoreId = uUID)) _
      ⟨iSessionId, uUID⟩ (by simp)
  · intro iSessionId uOther hne
    unfold DocstoreReaders_c.GetReader
    rw [hR]
    exact readersHashFind_filter_keep (fun k => !decide (k.m_uDocstoreId = uUID)) _
      ⟨iSessionId, uOther⟩ (by simpa using hne)

theorem C21_store_close_witness :
    (7 : Nat) ≠ 8 ∧
    (twoSessionReaders.DeleteByDocstoreId 8).GetReader 1 7 = twoSessionReaders.GetReader 1 7 ∧
    (twoSessionReaders.DeleteByDocstoreId 8).GetReader 1 8 = none ∧
    twoSessionReaders.GetReader 1 8 = some ⟨[2], 262144⟩ :=
  ⟨by decide,
   (C21_store_close 64 8 pinCache twoSessionReaders).2.2.2.2.2.2.2.2 1 7 (by decide),
   (C21_store_close 64 8 pinCache twoSessionReaders).2.2.2.2.2.2.2.1 1,
   by decide⟩

theorem readersSize_append (a b : List (DocstoreReaders_c.HashKey_t × BufferedReader)) :
    readersSize (a ++ b) = readersSize a + readersSize b := by
  simp [readersSize]

theorem CreateReader_fresh (s : DocstoreReaders_c) (iSessionId : Int) (uDocstoreId : Nat)
    (tFile : List BYTE) (uBlockSize : Nat)
    (hfresh : (s.GetReader iSessionId uDocstoreId).isNone = true) :
    s.CreateReader iSessionId uDocstoreId tFile uBlockSize = s ∨
    s.CreateReader iSessionId uDocstoreId tFile uBlockSize
      = { m_tHash := s.m_tHash
            ++ [(⟨iSessionId, uDocstoreId⟩, ⟨tFile, readerBufferSize uBlockSize⟩)],
          m_iTotalReaderSize := s.m_iTotalReaderSize + readerBufferSize uBlockSize } := by
  unfold DocstoreReaders_c.CreateReader
  simp only
  split
  · exact Or.inl rfl
  · split
    · exact Or.inl rfl
    · right
      unfold DocstoreReaders_c.GetReader at hfresh
      have : (readersHashFind s.m_tHash ⟨iSessionId, uDocstoreId⟩).isSome = false := by
        cases h : readersHashFind s.m_tHash ⟨iSessionId, uDocstoreId⟩ with
        | none => rfl
        | some v => rw [h] at hfresh; cases hfresh
      simp only [readersHashAdd, this, Bool.false_eq_true, if_false]

theorem DeleteWhere_total (bTest : DocstoreReaders_c.HashKey_t → Bool) (s : DocstoreReaders_c)
    (h : s.m_iTotalReaderSize = readersSize s.m_tHash) :
    (deleteReadersWhere bTest s.m_tHash s).m_iTotalReaderSize
      = readersSize (deleteReadersWhere bTest s.m_tHash s).m_tHash := by
  obtain ⟨h1, h2⟩ := deleteReadersWhere_self bTest s
  rw [h1, h2, h]
  have := readersSize_filter bTest s.m_tHash
  omega

theorem freshCreates_cons (s : DocstoreReaders_c) (op : ReaderOp) (rest : List ReaderOp) :
    freshCreates s (op :: rest)
      = ((match op with
          | ReaderOp.create iSessionId uDocstoreId _ _ =>
            (s.GetReader iSessionId uDocstoreId).isNone
          | _ => true) && freshCreates (s.step op) rest) := rfl

theorem readersSize_singleton (e : DocstoreReaders_c.HashKey_t × BufferedReader) :
    readersSize [e] = e.2.m_iBufferSize := by
  simp only [readersSize, List.map_cons, List.map_nil, List.sum_cons, List.sum_nil, add_zero]

theorem readers_step_total (s : DocstoreReaders_c) (op : ReaderOp)
    (h : s.m_iTotalReaderSize = readersSize s.m_tHash)
    (hf : freshCreates s [op] = true) :
    (s.step op).m_iTotalReaderSize = readersSize (s.step op).m_tHash := by
  cases op with
  | create iSessionId uDocstoreId tFile uBlockSize =>
    rw [freshCreates_cons] at hf
    have hf1 : (s.GetReader iSessionId uDocstoreId).isNone = true := (Bool.and_eq_true _ _ ▸ hf).1
    have hstep : s.step (ReaderOp.create iSessionId uDocstoreId tFile uBlockSize)
        = s.CreateReader iSessionId uDocstoreId tFile uBlockSize := rfl
    rw [hstep]
    rcases CreateReader_fresh s iSessionId uDocstoreId tFile uBlockSize hf1 with h1 | h1
    · rw [h1]; exact h
    · rw [h1]
      simp only [readersSize_append, readersSize_singleton, h]
  | closeSession iSessionId => exact DeleteWhere_total _ s h
  | closeStore uDocstoreId => exact DeleteWhere_total _ s h

theorem readers_run_total : ∀ (ops : List ReaderOp) (s : DocstoreReaders_c),
    s.m_iTotalReaderSize = readersSize s.m_tHash → freshCreates s ops = true →
    (s.run ops).m_iTotalReaderSize = readersSize (s.run ops).m_tHash := by
  intro ops
  induction ops with
  | nil => intro s h _; exact h
  | cons op rest ih =>
    intro s h hf
    simp only [freshCreates, Bool.and_eq_true] at hf
    have h1 := readers_step_total s op h (by simp only [freshCreates, Bool.and_true]; exact hf.1)
    simp only [DocstoreReaders_c.run, List.foldl_cons]
    exact ih (s.step op) h1 hf.2

/-- C22: in every reader cache reached from a cache whose counter is the sum of
the buffer sizes of its readers, by `CreateReader` calls for keys the table does
not have, session closes and store closes, closing session `iSessionId` leaves
exactly the readers of the other sessions, unchanged and in their order, lowers
`m_iTotalReaderSize` by the sum of the buffer sizes of the readers it removed, and
the counter is the sum of the buffer sizes of the readers in the table before and
after the close. -/
theorem C22_session_isolation (s0 : DocstoreReaders_c) (ops : List ReaderOp) (iSessionId : Int)
    (h0 : s0.m_iTotalReaderSize = readersSize s0.m_tHash)
    (hfresh : freshCreates s0 ops = true) :
    DocstoreSession_c.destroy iSessionId (some (s0.run ops))
      = some ((s0.run ops).DeleteBySessionId iSessionId) ∧
    ((s0.run ops).DeleteBySessionId iSessionId).m_tHash
      = (s0.run ops).m_tHash.filter (fun e => !decide (e.1.m_iSessionId = iSessionId)) ∧
    ((s0.run ops).DeleteBySessionId iSessionId).m_iTotalReaderSize
      = (s0.run ops).m_iTotalReaderSize
        - readersSize ((s0.run ops).m_tHash.filter
            (fun e => decide (e.1.m_iSessionId = iSessionId))) ∧
    (s0.run ops).m_iTotalReaderSize = readersSize (s0.run ops).m_tHash ∧
    ((s0.run ops).DeleteBySessionId iSessionId).m_iTotalReaderSize
      = readersSize ((s0.run ops).DeleteBySessionId iSessionId).m_tHash ∧
    (∀ uDocstoreId, ((s0.run ops).DeleteBySessionId iSessionId).GetReader iSessionId uDocstoreId
      = none) ∧
    (∀ iOther uDocstoreId, iOther ≠ iSessionId →
      ((s0.run ops).DeleteBySessionId iSessionId).GetReader iOther uDocstoreId
        = (s0.run ops).GetReader iOther uDocstoreId) := by
  have hinv := readers_run_total ops s0 h0 hfresh
  obtain ⟨h1, h2⟩ :=
    deleteReadersWhere_self (fun tKey => decide (tKey.m_iSessionId = iSessionId)) (s0.run ops)
  refine ⟨rfl, h1, h2, hinv, DeleteWhere_total _ _ hinv, ?_, ?_⟩
  · intro uDocstoreId
    unfold DocstoreReaders_c.GetReader
    rw [show ((s0.run ops).DeleteBySessionId iSessionId).m_tHash = _ from h1]
    exact readersHashFind_filter_none (fun k => !decide (k.m_iSessionId = iSessionId)) _
      ⟨iSessionId, uDocstoreId⟩ (by simp)
  · intro iOther uDocstoreId hne
    unfold DocstoreReaders_c.GetReader
    rw [show ((s0.run ops).DeleteBySessionId iSessionId).m_tHash = _ from h1]
    exact readersHashFind_filter_keep (fun k => !decide (k.m_iSessionId = iSessionId)) _
      ⟨iOther, uDocstoreId⟩ (by simpa using hne)

theorem C22_session_isolation_witness :
    (({} : DocstoreReaders_c).m_iTotalReaderSize = readersSize ({} : DocstoreReaders_c).m_tHash ∧
      freshCreates {}
        [ReaderOp.create 1 7 [1] 16384, ReaderOp.create 2 7 [1] 16384,
          ReaderOp.create 1 8 [2] 16384] = true) ∧
    (twoSessionReaders.DeleteBySessionId 1).m_tHash
      = twoSessionReaders.m_tHash.filter (fun e => !decide (e.1.m_iSessionId = 1)) ∧
    (twoSessionReaders.DeleteBySessionId 1).m_tHash = [(⟨2, 7⟩, ⟨[1], 262144⟩)] ∧
    twoSessionReaders.m_iTotalReaderSize = 786432 ∧
    (twoSessionReaders.DeleteBySessionId 1).m_iTotalReaderSize = 262144 :=
  ⟨⟨by decide, by decide⟩,
   (C22_session_isolation {}
      [ReaderOp.create 1 7 [1] 16384, ReaderOp.create 2 7 [1] 16384,
        ReaderOp.create 1 8 [2] 16384] 1 (by decide) (by decide)).2.1,
   by decide, by decide, by decide⟩

/-! ## Reader cache: the creation rule -/

theorem toInt32_small (uBlockSize : Nat) (h : uBlockSize < 2147483648) :
    toInt32 uBlockSize = uBlockSize := by
  unfold toInt32
  omega

theorem readerBufferSize_range (uBlockSize : Nat) :
    262144 ≤ readerBufferSize uBlockSize ∧ readerBufferSize uBlockSize ≤ 1048576 := by
  unfold readerBufferSize MAX_READER_CACHE_SIZE MIN_READER_CACHE_SIZE
  omega

theorem readerBufferSize_small (uBlockSize : Nat) (h : uBlockSize < 268435456) :
    readerBufferSize uBlockSize = specReaderBufferSize uBlockSize := by
  unfold readerBufferSize specReaderBufferSize MAX_READER_CACHE_SIZE MIN_READER_CACHE_SIZE
  rw [toInt32_small uBlockSize (by omega)]
  unfold toInt32
  omega

theorem specReaderBufferSize_range (uBlockSize : Nat) :
    262144 ≤ specReaderBufferSize uBlockSize ∧ specReaderBufferSize uBlockSize ≤ 1048576 := by
  unfold specReaderBufferSize
  omega

/-- For a block size that `(int)` keeps (below `2^31`) and a key the table does
not have, `CreateReader` follows the rule of the spec: it registers a reader with
a buffer of `clamp(8 * block_size, 256 KiB, 1 MiB)` bytes if and only if that size
is larger than the block size and fits the total of 8 MiB, and changes nothing
otherwise. -/
theorem CreateReader_rule (s : DocstoreReaders_c) (iSessionId : Int) (uDocstoreId : Nat)
    (tFile : List BYTE) (uBlockSize : Nat) (hbs : uBlockSize < 2147483648)
    (hfresh : (s.GetReader iSessionId uDocstoreId).isNone = true) :
    s.CreateReader iSessionId uDocstoreId tFile uBlockSize
      = if (uBlockSize : Int) < specReaderBufferSize uBlockSize
            ∧ s.m_iTotalReaderSize + specReaderBufferSize uBlockSize ≤ 8388608
        then { m_tHash := s.m_tHash
                ++ [(⟨iSessionId, uDocstoreId⟩, ⟨tFile, specReaderBufferSize uBlockSize⟩)],
               m_iTotalReaderSize := s.m_iTotalReaderSize + specReaderBufferSize uBlockSize }
        else s := by
  have hfind : (readersHashFind s.m_tHash ⟨iSessionId, uDocstoreId⟩).isSome = false := by
    unfold DocstoreReaders_c.GetReader at hfresh
    cases h : readersHashFind s.m_tHash ⟨iSessionId, uDocstoreId⟩ with
    | none => rfl
    | some v => rw [h] at hfresh; cases hfresh
  have hr := readerBufferSize_range uBlockSize
  have hs := specReaderBufferSize_range uBlockSize
  have hi := toInt32_small uBlockSize hbs
  unfold DocstoreReaders_c.CreateReader
  simp only [hi, MAX_TOTAL_READER_SIZE, readersHashAdd, hfind, Bool.false_eq_true, if_false]
  by_cases hsmall : uBlockSize < 268435456
  · rw [readerBufferSize_small uBlockSize hsmall]
    by_cases h1 : specReaderBufferSize uBlockSize ≤ (uBlockSize : Int)
    · rw [if_pos h1, if_neg (by omega)]
    · rw [if_neg h1]
      by_cases h2 : s.m_iTotalReaderSize + specReaderBufferSize uBlockSize > 8388608
      · rw [if_pos h2, if_neg (by omega)]
      · rw [if_neg h2, if_pos (by omega)]
  · rw [if_pos (by omega), if_neg (by omega)]

theorem CreateReader_cases (s : DocstoreReaders_c) (iSessionId : Int) (uDocstoreId : Nat)
    (tFile : List BYTE) (uBlockSize : Nat) :
    s.CreateReader iSessionId uDocstoreId tFile uBlockSize = s ∨
    (s.m_iTotalReaderSize + readerBufferSize uBlockSize ≤ MAX_TOTAL_READER_SIZE ∧
      s.CreateReader iSessionId uDocstoreId tFile uBlockSize
        = { m_tHash := (readersHashAdd s.m_tHash ⟨iSessionId, uDocstoreId⟩
              ⟨tFile, readerBufferSize uBlockSize⟩).2,
            m_iTotalReaderSize := s.m_iTotalReaderSize + readerBufferSize uBlockSize }) := by
  unfold DocstoreReaders_c.CreateReader
  simp only
  split
  · exact Or.inl rfl
  · split
    · exact Or.inl rfl
    · rename_i h1 h2
      exact Or.inr ⟨not_lt.mp h2, rfl⟩

/-- The total of the reader buffers stays within `MAX_TOTAL_READER_SIZE`. -/
theorem CreateReader_total_le (s : DocstoreReaders_c) (iSessionId : Int) (uDocstoreId : Nat)
    (tFile : List BYTE) (uBlockSize : Nat) (h : s.m_iTotalReaderSize ≤ MAX_TOTAL_READER_SIZE) :
    (s.CreateReader iSessionId uDocstoreId tFile uBlockSize).m_iTotalReaderSize
      ≤ MAX_TOTAL_READER_SIZE := by
  rcases CreateReader_cases s iSessionId uDocstoreId tFile uBlockSize with h1 | ⟨h2, h1⟩
  · rw [h1]; exact h
  · rw [h1]; exact h2

theorem readersSize_nonneg :
    ∀ l : List (DocstoreReaders_c.HashKey_t × BufferedReader),
      (∀ e ∈ l, 0 ≤ e.2.m_iBufferSize) → 0 ≤ readersSize l := by
  intro l
  induction l with
  | nil => intro _; exact le_refl _
  | cons a t ih =>
    intro h
    have h1 := h a (List.mem_cons_self _ _)
    have h2 := ih (fun e he => h e (List.mem_cons_of_mem _ he))
    unfold readersSize at h2 ⊢
    simp only [List.map_cons, List.sum_cons]
    omega

theorem readers_step_le (s : DocstoreReaders_c) (op : ReaderOp)
    (h : s.m_iTotalReaderSize ≤ MAX_TOTAL_READER_SIZE)
    (hpos : ∀ e ∈ s.m_tHash, 0 ≤ e.2.m_iBufferSize) :
    (s.step op).m_iTotalReaderSize ≤ MAX_TOTAL_READER_SIZE ∧
    (∀ e ∈ (s.step op).m_tHash, 0 ≤ e.2.m_iBufferSize) := by
  have hdel : ∀ bTest : DocstoreReaders_c.HashKey_t → Bool,
      (deleteReadersWhere bTest s.m_tHash s).m_iTotalReaderSize ≤ MAX_TOTAL_READER_SIZE ∧
      (∀ e ∈ (deleteReadersWhere bTest s.m_tHash s).m_tHash, 0 ≤ e.2.m_iBufferSize) := by
    intro bTest
    obtain ⟨h1, h2⟩ := deleteReadersWhere_self bTest s
    refine ⟨?_, ?_⟩
    · rw [h2]
      have := readersSize_nonneg (s.m_tHash.filter (fun e => bTest e.1))
        (fun e he => hpos e (List.mem_filter.mp he).1)
      omega
    · intro e he
      rw [h1] at he
      exact hpos e (List.mem_filter.mp he).1
  cases op with
  | create iSessionId uDocstoreId tFile uBlockSize =>
    have hstep : s.step (ReaderOp.create iSessionId uDocstoreId tFile uBlockSize)
        = s.CreateReader iSessionId uDocstoreId tFile uBlockSize := rfl
    rw [hstep]
    refine ⟨CreateReader_total_le s iSessionId uDocstoreId tFile uBlockSize h, ?_⟩
    rcases CreateReader_cases s iSessionId uDocstoreId tFile uBlockSize with h1 | ⟨_, h1⟩
    · rw [h1]; exact hpos
    · rw [h1]
      intro e he
      have he2 : e ∈ (readersHashAdd s.m_tHash ⟨iSessionId, uDocstoreId⟩
          ⟨tFile, readerBufferSize uBlockSize⟩).2 := he
      unfold readersHashAdd at he2
      split at he2
      · exact hpos e he2
      · rcases List.mem_append.mp he2 with h3 | h3
        · exact hpos e h3
        · have : e = (⟨iSessionId, uDocstoreId⟩, ⟨tFile, readerBufferSize uBlockSize⟩) := by
            simpa using h3
          rw [this]
          have := (readerBufferSize_range uBlockSize).1
          show 0 ≤ readerBufferSize uBlockSize
          omega
  | closeSession iSessionId => exact hdel _
  | closeStore uDocstoreId => exact hdel _

/-- Whatever operations the reader cache goes through from its creation on, the
total of the reader buffers does not exceed 8 MiB. -/
theorem readers_run_le : ∀ (ops : List ReaderOp) (s : DocstoreReaders_c),
    s.m_iTotalReaderSize ≤ MAX_TOTAL_READER_SIZE → (∀ e ∈ s.m_tHash, 0 ≤ e.2.m_iBufferSize) →
    (s.run ops).m_iTotalReaderSize ≤ 8388608 := by
  intro ops
  induction ops with
  | nil => intro s h _; exact h
  | cons op rest ih =>
    intro s h hpos
    obtain ⟨h1, h2⟩ := readers_step_le s op h hpos
    simp only [DocstoreReaders_c.run, List.foldl_cons]
    exact ih (s.step op) h1 h2

/-- C23 (failing input): for `block_size = 4294967295` on an empty reader cache
`CreateReader` registers a reader with a buffer of 262144 bytes, although
`clamp(8 * block_size, 262144, 1048576) = 1048576` is not larger than the block
size: `(int)uBlockSize` is `-1`. -/
theorem C23_reader_for_huge_block_size :
    ({} : DocstoreReaders_c).CreateReader 1 0 [] 4294967295
      = { m_iTotalReaderSize := 262144, m_tHash := [(⟨1, 0⟩, ⟨[], 262144⟩)] } ∧
    toInt32 4294967295 = -1 ∧
    specReaderBufferSize 4294967295 = 1048576 ∧
    ¬ ((4294967295 : Int) < specReaderBufferSize 4294967295) := by
  refine ⟨by decide, by decide, by decide, by decide⟩

/-- C26 (failing input): for the same registry and the same document the
persistent store and the in-memory store return different bytes for an empty TEXT
field. For the document with one empty TEXT field the persistent store returns a
field of no bytes, with and without packing, the in-memory store the single NUL
byte (without packing) and the packed length 0 (with packing); the same holds for
the empty field of a document stored as a big block, beside a field on which the
two stores agree. -/
theorem C26_stores_differ_on_empty_text :
    ((openedStore emptyTextFile).GetDoc Compressor_None_c noCache 0 none false
        = some { m_dFields := [[]] } ∧
      emptyTextRT.GetDoc 0 none false = some { m_dFields := [[0]] }) ∧
    ((openedStore emptyTextFile).GetDoc Compressor_None_c noCache 0 none true
        = some { m_dFields := [[]] } ∧
      emptyTextRT.GetDoc 0 none true = some { m_dFields := [[0]] }) ∧
    ((openedStore emptyInBigFile).m_dBlocks.map (fun b => b.m_eType) = [BLOCK_TYPE_BIG] ∧
      (openedStore emptyInBigFile).GetDoc Compressor_None_c noCache 0 none false
        = some { m_dFields := [[], [1, 2, 3, 4, 5, 0]] } ∧
      emptyInBigRT.GetDoc 0 none false = some { m_dFields := [[0], [1, 2, 3, 4, 5, 0]] }) := by
  refine ⟨⟨by decide!, by decide!⟩, ⟨by decide!, by decide!⟩, by decide!, by decide!, by decide!⟩

/-! ## Round trip of the in-memory store -/

theorem rtGetFields_roundtrip (tFields : DocstoreFields_c) (n : Nat) (bPack : Bool)
    (post : List BYTE) :
    ∀ (rest : List (List BYTE)) (i : Nat) (D : List (List BYTE)),
      i + rest.length = n → D.length = i → (∀ f ∈ rest, f.length < DWORD_MOD) →
      (List.range' i rest.length).foldl (rtGetField tFields (CreateFieldRemap n none) bPack)
          (rtEncode rest ++ post, D ++ List.replicate rest.length [])
        = (post, D ++ rtDecodedFields tFields bPack rest i) := by
  intro rest
  induction rest with
  | nil =>
    intro i D _ _ _
    simp [rtEncode, rtDecodedFields]
  | cons f rest ih =>
    intro i D hn hD hsz
    simp only [List.length_cons] at hn
    have hf : f.length < DWORD_MOD := hsz f (List.mem_cons_self _ _)
    have hrest : ∀ g ∈ rest, g.length < DWORD_MOD := fun g hg => hsz g (List.mem_cons_of_mem _ hg)
    have henc : rtEncode (f :: rest) ++ post = ZipInt f.length ++ (f ++ (rtEncode rest ++ post)) := by
      simp [rtEncode, List.append_assoc]
    have hstep : rtGetField tFields (CreateFieldRemap n none) bPack
        (ZipInt f.length ++ (f ++ (rtEncode rest ++ post)),
          D ++ [] :: List.replicate rest.length []) i
        = (rtEncode rest ++ post,
          (D ++ [PackData f ((tFields.GetField i).m_eType = DOCSTORE_TEXT) bPack])
            ++ List.replicate rest.length []) := by
      unfold rtGetField
      simp only [unzipBytes_ZipInt, Nat.mod_mod, Nat.mod_eq_of_lt hf, List.drop_left,
        CreateFieldRemap_none_getD n i (by omega)]
      have hrb : readBytes (f ++ (rtEncode rest ++ post)) 0 f.length = f := by
        have := readBytes_append [] f (rtEncode rest ++ post)
        simpa using this
      rw [hrb, ← hD, set_append_cons]
      simp [List.append_assoc]
    simp only [List.length_cons, List.range'_succ, List.foldl_cons, List.replicate_succ,
      rtDecodedFields]
    rw [henc, hstep, ih (i + 1)
      (D ++ [PackData f ((tFields.GetField i).m_eType = DOCSTORE_TEXT) bPack]) (by omega)
      (by simp [hD]) hrest]
    simp [List.append_assoc]

theorem specStoredPayload_length_le (bText : Bool) (d : List BYTE) :
    (specStoredPayload bText d).length ≤ d.length := by
  unfold specStoredPayload
  split
  · simp
  · exact le_refl _

theorem specStoredPayloads_length (tFields : DocstoreFields_c) :
    ∀ (dFields : List (List BYTE)) (i : Nat),
      (specStoredPayloads tFields dFields i).length = dFields.length := by
  intro dFields
  induction dFields with
  | nil => intro i; rfl
  | cons d rest ih => intro i; simp [specStoredPayloads, ih]

theorem specStoredPayloads_fit (tFields : DocstoreFields_c) :
    ∀ (dFields : List (List BYTE)) (i : Nat), (∀ f ∈ dFields, f.length < DWORD_MOD) →
      ∀ p ∈ specStoredPayloads tFields dFields i, p.length < DWORD_MOD := by
  intro dFields
  induction dFields with
  | nil => intro i _ p hp; simp [specStoredPayloads] at hp
  | cons d rest ih =>
    intro i h p hp
    simp only [specStoredPayloads, List.mem_cons] at hp
    rcases hp with hp | hp
    · have := specStoredPayload_length_le ((tFields.GetField i).m_eType = DOCSTORE_TEXT) d
      have := h d (List.mem_cons_self _ _)
      rw [hp]; omega
    · exact ih (i + 1) (fun f hf => h f (List.mem_cons_of_mem _ hf)) p hp

theorem rtDecodedFields_length (tFields : DocstoreFields_c) (bPack : Bool) :
    ∀ (dPayloads : List (List BYTE)) (i : Nat),
      (rtDecodedFields tFields bPack dPayloads i).length = dPayloads.length := by
  intro dPayloads
  induction dPayloads with
  | nil => intro i; rfl
  | cons d rest ih => intro i; simp [rtDecodedFields, ih]

theorem rtDecodedFields_getD (tFields : DocstoreFields_c) (bPack : Bool) :
    ∀ (dFields : List (List BYTE)) (k i : Nat), i < dFields.length →
      (rtDecodedFields tFields bPack (specStoredPayloads tFields dFields k) k).getD i []
        = PackData
            (specStoredPayload ((tFields.GetField (k + i)).m_eType = DOCSTORE_TEXT)
              (dFields.getD i []))
            ((tFields.GetField (k + i)).m_eType = DOCSTORE_TEXT) bPack := by
  intro dFields
  induction dFields with
  | nil => intro k i hi; simp at hi
  | cons d rest ih =>
    intro k i hi
    cases i with
    | zero => simp [specStoredPayloads, rtDecodedFields]
    | succ j =>
      simp only [List.length_cons] at hi
      have := ih (k + 1) j (by omega)
      simp only [specStoredPayloads, rtDecodedFields, List.getD_cons_succ]
      rw [this]
      have e : k + 1 + j = k + (j + 1) := by omega
      rw [e]

theorem AddDocs_rt (docs : List Doc_t) :
    ∀ rt : DocstoreRT_c,
      (rt.AddDocs docs).m_dDocs
        = rt.m_dDocs ++ docs.map (fun d => some (rtPackFields rt.m_tFields d.m_dFields 0)) ∧
      (rt.AddDocs docs).m_tFields = rt.m_tFields := by
  induction docs with
  | nil => intro rt; simp [DocstoreRT_c.AddDocs]
  | cons d rest ih =>
    intro rt
    obtain ⟨h1, h2⟩ := ih (rt.AddDoc rt.m_dDocs.length d)
    have hstep : rt.AddDocs (d :: rest) = (rt.AddDoc rt.m_dDocs.length d).AddDocs rest := rfl
    rw [hstep, h1, h2]
    simp [DocstoreRT_c.AddDoc, List.append_assoc]

theorem GetDoc_rt_packed (rt : DocstoreRT_c) (r : Nat) (dFields : List (List BYTE))
    (bPack : Bool)
    (hdoc : rt.m_dDocs.getD r none = some (rtPackFields rt.m_tFields dFields 0))
    (hn : dFields.length = rt.m_tFields.GetNumFields)
    (hfit : ∀ f ∈ dFields, f.length < DWORD_MOD) :
    rt.GetDoc r none bPack
      = some { m_dFields :=
          rtDecodedFields rt.m_tFields bPack (specStoredPayloads rt.m_tFields dFields 0) 0 } := by
  unfold DocstoreRT_c.GetDoc
  rw [hdoc]
  simp only [resultSize]
  have hlen := specStoredPayloads_length rt.m_tFields dFields 0
  have h := rtGetFields_roundtrip rt.m_tFields rt.m_tFields.GetNumFields bPack []
    (specStoredPayloads rt.m_tFields dFields 0) 0 [] (by omega) rfl
    (specStoredPayloads_fit rt.m_tFields dFields 0 hfit)
  rw [hlen, hn] at h
  simp only [List.append_nil, List.nil_append] at h
  rw [rtPackFields_spec, List.range_eq_range', h]

/-- C24: after `AddDoc` was called for the rows `0, 1, ...` of an empty
in-memory store, each call for the row `m_dDocs.GetLength()`, the store holds one
document per call, and `GetDoc` for a row whose document has one payload per
registered field (each shorter than `2^32` bytes) returns, for all fields and
`pack = false`, the input bytes of every BINARY field and, for every TEXT field,
the input without one trailing NUL followed by one NUL byte; for a strictly
ascending list of field ids it returns exactly the fields of that result with
those ids, the fields it was not asked for being skipped by their stored length. -/
theorem C24_rt_round_trip (rt0 : DocstoreRT_c) (pre : List Doc_t) (d : Doc_t)
    (post : List Doc_t) (hempty : rt0.m_dDocs = [])
    (hn : d.m_dFields.length = rt0.m_tFields.GetNumFields)
    (hfit : ∀ f ∈ d.m_dFields, f.length < DWORD_MOD) :
    (rt0.AddDocs (pre ++ d :: post)).m_dDocs.length = (pre ++ d :: post).length ∧
    (∀ bPack : Bool, (rt0.AddDocs (pre ++ d :: post)).GetDoc pre.length none bPack
      = some { m_dFields := (rtDecodedFields rt0.m_tFields bPack
          (specStoredPayloads rt0.m_tFields d.m_dFields 0) 0) }) ∧
    (rtDecodedFields rt0.m_tFields false
        (specStoredPayloads rt0.m_tFields d.m_dFields 0) 0).length
      = rt0.m_tFields.GetNumFields ∧
    (∀ i, i < rt0.m_tFields.GetNumFields →
      (rtDecodedFields rt0.m_tFields false
          (specStoredPayloads rt0.m_tFields d.m_dFields 0) 0).getD i []
        = if (rt0.m_tFields.GetField i).m_eType = DOCSTORE_TEXT
          then specStoredPayload true (d.m_dFields.getD i []) ++ [0]
          else d.m_dFields.getD i []) ∧
    (∀ (bPack : Bool) (ids : List Nat), ids.Pairwise (fun a b => a < b) →
      (rt0.AddDocs (pre ++ d :: post)).GetDoc pre.length (some ids) bPack
        = some { m_dFields := (projectFields ids
            (rtDecodedFields rt0.m_tFields bPack
              (specStoredPayloads rt0.m_tFields d.m_dFields 0) 0)) }) := by
  obtain ⟨hdocs, hfields⟩ := AddDocs_rt (pre ++ d :: post) rt0
  have hget : (rt0.AddDocs (pre ++ d :: post)).m_dDocs.getD pre.length none
      = some (rtPackFields (rt0.AddDocs (pre ++ d :: post)).m_tFields d.m_dFields 0) := by
    rw [hdocs, hfields, hempty, List.nil_append, List.map_append, List.map_cons]
    have := getD_append_cons (pre.map (fun d => some (rtPackFields rt0.m_tFields d.m_dFields 0)))
      (some (rtPackFields rt0.m_tFields d.m_dFields 0))
      (post.map (fun d => some (rtPackFields rt0.m_tFields d.m_dFields 0))) none
    simpa using this
  have hall : ∀ bPack : Bool, (rt0.AddDocs (pre ++ d :: post)).GetDoc pre.length none bPack
      = some { m_dFields := (rtDecodedFields rt0.m_tFields bPack
          (specStoredPayloads rt0.m_tFields d.m_dFields 0) 0) } := by
    intro bPack
    have := GetDoc_rt_packed (rt0.AddDocs (pre ++ d :: post)) pre.length d.m_dFields bPack hget
      (by rw [hfields]; exact hn) hfit
    rw [hfields] at this
    exact this
  refine ⟨?_, hall, ?_, ?_, ?_⟩
  · rw [hdocs, hempty]; simp
  · rw [rtDecodedFields_length, specStoredPayloads_length, hn]
  · intro i hi
    have := rtDecodedFields_getD rt0.m_tFields false d.m_dFields 0 i (by omega)
    rw [this]
    simp only [Nat.zero_add, PackData, Bool.false_eq_true, if_false]
    by_cases ht : (rt0.m_tFields.GetField i).m_eType = DOCSTORE_TEXT
    · simp [ht]
    · simp [ht, specStoredPayload]
  · intro bPack ids hasc
    have h := hall bPack
    unfold DocstoreRT_c.GetDoc at h ⊢
    rw [hget] at h ⊢
    simp only at h ⊢
    injection h with h
    have h2 := congrArg DocstoreDoc_t.m_dFields h
    simp only at h2
    rw [← h2]
    rw [(rtGetFields_lock (rt0.AddDocs (pre ++ d :: post)).m_tFields
      (rt0.AddDocs (pre ++ d :: post)).m_tFields.GetNumFields ids hasc bPack
      (List.range (rt0.AddDocs (pre ++ d :: post)).m_tFields.GetNumFields)
      (_, List.replicate (resultSize (rt0.AddDocs (pre ++ d :: post)).m_tFields.GetNumFields none) [])
      (_, List.replicate (resultSize (rt0.AddDocs (pre ++ d :: post)).m_tFields.GetNumFields
        (some ids)) [])
      rfl (by simp [resultSize])
      (by simp [resultSize, projectFields_replicate])).2]

theorem C24_rt_round_trip_witness :
    (twoTextRT.m_dDocs = [] ∧
      ({ m_dFields := [[104, 105, 0, 0], []] } : Doc_t).m_dFields.length
        = twoTextRT.m_tFields.GetNumFields ∧
      ∀ f ∈ ({ m_dFields := [[104, 105, 0, 0], []] } : Doc_t).m_dFields, f.length < DWORD_MOD) ∧
    (twoTextRT.AddDocs ([{ m_dFields := [[1], [2]] }]
        ++ { m_dFields := [[104, 105, 0, 0], []] } :: [])).GetDoc 1 none false
      = some { m_dFields := (rtDecodedFields twoTextRT.m_tFields false
          (specStoredPayloads twoTextRT.m_tFields [[104, 105, 0, 0], []] 0) 0) } ∧
    rtDecodedFields twoTextRT.m_tFields false
        (specStoredPayloads twoTextRT.m_tFields [[104, 105, 0, 0], []] 0) 0
      = [[104, 105, 0, 0], [0]] :=
  ⟨⟨rfl, by decide, by decide⟩,
   (C24_rt_round_trip twoTextRT [{ m_dFields := [[1], [2]] }]
      { m_dFields := [[104, 105, 0, 0], []] } [] rfl (by decide) (by decide)).2.1 false,
   by decide⟩

/-! ## In-memory store: `Load` reads back what `Save` wrote -/

theorem unzipTruncated_zipGroups (fuel : Nat) :
    ∀ (v : Nat) (rest : List BYTE), v < 128 ^ (fuel + 1) →
      unzipTruncated (zipGroups (fuel + 1) v ++ rest) = false := by
  induction fuel with
  | zero =>
    intro v rest h
    have hv : v < 128 := by simpa using h
    simp [zipGroups, hv, unzipTruncated]
  | succ n ih =>
    intro v rest h
    unfold zipGroups
    by_cases hv : v < 128
    · simp [hv, unzipTruncated]
    · have hlt : v / 128 < 128 ^ (n + 1) := by
        rw [Nat.div_lt_iff_lt_mul (by norm_num)]
        rw [pow_succ] at h
        exact h
      have hb : ¬ (v % 128 + 128 < 128) := by omega
      simp only [hv, if_false, List.cons_append, unzipTruncated, hb]
      exact ih (v / 128) rest hlt

theorem unzipTruncated_ZipInt (v : Nat) (rest : List BYTE) :
    unzipTruncated (ZipInt v ++ rest) = false := by
  unfold ZipInt
  apply unzipTruncated_zipGroups
  have : v % DWORD_MOD < DWORD_MOD := Nat.mod_lt _ (by decide)
  have h2 : DWORD_MOD ≤ 128 ^ 5 := by decide
  omega

theorem CSphReader_Unzip_drop (r : CSphReader) (v : Nat) (rest : List BYTE)
    (h : r.m_pBuff.drop r.m_iPos = ZipInt v ++ rest) :
    r.Unzip = (v % DWORD_MOD, ⟨r.m_pBuff, r.m_iPos + (ZipInt v).length, r.m_bError⟩) ∧
    r.m_pBuff.drop (r.m_iPos + (ZipInt v).length) = rest := by
  refine ⟨?_, ?_⟩
  · unfold CSphReader.Unzip
    rw [h, unzipBytes_ZipInt, unzipTruncated_ZipInt, Bool.or_false]
  · rw [← List.drop_drop, h, List.drop_left]

theorem CSphReader_GetBytes_drop (r : CSphReader) (f rest : List BYTE)
    (hpos : r.m_iPos ≤ r.m_pBuff.length)
    (h : r.m_pBuff.drop r.m_iPos = f ++ rest) :
    r.GetBytes f.length = (f, ⟨r.m_pBuff, r.m_iPos + f.length, r.m_bError⟩) ∧
    r.m_pBuff.drop (r.m_iPos + f.length) = rest := by
  refine ⟨?_, ?_⟩
  · unfold CSphReader.GetBytes
    have hlen : r.m_pBuff.length - r.m_iPos = f.length + rest.length := by
      have := congrArg List.length h
      simpa using this
    have hnot : ¬ r.m_pBuff.length < r.m_iPos + f.length := by omega
    rw [decide_eq_false hnot, Bool.or_false]
    have hrb : readBytes r.m_pBuff r.m_iPos f.length = f := by
      unfold readBytes
      rw [h, List.take_left]
      simp
    rw [hrb]
  · rw [← List.drop_drop, h, List.drop_left]

theorem rtLoadDocs_saved :
    ∀ (dDocs : List (List BYTE)) (r : CSphReader) (acc : List (Option (List BYTE)) × Int)
      (rest : List BYTE), r.m_iPos ≤ r.m_pBuff.length →
      r.m_pBuff.drop r.m_iPos = dDocs.flatMap (fun pDoc => ZipInt pDoc.length ++ pDoc) ++ rest →
      (∀ pDoc ∈ dDocs, pDoc.length < DWORD_MOD) →
      rtLoadDocs dDocs.length r acc
        = ((acc.1 ++ dDocs.map some, acc.2 + rtPayloadBytes (dDocs.map some)),
            ⟨r.m_pBuff,
              r.m_iPos + (dDocs.flatMap (fun pDoc => ZipInt pDoc.length ++ pDoc)).length,
              r.m_bError⟩) := by
  intro dDocs
  induction dDocs with
  | nil =>
    intro r acc rest _ _ _
    simp [rtLoadDocs, rtPayloadBytes]
  | cons d t ih =>
    intro r acc rest hpos h hfit
    have hd : d.length < DWORD_MOD := hfit d (List.mem_cons_self _ _)
    have ht : ∀ pDoc ∈ t, pDoc.length < DWORD_MOD := fun p hp => hfit p (List.mem_cons_of_mem _ hp)
    have h1 : r.m_pBuff.drop r.m_iPos
        = ZipInt d.length ++ (d ++ (t.flatMap (fun pDoc => ZipInt pDoc.length ++ pDoc) ++ rest)) := by
      rw [h]; simp [List.append_assoc]
    obtain ⟨hu, hu2⟩ := CSphReader_Unzip_drop r d.length _ h1
    have hu3 : (⟨r.m_pBuff, r.m_iPos + (ZipInt d.length).length, r.m_bError⟩ : CSphReader).m_pBuff.drop
        (⟨r.m_pBuff, r.m_iPos + (ZipInt d.length).length, r.m_bError⟩ : CSphReader).m_iPos
        = d ++ (t.flatMap (fun pDoc => ZipInt pDoc.length ++ pDoc) ++ rest) := hu2
    have hlen : r.m_pBuff.length - r.m_iPos
        = (ZipInt d.length).length + (d.length
          + ((t.flatMap (fun pDoc => ZipInt pDoc.length ++ pDoc)).length + rest.length)) := by
      have := congrArg List.length h1
      simpa using this
    obtain ⟨hg, hg2⟩ := CSphReader_GetBytes_drop
      ⟨r.m_pBuff, r.m_iPos + (ZipInt d.length).length, r.m_bError⟩ d _
      (by show r.m_iPos + (ZipInt d.length).length ≤ r.m_pBuff.length; omega) hu3
    have hg3 : (⟨r.m_pBuff, r.m_iPos + (ZipInt d.length).length + d.length, r.m_bError⟩ :
          CSphReader).m_pBuff.drop
        (⟨r.m_pBuff, r.m_iPos + (ZipInt d.length).length + d.length, r.m_bError⟩ : CSphReader).m_iPos
        = t.flatMap (fun pDoc => ZipInt pDoc.length ++ pDoc) ++ rest := hg2
    simp only [List.length_cons, rtLoadDocs]
    rw [hu]
    simp only [Nat.mod_mod, Nat.mod_eq_of_lt hd]
    rw [hg, ih _ _ rest
      (by show r.m_iPos + (ZipInt d.length).length + d.length ≤ r.m_pBuff.length; omega) hg3 ht]
    refine Prod.ext (Prod.ext ?_ ?_) ?_
    · simp [List.append_assoc]
    · simp only [rtPayloadBytes, List.map_cons, List.map_map, List.sum_cons, Option.getD_some]
      omega
    · simp only [List.flatMap_cons, List.length_append, CSphReader.mk.injEq, true_and, and_true]
      omega

theorem rtDocSize_encode (post : List BYTE) :
    ∀ (dPayloads : List (List BYTE)), (∀ p ∈ dPayloads, p.length < DWORD_MOD) →
      rtDocSize dPayloads.length (rtEncode dPayloads ++ post) = (rtEncode dPayloads).length := by
  intro dPayloads
  induction dPayloads with
  | nil => intro _; simp [rtDocSize, rtEncode]
  | cons p t ih =>
    intro hfit
    have hp : p.length < DWORD_MOD := hfit p (List.mem_cons_self _ _)
    have ht : ∀ q ∈ t, q.length < DWORD_MOD := fun q hq => hfit q (List.mem_cons_of_mem _ hq)
    have henc : rtEncode (p :: t) ++ post = ZipInt p.length ++ (p ++ (rtEncode t ++ post)) := by
      simp [rtEncode, List.append_assoc]
    have hdrop : (ZipInt p.length ++ (p ++ (rtEncode t ++ post))).drop
        ((ZipInt p.length).length + p.length) = rtEncode t ++ post := by
      rw [← List.drop_drop, List.drop_left, List.drop_left]
    simp only [List.length_cons, rtDocSize]
    rw [henc, unzipBytes_ZipInt]
    simp only [Nat.mod_mod, Nat.mod_eq_of_lt hp]
    rw [hdrop, ih ht]
    simp [rtEncode, List.length_append]
    omega

theorem rtDocs_all_some :
    ∀ (dDocs : List (Option (List BYTE))) (n : Nat), dDocs.all (rtDocOk n) = true →
      ∃ dPacked : List (List BYTE), dDocs = dPacked.map some ∧
        ∀ pDoc ∈ dPacked, rtDocSize n pDoc = pDoc.length ∧ pDoc.length < 2147483648 := by
  intro dDocs n
  induction dDocs with
  | nil => intro _; exact ⟨[], rfl, fun _ h => absurd h (List.not_mem_nil _)⟩
  | cons x t ih =>
    intro h
    simp only [List.all_cons, Bool.and_eq_true] at h
    obtain ⟨dPacked, h1, h2⟩ := ih h.2
    cases x with
    | none => exact absurd h.1 (by simp [rtDocOk])
    | some pDoc =>
      have hx := h.1
      simp only [rtDocOk, Bool.and_eq_true, decide_eq_true_eq] at hx
      refine ⟨pDoc :: dPacked, by rw [h1]; rfl, ?_⟩
      intro q hq
      rcases List.mem_cons.mp hq with hq | hq
      · rw [hq]; exact hx
      · exact h2 q hq

theorem rtSaveDocs_ok (s : DocstoreRT_c) :
    ∀ (dPacked : List (List BYTE)) (tWriter : List BYTE),
      (∀ pDoc ∈ dPacked,
        rtDocSize s.m_tFields.GetNumFields pDoc = pDoc.length ∧ pDoc.length < 2147483648) →
      rtSaveDocs s (dPacked.map some) tWriter
        = some (tWriter ++ dPacked.flatMap (fun pDoc => ZipInt pDoc.length ++ pDoc)) := by
  intro dPacked
  induction dPacked with
  | nil => intro tWriter _; simp [rtSaveDocs]
  | cons d t ih =>
    intro tWriter h
    obtain ⟨h1, h2⟩ := h d (List.mem_cons_self _ _)
    have hsize : s.GetDocSize d = (d.length : Int) := by
      unfold DocstoreRT_c.GetDocSize
      rw [h1]
      exact toInt32_small d.length h2
    have hnot : ¬ ((d.length : Int) < 0) := by omega
    have hrb : readBytes d 0 d.length = d := by
      have := readBytes_append [] d []
      simpa using this
    simp only [List.map_cons, rtSaveDocs, hsize, if_neg hnot, Int.toNat_ofNat, hrb]
    rw [ih _ (fun p hp => h p (List.mem_cons_of_mem _ hp))]
    simp [List.append_assoc]

theorem AddDocs_rt_allocated (docs : List Doc_t) :
    ∀ rt : DocstoreRT_c,
      (rt.AddDocs docs).m_iAllocated
        = rt.m_iAllocated
          + rtPayloadBytes (docs.map (fun d => some (rtPackFields rt.m_tFields d.m_dFields 0))) := by
  induction docs with
  | nil => intro rt; simp [DocstoreRT_c.AddDocs, rtPayloadBytes]
  | cons d rest ih =>
    intro rt
    have hstep : rt.AddDocs (d :: rest) = (rt.AddDoc rt.m_dDocs.length d).AddDocs rest := rfl
    rw [hstep, ih]
    simp only [DocstoreRT_c.AddDoc, rtPayloadBytes, List.map_cons, List.map_map, List.sum_cons,
      Option.getD_some]
    omega

theorem rt_save_load (s t : DocstoreRT_c) (hs : s.wellFormed = true)
    (ht : t.m_dDocs = [] ∧ t.m_iAllocated = 0 ∧ t.m_tFields = s.m_tFields) :
    ∃ dPacked : List (List BYTE), s.m_dDocs = dPacked.map some ∧
      ∀ (A B : List BYTE) (bError : Bool),
        s.Save A = some (A ++ specSavedBytes dPacked) ∧
        t.Load ⟨A ++ specSavedBytes dPacked ++ B, A.length, bError⟩
          = some (!bError, s,
              ⟨A ++ specSavedBytes dPacked ++ B, A.length + (specSavedBytes dPacked).length,
                bError⟩) := by
  unfold DocstoreRT_c.wellFormed at hs
  simp only [Bool.and_eq_true, decide_eq_true_eq] at hs
  obtain ⟨⟨hall, hcount⟩, halloc⟩ := hs
  obtain ⟨dPacked, hdocs, hok⟩ := rtDocs_all_some s.m_dDocs _ hall
  have hlen : dPacked.length < 2147483648 := by
    have := congrArg List.length hdocs
    simp only [List.length_map] at this
    omega
  have hlen2 : dPacked.length < DWORD_MOD := by
    have : (2147483648 : Nat) ≤ DWORD_MOD := by decide
    omega
  refine ⟨dPacked, hdocs, ?_⟩
  intro A B bError
  refine ⟨?_, ?_⟩
  · unfold DocstoreRT_c.Save
    rw [hdocs, rtSaveDocs_ok s dPacked _ hok]
    simp [specSavedBytes, List.append_assoc]
  · have hbuf : (⟨A ++ specSavedBytes dPacked ++ B, A.length, bError⟩ : CSphReader).m_pBuff.drop
        (⟨A ++ specSavedBytes dPacked ++ B, A.length, bError⟩ : CSphReader).m_iPos
        = ZipInt dPacked.length
          ++ (dPacked.flatMap (fun pDoc => ZipInt pDoc.length ++ pDoc) ++ B) := by
      show (A ++ specSavedBytes dPacked ++ B).drop A.length = _
      rw [List.append_assoc, List.drop_left]
      simp [specSavedBytes, List.append_assoc]
    obtain ⟨hu, hu2⟩ := CSphReader_Unzip_drop _ dPacked.length _ hbuf
    have hfit : ∀ pDoc ∈ dPacked, pDoc.length < DWORD_MOD := by
      intro pDoc hp
      have := (hok pDoc hp).2
      have : (2147483648 : Nat) ≤ DWORD_MOD := by decide
      omega
    have hload := rtLoadDocs_saved dPacked
      ⟨A ++ specSavedBytes dPacked ++ B, A.length + (ZipInt dPacked.length).length, bError⟩
      ([], t.m_iAllocated) B
      (by
        show A.length + (ZipInt dPacked.length).length ≤ (A ++ specSavedBytes dPacked ++ B).length
        simp only [specSavedBytes, List.length_append]
        omega)
      hu2 hfit
    unfold DocstoreRT_c.Load
    rw [hu]
    simp only [Nat.mod_mod, Nat.mod_eq_of_lt hlen2]
    rw [toInt32_small dPacked.length hlen]
    have hnot : ¬ ((dPacked.length : Int) < 0) := by omega
    rw [if_neg hnot, hload]
    simp only [List.nil_append]
    have hst : (⟨dPacked.map some, t.m_tFields,
        t.m_iAllocated + rtPayloadBytes (dPacked.map some)⟩ : DocstoreRT_c) = s := by
      cases s with
      | mk d f a =>
        cases t with
        | mk d2 f2 a2 =>
          simp only at ht hdocs halloc
          obtain ⟨_, ha2, hf2⟩ := ht
          subst hf2 ha2 hdocs
          simp [halloc]
    rw [hst]
    refine congrArg some (Prod.ext rfl (Prod.ext rfl ?_))
    simp only [specSavedBytes, List.length_append, CSphReader.mk.injEq, true_and, and_true]
    omega

/-- C25: for an in-memory store that holds fewer than `2^31` documents, none
leaked, each taking the bytes `GetDocSize` finds (fewer than `2^31`), and that
accounts for exactly their bytes, `Save` writes the varint count and per document
a varint byte length and the bytes, and `Load` of these bytes into an empty store
with the same field registry succeeds, stops right behind them and gives a store
equal to the original: the same documents, hence the same `GetDoc` result for
every row, field subset and pack flag, and the same `m_iAllocated`. Every store
built by `AddDoc` calls from an empty one, for documents with one payload (shorter
than `2^32` bytes) per registered field whose packed form is shorter than `2^31`
bytes, fewer than `2^31` of them, is such a store. -/
theorem C25_rt_save_load (s t : DocstoreRT_c) (A B : List BYTE) (bError : Bool)
    (rt0 : DocstoreRT_c) (docs : List Doc_t)
    (hs : s.wellFormed = true)
    (ht : t.m_dDocs = [] ∧ t.m_iAllocated = 0 ∧ t.m_tFields = s.m_tFields) :
    (∃ dPacked : List (List BYTE), s.m_dDocs = dPacked.map some ∧
      s.Save A = some (A ++ specSavedBytes dPacked) ∧
      t.Load ⟨A ++ specSavedBytes dPacked ++ B, A.length, bError⟩
        = some (!bError, s,
            ⟨A ++ specSavedBytes dPacked ++ B, A.length + (specSavedBytes dPacked).length,
              bError⟩)) ∧
    (∀ saved tLoaded tReader, s.Save [] = some saved →
      t.Load ⟨saved, 0, false⟩ = some (true, tLoaded, tReader) →
      tLoaded.m_dDocs.length = s.m_dDocs.length ∧
      tLoaded.m_iAllocated = s.m_iAllocated ∧
      ∀ (r : Nat) (pFieldIds : Option (List Nat)) (bPack : Bool),
        tLoaded.GetDoc r pFieldIds bPack = s.GetDoc r pFieldIds bPack) ∧
    (rt0.m_dDocs = [] → rt0.m_iAllocated = 0 → docs.length < 2147483648 →
      (∀ d ∈ docs, d.m_dFields.length = rt0.m_tFields.GetNumFields ∧
        (∀ f ∈ d.m_dFields, f.length < DWORD_MOD) ∧
        (rtPackFields rt0.m_tFields d.m_dFields 0).length < 2147483648) →
      (rt0.AddDocs docs).wellFormed = true) := by
  obtain ⟨dPacked, hdocs, hboth⟩ := rt_save_load s t hs ht
  refine ⟨⟨dPacked, hdocs, hboth A B bError⟩, ?_, ?_⟩
  · intro saved tLoaded tReader hsave hload
    obtain ⟨h1, h2⟩ := hboth [] [] false
    rw [h1] at hsave
    injection hsave with hsave
    simp only [List.nil_append, List.append_nil, List.length_nil] at h2 hsave
    rw [← hsave, h2] at hload
    injection hload with hload
    have hst : s = tLoaded := (Prod.ext_iff.mp (Prod.ext_iff.mp hload).2).1
    subst hst
    exact ⟨rfl, rfl, fun _ _ _ => rfl⟩
  · intro hempty halloc hcount hdocsok
    obtain ⟨hd, hf⟩ := AddDocs_rt docs rt0
    have ha := AddDocs_rt_allocated docs rt0
    unfold DocstoreRT_c.wellFormed
    simp only [Bool.and_eq_true, decide_eq_true_eq]
    refine ⟨⟨?_, ?_⟩, ?_⟩
    · rw [hd, hf, hempty, List.nil_append, List.all_eq_true]
      intro x hx
      obtain ⟨d, hdmem, rfl⟩ := List.mem_map.mp hx
      obtain ⟨h1, h2, h3⟩ := hdocsok d hdmem
      simp only [rtDocOk, Bool.and_eq_true, decide_eq_true_eq]
      refine ⟨?_, h3⟩
      rw [rtPackFields_spec]
      have := rtDocSize_encode [] (specStoredPayloads rt0.m_tFields d.m_dFields 0)
        (specStoredPayloads_fit rt0.m_tFields d.m_dFields 0 h2)
      rw [specStoredPayloads_length, h1, List.append_nil] at this
      exact this
    · rw [hd, hempty]
      simpa using hcount
    · rw [ha, hd, hempty, halloc]
      simp

theorem C25_rt_save_load_witness :
    (twoDocsRT.wellFormed = true ∧ twoTextRT.m_dDocs = [] ∧ twoTextRT.m_iAllocated = 0
      ∧ twoTextRT.m_tFields = twoDocsRT.m_tFields) ∧
    twoDocsRT.Save [] = some [2, 4, 1, 1, 1, 2, 5, 3, 104, 105, 0, 0] ∧
    (twoTextRT.Load ⟨[2, 4, 1, 1, 1, 2, 5, 3, 104, 105, 0, 0], 0, false⟩).map
        (fun x => (x.1, x.2.1.m_dDocs, x.2.1.m_iAllocated, x.2.2.m_iPos))
      = some (true, twoDocsRT.m_dDocs, twoDocsRT.m_iAllocated, 12) ∧
    (twoTextRT.AddDocs
      [{ m_dFields := [[1], [2]] }, { m_dFields := [[104, 105, 0, 0], []] }]).wellFormed = true :=
  ⟨⟨by decide, rfl, rfl, by decide⟩, by decide, by decide,
   (C25_rt_save_load twoDocsRT twoTextRT [] [] false twoTextRT
      [{ m_dFields := [[1], [2]] }, { m_dFields := [[104, 105, 0, 0], []] }]
      (by decide) ⟨rfl, rfl, by decide⟩).2.2 rfl rfl (by decide) (by decide)⟩

/-! ## Reading a big block the builder wrote -/

theorem MemoryReader2_GetByte_drop (r : MemoryReader2_c) (b : BYTE) (rest : List BYTE)
    (h : r.m_pData.drop r.m_iPos = b :: rest) :
    r.GetByte = (b, ⟨r.m_pData, r.m_iPos + 1⟩) ∧ r.m_pData.drop (r.m_iPos + 1) = rest := by
  refine ⟨?_, ?_⟩
  · unfold MemoryReader2_c.GetByte
    have : r.m_pData.getD r.m_iPos 0 = b := by
      rw [List.getD_eq_getElem?_getD]
      have h0 : (r.m_pData.drop r.m_iPos)[0]? = some b := by rw [h]; simp
      rw [List.getElem?_drop] at h0
      simp only [Nat.add_zero] at h0
      rw [h0]; rfl
    rw [this]
  · rw [← List.drop_drop, h]; rfl

theorem MemoryReader2_UnzipInt_drop (r : MemoryReader2_c) (v : Nat) (rest : List BYTE)
    (h : r.m_pData.drop r.m_iPos = ZipInt v ++ rest) :
    r.UnzipInt = (v % DWORD_MOD, ⟨r.m_pData, r.m_iPos + (ZipInt v).length⟩) ∧
    r.m_pData.drop (r.m_iPos + (ZipInt v).length) = rest := by
  refine ⟨?_, ?_⟩
  · unfold MemoryReader2_c.UnzipInt
    rw [h, unzipBytes_ZipInt, Nat.mod_mod]
  · rw [← List.drop_drop, h, List.drop_left]

theorem readFieldSort_written :
    ∀ (l : List Nat) (r : MemoryReader2_c) (rest : List BYTE),
      r.m_pData.drop r.m_iPos = l.flatMap ZipInt ++ rest →
      readFieldSort l.length r
        = (l.map (fun v => v % DWORD_MOD), ⟨r.m_pData, r.m_iPos + (l.flatMap ZipInt).length⟩) := by
  intro l
  induction l with
  | nil => intro r rest _; simp [readFieldSort]
  | cons v t ih =>
    intro r rest h
    have h1 : r.m_pData.drop r.m_iPos = ZipInt v ++ (t.flatMap ZipInt ++ rest) := by
      rw [h]; simp [List.append_assoc]
    obtain ⟨hu, hu2⟩ := MemoryReader2_UnzipInt_drop r v _ h1
    have hu3 : (⟨r.m_pData, r.m_iPos + (ZipInt v).length⟩ : MemoryReader2_c).m_pData.drop
        (⟨r.m_pData, r.m_iPos + (ZipInt v).length⟩ : MemoryReader2_c).m_iPos
        = t.flatMap ZipInt ++ rest := hu2
    simp only [List.length_cons, readFieldSort]
    rw [hu, ih _ rest hu3]
    simp only [List.map_cons, List.flatMap_cons, List.length_append, Nat.add_assoc]

theorem hasFlag_written (bCompressed bEmpty : Bool) :
    hasFlag ((if bCompressed then FIELD_FLAG_COMPRESSED else 0)
        + (if bEmpty then FIELD_FLAG_EMPTY else 0)) FIELD_FLAG_EMPTY = bEmpty ∧
    hasFlag ((if bCompressed then FIELD_FLAG_COMPRESSED else 0)
        + (if bEmpty then FIELD_FLAG_EMPTY else 0)) FIELD_FLAG_COMPRESSED = bCompressed := by
  cases bCompressed <;> cases bEmpty <;> decide

theorem readBigFieldInfo_written (st : BigBlockScan) (dFields : List (List BYTE))
    (bNeedReorder : Bool) (dFieldSort : List Nat) (i : Nat) (dInfo : List FieldInfo_t)
    (r : MemoryReader2_c) (rest : List BYTE)
    (hdef : dInfo.getD (bigFieldOf bNeedReorder dFieldSort i) default = default)
    (hfit : (dFields.getD (bigFieldOf bNeedReorder dFieldSort i) []).length < DWORD_MOD)
    (hcfit : (st.m_dCompressedBuffers.getD (bigFieldOf bNeedReorder dFieldSort i) []).length
      < DWORD_MOD)
    (h : r.m_pData.drop r.m_iPos
      = writeBigFieldInfo st dFields (bigFieldOf bNeedReorder dFieldSort i) ++ rest) :
    readBigFieldInfo bNeedReorder dFieldSort (dInfo, r) i
      = (dInfo.set (bigFieldOf bNeedReorder dFieldSort i)
            (writtenFieldInfo st dFields (bigFieldOf bNeedReorder dFieldSort i)),
          ⟨r.m_pData, r.m_iPos
            + (writeBigFieldInfo st dFields (bigFieldOf bNeedReorder dFieldSort i)).length⟩) ∧
    r.m_pData.drop (r.m_iPos
        + (writeBigFieldInfo st dFields (bigFieldOf bNeedReorder dFieldSort i)).length) = rest := by
  have hdrop : r.m_pData.drop (r.m_iPos
      + (writeBigFieldInfo st dFields (bigFieldOf bNeedReorder dFieldSort i)).length) = rest := by
    rw [← List.drop_drop, h, List.drop_left]
  refine ⟨?_, hdrop⟩
  unfold readBigFieldInfo
  simp only
  generalize bigFieldOf bNeedReorder dFieldSort i = f at *
  unfold writeBigFieldInfo at h ⊢
  unfold writtenFieldInfo
  simp only at h ⊢
  generalize hC : st.tCompressedFields.BitGet f = bC at *
  generalize hE : decide ((dFields.getD f []).length = 0) = bE at *
  obtain ⟨hfe, hfc⟩ := hasFlag_written bC bE
  have h1 : r.m_pData.drop r.m_iPos
      = ((if bC = true then FIELD_FLAG_COMPRESSED else 0) + (if bE = true then FIELD_FLAG_EMPTY else 0))
        :: ((if bE = true then []
            else ZipInt (dFields.getD f []).length ++
              (if bC = true then ZipInt (st.m_dCompressedBuffers.getD f []).length else [])) ++ rest) := by
    rw [h]; rfl
  obtain ⟨hg, hg2⟩ := MemoryReader2_GetByte_drop r _ _ h1
  rw [hg]
  simp only [hfe, hfc]
  cases bE with
  | true =>
    simp only [if_true, hdef, List.length_cons, List.length_nil, Bool.true_or]
    rfl
  | false =>
    simp only [Bool.false_eq_true, if_false, Bool.false_or] at hg2 ⊢
    have h2 : (⟨r.m_pData, r.m_iPos + 1⟩ : MemoryReader2_c).m_pData.drop
        (⟨r.m_pData, r.m_iPos + 1⟩ : MemoryReader2_c).m_iPos
        = ZipInt (dFields.getD f []).length
          ++ ((if bC = true then ZipInt (st.m_dCompressedBuffers.getD f []).length else [])
            ++ rest) := by
      rw [show (⟨r.m_pData, r.m_iPos + 1⟩ : MemoryReader2_c).m_pData.drop
        (⟨r.m_pData, r.m_iPos + 1⟩ : MemoryReader2_c).m_iPos = _ from hg2]
      simp [List.append_assoc]
    obtain ⟨hu, hu2⟩ := MemoryReader2_UnzipInt_drop _ _ _ h2
    rw [hu]
    simp only [Nat.mod_eq_of_lt hfit]
    cases bC with
    | true =>
      simp only [if_true, Bool.not_true] at hu2 ⊢
      have h3 : (⟨r.m_pData, r.m_iPos + 1 + (ZipInt (dFields.getD f []).length).length⟩ :
            MemoryReader2_c).m_pData.drop
          (⟨r.m_pData, r.m_iPos + 1 + (ZipInt (dFields.getD f []).length).length⟩ :
            MemoryReader2_c).m_iPos
          = ZipInt (st.m_dCompressedBuffers.getD f []).length ++ rest := hu2
      obtain ⟨hv, _⟩ := MemoryReader2_UnzipInt_drop _ _ _ h3
      rw [hv]
      simp only [Nat.mod_eq_of_lt hcfit, List.length_cons, List.length_append, List.length_nil]
      refine Prod.ext rfl ?_
      simp only [MemoryReader2_c.mk.injEq, true_and]
      omega
    | false =>
      simp only [Bool.false_eq_true, if_false, hdef, List.length_cons, List.length_append,
        List.length_nil, Bool.not_false]
      refine Prod.ext ?_ ?_
      · rfl
      · simp only [MemoryReader2_c.mk.injEq, true_and]
        omega

theorem getD_set_of_lt {α : Type} (l : List α) (a f : Nat) (x d : α) (hf : f < l.length) :
    (l.set a x).getD f d = if a = f then x else l.getD f d := by
  rw [List.getD_eq_getElem?_getD, List.getD_eq_getElem?_getD, List.getElem?_set]
  by_cases h : a = f
  · subst h
    simp [hf]
  · simp [h]

theorem foldl_set_getD {α : Type} (d : α) (g : Nat → α) (bSkip : Nat → Bool) :
    ∀ (fs : List Nat) (l : List α),
      (fs.foldl (fun acc f => if bSkip f then acc else acc.set f (g f)) l).length = l.length ∧
      ∀ f, f < l.length →
        (fs.foldl (fun acc f => if bSkip f then acc else acc.set f (g f)) l).getD f d
          = if f ∈ fs ∧ bSkip f = false then g f else l.getD f d := by
  intro fs
  induction fs with
  | nil => intro l; simp
  | cons a t ih =>
    intro l
    simp only [List.foldl_cons]
    cases hs : bSkip a with
    | true =>
      simp only [if_true]
      obtain ⟨h1, h2⟩ := ih l
      refine ⟨h1, ?_⟩
      intro f hf
      rw [h2 f hf]
      by_cases hft : f ∈ t ∧ bSkip f = false
      · rw [if_pos hft, if_pos ⟨List.mem_cons_of_mem _ hft.1, hft.2⟩]
      · rw [if_neg hft, if_neg]
        rintro ⟨hm, hb⟩
        rcases List.mem_cons.mp hm with h | h
        · rw [h, hs] at hb; cases hb
        · exact hft ⟨h, hb⟩
    | false =>
      simp only [Bool.false_eq_true, if_false]
      obtain ⟨h1, h2⟩ := ih (l.set a (g a))
      rw [List.length_set] at h1 h2
      refine ⟨h1, ?_⟩
      intro f hf
      rw [h2 f hf, getD_set_of_lt l a f (g a) d hf]
      by_cases hft : f ∈ t ∧ bSkip f = false
      · rw [if_pos hft, if_pos ⟨List.mem_cons_of_mem _ hft.1, hft.2⟩]
      · rw [if_neg hft]
        by_cases haf : a = f
        · subst haf
          rw [if_pos rfl, if_pos ⟨List.mem_cons_self _ _, hs⟩]
        · rw [if_neg haf, if_neg]
          rintro ⟨hm, hb⟩
          rcases List.mem_cons.mp hm with h | h
          · exact haf h.symm
          · exact hft ⟨h, hb⟩

theorem eq_range_map_of_getD {α : Type} (d : α) (g : Nat → α) (l : List α) (n : Nat)
    (hlen : l.length = n) (h : ∀ f, f < n → l.getD f d = g f) :
    l = (List.range n).map g := by
  rw [← range_map_getD d l, hlen]
  apply List.map_congr_left
  intro f hf
  exact h f (List.mem_range.mp hf)

theorem readBigFieldInfos_written (st : BigBlockScan) (dFields : List (List BYTE))
    (bNeedReorder : Bool) (dFieldSort : List Nat) :
    ∀ (places : List Nat) (dInfo : List FieldInfo_t) (r : MemoryReader2_c) (rest : List BYTE),
      (places.map (bigFieldOf bNeedReorder dFieldSort)).Nodup →
      (∀ i ∈ places, dInfo.getD (bigFieldOf bNeedReorder dFieldSort i) default = default) →
      (∀ i ∈ places,
        (dFields.getD (bigFieldOf bNeedReorder dFieldSort i) []).length < DWORD_MOD ∧
        (st.m_dCompressedBuffers.getD (bigFieldOf bNeedReorder dFieldSort i) []).length
          < DWORD_MOD) →
      r.m_pData.drop r.m_iPos
        = places.flatMap
            (fun i => writeBigFieldInfo st dFields (bigFieldOf bNeedReorder dFieldSort i))
          ++ rest →
      (places.foldl (readBigFieldInfo bNeedReorder dFieldSort) (dInfo, r)).1
        = (places.map (bigFieldOf bNeedReorder dFieldSort)).foldl
            (fun acc f => if (fun _ => false) f then acc
              else acc.set f (writtenFieldInfo st dFields f)) dInfo := by
  intro places
  induction places with
  | nil => intro dInfo r rest _ _ _ _; rfl
  | cons i t ih =>
    intro dInfo r rest hnd hdef hfit h
    simp only [List.map_cons, List.nodup_cons] at hnd
    have h1 : r.m_pData.drop r.m_iPos
        = writeBigFieldInfo st dFields (bigFieldOf bNeedReorder dFieldSort i)
          ++ (t.flatMap
              (fun i => writeBigFieldInfo st dFields (bigFieldOf bNeedReorder dFieldSort i))
            ++ rest) := by
      rw [h]; simp [List.append_assoc]
    obtain ⟨hs, hs2⟩ := readBigFieldInfo_written st dFields bNeedReorder dFieldSort i dInfo r _
      (hdef i (List.mem_cons_self _ _)) (hfit i (List.mem_cons_self _ _)).1
      (hfit i (List.mem_cons_self _ _)).2 h1
    simp only [List.foldl_cons, List.map_cons, Bool.false_eq_true, if_false]
    rw [hs]
    have := ih (dInfo.set (bigFieldOf bNeedReorder dFieldSort i)
        (writtenFieldInfo st dFields (bigFieldOf bNeedReorder dFieldSort i)))
      ⟨r.m_pData, r.m_iPos
        + (writeBigFieldInfo st dFields (bigFieldOf bNeedReorder dFieldSort i)).length⟩ rest
      hnd.2
      (by
        intro j hj
        have hne : bigFieldOf bNeedReorder dFieldSort i ≠ bigFieldOf bNeedReorder dFieldSort j := by
          intro heq
          exact hnd.1 (heq ▸ List.mem_map_of_mem _ hj)
        rw [List.getD_eq_getElem?_getD, List.getElem?_set_ne hne, ← List.getD_eq_getElem?_getD]
        exact hdef j (List.mem_cons_of_mem _ hj))
      (fun j hj => hfit j (List.mem_cons_of_mem _ hj)) hs2
    simp only [Bool.false_eq_true, if_false] at this
    exact this

theorem bigFieldOf_eq_bigFieldAt (b : Bool) (dSort : List (Nat × Nat)) (i : Nat) :
    bigFieldOf b (if b then dSort.map Prod.fst else []) i = bigFieldAt b dSort i := by
  cases b with
  | false => rfl
  | true =>
    simp only [bigFieldOf, bigFieldAt, if_true, List.getD_eq_getElem?_getD, List.getElem?_map]
    cases dSort[i]? <;> rfl

theorem bigBlockOrder_spec (c : Compressor_i) (s : DocstoreBuilder_c)
    (hlen : (s.m_dStoredDocs.getD 0 default).m_dFields.length = s.m_tFields.GetNumFields) :
    s.bigBlockOrder c
      = (if (s.bigBlockScan c).bNeedReorder then (s.bigBlockFieldSort c).map Prod.fst
          else List.range s.m_tFields.GetNumFields) ∧
    (s.bigBlockOrder c).Perm (List.range s.m_tFields.GetNumFields) ∧
    ((s.bigBlockScan c).bNeedReorder = true →
      (s.bigBlockFieldSort c).length = s.m_tFields.GetNumFields) := by
  unfold DocstoreBuilder_c.bigBlockOrder
  cases hre : (s.bigBlockScan c).bNeedReorder with
  | false =>
    have : (List.range s.m_tFields.GetNumFields).map (bigFieldAt false (s.bigBlockFieldSort c))
        = List.range s.m_tFields.GetNumFields := by
      have : bigFieldAt false (s.bigBlockFieldSort c) = id := by
        funext i; rfl
      rw [this, List.map_id]
    rw [this]
    exact ⟨rfl, List.Perm.refl _, fun h => by cases h⟩
  | true =>
    obtain ⟨hperm, _⟩ := bigBlockFieldSort_spec c s hlen hre
    have hl : (s.bigBlockFieldSort c).length = s.m_tFields.GetNumFields := by
      rw [hperm.length_eq]; simp
    have heq : (List.range s.m_tFields.GetNumFields).map (bigFieldAt true (s.bigBlockFieldSort c))
        = (s.bigBlockFieldSort c).map Prod.fst := by
      have h1 := range_map_getD ((0, 0) : Nat × Nat) (s.bigBlockFieldSort c)
      rw [hl] at h1
      conv_rhs => rw [← h1]
      rw [List.map_map]
      rfl
    rw [heq]
    refine ⟨rfl, ?_, fun _ => hl⟩
    have := hperm.map Prod.fst
    rw [List.map_map] at this
    have hid : (List.range s.m_tFields.GetNumFields).map
        (Prod.fst ∘ fun i => (i, bigFieldStoredSize (s.bigBlockScan c)
          (s.m_dStoredDocs.getD 0 default).m_dFields i)) = List.range s.m_tFields.GetNumFields := by
      have : (Prod.fst ∘ fun i => (i, bigFieldStoredSize (s.bigBlockScan c)
          (s.m_dStoredDocs.getD 0 default).m_dFields i)) = id := by
        funext i; rfl
      rw [this, List.map_id]
    rw [hid] at this
    exact this

theorem hasFlag_blockFlags (b : Bool) :
    hasFlag (if b then BLOCK_FLAG_FIELD_REORDER else 0) BLOCK_FLAG_FIELD_REORDER = b := by
  cases b <;> decide

theorem map_mod_of_lt (l : List Nat) (h : ∀ v ∈ l, v < DWORD_MOD) :
    l.map (fun v => v % DWORD_MOD) = l := by
  induction l with
  | nil => rfl
  | cons a t ih =>
    simp only [List.map_cons]
    rw [Nat.mod_eq_of_lt (h a (List.mem_cons_self _ _)), ih (fun v hv => h v (List.mem_cons_of_mem _ hv))]

theorem getD_replicate_self {α : Type} (n f : Nat) (d : α) :
    (List.replicate n d).getD f d = d := by
  rw [List.getD_eq_getElem?_getD, List.getElem?_replicate]
  by_cases h : f < n
  · rw [if_pos h]; rfl
  · rw [if_neg h]; rfl

theorem readBigBlockHeader_written (c : Compressor_i) (s : DocstoreBuilder_c) (st : Docstore_c)
    (tBlock : Block_t) (pre post : List BYTE)
    (hlen : (s.m_dStoredDocs.getD 0 default).m_dFields.length = s.m_tFields.GetNumFields)
    (hfields : st.m_tFields = s.m_tFields)
    (hfile : st.m_tFile = pre ++ (s.bigBlockHeaderBytes c ++ (s.bigBlockBodies c ++ post)))
    (hoff : tBlock.m_tOffset = pre.length)
    (hhs : tBlock.m_uHeaderSize = (s.bigBlockHeaderBytes c).length)
    (hfit : ∀ f ∈ (s.m_dStoredDocs.getD 0 default).m_dFields, f.length < DWORD_MOD)
    (hcfit : ∀ b ∈ (s.bigBlockScan c).m_dCompressedBuffers, b.length < DWORD_MOD)
    (hn : s.m_tFields.GetNumFields ≤ DWORD_MOD) :
    (st.readBigBlockHeader tBlock).bNeedReorder = (s.bigBlockScan c).bNeedReorder ∧
    (st.readBigBlockHeader tBlock).dFieldSort
      = (if (s.bigBlockScan c).bNeedReorder then (s.bigBlockFieldSort c).map Prod.fst else []) ∧
    (∀ f, f < s.m_tFields.GetNumFields →
      (st.readBigBlockHeader tBlock).dFieldInfo.getD f default
        = writtenFieldInfo (s.bigBlockScan c) (s.m_dStoredDocs.getD 0 default).m_dFields f) := by
  obtain ⟨hord, hperm, hsl⟩ := bigBlockOrder_spec c s hlen
  have hH : st.ReadFromFile tBlock.m_uHeaderSize tBlock.m_tOffset = s.bigBlockHeaderBytes c := by
    unfold Docstore_c.ReadFromFile
    rw [hfile, hoff, hhs]
    exact readBytes_mid pre _ _ _ rfl
  have hmem : ∀ f ∈ s.bigBlockOrder c, f < s.m_tFields.GetNumFields := by
    intro f hf
    exact List.mem_range.mp (hperm.mem_iff.mp hf)
  -- the bytes of the header
  have hHeq : s.bigBlockHeaderBytes c
      = (if (s.bigBlockScan c).bNeedReorder then BLOCK_FLAG_FIELD_REORDER else 0)
        :: ((if (s.bigBlockScan c).bNeedReorder
              then ((s.bigBlockFieldSort c).map Prod.fst).flatMap ZipInt else [])
          ++ ((s.bigBlockOrder c).flatMap
              (writeBigFieldInfo (s.bigBlockScan c) (s.m_dStoredDocs.getD 0 default).m_dFields)
            ++ [])) := by
    unfold DocstoreBuilder_c.bigBlockHeaderBytes
    simp [List.flatMap_map, List.append_assoc]
  obtain ⟨hg, hg2⟩ := MemoryReader2_GetByte_drop ⟨s.bigBlockHeaderBytes c, 0⟩ _ _
    (by show (s.bigBlockHeaderBytes c).drop 0 = _; rw [List.drop_zero]; exact hHeq)
  simp only at hg hg2
  -- the field order the reader finds
  have htS : (if (s.bigBlockScan c).bNeedReorder = true
        then readFieldSort s.m_tFields.GetNumFields ⟨s.bigBlockHeaderBytes c, 0 + 1⟩
        else ([], ⟨s.bigBlockHeaderBytes c, 0 + 1⟩))
      = ((if (s.bigBlockScan c).bNeedReorder then (s.bigBlockFieldSort c).map Prod.fst else []),
          ⟨s.bigBlockHeaderBytes c, 0 + 1
            + (if (s.bigBlockScan c).bNeedReorder
                then ((s.bigBlockFieldSort c).map Prod.fst).flatMap ZipInt else []).length⟩) := by
    cases hre : (s.bigBlockScan c).bNeedReorder with
    | false => simp
    | true =>
      simp only [if_true]
      rw [hre] at hg2 hord
      simp only [if_true] at hg2 hord
      have hl : ((s.bigBlockFieldSort c).map Prod.fst).length = s.m_tFields.GetNumFields := by
        rw [List.length_map]; exact hsl hre
      rw [← hl, readFieldSort_written _ ⟨s.bigBlockHeaderBytes c, 0 + 1⟩ _ hg2,
        map_mod_of_lt _ (fun v hv => by
          have := hmem v (by rw [hord]; exact hv)
          omega)]
  have hdrop : (s.bigBlockHeaderBytes c).drop (0 + 1
      + (if (s.bigBlockScan c).bNeedReorder
          then ((s.bigBlockFieldSort c).map Prod.fst).flatMap ZipInt else []).length)
      = (s.bigBlockOrder c).flatMap
          (writeBigFieldInfo (s.bigBlockScan c) (s.m_dStoredDocs.getD 0 default).m_dFields)
        ++ [] := by
    rw [← List.drop_drop]
    rw [show (s.bigBlockHeaderBytes c).drop (0 + 1) = _ from hg2, List.drop_left]
  have hof : ∀ i, bigFieldOf (s.bigBlockScan c).bNeedReorder
      (if (s.bigBlockScan c).bNeedReorder then (s.bigBlockFieldSort c).map Prod.fst else []) i
      = bigFieldAt (s.bigBlockScan c).bNeedReorder (s.bigBlockFieldSort c) i :=
    fun i => bigFieldOf_eq_bigFieldAt _ _ i
  have hmap : (List.range s.m_tFields.GetNumFields).map
      (bigFieldOf (s.bigBlockScan c).bNeedReorder
        (if (s.bigBlockScan c).bNeedReorder then (s.bigBlockFieldSort c).map Prod.fst else []))
      = s.bigBlockOrder c := by
    unfold DocstoreBuilder_c.bigBlockOrder
    exact List.map_congr_left (fun i _ => hof i)
  have hfitD : ∀ f, ((s.m_dStoredDocs.getD 0 default).m_dFields.getD f []).length < DWORD_MOD := by
    intro f
    rw [List.getD_eq_getElem?_getD]
    cases h : (s.m_dStoredDocs.getD 0 default).m_dFields[f]? with
    | none => exact (by decide : (0 : Nat) < DWORD_MOD)
    | some v => exact hfit v (List.mem_iff_getElem?.2 ⟨_, h⟩)
  have hcfitD : ∀ f, ((s.bigBlockScan c).m_dCompressedBuffers.getD f []).length < DWORD_MOD := by
    intro f
    rw [List.getD_eq_getElem?_getD]
    cases h : (s.bigBlockScan c).m_dCompressedBuffers[f]? with
    | none => exact (by decide : (0 : Nat) < DWORD_MOD)
    | some v => exact hcfit v (List.mem_iff_getElem?.2 ⟨_, h⟩)
  have hfold := readBigFieldInfos_written (s.bigBlockScan c)
    (s.m_dStoredDocs.getD 0 default).m_dFields (s.bigBlockScan c).bNeedReorder
    (if (s.bigBlockScan c).bNeedReorder then (s.bigBlockFieldSort c).map Prod.fst else [])
    (List.range s.m_tFields.GetNumFields)
    (List.replicate s.m_tFields.GetNumFields default)
    ⟨s.bigBlockHeaderBytes c, 0 + 1
      + (if (s.bigBlockScan c).bNeedReorder
          then ((s.bigBlockFieldSort c).map Prod.fst).flatMap ZipInt else []).length⟩ []
    (by rw [hmap]; exact hperm.nodup_iff.mpr (List.nodup_range _))
    (fun i _ => getD_replicate_self _ _ _)
    (fun i _ => ⟨hfitD _, hcfitD _⟩)
    (by
      rw [show (⟨s.bigBlockHeaderBytes c, 0 + 1
          + (if (s.bigBlockScan c).bNeedReorder
              then ((s.bigBlockFieldSort c).map Prod.fst).flatMap ZipInt else []).length⟩ :
            MemoryReader2_c).m_pData.drop _ = _ from hdrop]
      rw [← hmap, List.flatMap_map])
  rw [hmap] at hfold
  unfold Docstore_c.readBigBlockHeader
  simp only
  rw [hH, hfields, hg]
  simp only [hasFlag_blockFlags]
  rw [htS]
  refine ⟨trivial, rfl, ?_⟩
  intro f hf
  simp only
  rw [hfold]
  obtain ⟨_, h2⟩ := foldl_set_getD (default : FieldInfo_t)
    (writtenFieldInfo (s.bigBlockScan c) (s.m_dStoredDocs.getD 0 default).m_dFields)
    (fun _ => false) (s.bigBlockOrder c) (List.replicate s.m_tFields.GetNumFields default)
  rw [h2 f (by simpa using hf), if_pos ⟨hperm.mem_iff.mpr (List.mem_range.mpr hf), rfl⟩]

theorem readBytes_drop (data : List BYTE) (off n : Nat) (f rest : List BYTE)
    (hn : n = f.length) (h : data.drop off = f ++ rest) : readBytes data off n = f := by
  subst hn
  unfold readBytes
  rw [h, List.take_left]
  simp

theorem readBigBlockField_written (c : Compressor_i) (st : Docstore_c) (scan : BigBlockScan)
    (dFields : List (List BYTE)) (hdr : BigBlockHeader) (dFieldInRset : List (Option Nat))
    (bPack : Bool) (i f : Nat) (tOffset : Nat) (tResult : List (List BYTE)) (rest : List BYTE)
    (hf : bigFieldOf hdr.bNeedReorder hdr.dFieldSort i = f)
    (hinfo : hdr.dFieldInfo.getD f default = writtenFieldInfo scan dFields f)
    (hdrop : st.m_tFile.drop tOffset = writeBigFieldBody scan dFields f ++ rest)
    (hcodec : scan.tCompressedFields.BitGet f = true → (dFields.getD f []).length ≠ 0 →
      (c.Decompress (scan.m_dCompressedBuffers.getD f [])
        (List.replicate (dFields.getD f []).length 0)).2 = dFields.getD f []) :
    st.readBigBlockField c noCache hdr dFieldInRset bPack (tOffset, tResult) i
      = (tOffset + (writeBigFieldBody scan dFields f).length,
          match dFieldInRset.getD f none with
          | some iSlot =>
            if (dFields.getD f []).length = 0 then tResult
            else tResult.set iSlot
              (PackData (dFields.getD f []) ((st.m_tFields.GetField f).m_eType = DOCSTORE_TEXT)
                bPack)
          | none => tResult) ∧
    st.m_tFile.drop (tOffset + (writeBigFieldBody scan dFields f).length) = rest := by
  refine ⟨?_, by rw [← List.drop_drop, hdrop, List.drop_left]⟩
  unfold Docstore_c.readBigBlockField Docstore_c.ProcessBigBlockField
  simp only [hf, hinfo, noCache]
  unfold writtenFieldInfo Docstore_c.UncompressBigBlockField Docstore_c.ReadFromFile
  unfold writeBigFieldBody at hdrop ⊢
  simp only at hdrop ⊢
  generalize hC : scan.tCompressedFields.BitGet f = bC at *
  obtain ⟨hfe, hfc⟩ := hasFlag_written bC (decide ((dFields.getD f []).length = 0))
  simp only [hfe, hfc]
  by_cases hE : (dFields.getD f []).length = 0
  · simp only [hE, decide_True, if_true, List.length_nil, Nat.add_zero]
    cases dFieldInRset.getD f none <;> rfl
  · simp only [hE, decide_False, Bool.false_eq_true, if_false, Bool.false_or] at hdrop ⊢
    cases bC with
    | true =>
      simp only [if_true, Bool.not_true, Bool.false_eq_true, if_false] at hdrop ⊢
      cases hslot : dFieldInRset.getD f none with
      | none => rfl
      | some iSlot =>
        simp only
        rw [readBytes_drop st.m_tFile tOffset _ _ rest rfl hdrop, hcodec rfl hE,
          readBytes_drop (dFields.getD f []) 0 _ (dFields.getD f []) [] rfl (by simp)]
    | false =>
      simp only [Bool.false_eq_true, if_false, Bool.not_false, if_true] at hdrop ⊢
      cases hslot : dFieldInRset.getD f none with
      | none => rfl
      | some iSlot =>
        simp only
        rw [readBytes_drop st.m_tFile tOffset _ _ rest rfl hdrop,
          readBytes_drop (dFields.getD f []) 0 _ (dFields.getD f []) [] rfl (by simp)]

theorem readBigBlockFields_offset (c : Compressor_i) (st : Docstore_c) (scan : BigBlockScan)
    (dFields : List (List BYTE)) (hdr : BigBlockHeader) (dFieldInRset : List (Option Nat))
    (bPack : Bool) (n : Nat)
    (hinfo : ∀ f, f < n → hdr.dFieldInfo.getD f default = writtenFieldInfo scan dFields f)
    (hcodec : ∀ f, scan.tCompressedFields.BitGet f = true → (dFields.getD f []).length ≠ 0 →
      (c.Decompress (scan.m_dCompressedBuffers.getD f [])
        (List.replicate (dFields.getD f []).length 0)).2 = dFields.getD f []) :
    ∀ (places : List Nat) (tOffset : Nat) (tResult : List (List BYTE)) (rest : List BYTE),
      (∀ i ∈ places, bigFieldOf hdr.bNeedReorder hdr.dFieldSort i < n) →
      st.m_tFile.drop tOffset
        = places.flatMap
            (fun i => writeBigFieldBody scan dFields (bigFieldOf hdr.bNeedReorder hdr.dFieldSort i))
          ++ rest →
      (places.foldl (st.readBigBlockField c noCache hdr dFieldInRset bPack)
          (tOffset, tResult)).1
        = tOffset + (places.flatMap
            (fun i => writeBigFieldBody scan dFields
              (bigFieldOf hdr.bNeedReorder hdr.dFieldSort i))).length := by
  intro places
  induction places with
  | nil => intro tOffset tResult rest _ _; rfl
  | cons i t ih =>
    intro tOffset tResult rest hlt h
    have h1 : st.m_tFile.drop tOffset
        = writeBigFieldBody scan dFields (bigFieldOf hdr.bNeedReorder hdr.dFieldSort i)
          ++ (t.flatMap
              (fun i => writeBigFieldBody scan dFields
                (bigFieldOf hdr.bNeedReorder hdr.dFieldSort i)) ++ rest) := by
      rw [h]; simp [List.append_assoc]
    obtain ⟨hs, hs2⟩ := readBigBlockField_written c st scan dFields hdr dFieldInRset bPack i _
      tOffset tResult _ rfl (hinfo _ (hlt i (List.mem_cons_self _ _))) h1 (hcodec _)
    simp only [List.foldl_cons, List.flatMap_cons, List.length_append]
    rw [hs, ih _ _ rest (fun j hj => hlt j (List.mem_cons_of_mem _ hj)) hs2]
    omega

theorem readBigBlockFields_written (c : Compressor_i) (st : Docstore_c) (scan : BigBlockScan)
    (dFields : List (List BYTE)) (hdr : BigBlockHeader) (bPack : Bool) (n : Nat)
    (hinfo : ∀ f, f < n → hdr.dFieldInfo.getD f default = writtenFieldInfo scan dFields f)
    (hcodec : ∀ f, scan.tCompressedFields.BitGet f = true → (dFields.getD f []).length ≠ 0 →
      (c.Decompress (scan.m_dCompressedBuffers.getD f [])
        (List.replicate (dFields.getD f []).length 0)).2 = dFields.getD f []) :
    ∀ (places : List Nat) (tOffset : Nat) (tResult : List (List BYTE)) (rest : List BYTE),
      (∀ i ∈ places, bigFieldOf hdr.bNeedReorder hdr.dFieldSort i < n) →
      st.m_tFile.drop tOffset
        = places.flatMap
            (fun i => writeBigFieldBody scan dFields (bigFieldOf hdr.bNeedReorder hdr.dFieldSort i))
          ++ rest →
      (places.foldl (st.readBigBlockField c noCache hdr (CreateFieldRemap n none) bPack)
          (tOffset, tResult)).2
        = (places.map (bigFieldOf hdr.bNeedReorder hdr.dFieldSort)).foldl
            (fun acc f => if (fun f => decide ((dFields.getD f []).length = 0)) f then acc
              else acc.set f
                (PackData (dFields.getD f []) ((st.m_tFields.GetField f).m_eType = DOCSTORE_TEXT)
                  bPack)) tResult := by
  intro places
  induction places with
  | nil => intro tOffset tResult rest _ _; rfl
  | cons i t ih =>
    intro tOffset tResult rest hlt h
    have h1 : st.m_tFile.drop tOffset
        = writeBigFieldBody scan dFields (bigFieldOf hdr.bNeedReorder hdr.dFieldSort i)
          ++ (t.flatMap
              (fun i => writeBigFieldBody scan dFields
                (bigFieldOf hdr.bNeedReorder hdr.dFieldSort i)) ++ rest) := by
      rw [h]; simp [List.append_assoc]
    have hi := hlt i (List.mem_cons_self _ _)
    obtain ⟨hs, hs2⟩ := readBigBlockField_written c st scan dFields hdr (CreateFieldRemap n none)
      bPack i _ tOffset tResult _ rfl (hinfo _ hi) h1 (hcodec _)
    simp only [List.foldl_cons, List.map_cons]
    rw [hs, CreateFieldRemap_none_getD n _ hi,
      ih _ _ rest (fun j hj => hlt j (List.mem_cons_of_mem _ hj)) hs2]
    simp only [decide_eq_true_eq]

theorem bigBlockBodies_split (c : Compressor_i) (s : DocstoreBuilder_c) (k : Nat)
    (hk : k ≤ s.m_tFields.GetNumFields) :
    s.bigBlockBodies c
      = (List.range k).flatMap
          (fun i => writeBigFieldBody (s.bigBlockScan c) (s.m_dStoredDocs.getD 0 default).m_dFields
            (bigFieldAt (s.bigBlockScan c).bNeedReorder (s.bigBlockFieldSort c) i))
        ++ (List.range' k (s.m_tFields.GetNumFields - k)).flatMap
          (fun i => writeBigFieldBody (s.bigBlockScan c) (s.m_dStoredDocs.getD 0 default).m_dFields
            (bigFieldAt (s.bigBlockScan c).bNeedReorder (s.bigBlockFieldSort c) i)) := by
  unfold DocstoreBuilder_c.bigBlockBodies DocstoreBuilder_c.bigBlockOrder
  rw [List.flatMap_map, ← List.flatMap_append]
  congr 1
  rw [List.range_eq_range', List.range_eq_range']
  have := List.range'_append 0 k (s.m_tFields.GetNumFields - k) 1
  simp only [Nat.zero_add, Nat.one_mul] at this
  rw [this]
  congr 1
  omega

theorem writeBigFieldBody_length (st : BigBlockScan) (dFields : List (List BYTE)) (f : Nat) :
    (writeBigFieldBody st dFields f).length
      = if (dFields.getD f []).length = 0 then 0 else bigFieldStoredSize st dFields f := by
  unfold writeBigFieldBody bigFieldStoredSize
  by_cases hE : (dFields.getD f []).length = 0
  · simp only [hE, decide_True, if_true, List.length_nil]
  · simp only [hE, decide_False, Bool.false_eq_true, if_false]
    split <;> rfl

/-- C29: for a big block the builder wrote (the pending document has one
payload per registered field, every length fits a `DWORD`, and the codec undoes
what it compressed) and a reader without cache that finds the block in its file,
the reader walks the fields in the order the builder wrote them, with or without
FIELD_REORDER; after `k` places its offset cursor is the block offset plus the
header size plus the lengths of the bodies of these `k` places, whatever fields are
asked for, which is the file offset where the builder wrote the body of place `k`;
a body has the stored size of its field and an empty field has no body. So for all
fields `ReadDocFromBigBlock` and `GetDoc` return nothing for an empty field and the
stored bytes, as `PackData` hands them out, for every other field, and for a
strictly ascending list of field ids the fields of that result with those ids.
From the reordered block with stored sizes 200, 50 and 1000, `GetDoc` with ids
`[0, 2]` returns the original fields 0 and 2. -/
theorem C29_big_block_read_path (c : Compressor_i) (s : DocstoreBuilder_c) (st : Docstore_c)
    (tBlock : Block_t) (pre post : List BYTE)
    (hlen : (s.m_dStoredDocs.getD 0 default).m_dFields.length = s.m_tFields.GetNumFields)
    (hfields : st.m_tFields = s.m_tFields)
    (hfile : st.m_tFile = pre ++ (s.bigBlockHeaderBytes c ++ (s.bigBlockBodies c ++ post)))
    (hoff : tBlock.m_tOffset = pre.length)
    (hhs : tBlock.m_uHeaderSize = (s.bigBlockHeaderBytes c).length)
    (hfit : ∀ f ∈ (s.m_dStoredDocs.getD 0 default).m_dFields, f.length < DWORD_MOD)
    (hcfit : ∀ b ∈ (s.bigBlockScan c).m_dCompressedBuffers, b.length < DWORD_MOD)
    (hn : s.m_tFields.GetNumFields ≤ DWORD_MOD)
    (hcodec : ∀ f, (s.bigBlockScan c).tCompressedFields.BitGet f = true →
      ((s.m_dStoredDocs.getD 0 default).m_dFields.getD f []).length ≠ 0 →
      (c.Decompress ((s.bigBlockScan c).m_dCompressedBuffers.getD f [])
        (List.replicate ((s.m_dStoredDocs.getD 0 default).m_dFields.getD f []).length 0)).2
        = (s.m_dStoredDocs.getD 0 default).m_dFields.getD f []) :
    (∀ i, bigFieldOf (st.readBigBlockHeader tBlock).bNeedReorder
        (st.readBigBlockHeader tBlock).dFieldSort i
      = bigFieldAt (s.bigBlockScan c).bNeedReorder (s.bigBlockFieldSort c) i) ∧
    (∀ (pFieldIds : Option (List Nat)) (bPack : Bool) (k : Nat), k ≤ s.m_tFields.GetNumFields →
      ((List.range k).foldl
          (st.readBigBlockField c noCache (st.readBigBlockHeader tBlock)
            (CreateFieldRemap s.m_tFields.GetNumFields pFieldIds) bPack)
          (tBlock.m_tOffset + tBlock.m_uHeaderSize,
            List.replicate (resultSize s.m_tFields.GetNumFields pFieldIds) [])).1
        = pre.length + (s.bigBlockHeaderBytes c).length
          + ((List.range k).flatMap
              (fun i => writeBigFieldBody (s.bigBlockScan c)
                (s.m_dStoredDocs.getD 0 default).m_dFields
                (bigFieldAt (s.bigBlockScan c).bNeedReorder (s.bigBlockFieldSort c) i))).length) ∧
    (∀ k, k ≤ s.m_tFields.GetNumFields →
      st.m_tFile.drop (pre.length + (s.bigBlockHeaderBytes c).length
          + ((List.range k).flatMap
              (fun i => writeBigFieldBody (s.bigBlockScan c)
                (s.m_dStoredDocs.getD 0 default).m_dFields
                (bigFieldAt (s.bigBlockScan c).bNeedReorder (s.bigBlockFieldSort c) i))).length)
        = (List.range' k (s.m_tFields.GetNumFields - k)).flatMap
            (fun i => writeBigFieldBody (s.bigBlockScan c)
              (s.m_dStoredDocs.getD 0 default).m_dFields
              (bigFieldAt (s.bigBlockScan c).bNeedReorder (s.bigBlockFieldSort c) i))
          ++ post) ∧
    (∀ f, (writeBigFieldBody (s.bigBlockScan c) (s.m_dStoredDocs.getD 0 default).m_dFields f).length
      = if ((s.m_dStoredDocs.getD 0 default).m_dFields.getD f []).length = 0 then 0
        else bigFieldStoredSize (s.bigBlockScan c) (s.m_dStoredDocs.getD 0 default).m_dFields f) ∧
    (∀ bPack : Bool, (st.ReadDocFromBigBlock c noCache tBlock none bPack).m_dFields
      = (List.range s.m_tFields.GetNumFields).map
          (bigFieldReturned s.m_tFields (s.m_dStoredDocs.getD 0 default).m_dFields bPack)) ∧
    (∀ (bPack : Bool) (ids : List Nat), ids.Pairwise (fun a b => a < b) →
      (st.ReadDocFromBigBlock c noCache tBlock (some ids) bPack).m_dFields
        = projectFields ids ((List.range s.m_tFields.GetNumFields).map
          (bigFieldReturned s.m_tFields (s.m_dStoredDocs.getD 0 default).m_dFields bPack))) ∧
    (∀ (r iBlock : Nat) (bPack : Bool) (ids : List Nat), ids.Pairwise (fun a b => a < b) →
      FindBlock st.m_dBlocks r = some iBlock → st.m_dBlocks.getD iBlock default = tBlock →
      tBlock.m_eType ≠ BLOCK_TYPE_SMALL →
      st.GetDoc c noCache r (some ids) bPack
        = some { m_dFields := (projectFields ids ((List.range s.m_tFields.GetNumFields).map
            (bigFieldReturned s.m_tFields (s.m_dStoredDocs.getD 0 default).m_dFields bPack))) }) ∧
    (Docstore_c.Init reorderFile).bind
        (fun st => st.GetDoc Compressor_Twin_c noCache 0 (some [0, 2]) false)
      = some { m_dFields := [List.replicate 400 1, List.replicate 2000 3] } := by
  obtain ⟨hre, hsort, hinfo⟩ := readBigBlockHeader_written c s st tBlock pre post hlen hfields
    hfile hoff hhs hfit hcfit hn
  obtain ⟨_, hperm, _⟩ := bigBlockOrder_spec c s hlen
  have hof : ∀ i, bigFieldOf (st.readBigBlockHeader tBlock).bNeedReorder
      (st.readBigBlockHeader tBlock).dFieldSort i
      = bigFieldAt (s.bigBlockScan c).bNeedReorder (s.bigBlockFieldSort c) i := by
    intro i
    rw [hre, hsort]
    exact bigFieldOf_eq_bigFieldAt _ _ i
  have hofun : (fun i => writeBigFieldBody (s.bigBlockScan c)
        (s.m_dStoredDocs.getD 0 default).m_dFields
        (bigFieldOf (st.readBigBlockHeader tBlock).bNeedReorder
          (st.readBigBlockHeader tBlock).dFieldSort i))
      = (fun i => writeBigFieldBody (s.bigBlockScan c)
        (s.m_dStoredDocs.getD 0 default).m_dFields
        (bigFieldAt (s.bigBlockScan c).bNeedReorder (s.bigBlockFieldSort c) i)) := by
    funext i; rw [hof i]
  have hplace : ∀ i, i < s.m_tFields.GetNumFields →
      bigFieldOf (st.readBigBlockHeader tBlock).bNeedReorder
        (st.readBigBlockHeader tBlock).dFieldSort i < s.m_tFields.GetNumFields := by
    intro i hi
    rw [hof i]
    have : bigFieldAt (s.bigBlockScan c).bNeedReorder (s.bigBlockFieldSort c) i
        ∈ s.bigBlockOrder c := by
      unfold DocstoreBuilder_c.bigBlockOrder
      exact List.mem_map_of_mem _ (List.mem_range.mpr hi)
    exact List.mem_range.mp (hperm.mem_iff.mp this)
  have hstart : ∀ k, k ≤ s.m_tFields.GetNumFields →
      st.m_tFile.drop (tBlock.m_tOffset + tBlock.m_uHeaderSize)
        = (List.range k).flatMap
            (fun i => writeBigFieldBody (s.bigBlockScan c)
              (s.m_dStoredDocs.getD 0 default).m_dFields
              (bigFieldOf (st.readBigBlockHeader tBlock).bNeedReorder
                (st.readBigBlockHeader tBlock).dFieldSort i))
          ++ ((List.range' k (s.m_tFields.GetNumFields - k)).flatMap
            (fun i => writeBigFieldBody (s.bigBlockScan c)
              (s.m_dStoredDocs.getD 0 default).m_dFields
              (bigFieldAt (s.bigBlockScan c).bNeedReorder (s.bigBlockFieldSort c) i))
            ++ post) := by
    intro k hk
    rw [hofun, hfile, hoff, hhs, ← List.append_assoc, ← List.length_append, List.drop_left,
      bigBlockBodies_split c s k hk, List.append_assoc]
  have hcursor : ∀ (pFieldIds : Option (List Nat)) (bPack : Bool) (k : Nat),
      k ≤ s.m_tFields.GetNumFields →
      ((List.range k).foldl
          (st.readBigBlockField c noCache (st.readBigBlockHeader tBlock)
            (CreateFieldRemap s.m_tFields.GetNumFields pFieldIds) bPack)
          (tBlock.m_tOffset + tBlock.m_uHeaderSize,
            List.replicate (resultSize s.m_tFields.GetNumFields pFieldIds) [])).1
        = pre.length + (s.bigBlockHeaderBytes c).length
          + ((List.range k).flatMap
              (fun i => writeBigFieldBody (s.bigBlockScan c)
                (s.m_dStoredDocs.getD 0 default).m_dFields
                (bigFieldAt (s.bigBlockScan c).bNeedReorder (s.bigBlockFieldSort c) i))).length := by
    intro pFieldIds bPack k hk
    have := readBigBlockFields_offset c st (s.bigBlockScan c)
      (s.m_dStoredDocs.getD 0 default).m_dFields (st.readBigBlockHeader tBlock)
      (CreateFieldRemap s.m_tFields.GetNumFields pFieldIds) bPack s.m_tFields.GetNumFields
      hinfo hcodec (List.range k) (tBlock.m_tOffset + tBlock.m_uHeaderSize)
      (List.replicate (resultSize s.m_tFields.GetNumFields pFieldIds) []) _
      (fun i hi => hplace i (by have := List.mem_range.mp hi; omega)) (hstart k hk)
    rw [this, hofun, hoff, hhs]
  have hall : ∀ bPack : Bool, (st.ReadDocFromBigBlock c noCache tBlock none bPack).m_dFields
      = (List.range s.m_tFields.GetNumFields).map
          (bigFieldReturned s.m_tFields (s.m_dStoredDocs.getD 0 default).m_dFields bPack) := by
    intro bPack
    have h0 := hstart s.m_tFields.GetNumFields (le_refl _)
    have hres := readBigBlockFields_written c st (s.bigBlockScan c)
      (s.m_dStoredDocs.getD 0 default).m_dFields (st.readBigBlockHeader tBlock) bPack
      s.m_tFields.GetNumFields hinfo hcodec (List.range s.m_tFields.GetNumFields)
      (tBlock.m_tOffset + tBlock.m_uHeaderSize)
      (List.replicate (resultSize s.m_tFields.GetNumFields none) []) _
      (fun i hi => hplace i (List.mem_range.mp hi)) h0
    have hmap : (List.range s.m_tFields.GetNumFields).map
        (bigFieldOf (st.readBigBlockHeader tBlock).bNeedReorder
          (st.readBigBlockHeader tBlock).dFieldSort) = s.bigBlockOrder c := by
      unfold DocstoreBuilder_c.bigBlockOrder
      exact List.map_congr_left (fun i _ => hof i)
    rw [hmap] at hres
    unfold Docstore_c.ReadDocFromBigBlock
    simp only
    rw [hfields, hres]
    obtain ⟨h1, h2⟩ := foldl_set_getD ([] : List BYTE)
      (fun f => PackData ((s.m_dStoredDocs.getD 0 default).m_dFields.getD f [])
        ((st.m_tFields.GetField f).m_eType = DOCSTORE_TEXT) bPack)
      (fun f => decide (((s.m_dStoredDocs.getD 0 default).m_dFields.getD f []).length = 0))
      (s.bigBlockOrder c) (List.replicate (resultSize s.m_tFields.GetNumFields none) [])
    apply eq_range_map_of_getD [] _ _ _ (by rw [h1]; simp [resultSize])
    intro f hf
    rw [h2 f (by simpa [resultSize] using hf)]
    unfold bigFieldReturned
    by_cases hE : ((s.m_dStoredDocs.getD 0 default).m_dFields.getD f []).length = 0
    · rw [if_neg (fun h => by
        have h2 := h.2
        rw [decide_eq_true hE] at h2
        exact Bool.noConfusion h2), if_pos hE]
      exact getD_replicate_self _ _ _
    · rw [if_pos ⟨hperm.mem_iff.mpr (List.mem_range.mpr hf), decide_eq_false hE⟩, if_neg hE,
        hfields]
  have hsub : ∀ (bPack : Bool) (ids : List Nat), ids.Pairwise (fun a b => a < b) →
      (st.ReadDocFromBigBlock c noCache tBlock (some ids) bPack).m_dFields
        = projectFields ids ((List.range s.m_tFields.GetNumFields).map
          (bigFieldReturned s.m_tFields (s.m_dStoredDocs.getD 0 default).m_dFields bPack)) := by
    intro bPack ids hasc
    rw [ReadDocFromBigBlock_projection c noCache st tBlock bPack ids hasc, hall bPack]
  refine ⟨hof, hcursor, ?_, writeBigFieldBody_length _ _, hall, hsub, ?_, by decide!⟩
  · intro k hk
    have := hstart k hk
    rw [hofun, hoff, hhs] at this
    rw [← List.drop_drop, this, List.drop_left]
  · intro r iBlock bPack ids hasc hfb hblk hty
    unfold Docstore_c.GetDoc
    rw [hfb]
    simp only [hblk, if_neg hty]
    have := hsub bPack ids hasc
    cases hdoc : st.ReadDocFromBigBlock c noCache tBlock (some ids) bPack with
    | mk dF =>
      rw [hdoc] at this
      simp only at this
      rw [this]

theorem C29_big_block_read_path_witness :
    ((reorderPending.m_dStoredDocs.getD 0 default).m_dFields.length
        = reorderPending.m_tFields.GetNumFields ∧
      (openedStore reorderFile).m_tFile
        = (reorderFile.take 43) ++ (reorderPending.bigBlockHeaderBytes Compressor_Twin_c
          ++ (reorderPending.bigBlockBodies Compressor_Twin_c ++ [0, 1, 43, 17]))) ∧
    ((openedStore reorderFile).ReadDocFromBigBlock Compressor_Twin_c noCache
        ((openedStore reorderFile).m_dBlocks.getD 0 default) (some [0, 2]) false).m_dFields
      = projectFields [0, 2] ((List.range reorderPending.m_tFields.GetNumFields).map
          (bigFieldReturned reorderPending.m_tFields
            (reorderPending.m_dStoredDocs.getD 0 default).m_dFields false)) ∧
    projectFields [0, 2] ((List.range reorderPending.m_tFields.GetNumFields).map
        (bigFieldReturned reorderPending.m_tFields
          (reorderPending.m_dStoredDocs.getD 0 default).m_dFields false))
      = [List.replicate 400 1, List.replicate 2000 3] :=
  ⟨⟨by decide!, by decide!⟩,
   (C29_big_block_read_path Compressor_Twin_c reorderPending (openedStore reorderFile)
      ((openedStore reorderFile).m_dBlocks.getD 0 default) (reorderFile.take 43) [0, 1, 43, 17]
      (by decide!) (by decide!) (by decide!) (by decide!) (by decide!) (by decide!) (by decide!)
      (by decide!)
      (by
        intro f _ hne
        have hf : f < 3 := by
          by_contra hge
          apply hne
          rw [List.getD_eq_getElem?_getD, List.getElem?_eq_none (by
            have : (reorderPending.m_dStoredDocs.getD 0 default).m_dFields.length = 3 := by decide!
            omega)]
          rfl
        interval_cases f <;> decide!)).2.2.2.2.2.1 false [0, 2] (by simp),
   by decide!⟩

/-! ## The lookup key of the field registry -/

/-- C36: for the types TEXT and BINARY and any names, the lookup key
`"<type-as-decimal><name>"` is the digit of the type followed by the name, so
two (type, name) pairs have the same key only if they are the same pair, also
when a name starts with a digit; hence in a registry built from pairwise
different (type, name) pairs all keys differ and the index maps the key of every
field to its own id. -/
theorem C36_lookup_key_injective (sName1 sName2 : List BYTE) (eType1 eType2 : Nat)
    (h1 : eType1 = DOCSTORE_TEXT ∨ eType1 = DOCSTORE_BIN)
    (h2 : eType2 = DOCSTORE_TEXT ∨ eType2 = DOCSTORE_BIN) :
    compoundKey sName1 eType1 = (48 + eType1) :: sName1 ∧
    (compoundKey sName1 eType1 = compoundKey sName2 eType2 ↔
      (sName1 = sName2 ∧ eType1 = eType2)) ∧
    ((sName1, eType1) ≠ (sName2, eType2) →
      compoundKey sName1 eType1 ≠ compoundKey sName2 eType2) ∧
    (∀ fields : List (List BYTE × Nat),
      (∀ fld ∈ fields, fld.2 = DOCSTORE_TEXT ∨ fld.2 = DOCSTORE_BIN) → fields.Nodup →
      (fields.map (fun fld => compoundKey fld.1 fld.2)).Nodup ∧
      ∀ k, k < fields.length →
        (AddFields {} fields).1.m_hFields.lookup
            (compoundKey (fields.getD k default).1 (fields.getD k default).2) = some k) ∧
    compoundKey [49, 97] DOCSTORE_TEXT = [48, 49, 97] ∧
    compoundKey [97] DOCSTORE_BIN = [49, 97] := by
  have hlt : ∀ t, (t = DOCSTORE_TEXT ∨ t = DOCSTORE_BIN) → t < 10 := by
    intro t ht
    rcases ht with h | h <;> rw [h] <;> decide
  have hiff : compoundKey sName1 eType1 = compoundKey sName2 eType2 ↔
      (sName1 = sName2 ∧ eType1 = eType2) := by
    constructor
    · exact compoundKey_injective sName1 sName2 eType1 eType2 (hlt _ h1) (hlt _ h2)
    · rintro ⟨ha, hb⟩; rw [ha, hb]
  refine ⟨?_, hiff, ?_, ?_, by decide, by decide⟩
  · rcases h1 with h | h <;> rw [h] <;> rfl
  · intro hne heq
    obtain ⟨ha, hb⟩ := hiff.mp heq
    exact hne (Prod.ext ha hb)
  · intro fields ht hnd
    have hkeys : (fields.map (fun fld => compoundKey fld.1 fld.2)).Nodup := by
      refine List.Nodup.map_on ?_ hnd
      intro x hx y hy hxy
      obtain ⟨ha, hb⟩ := compoundKey_injective x.1 y.1 x.2 y.2 (hlt _ (ht x hx)) (hlt _ (ht y hy)) hxy
      exact Prod.ext ha hb
    exact ⟨hkeys, (AddFields_hash fields).2 hkeys⟩

theorem C36_lookup_key_injective_witness :
    (DOCSTORE_TEXT = DOCSTORE_TEXT ∨ DOCSTORE_TEXT = DOCSTORE_BIN) ∧
    (DOCSTORE_BIN = DOCSTORE_TEXT ∨ DOCSTORE_BIN = DOCSTORE_BIN) ∧
    ((([49, 97] : List BYTE), DOCSTORE_TEXT) ≠ ([97], DOCSTORE_BIN)) ∧
    compoundKey [49, 97] DOCSTORE_TEXT ≠ compoundKey [97] DOCSTORE_BIN :=
  ⟨Or.inl rfl, Or.inr rfl, by decide,
   (C36_lookup_key_injective [49, 97] [97] DOCSTORE_TEXT DOCSTORE_BIN (Or.inl rfl)
      (Or.inr rfl)).2.2.1 (by decide)⟩

/-! ## The pending buffer of the builder -/

theorem pendingInputs_snoc (c : Compressor_i) (sInit : DocstoreBuilder_c)
    (h1 : sInit.m_dStoredDocs = []) (h2 : sInit.m_uStoredLen = 0)
    (l : List (Nat × Doc_t)) (a : Nat × Doc_t) :
    pendingInputs (AddDocs c sInit (l ++ [a])) (l ++ [a])
      = (if ((AddDocs c sInit l).m_uStoredLen + docLen a.2) % DWORD_MOD
            > (AddDocs c sInit l).m_uBlockSize then []
          else pendingInputs (AddDocs c sInit l) l) ++ [a] := by
  obtain ⟨_, _, ihL, _, _⟩ := AddDocs_invariant c sInit h1 h2 l
  rw [AddDocs_snoc]
  generalize AddDocs c sInit l = s at *
  have hdocs := AddDoc_storedDocs c s a.1 a.2
  by_cases hc : (s.m_uStoredLen + docLen a.2) % DWORD_MOD > s.m_uBlockSize
  · rw [if_pos hc] at hdocs ⊢
    simp only [pendingInputs, hdocs, List.nil_append, List.length_singleton, List.length_append]
    have : l.length + 1 - 1 = l.length := by omega
    rw [this, List.drop_left]
  · rw [if_neg hc] at hdocs ⊢
    simp only [pendingInputs, hdocs, List.length_singleton, List.length_append]
    have : l.length + 1 - (s.m_dStoredDocs.length + 1) = l.length - s.m_dStoredDocs.length := by
      omega
    rw [this, List.drop_append_of_le_length (by omega)]

/-- The invariant of the pending buffer in a run of `AddDoc` calls for documents
and a block size below `2^31`: `m_uStoredLen` is the sum of the input byte
lengths of the pending documents, and two or more pending documents do not
exceed the block size. -/
theorem AddDocs_pending (c : Compressor_i) (sInit : DocstoreBuilder_c)
    (h1 : sInit.m_dStoredDocs = []) (h2 : sInit.m_uStoredLen = 0)
    (hB : 2 * sInit.m_uBlockSize < DWORD_MOD) (docs : List (Nat × Doc_t))
    (hfit : ∀ d ∈ docs, 2 * docBytes d.2 < DWORD_MOD) :
    (AddDocs c sInit docs).m_uStoredLen
      = ((pendingInputs (AddDocs c sInit docs) docs).map (fun d => docBytes d.2)).sum ∧
    2 * (AddDocs c sInit docs).m_uStoredLen < DWORD_MOD ∧
    (2 ≤ (AddDocs c sInit docs).m_dStoredDocs.length →
      (AddDocs c sInit docs).m_uStoredLen ≤ sInit.m_uBlockSize) := by
  induction docs using List.reverseRecOn with
  | nil => simp [AddDocs, pendingInputs, h1, h2, DWORD_MOD]
  | append_singleton l a ih =>
    obtain ⟨ihS, ihlt, ih2⟩ := ih (fun d hd => hfit d (List.mem_append_left _ hd))
    have ha : 2 * docBytes a.2 < DWORD_MOD := hfit a (by simp)
    obtain ⟨_, ihB, _, _, _⟩ := AddDocs_invariant c sInit h1 h2 l
    have hsnoc := pendingInputs_snoc c sInit h1 h2 l a
    have hempty : (AddDocs c sInit l).m_dStoredDocs = [] → (AddDocs c sInit l).m_uStoredLen = 0 := by
      intro he
      rw [ihS]
      simp [pendingInputs, he]
    rw [hsnoc]
    rw [AddDocs_snoc]
    generalize AddDocs c sInit l = s at *
    have hlen := AddDoc_storedLen c s a.1 a.2
    have hdocs := AddDoc_storedDocs c s a.1 a.2
    have hdl : docLen a.2 = docBytes a.2 := by
      rw [docLen_eq]; exact Nat.mod_eq_of_lt (by omega)
    rw [hdl] at hlen hdocs ⊢
    have hnowrap : (s.m_uStoredLen + docBytes a.2) % DWORD_MOD = s.m_uStoredLen + docBytes a.2 :=
      Nat.mod_eq_of_lt (by omega)
    rw [hnowrap] at hlen hdocs ⊢
    by_cases hc : s.m_uStoredLen + docBytes a.2 > s.m_uBlockSize
    · rw [if_pos hc] at hdocs ⊢
      have hs0 : (if s.m_uStoredLen + docBytes a.2 > s.m_uBlockSize ∧ s.m_dStoredDocs ≠ []
          then 0 else s.m_uStoredLen) = 0 := by
        by_cases hd : s.m_dStoredDocs = []
        · rw [if_neg (fun h => h.2 hd)]; exact hempty hd
        · rw [if_pos ⟨hc, hd⟩]
      rw [hs0, Nat.zero_add, Nat.mod_eq_of_lt (by omega)] at hlen
      refine ⟨by rw [hlen]; simp, by omega, ?_⟩
      intro h
      rw [hdocs] at h
      simp at h
    · rw [if_neg hc] at hdocs ⊢
      rw [if_neg (fun h => hc h.1), hnowrap] at hlen
      refine ⟨by rw [hlen, ihS]; simp, by omega, ?_⟩
      intro _
      rw [hlen, ← ihB]
      omega

/-- C38: in a run of `AddDoc` calls that starts without pending documents (block
size and documents below `2^31` bytes, so that the `DWORD` counter does not
wrap), after every `AddDoc` the builder's `m_uStoredLen` is the sum of the input
byte lengths of the pending documents, and whenever two or more documents are
pending that sum is at most `block_size`; so the documents `WriteBlock` then
writes as one block sum to more than `block_size` only when it is one document. -/
theorem C38_pending_buffer_invariant (c : Compressor_i) (sInit : DocstoreBuilder_c)
    (pre : List (Nat × Doc_t)) (r : Nat) (d : Doc_t)
    (h1 : sInit.m_dStoredDocs = []) (h2 : sInit.m_uStoredLen = 0)
    (hB : 2 * sInit.m_uBlockSize < DWORD_MOD)
    (hfit : ∀ x ∈ pre ++ [(r, d)], 2 * docBytes x.2 < DWORD_MOD) :
    ((AddDocs c sInit pre).AddDoc c r d).m_dStoredDocs
      = (pendingInputs ((AddDocs c sInit pre).AddDoc c r d) (pre ++ [(r, d)])).map
          (storedDocOf sInit.m_tFields) ∧
    ((AddDocs c sInit pre).AddDoc c r d).m_uStoredLen
      = ((pendingInputs ((AddDocs c sInit pre).AddDoc c r d) (pre ++ [(r, d)])).map
          (fun x => docBytes x.2)).sum ∧
    (2 ≤ ((AddDocs c sInit pre).AddDoc c r d).m_dStoredDocs.length →
      ((pendingInputs ((AddDocs c sInit pre).AddDoc c r d) (pre ++ [(r, d)])).map
          (fun x => docBytes x.2)).sum ≤ sInit.m_uBlockSize) ∧
    (sInit.m_uBlockSize
        < ((pendingInputs ((AddDocs c sInit pre).AddDoc c r d) (pre ++ [(r, d)])).map
          (fun x => docBytes x.2)).sum →
      ((AddDocs c sInit pre).AddDoc c r d).m_dStoredDocs.length = 1 ∧
      flushedBlockType c ((AddDocs c sInit pre).AddDoc c r d) = BLOCK_TYPE_BIG) := by
  have hsn : (AddDocs c sInit pre).AddDoc c r d = AddDocs c sInit (pre ++ [(r, d)]) :=
    (AddDocs_snoc c sInit pre (r, d)).symm
  rw [hsn]
  obtain ⟨hS, _, h2p⟩ := AddDocs_pending c sInit h1 h2 hB (pre ++ [(r, d)]) hfit
  obtain ⟨_, hBs, _, hD, _⟩ := AddDocs_invariant c sInit h1 h2 (pre ++ [(r, d)])
  refine ⟨hD, hS, ?_, ?_⟩
  · intro h; rw [← hS]; exact h2p h
  · intro hgt
    rw [← hS] at hgt
    have hne : (AddDocs c sInit (pre ++ [(r, d)])).m_dStoredDocs ≠ [] := by
      rw [← hsn, AddDoc_storedDocs]
      simp
    have hlen1 : (AddDocs c sInit (pre ++ [(r, d)])).m_dStoredDocs.length = 1 := by
      by_contra hne1
      have hpos : 0 < (AddDocs c sInit (pre ++ [(r, d)])).m_dStoredDocs.length :=
        List.length_pos.mpr hne
      have := h2p (by omega)
      omega
    refine ⟨hlen1, ?_⟩
    rw [flushedBlockType_eq c _ hne, if_pos ⟨hlen1, by rw [hBs]; omega⟩]

theorem C38_pending_buffer_invariant_witness :
    (boundaryBuilder.m_dStoredDocs = [] ∧ boundaryBuilder.m_uStoredLen = 0 ∧
      2 * boundaryBuilder.m_uBlockSize < DWORD_MOD) ∧
    ((AddDocs Compressor_None_c boundaryBuilder [(0, { m_dFields := [[1, 2, 3]] })]).AddDoc
        Compressor_None_c 1 { m_dFields := [[4, 5]] }).m_uStoredLen
      = ((pendingInputs
          ((AddDocs Compressor_None_c boundaryBuilder [(0, { m_dFields := [[1, 2, 3]] })]).AddDoc
            Compressor_None_c 1 { m_dFields := [[4, 5]] })
          ([(0, { m_dFields := [[1, 2, 3]] })] ++ [(1, { m_dFields := [[4, 5]] })])).map
        (fun x => docBytes x.2)).sum :=
  ⟨⟨by decide, by decide, by decide⟩,
   (C38_pending_buffer_invariant Compressor_None_c boundaryBuilder
      [(0, { m_dFields := [[1, 2, 3]] })] 1 { m_dFields := [[4, 5]] } (by decide) (by decide)
      (by decide) (by decide)).2.1⟩

/-! ## Block cache: the walk of `SweepUnused` -/

/-- The walk of `sweepFrom`: the nodes it passes (`walked`) and the ones it does
not reach (`rest`). -/
theorem sweepFrom_walk (k : Nat) (C : Int) (need : Nat) :
    ∀ (l : List LinkedBlock_t) (m : Int), ∃ walked rest : List LinkedBlock_t,
      l = walked ++ rest ∧
      (sweepFrom k C need l m).1 = walked.filter (fun b => decide (b.m_iRefcount ≠ 0)) ++ rest ∧
      (sweepFrom k C need l m).2
        = m - memOf k (walked.filter (fun b => decide (b.m_iRefcount = 0))) ∧
      (∀ (w1 : List LinkedBlock_t) (b : LinkedBlock_t) (w2 : List LinkedBlock_t),
        walked = w1 ++ b :: w2 →
        C < m - memOf k (w1.filter (fun b => decide (b.m_iRefcount = 0))) + (need : Int)) ∧
      (rest ≠ [] → (sweepFrom k C need l m).2 + (need : Int) ≤ C) := by
  intro l
  induction l with
  | nil =>
    intro m
    refine ⟨[], [], rfl, by simp [sweepFrom], by simp [sweepFrom, memOf], ?_, by simp⟩
    intro w1 b w2 h
    simp at h
  | cons b prev ih =>
    intro m
    by_cases hroom : m + (need : Int) ≤ C
    · refine ⟨[], b :: prev, rfl, by simp [sweepFrom, hroom], by simp [sweepFrom, hroom, memOf],
        ?_, ?_⟩
      · intro w1 b1 w2 h
        simp at h
      · intro _
        simp [sweepFrom, hroom]
    · by_cases hrc : b.m_iRefcount = 0
      · obtain ⟨walked, rest, hl, h1, h2, h3, h4⟩ := ih (m - ((b.m_uSize + k : Nat) : Int))
        have hsw : sweepFrom k C need (b :: prev) m
            = sweepFrom k C need prev (m - ((b.m_uSize + k : Nat) : Int)) := by
          simp only [sweepFrom, if_neg hroom, if_pos hrc]
        refine ⟨b :: walked, rest, by rw [hl]; rfl, ?_, ?_, ?_, ?_⟩
        · rw [hsw, h1]; simp [hrc]
        · rw [hsw, h2]; simp only [List.filter_cons, hrc, decide_True, if_true, memOf_cons]
          omega
        · intro w1 b1 w2 h
          cases w1 with
          | nil => simp only [List.filter_nil, memOf, List.map_nil, List.sum_nil]; omega
          | cons a w1t =>
            simp only [List.cons_append, List.cons.injEq] at h
            obtain ⟨ha, ht⟩ := h
            have := h3 w1t b1 w2 ht
            subst ha
            simp only [List.filter_cons, hrc, decide_True, if_true, memOf_cons]
            omega
        · intro hr; rw [hsw]; exact h4 hr
      · obtain ⟨walked, rest, hl, h1, h2, h3, h4⟩ := ih m
        have hsw : sweepFrom k C need (b :: prev) m
            = (b :: (sweepFrom k C need prev m).1, (sweepFrom k C need prev m).2) := by
          simp only [sweepFrom, if_neg hroom, if_neg hrc]
        refine ⟨b :: walked, rest, by rw [hl]; rfl, ?_, ?_, ?_, ?_⟩
        · rw [hsw]; simp only; rw [h1]; simp [hrc]
        · rw [hsw]; simp only; rw [h2]; simp [hrc]
        · intro w1 b1 w2 h
          cases w1 with
          | nil => simp only [List.filter_nil, memOf, List.map_nil, List.sum_nil]; omega
          | cons a w1t =>
            simp only [List.cons_append, List.cons.injEq] at h
            obtain ⟨ha, ht⟩ := h
            have := h3 w1t b1 w2 ht
            subst ha
            simp only [List.filter_cons, hrc, decide_False, if_false]
            exact this
        · intro hr; rw [hsw]; exact h4 hr

/-- C34: `SweepUnused ( uSpaceNeeded )` walks from the tail towards the head over
the nodes `walked` and does not reach the nodes `rest`: every walked node was
met while `m_iMemUsed + uSpaceNeeded > m_iCacheSize` held (with the memory of
the nodes removed before it taken off), the walked nodes with reference count
zero are removed and their memory is given back, the other walked nodes and all
of `rest` stay in their order, and when `rest` has a node there is room after
the walk. So no node with a reference count other than zero is removed and the
nodes kept are a sublist of the list before. -/
theorem C34_sweep_respects_pins_and_lru (uSizeof : Nat) (cache : BlockCache_c)
    (uSpaceNeeded : Nat) :
    ∃ walked rest : List LinkedBlock_t,
      cache.m_dBlocks.reverse = walked ++ rest ∧
      (cache.SweepUnused uSizeof uSpaceNeeded).m_dBlocks.reverse
        = walked.filter (fun b => decide (b.m_iRefcount ≠ 0)) ++ rest ∧
      (cache.SweepUnused uSizeof uSpaceNeeded).m_iMemUsed
        = cache.m_iMemUsed
          - memOf uSizeof (walked.filter (fun b => decide (b.m_iRefcount = 0))) ∧
      (∀ (w1 : List LinkedBlock_t) (b : LinkedBlock_t) (w2 : List LinkedBlock_t),
        walked = w1 ++ b :: w2 →
        cache.m_iCacheSize
          < cache.m_iMemUsed - memOf uSizeof (w1.filter (fun b => decide (b.m_iRefcount = 0)))
            + (uSpaceNeeded : Int)) ∧
      (rest ≠ [] → (cache.SweepUnused uSizeof uSpaceNeeded).HaveSpaceFor uSpaceNeeded = true) ∧
      (∀ b ∈ cache.m_dBlocks, b.m_iRefcount ≠ 0 →
        b ∈ (cache.SweepUnused uSizeof uSpaceNeeded).m_dBlocks) ∧
      (cache.SweepUnused uSizeof uSpaceNeeded).m_dBlocks.Sublist cache.m_dBlocks := by
  obtain ⟨walked, rest, hl, h1, h2, h3, h4⟩ :=
    sweepFrom_walk uSizeof cache.m_iCacheSize uSpaceNeeded cache.m_dBlocks.reverse
      cache.m_iMemUsed
  have hrev : (cache.SweepUnused uSizeof uSpaceNeeded).m_dBlocks.reverse
      = walked.filter (fun b => decide (b.m_iRefcount ≠ 0)) ++ rest := by
    simp only [BlockCache_c.SweepUnused, List.reverse_reverse]
    exact h1
  refine ⟨walked, rest, hl, hrev, ?_, h3, ?_, ?_, SweepUnused_sublist uSizeof cache uSpaceNeeded⟩
  · simp only [BlockCache_c.SweepUnused]
    exact h2
  · intro hr
    have := h4 hr
    simp only [BlockCache_c.HaveSpaceFor, BlockCache_c.SweepUnused, decide_eq_true_eq]
    exact this
  · intro b hb hrc
    have hb2 : b ∈ walked ++ rest := by rw [← hl]; exact List.mem_reverse.mpr hb
    have hb3 : b ∈ (cache.SweepUnused uSizeof uSpaceNeeded).m_dBlocks.reverse := by
      rw [hrev]
      rcases List.mem_append.mp hb2 with hw | hr
      · exact List.mem_append_left _ (List.mem_filter.mpr ⟨hw, by simp [hrc]⟩)
      · exact List.mem_append_right _ hr
    exact List.mem_reverse.mp hb3

/-! ## In-memory store: accounting -/

theorem rtPackFields_length (tFields : DocstoreFields_c) :
    ∀ (dFields : List (List BYTE)) (i : Nat),
      (rtPackFields tFields dFields i).length = rtPackedLen tFields dFields i := by
  intro dFields
  induction dFields with
  | nil => intro i; rfl
  | cons d rest ih =>
    intro i
    have hle : rtFieldLength tFields d i ≤ d.length := by
      unfold rtFieldLength; split <;> omega
    simp only [rtPackFields, rtPackedLen, List.length_append, List.length_take, ih,
      sphCalcZippedLen]
    omega

theorem rtDocSize_packed (tFields : DocstoreFields_c) (dFields : List (List BYTE))
    (hn : dFields.length = tFields.GetNumFields) (hfit : ∀ f ∈ dFields, f.length < DWORD_MOD) :
    rtDocSize tFields.GetNumFields (rtPackFields tFields dFields 0)
      = (rtPackFields tFields dFields 0).length := by
  have h := rtDocSize_encode [] (specStoredPayloads tFields dFields 0)
    (specStoredPayloads_fit tFields dFields 0 hfit)
  rw [specStoredPayloads_length, List.append_nil, hn] at h
  rw [rtPackFields_spec]
  exact h

theorem rtHeldSize_append (n : Nat) (l1 l2 : List (Option (List BYTE))) :
    rtHeldSize n (l1 ++ l2) = rtHeldSize n l1 + rtHeldSize n l2 := by
  simp [rtHeldSize]

theorem rtHeldSize_set_none (n : Nat) :
    ∀ (l : List (Option (List BYTE))) (r : Nat) (pDoc : List BYTE),
      l.getD r none = some pDoc →
      rtHeldSize n (l.set r none) = rtHeldSize n l - (rtDocSize n pDoc : Int) := by
  intro l
  induction l with
  | nil => intro r pDoc h; simp at h
  | cons a t ih =>
    intro r pDoc h
    cases r with
    | zero =>
      simp only [List.getD_cons_zero] at h
      subst h
      simp [rtHeldSize]
    | succ k =>
      simp only [List.getD_cons_succ] at h
      have := ih k pDoc h
      simp only [rtHeldSize, List.set_cons_succ, List.map_cons, List.sum_cons] at this ⊢
      rw [this]
      omega

theorem mem_of_getD_some (l : List (Option (List BYTE))) (r : Nat) (pDoc : List BYTE)
    (h : l.getD r none = some pDoc) : some pDoc ∈ l := by
  rw [List.getD_eq_getElem?_getD] at h
  cases hx : l[r]? with
  | none => rw [hx] at h; simp at h
  | some x =>
    rw [hx] at h
    simp only [Option.getD_some] at h
    subst h
    exact List.mem_iff_getElem?.2 ⟨r, hx⟩

/-- The accounting invariant of the in-memory store: `m_iAllocated` is the sum of
the packed sizes of the documents held, and each of them has exactly the bytes
`GetDocSize` finds. -/
theorem rt_step_accounted (s s1 : DocstoreRT_c) (op : RtOp)
    (hok : rtOpOk s.m_tFields op = true) (hstep : s.step op = some s1)
    (hacc : s.m_iAllocated = rtHeldSize s.m_tFields.GetNumFields s.m_dDocs)
    (hdocs : ∀ pDoc, some pDoc ∈ s.m_dDocs →
      rtDocSize s.m_tFields.GetNumFields pDoc = pDoc.length ∧ pDoc.length < 2147483648) :
    s1.m_tFields = s.m_tFields ∧
    s1.m_iAllocated = rtHeldSize s.m_tFields.GetNumFields s1.m_dDocs ∧
    (∀ pDoc, some pDoc ∈ s1.m_dDocs →
      rtDocSize s.m_tFields.GetNumFields pDoc = pDoc.length ∧ pDoc.length < 2147483648) := by
  cases op with
  | addDoc tDoc =>
    simp only [rtOpOk, Bool.and_eq_true, decide_eq_true_eq, List.all_eq_true] at hok
    obtain ⟨⟨hn, hfit⟩, hlt⟩ := hok
    have hsz := rtDocSize_packed s.m_tFields tDoc.m_dFields hn hfit
    simp only [DocstoreRT_c.step, Option.some.injEq] at hstep
    subst hstep
    refine ⟨rfl, ?_, ?_⟩
    · simp only [DocstoreRT_c.AddDoc]
      rw [rtHeldSize_append, hacc]
      simp [rtHeldSize, hsz]
    · intro pDoc hp
      simp only [DocstoreRT_c.AddDoc, List.mem_append, List.mem_singleton,
        Option.some.injEq] at hp
      rcases hp with hp | hp
      · exact hdocs pDoc hp
      · subst hp; exact ⟨hsz, hlt⟩
  | addPackedDoc pNew =>
    simp only [rtOpOk, Bool.and_eq_true, decide_eq_true_eq] at hok
    obtain ⟨hsz, hlt⟩ := hok
    simp only [DocstoreRT_c.step, Option.some.injEq] at hstep
    subst hstep
    have hg : s.GetDocSize pNew = (rtDocSize s.m_tFields.GetNumFields pNew : Int) := by
      rw [DocstoreRT_c.GetDocSize]
      exact toInt32_small _ (by omega)
    refine ⟨rfl, ?_, ?_⟩
    · simp only [DocstoreRT_c.AddPackedDoc]
      rw [rtHeldSize_append, hacc, hg]
      simp [rtHeldSize]
    · intro pDoc hp
      simp only [DocstoreRT_c.AddPackedDoc, List.mem_append, List.mem_singleton,
        Option.some.injEq] at hp
      rcases hp with hp | hp
      · exact hdocs pDoc hp
      · subst hp; exact ⟨hsz, hlt⟩
  | leakPackedDoc r =>
    simp only [DocstoreRT_c.step, DocstoreRT_c.LeakPackedDoc] at hstep
    cases hget : s.m_dDocs.getD r none with
    | none => rw [hget] at hstep; simp at hstep
    | some pOld =>
      rw [hget] at hstep
      simp only [Option.map_some', Option.some.injEq] at hstep
      subst hstep
      obtain ⟨hsz, hlt⟩ := hdocs pOld (mem_of_getD_some _ _ _ hget)
      have hg : s.GetDocSize pOld = (rtDocSize s.m_tFields.GetNumFields pOld : Int) := by
        rw [DocstoreRT_c.GetDocSize]
        exact toInt32_small _ (by omega)
      refine ⟨rfl, ?_, ?_⟩
      · simp only
        rw [rtHeldSize_set_none _ _ _ _ hget, hacc, hg]
      · intro pDoc hp
        simp only at hp
        exact hdocs pDoc ((List.mem_or_eq_of_mem_set hp).resolve_right (by simp))

theorem rt_run_accounted (ops : List RtOp) :
    ∀ (s s1 : DocstoreRT_c), (∀ op ∈ ops, rtOpOk s.m_tFields op = true) →
      s.run ops = some s1 →
      s.m_iAllocated = rtHeldSize s.m_tFields.GetNumFields s.m_dDocs →
      (∀ pDoc, some pDoc ∈ s.m_dDocs →
        rtDocSize s.m_tFields.GetNumFields pDoc = pDoc.length ∧ pDoc.length < 2147483648) →
      s1.m_tFields = s.m_tFields ∧
      s1.m_iAllocated = rtHeldSize s.m_tFields.GetNumFields s1.m_dDocs ∧
      (∀ pDoc, some pDoc ∈ s1.m_dDocs →
        rtDocSize s.m_tFields.GetNumFields pDoc = pDoc.length ∧ pDoc.length < 2147483648) := by
  induction ops with
  | nil =>
    intro s s1 _ hrun hacc hdocs
    simp only [DocstoreRT_c.run, Option.some.injEq] at hrun
    subst hrun
    exact ⟨rfl, hacc, hdocs⟩
  | cons op rest ih =>
    intro s s1 hok hrun hacc hdocs
    simp only [DocstoreRT_c.run] at hrun
    cases hstep : s.step op with
    | none => rw [hstep] at hrun; simp at hrun
    | some s2 =>
      rw [hstep] at hrun
      simp only at hrun
      obtain ⟨hf, ha, hd⟩ := rt_step_accounted s s2 op (hok op (by simp)) hstep hacc hdocs
      have := ih s2 s1 (by rw [hf]; exact fun o ho => hok o (List.mem_cons_of_mem _ ho)) hrun
        (by rw [hf]; exact ha) (by rw [hf]; exact hd)
      rw [hf] at this
      exact this

theorem rtHeldSize_eq_payload (n : Nat) :
    ∀ (dDocs : List (Option (List BYTE))),
      (∀ pDoc, some pDoc ∈ dDocs → rtDocSize n pDoc = pDoc.length) →
      rtHeldSize n dDocs = rtPayloadBytes dDocs := by
  intro dDocs
  induction dDocs with
  | nil => intro _; rfl
  | cons a t ih =>
    intro h
    have := ih (fun p hp => h p (List.mem_cons_of_mem _ hp))
    simp only [rtHeldSize, rtPayloadBytes, List.map_cons, List.sum_cons] at this ⊢
    rw [this]
    cases a with
    | none => simp
    | some p => simp [h p (by simp)]

theorem rtSaveDocs_no_null (s : DocstoreRT_c) :
    ∀ (dDocs : List (Option (List BYTE))) (tWriter saved : List BYTE),
      rtSaveDocs s dDocs tWriter = some saved → ∀ x ∈ dDocs, x ≠ none := by
  intro dDocs
  induction dDocs with
  | nil => intro _ _ _ x hx; simp at hx
  | cons a t ih =>
    intro tWriter saved h x hx
    cases a with
    | none => simp [rtSaveDocs] at h
    | some p =>
      simp only [rtSaveDocs] at h
      split at h
      · simp at h
      · rcases List.mem_cons.mp hx with hx | hx
        · subst hx; simp
        · exact ih _ saved h x hx

theorem GetDoc_rt_moved (s t : DocstoreRT_c) (r : Nat) (pDoc : List BYTE)
    (hf : t.m_tFields = s.m_tFields) (hget : s.m_dDocs.getD r none = some pDoc)
    (pFieldIds : Option (List Nat)) (bPack : Bool) :
    (t.AddPackedDoc t.m_dDocs.length pDoc).GetDoc t.m_dDocs.length pFieldIds bPack
      = s.GetDoc r pFieldIds bPack := by
  have h1 : (t.AddPackedDoc t.m_dDocs.length pDoc).m_dDocs.getD t.m_dDocs.length none
      = some pDoc := by
    simp [DocstoreRT_c.AddPackedDoc]
  have h2 : (t.AddPackedDoc t.m_dDocs.length pDoc).m_tFields = s.m_tFields := hf
  simp only [DocstoreRT_c.GetDoc, h1, h2, hget]

/-- C37: in a run of `AddDoc`, `AddPackedDoc` and `LeakPackedDoc` calls on an
in-memory store that starts without documents (each document given to `AddDoc`
with one payload per field, each document given to `AddPackedDoc` of exactly the
bytes `GetDocSize` finds, all below `2^31` bytes), `AllocatedBytes` minus the
bytes of the pointer array is the sum over the documents held and not leaked of
the packed size, which for a document of `AddDoc` is the sum over its fields of
the varint length of the stored length plus the stored length; `AddDoc` and
`AddPackedDoc` always return and `LeakPackedDoc` returns a document that is
held; a store loaded from what `Save` wrote accounts for the same sum; and a
document moved by `LeakPackedDoc` and `AddPackedDoc` into a store with the same
registry keeps its `GetDoc` result. -/
theorem C37_rt_accounting (s0 s : DocstoreRT_c) (ops : List RtOp)
    (hempty : s0.m_dDocs = [] ∧ s0.m_iAllocated = 0)
    (hok : ∀ op ∈ ops, rtOpOk s0.m_tFields op = true) (hrun : s0.run ops = some s) :
    s.m_tFields = s0.m_tFields ∧
    (∀ iLengthBytes : Int,
      s.AllocatedBytes iLengthBytes - iLengthBytes
        = rtHeldSize s.m_tFields.GetNumFields s.m_dDocs) ∧
    (∀ tDoc : Doc_t, rtOpOk s.m_tFields (RtOp.addDoc tDoc) = true →
      rtDocSize s.m_tFields.GetNumFields (rtPackFields s.m_tFields tDoc.m_dFields 0)
        = rtPackedLen s.m_tFields tDoc.m_dFields 0 ∧
      (s.AddDoc s.m_dDocs.length tDoc).m_iAllocated
        = s.m_iAllocated + (rtPackedLen s.m_tFields tDoc.m_dFields 0 : Int)) ∧
    (∀ op : RtOp, (∀ tRowID, op ≠ RtOp.leakPackedDoc tRowID) → (s.step op).isSome = true) ∧
    (∀ (tRowID : Nat) (pDoc : List BYTE), s.m_dDocs.getD tRowID none = some pDoc →
      ∃ s1, s.LeakPackedDoc tRowID = some (pDoc, s1) ∧
        s1.m_iAllocated = rtHeldSize s.m_tFields.GetNumFields s1.m_dDocs ∧
        ∀ (t : DocstoreRT_c) (pFieldIds : Option (List Nat)) (bPack : Bool),
          t.m_tFields = s.m_tFields →
          (t.AddPackedDoc t.m_dDocs.length pDoc).GetDoc t.m_dDocs.length pFieldIds bPack
            = s.GetDoc tRowID pFieldIds bPack) ∧
    (∀ (t tLoaded : DocstoreRT_c) (saved : List BYTE) (tReader : CSphReader),
      t.m_dDocs = [] → t.m_iAllocated = 0 → t.m_tFields = s.m_tFields →
      s.m_dDocs.length < 2147483648 → s.Save [] = some saved →
      t.Load ⟨saved, 0, false⟩ = some (true, tLoaded, tReader) →
      tLoaded.m_iAllocated = rtHeldSize tLoaded.m_tFields.GetNumFields tLoaded.m_dDocs) := by
  obtain ⟨hf, hacc, hdocs⟩ := rt_run_accounted ops s0 s hok hrun
    (by rw [hempty.1, hempty.2]; rfl) (by rw [hempty.1]; intro p hp; simp at hp)
  rw [← hf] at hacc hdocs
  refine ⟨hf, ?_, ?_, ?_, ?_, ?_⟩
  · intro iLengthBytes
    rw [DocstoreRT_c.AllocatedBytes, hacc]
    omega
  · intro tDoc hokd
    simp only [rtOpOk, Bool.and_eq_true, decide_eq_true_eq, List.all_eq_true] at hokd
    obtain ⟨⟨hn, hfit⟩, _⟩ := hokd
    refine ⟨?_, ?_⟩
    · rw [rtDocSize_packed s.m_tFields tDoc.m_dFields hn hfit, rtPackFields_length]
    · simp only [DocstoreRT_c.AddDoc]
      rw [rtPackFields_length]
  · intro op hop
    cases op with
    | addDoc d => rfl
    | addPackedDoc p => rfl
    | leakPackedDoc r => exact absurd rfl (hop r)
  · intro tRowID pDoc hget
    have hstep : s.step (RtOp.leakPackedDoc tRowID)
        = some { s with m_dDocs := s.m_dDocs.set tRowID none,
                        m_iAllocated := s.m_iAllocated - s.GetDocSize pDoc } := by
      simp only [DocstoreRT_c.step, DocstoreRT_c.LeakPackedDoc, hget, Option.map_some']
    refine ⟨{ s with m_dDocs := s.m_dDocs.set tRowID none,
                     m_iAllocated := s.m_iAllocated - s.GetDocSize pDoc },
      by simp only [DocstoreRT_c.LeakPackedDoc, hget], ?_, ?_⟩
    · exact (rt_step_accounted s _ (RtOp.leakPackedDoc tRowID) rfl hstep hacc hdocs).2.1
    · intro t pFieldIds bPack ht
      exact GetDoc_rt_moved s t tRowID pDoc ht hget pFieldIds bPack
  · intro t tLoaded saved tReader ht1 ht2 ht3 hlen hsave hload
    by_cases hall : s.m_dDocs.all (rtDocOk s.m_tFields.GetNumFields) = true
    · have hwf : s.wellFormed = true := by
        simp only [DocstoreRT_c.wellFormed, Bool.and_eq_true, decide_eq_true_eq]
        refine ⟨⟨hall, hlen⟩, ?_⟩
        rw [hacc]
        exact rtHeldSize_eq_payload _ _ (fun p hp => (hdocs p hp).1)
      obtain ⟨dPacked, hd, hSL⟩ := rt_save_load s t hwf ⟨ht1, ht2, ht3⟩
      obtain ⟨hS, hL⟩ := hSL [] [] false
      rw [hS] at hsave
      simp only [List.nil_append, Option.some.injEq] at hsave
      subst hsave
      simp only [List.nil_append, List.append_nil, List.length_nil] at hL
      rw [hL] at hload
      simp only [Option.some.injEq, Prod.mk.injEq] at hload
      obtain ⟨_, hs, _⟩ := hload
      rw [← hs]
      exact hacc
    · exfalso
      apply hall
      rw [List.all_eq_true]
      intro x hx
      cases x with
      | none => exact absurd rfl (rtSaveDocs_no_null s s.m_dDocs _ saved hsave none hx)
      | some p =>
        obtain ⟨h1, h2⟩ := hdocs p hx
        simp [rtDocOk, h1, h2]

theorem C37_rt_accounting_witness :
    ((twoTextRT.m_dDocs = [] ∧ twoTextRT.m_iAllocated = 0) ∧
      (∀ op ∈ moveOps, rtOpOk twoTextRT.m_tFields op = true) ∧
      twoTextRT.run moveOps = some movedRT) ∧
    movedRT.AllocatedBytes 24 - 24 = 9 ∧
    rtHeldSize movedRT.m_tFields.GetNumFields movedRT.m_dDocs = 9 :=
  ⟨⟨⟨rfl, rfl⟩, by decide, by rfl⟩,
   by decide,
   ((C37_rt_accounting twoTextRT movedRT moveOps ⟨rfl, rfl⟩ (by decide) (by rfl)).2.1 24).symm.trans
     (by decide)⟩

/-! ## `GetJoinAttrName` -/

/-- An iteration of the loop of `GetJoinAttrName` that finds the prefix after the
start of the unassigned `sMod`, right after a letter, a digit or an underscore,
goes on with the state it started with. -/
theorem joinAttrLoop_continue (cmpStale : Nat → Bool) (sPrefix sMod : List BYTE)
    (bRightTable : Bool) (iStart : Nat) (hfound : strstr sMod sPrefix = some iStart)
    (hpos : 0 < iStart) (hchar : isJoinNameChar (sMod.getD (iStart - 1) 0) = true)
    (fuel : Nat) :
    joinAttrLoop cmpStale sPrefix (fuel + 1) sMod bRightTable false
      = joinAttrLoop cmpStale sPrefix fuel sMod bRightTable false := by
  have hne : ¬ iStart = 0 := by omega
  rw [joinAttrLoop, hfound]
  simp only [Bool.false_eq_true, if_false, hpos, decide_True, Bool.true_and, hne, decide_False,
    hchar, if_true]

/-- C40: on the expression `xtbl.attr` with the joined index `tbl` the loop of
`GetJoinAttrName` is still running after every number of iterations: `strstr`
finds `tbl.` at position 1, after the letter `x`, the iteration ends in
`continue` with `sMod` unchanged, and the next one finds the same occurrence;
on `tbl.attr` the loop ends in its second iteration. -/
theorem C40_join_attr_name_loops :
    (∀ (cmpStale : Nat → Bool) (fuel : Nat),
      GetJoinAttrName cmpStale fuel xtblAttr tblName = Sum.inl JoinLoop_t.running) ∧
    strstr xtblAttr (tblName ++ [46]) = some 1 ∧
    isJoinNameChar (xtblAttr.getD 0 0) = true ∧
    (∀ (cmpStale : Nat → Bool) (fuel : Nat),
      GetJoinAttrName cmpStale (fuel + 2) tblAttr tblName
        = Sum.inr (true, some [97, 116, 116, 114])) := by
  refine ⟨?_, by decide, by decide, ?_⟩
  · intro cmpStale fuel
    have h : joinAttrLoop cmpStale (tblName ++ [46]) fuel xtblAttr false false
        = JoinLoop_t.running := by
      induction fuel with
      | zero => rfl
      | succ n ih =>
        rw [joinAttrLoop_continue cmpStale (tblName ++ [46]) xtblAttr false 1 (by decide)
          (by decide) (by decide)]
        exact ih
    rw [GetJoinAttrName, h]
  · intro cmpStale fuel
    have h0 : strstr tblAttr (tblName ++ [46]) = some 0 := by decide
    have h1 : strstr [97, 116, 116, 114] (tblName ++ [46]) = none := by decide
    have h : joinAttrLoop cmpStale (tblName ++ [46]) (fuel + 2) tblAttr false false
        = JoinLoop_t.finished [97, 116, 116, 114] true := by
      rw [joinAttrLoop, h0]
      simp only [Nat.lt_irrefl, decide_False, Bool.false_and, Bool.false_eq_true, if_false]
      have hs : ([] : List BYTE) ++ (if (0 : Int) < ((tblAttr.length : Int) - (0 : Nat)
            - ((tblName ++ [46]).length : Nat))
          then (tblAttr.drop (0 + (tblName ++ [46]).length)).take
            ((tblAttr.length : Int) - (0 : Nat) - ((tblName ++ [46]).length : Nat)).toNat
          else []) = [97, 116, 116, 114] := by decide
      rw [hs, joinAttrLoop, h1]
    rw [GetJoinAttrName, h]
    rfl

/-! ## The two forms of a document of a small block -/

/-- C33 (failing input): of two documents of one small block with six TEXT fields,
the one with five empty fields is written with `DOC_FLAG_EMPTY_BITMASK` and the
four bitmap bytes (4 < 5), the one with a single empty field with every field
listed (4 < 1 fails), as the rule says; `GetDoc ( row, all fields, pack=false )`
then returns the empty first field with no bytes from the bitmask form and as a
single NUL from the listed form, and with `pack=true` with no bytes against the
length byte 0. -/
theorem C33_forms_decode_differently :
    writeSmallBlockDoc 6 (storedDocOf sixTextBuilder.m_tFields (0, bitmaskDoc))
      = [DOC_FLAG_EMPTY_BITMASK, 31, 0, 0, 0, 1, 120] ∧
    writeSmallBlockDoc 6 (storedDocOf sixTextBuilder.m_tFields (1, listedDoc))
      = [0, 0, 1, 121, 1, 121, 1, 121, 1, 121, 1, 120] ∧
    (Docstore_c.Init twoFormsFile).bind
        (fun st => st.GetDoc Compressor_None_c noCache 0 none false)
      = some { m_dFields := [[], [], [], [], [], [120, 0]] } ∧
    (Docstore_c.Init twoFormsFile).bind
        (fun st => st.GetDoc Compressor_None_c noCache 1 none false)
      = some { m_dFields := [[0], [121, 0], [121, 0], [121, 0], [121, 0], [120, 0]] } ∧
    (Docstore_c.Init twoFormsFile).bind
        (fun st => st.GetDoc Compressor_None_c noCache 0 none true)
      = some { m_dFields := [[], [], [], [], [], [1, 120]] } ∧
    (Docstore_c.Init twoFormsFile).bind
        (fun st => st.GetDoc Compressor_None_c noCache 1 none true)
      = some { m_dFields := [[0], [1, 121], [1, 121], [1, 121], [1, 121], [1, 120]] } := by
  refine ⟨by decide!, by decide!, by decide!, by decide!, by decide!, by decide!⟩

/-! ## The directory the builder writes -/

theorem AddDoc_flush_eq (c : Compressor_i) (s : DocstoreBuilder_c) (r : Nat) (d : Doc_t)
    (h : (s.m_uStoredLen + docLen d) % DWORD_MOD > s.m_uBlockSize) :
    s.AddDoc c r d
      = { s.WriteBlock c with
          m_dStoredDocs := (s.WriteBlock c).m_dStoredDocs ++
            [{ m_tRowID := r,
               m_dFields := (List.range (s.WriteBlock c).m_tFields.GetNumFields).map
                (storedField (s.WriteBlock c).m_tFields d) }],
          m_uStoredLen := ((s.WriteBlock c).m_uStoredLen + docLen d) % DWORD_MOD } := by
  unfold DocstoreBuilder_c.AddDoc
  simp only [h, if_true]

theorem AddDoc_keep_eq (c : Compressor_i) (s : DocstoreBuilder_c) (r : Nat) (d : Doc_t)
    (h : ¬ (s.m_uStoredLen + docLen d) % DWORD_MOD > s.m_uBlockSize) :
    s.AddDoc c r d
      = { s with
          m_dStoredDocs := s.m_dStoredDocs ++
            [{ m_tRowID := r,
               m_dFields := (List.range s.m_tFields.GetNumFields).map (storedField s.m_tFields d) }],
          m_uStoredLen := (s.m_uStoredLen + docLen d) % DWORD_MOD } := by
  unfold DocstoreBuilder_c.AddDoc
  simp only [h, if_false]

theorem withInitialHeader_parts (s : DocstoreBuilder_c) :
    s.withInitialHeader.m_dStoredDocs = s.m_dStoredDocs ∧
    s.withInitialHeader.m_dHeader = s.m_dHeader ∧
    s.withInitialHeader.m_tPrevBlockRowID = s.m_tPrevBlockRowID ∧
    s.withInitialHeader.m_tPrevBlockOffset = s.m_tPrevBlockOffset ∧
    s.withInitialHeader.m_iNumBlocks = s.m_iNumBlocks ∧
    s.withInitialHeader.m_uStoredLen = s.m_uStoredLen ∧
    s.withInitialHeader.m_uBlockSize = s.m_uBlockSize ∧
    0 < s.withInitialHeader.m_tWriter.length := by
  unfold DocstoreBuilder_c.withInitialHeader
  by_cases h : s.m_tWriter.length = 0
  · rw [if_pos h]
    refine ⟨rfl, rfl, rfl, rfl, rfl, rfl, rfl, ?_⟩
    simp [DocstoreBuilder_c.WriteInitialHeader, PutDword]
  · rw [if_neg h]
    exact ⟨rfl, rfl, rfl, rfl, rfl, rfl, rfl, by omega⟩

theorem withInitialHeader_of_written (s : DocstoreBuilder_c) (h : 0 < s.m_tWriter.length) :
    s.withInitialHeader = s := by
  unfold DocstoreBuilder_c.withInitialHeader
  rw [if_neg (by omega)]

theorem WriteBlock_eq (c : Compressor_i) (s : DocstoreBuilder_c) :
    s.WriteBlock c
      = if s.withInitialHeader.m_dStoredDocs.length = 0 then s.withInitialHeader
        else
          { (if (s.withInitialHeader.m_dStoredDocs.length = 1
                && decide (s.withInitialHeader.m_uStoredLen ≥ s.withInitialHeader.m_uBlockSize))
              = true
              then s.withInitialHeader.WriteBigBlock c else s.withInitialHeader.WriteSmallBlock c)
            with
            m_iNumBlocks := (if (s.withInitialHeader.m_dStoredDocs.length = 1
                && decide (s.withInitialHeader.m_uStoredLen ≥ s.withInitialHeader.m_uBlockSize))
              = true
              then s.withInitialHeader.WriteBigBlock c
              else s.withInitialHeader.WriteSmallBlock c).m_iNumBlocks + 1,
            m_uStoredLen := 0, m_dStoredDocs := [] } := rfl

theorem WriteBlock_nothing (c : Compressor_i) (s : DocstoreBuilder_c)
    (he : s.m_dStoredDocs = []) : s.WriteBlock c = s.withInitialHeader := by
  rw [WriteBlock_eq, if_pos]
  rw [(withInitialHeader_parts s).1, he]
  rfl

theorem WriteSmallBlock_parts (c : Compressor_i) (s : DocstoreBuilder_c) :
    (s.WriteSmallBlock c).m_dHeader
      = s.m_dHeader
        ++ ZipInt (((s.m_dStoredDocs.getD 0 default).m_tRowID + DWORD_MOD - s.m_tPrevBlockRowID)
            % DWORD_MOD)
        ++ [BLOCK_TYPE_SMALL]
        ++ ZipOffset (s.m_tWriter.length - s.m_tPrevBlockOffset) ∧
    (s.WriteSmallBlock c).m_tPrevBlockRowID = (s.m_dStoredDocs.getD 0 default).m_tRowID ∧
    (s.WriteSmallBlock c).m_tPrevBlockOffset = s.m_tWriter.length ∧
    (s.WriteSmallBlock c).m_iNumBlocks = s.m_iNumBlocks ∧
    s.m_tWriter.length < (s.WriteSmallBlock c).m_tWriter.length := by
  refine ⟨rfl, rfl, rfl, rfl, ?_⟩
  rw [WriteSmallBlock_writer]
  simp only [List.length_append, List.length_cons]
  omega

theorem WriteBigBlock_prev (c : Compressor_i) (s : DocstoreBuilder_c) :
    (s.WriteBigBlock c).m_tPrevBlockRowID = (s.m_dStoredDocs.getD 0 default).m_tRowID ∧
    (s.WriteBigBlock c).m_tPrevBlockOffset = s.m_tWriter.length ∧
    (s.WriteBigBlock c).m_iNumBlocks = s.m_iNumBlocks ∧
    (s.WriteBigBlock c).m_tWriter.length
      = s.m_tWriter.length + (s.bigBlockHeaderBytes c).length + (s.bigBlockBodies c).length ∧
    0 < (s.bigBlockHeaderBytes c).length := by
  refine ⟨rfl, rfl, rfl, ?_, ?_⟩
  · rw [(WriteBigBlock_parts c s).1]
    simp only [List.length_append]
  · simp [DocstoreBuilder_c.bigBlockHeaderBytes]

/-- What `WriteBlock` does with pending documents, in terms of the block it
records. -/
theorem WriteBlock_record (c : Compressor_i) (s : DocstoreBuilder_c)
    (hne : s.m_dStoredDocs ≠ []) :
    (s.WriteBlock c).m_dHeader
      = s.m_dHeader
        ++ directoryBytes [s.recordedBlock c] s.m_tPrevBlockRowID s.m_tPrevBlockOffset ∧
    (s.WriteBlock c).m_tPrevBlockRowID = (s.recordedBlock c).m_tRowID ∧
    (s.WriteBlock c).m_tPrevBlockOffset = (s.recordedBlock c).m_tOffset ∧
    (s.WriteBlock c).m_iNumBlocks = s.m_iNumBlocks + 1 ∧
    (s.WriteBlock c).m_tWriter.length
      = (s.recordedBlock c).m_tOffset + (s.recordedBlock c).m_uSize ∧
    0 < (s.recordedBlock c).m_uSize ∧
    (s.recordedBlock c).m_uHeaderSize ≤ (s.recordedBlock c).m_uSize ∧
    (s.recordedBlock c).m_tOffset = s.withInitialHeader.m_tWriter.length ∧
    (s.recordedBlock c).m_tRowID = (s.m_dStoredDocs.getD 0 default).m_tRowID ∧
    (((s.recordedBlock c).m_eType = BLOCK_TYPE_SMALL ∧ (s.recordedBlock c).m_uHeaderSize = 0) ∨
      (s.recordedBlock c).m_eType = BLOCK_TYPE_BIG) := by
  obtain ⟨hd, hh, hr, ho, hn, hl, hb, hw⟩ := withInitialHeader_parts s
  have hlen : ¬ s.withInitialHeader.m_dStoredDocs.length = 0 := by
    rw [hd]
    exact fun h => hne (List.length_eq_zero.mp h)
  have hW := WriteBlock_eq c s
  rw [if_neg hlen] at hW
  by_cases hbig : (s.withInitialHeader.m_dStoredDocs.length = 1
      && decide (s.withInitialHeader.m_uStoredLen ≥ s.withInitialHeader.m_uBlockSize)) = true
  · rw [if_pos hbig] at hW
    obtain ⟨p1, p2, p3, p4, p5⟩ := WriteBigBlock_prev c s.withInitialHeader
    obtain ⟨_, q2⟩ := WriteBigBlock_parts c s.withInitialHeader
    have hwl : (s.WriteBlock c).m_tWriter.length
        = (s.withInitialHeader.WriteBigBlock c).m_tWriter.length := by rw [hW]
    have hrec : s.recordedBlock c
        = { m_tOffset := s.withInitialHeader.m_tWriter.length,
            m_uSize := (s.WriteBlock c).m_tWriter.length - s.withInitialHeader.m_tWriter.length,
            m_uHeaderSize := (s.withInitialHeader.bigBlockHeaderBytes c).length,
            m_tRowID := (s.withInitialHeader.m_dStoredDocs.getD 0 default).m_tRowID,
            m_eType := BLOCK_TYPE_BIG } := by
      simp only [DocstoreBuilder_c.recordedBlock, hbig, if_true]
    rw [hrec]
    refine ⟨?_, ?_, ?_, ?_, ?_, ?_, ?_, rfl, by rw [hd], Or.inr rfl⟩
    · rw [hW]
      show (s.withInitialHeader.WriteBigBlock c).m_dHeader = _
      rw [q2, hh, hr, ho]
      simp [directoryBytes, List.append_assoc]
    · rw [hW]; exact p1
    · rw [hW]; exact p2
    · rw [hW]
      show (s.withInitialHeader.WriteBigBlock c).m_iNumBlocks + 1 = _
      rw [p3, hn]
    · simp only; rw [hwl, p4]; omega
    · simp only; rw [hwl, p4]; omega
    · simp only; rw [hwl, p4]; omega
  · rw [if_neg hbig] at hW
    obtain ⟨p0, p1, p2, p3, p4⟩ := WriteSmallBlock_parts c s.withInitialHeader
    have hwl : (s.WriteBlock c).m_tWriter.length
        = (s.withInitialHeader.WriteSmallBlock c).m_tWriter.length := by rw [hW]
    have hrec : s.recordedBlock c
        = { m_tOffset := s.withInitialHeader.m_tWriter.length,
            m_uSize := (s.WriteBlock c).m_tWriter.length - s.withInitialHeader.m_tWriter.length,
            m_uHeaderSize := 0,
            m_tRowID := (s.withInitialHeader.m_dStoredDocs.getD 0 default).m_tRowID,
            m_eType := BLOCK_TYPE_SMALL } := by
      simp only [DocstoreBuilder_c.recordedBlock, hbig, Bool.false_eq_true, if_false]
    rw [hrec]
    refine ⟨?_, ?_, ?_, ?_, ?_, ?_, ?_, rfl, by rw [hd], Or.inl ⟨rfl, rfl⟩⟩
    · rw [hW]
      show (s.withInitialHeader.WriteSmallBlock c).m_dHeader = _
      rw [p0, hh, hr, ho]
      have : ¬ BLOCK_TYPE_SMALL = BLOCK_TYPE_BIG := by decide
      simp [directoryBytes, List.append_assoc, this]
    · rw [hW]; exact p1
    · rw [hW]; exact p2
    · rw [hW]
      show (s.withInitialHeader.WriteSmallBlock c).m_iNumBlocks + 1 = _
      rw [p3, hn]
    · simp only; rw [hwl]; omega
    · simp only; rw [hwl]; omega
    · simp only; omega

/-- The state of the builder before `WriteTrailingHeader` in terms of the
blocks recorded in the run. -/
theorem recordedBlocks_run (c : Compressor_i) (docs : List (Nat × Doc_t)) :
    ∀ s : DocstoreBuilder_c,
      ((AddDocs c s docs).WriteBlock c).m_dHeader
        = s.m_dHeader ++ directoryBytes ((recordedBlocks c s docs).map Prod.fst)
            s.m_tPrevBlockRowID s.m_tPrevBlockOffset ∧
      ((AddDocs c s docs).WriteBlock c).m_iNumBlocks
        = s.m_iNumBlocks + (recordedBlocks c s docs).length ∧
      chained s.withInitialHeader.m_tWriter.length ((recordedBlocks c s docs).map Prod.fst)
        ((AddDocs c s docs).WriteBlock c).m_tWriter.length ∧
      (∀ b ∈ recordedBlocks c s docs,
        b.1.m_uHeaderSize ≤ b.1.m_uSize ∧
        ((b.1.m_eType = BLOCK_TYPE_SMALL ∧ b.1.m_uHeaderSize = 0) ∨
          b.1.m_eType = BLOCK_TYPE_BIG) ∧
        b.2 ≠ [] ∧ b.1.m_tRowID = (b.2.getD 0 default).m_tRowID) := by
  induction docs with
  | nil =>
    intro s
    show (s.WriteBlock c).m_dHeader = _ ∧ (s.WriteBlock c).m_iNumBlocks = _ ∧
      chained _ _ (s.WriteBlock c).m_tWriter.length ∧ _
    by_cases he : s.m_dStoredDocs = []
    · obtain ⟨hd, hh, hr, ho, hn, hl, hb, hw⟩ := withInitialHeader_parts s
      simp only [recordedBlocks, DocstoreBuilder_c.flushed, he, if_true, List.map_nil,
        directoryBytes, List.append_nil, List.length_nil, Nat.add_zero, chained]
      rw [WriteBlock_nothing c s he]
      exact ⟨hh, hn, rfl, by intro b hb; simp at hb⟩
    · obtain ⟨r1, r2, r3, r4, r5, r6, r7, r8, r9, r10⟩ := WriteBlock_record c s he
      simp only [recordedBlocks, DocstoreBuilder_c.flushed, he, if_false, List.map_cons,
        List.map_nil, List.length_singleton, chained]
      refine ⟨r1, r4, ⟨r8, r6, ?_⟩, ?_⟩
      · rw [r5, r8]
      · intro b hb
        simp only [List.mem_singleton] at hb
        subst hb
        exact ⟨r7, r10, he, r9⟩
  | cons d rest ih =>
    intro s
    have hA : AddDocs c s (d :: rest) = AddDocs c (s.AddDoc c d.1 d.2) rest := rfl
    rw [hA]
    obtain ⟨i1, i2, i3, i4⟩ := ih (s.AddDoc c d.1 d.2)
    by_cases hf : (s.m_uStoredLen + docLen d.2) % DWORD_MOD > s.m_uBlockSize
    · have hE := AddDoc_flush_eq c s d.1 d.2 hf
      have e1 : (s.AddDoc c d.1 d.2).m_dHeader = (s.WriteBlock c).m_dHeader := by rw [hE]
      have e2 : (s.AddDoc c d.1 d.2).m_tPrevBlockRowID = (s.WriteBlock c).m_tPrevBlockRowID := by
        rw [hE]
      have e3 : (s.AddDoc c d.1 d.2).m_tPrevBlockOffset = (s.WriteBlock c).m_tPrevBlockOffset := by
        rw [hE]
      have e4 : (s.AddDoc c d.1 d.2).m_iNumBlocks = (s.WriteBlock c).m_iNumBlocks := by rw [hE]
      have e5 : (s.AddDoc c d.1 d.2).m_tWriter = (s.WriteBlock c).m_tWriter := by rw [hE]
      simp only [recordedBlocks, hf, if_true]
      by_cases he : s.m_dStoredDocs = []
      · obtain ⟨hd, hh, hr, ho, hn, hl, hb, hw⟩ := withInitialHeader_parts s
        have hWn := WriteBlock_nothing c s he
        have hwi : (s.AddDoc c d.1 d.2).withInitialHeader.m_tWriter.length
            = s.withInitialHeader.m_tWriter.length := by
          have : 0 < (s.AddDoc c d.1 d.2).m_tWriter.length := by rw [e5, hWn]; exact hw
          unfold DocstoreBuilder_c.withInitialHeader
          rw [if_neg (by omega), e5, hWn]
          rfl
        simp only [DocstoreBuilder_c.flushed, he, if_true, List.nil_append]
        rw [i1, i2, e1, e2, e3, e4, hWn, hh, hr, ho, hn]
        rw [hwi] at i3
        exact ⟨rfl, rfl, i3, i4⟩
      · obtain ⟨r1, r2, r3, r4, r5, r6, r7, r8, r9, r10⟩ := WriteBlock_record c s he
        have hwi : (s.AddDoc c d.1 d.2).withInitialHeader.m_tWriter.length
            = (s.recordedBlock c).m_tOffset + (s.recordedBlock c).m_uSize := by
          have : 0 < (s.AddDoc c d.1 d.2).m_tWriter.length := by rw [e5, r5]; omega
          unfold DocstoreBuilder_c.withInitialHeader
          rw [if_neg (by omega), e5, r5]
        simp only [DocstoreBuilder_c.flushed, he, if_false, List.singleton_append, List.map_cons,
          List.length_cons, chained]
        rw [hwi] at i3
        refine ⟨?_, ?_, ⟨r8, r6, ?_⟩, ?_⟩
        · rw [i1, e1, e2, e3, r1, r2, r3]
          simp [directoryBytes, List.append_assoc]
        · rw [i2, e4, r4]; omega
        · rw [← r8]; exact i3
        · intro b hb
          rcases List.mem_cons.mp hb with hb | hb
          · subst hb; exact ⟨r7, r10, he, r9⟩
          · exact i4 b hb
    · have hE := AddDoc_keep_eq c s d.1 d.2 hf
      have e1 : (s.AddDoc c d.1 d.2).m_dHeader = s.m_dHeader := by rw [hE]
      have e2 : (s.AddDoc c d.1 d.2).m_tPrevBlockRowID = s.m_tPrevBlockRowID := by rw [hE]
      have e3 : (s.AddDoc c d.1 d.2).m_tPrevBlockOffset = s.m_tPrevBlockOffset := by rw [hE]
      have e4 : (s.AddDoc c d.1 d.2).m_iNumBlocks = s.m_iNumBlocks := by rw [hE]
      have hwi : (s.AddDoc c d.1 d.2).withInitialHeader.m_tWriter.length
          = s.withInitialHeader.m_tWriter.length := by
        rw [hE]
        unfold DocstoreBuilder_c.withInitialHeader
        by_cases hz : s.m_tWriter.length = 0
        · simp only [hz, if_true]
          simp [DocstoreBuilder_c.WriteInitialHeader]
        · simp only [hz, if_false]
      simp only [recordedBlocks, hf, if_false, List.nil_append]
      rw [i1, i2, e1, e2, e3, e4]
      rw [hwi] at i3
      exact ⟨rfl, rfl, i3, i4⟩

theorem recordedBlocks_docs (c : Compressor_i) (docs : List (Nat × Doc_t)) :
    ∀ s : DocstoreBuilder_c,
      (recordedBlocks c s docs).flatMap Prod.snd
        = s.m_dStoredDocs ++ docs.map (storedDocOf s.m_tFields) := by
  induction docs with
  | nil =>
    intro s
    by_cases he : s.m_dStoredDocs = []
    · simp [recordedBlocks, DocstoreBuilder_c.flushed, he]
    · simp [recordedBlocks, DocstoreBuilder_c.flushed, he]
  | cons d rest ih =>
    intro s
    simp only [recordedBlocks, List.flatMap_append, ih, AddDoc_fields, AddDoc_storedDocs,
      List.map_cons]
    by_cases hf : (s.m_uStoredLen + docLen d.2) % DWORD_MOD > s.m_uBlockSize
    · by_cases he : s.m_dStoredDocs = []
      · simp [hf, DocstoreBuilder_c.flushed, he]
      · simp [hf, DocstoreBuilder_c.flushed, he]
    · simp [hf]

theorem recordedBlocks_length (c : Compressor_i) (docs : List (Nat × Doc_t)) :
    ∀ s : DocstoreBuilder_c,
      (recordedBlocks c s docs).length
          ≤ docs.length + (if s.m_dStoredDocs = [] then 0 else 1) ∧
      ((docs ≠ [] ∨ s.m_dStoredDocs ≠ []) → 1 ≤ (recordedBlocks c s docs).length) := by
  induction docs with
  | nil =>
    intro s
    by_cases he : s.m_dStoredDocs = []
    · simp [recordedBlocks, DocstoreBuilder_c.flushed, he]
    · simp [recordedBlocks, DocstoreBuilder_c.flushed, he]
  | cons d rest ih =>
    intro s
    obtain ⟨i1, i2⟩ := ih (s.AddDoc c d.1 d.2)
    have hne : (s.AddDoc c d.1 d.2).m_dStoredDocs ≠ [] := by
      rw [AddDoc_storedDocs]; simp
    rw [if_neg hne] at i1
    have i3 := i2 (Or.inr hne)
    simp only [recordedBlocks, List.length_append, List.length_cons]
    refine ⟨?_, fun _ => by omega⟩
    by_cases hf : (s.m_uStoredLen + docLen d.2) % DWORD_MOD > s.m_uBlockSize
    · by_cases he : s.m_dStoredDocs = []
      · simp only [hf, if_true, DocstoreBuilder_c.flushed, he, List.length_nil]
        omega
      · simp only [hf, if_true, DocstoreBuilder_c.flushed, he, if_false, List.length_singleton]
        omega
    · simp only [hf, if_false, List.length_nil]
      split <;> omega

theorem chained_bounds :
    ∀ (B : List Block_t) (tStart tEnd : Nat), chained tStart B tEnd →
      tStart ≤ tEnd ∧
      (∀ b ∈ B, tStart ≤ b.m_tOffset ∧ b.m_tOffset + b.m_uSize ≤ tEnd) ∧
      B.Pairwise (fun a b => a.m_tOffset < b.m_tOffset) := by
  intro B
  induction B with
  | nil =>
    intro tStart tEnd h
    simp only [chained] at h
    subst h
    simp
  | cons b rest ih =>
    intro tStart tEnd h
    obtain ⟨h1, h2, h3⟩ := h
    obtain ⟨i1, i2, i3⟩ := ih _ _ h3
    refine ⟨by omega, ?_, ?_⟩
    · intro x hx
      rcases List.mem_cons.mp hx with hx | hx
      · subst hx; omega
      · have := i2 x hx; omega
    · refine List.Pairwise.cons ?_ i3
      intro x hx
      have := i2 x hx
      omega

theorem chained_next :
    ∀ (B : List Block_t) (tStart tEnd : Nat), chained tStart B tEnd →
      ∀ j, j < B.length →
        (B.getD j default).m_tOffset + (B.getD j default).m_uSize
          = if j + 1 < B.length then (B.getD (j + 1) default).m_tOffset else tEnd := by
  intro B
  induction B with
  | nil => intro _ _ _ j hj; simp at hj
  | cons b rest ih =>
    intro tStart tEnd h j hj
    obtain ⟨h1, h2, h3⟩ := h
    cases j with
    | zero =>
      cases rest with
      | nil =>
        simp only [chained] at h3
        simp [h3, h1]
      | cons b2 t =>
        obtain ⟨g1, _, _⟩ := h3
        simp [g1, h1]
    | succ k =>
      have hk : k < rest.length := by simpa using hj
      have := ih _ _ h3 k hk
      simp only [List.getD_cons_succ, List.length_cons]
      rw [this]
      by_cases hk2 : k + 1 < rest.length
      · rw [if_pos hk2, if_pos (by omega)]
      · rw [if_neg hk2, if_neg (by omega)]

/-! ## The directory `Init` reads -/

theorem unzipTruncated_ZipOffset (v : Nat) (rest : List BYTE) :
    unzipTruncated (ZipOffset v ++ rest) = false := by
  unfold ZipOffset
  apply unzipTruncated_zipGroups
  have : v % 18446744073709551616 < 18446744073709551616 := Nat.mod_lt _ (by decide)
  have h2 : 18446744073709551616 ≤ 128 ^ 10 := by decide
  omega

theorem CSphReader_UnzipOffset_drop (r : CSphReader) (v : Nat) (rest : List BYTE)
    (h : r.m_pBuff.drop r.m_iPos = ZipOffset v ++ rest) :
    r.Unzip = (v % 18446744073709551616,
      ⟨r.m_pBuff, r.m_iPos + (ZipOffset v).length, r.m_bError⟩) ∧
    r.m_pBuff.drop (r.m_iPos + (ZipOffset v).length) = rest := by
  refine ⟨?_, ?_⟩
  · unfold CSphReader.Unzip
    rw [h, unzipBytes_ZipOffset, unzipTruncated_ZipOffset, Bool.or_false]
  · rw [← List.drop_drop, h, List.drop_left]

theorem CSphReader_GetByte_drop (r : CSphReader) (b : BYTE) (rest : List BYTE)
    (h : r.m_pBuff.drop r.m_iPos = b :: rest) :
    r.GetByte = (b, ⟨r.m_pBuff, r.m_iPos + 1, r.m_bError⟩) ∧
    r.m_pBuff.drop (r.m_iPos + 1) = rest := by
  have hlt : r.m_iPos < r.m_pBuff.length := by
    by_contra hge
    rw [List.drop_eq_nil_of_le (by omega)] at h
    cases h
  refine ⟨?_, ?_⟩
  · unfold CSphReader.GetByte
    have hb : r.m_pBuff.getD r.m_iPos 0 = b := by
      have := congrArg (fun l => l.getD 0 0) h
      simp only [List.getD_cons_zero] at this
      rw [← this, List.getD_eq_getElem?_getD, List.getD_eq_getElem?_getD, List.getElem?_drop]
      simp
    rw [hb, decide_eq_false (by omega), Bool.or_false]
  · rw [← List.drop_drop, h]
    rfl

/-- The first loop of `Init` over the directory the builder wrote. -/
theorem readDirectory_written :
    ∀ (B : List Block_t) (r : CSphReader) (tPrevRow tPrevOff tStart tEnd : Nat)
      (rest : List BYTE),
      r.m_pBuff.drop r.m_iPos = directoryBytes B tPrevRow tPrevOff ++ rest →
      tPrevRow < DWORD_MOD → tPrevOff ≤ tStart → chained tStart B tEnd →
      tEnd < 18446744073709551616 →
      (∀ b ∈ B, b.m_tRowID < DWORD_MOD ∧ b.m_uHeaderSize < DWORD_MOD ∧
        ((b.m_eType = BLOCK_TYPE_SMALL ∧ b.m_uHeaderSize = 0) ∨ b.m_eType = BLOCK_TYPE_BIG)) →
      readDirectory B.length r tPrevRow tPrevOff
        = (B.map (fun b => { b with m_uSize := 0 }),
            ⟨r.m_pBuff, r.m_iPos + (directoryBytes B tPrevRow tPrevOff).length, r.m_bError⟩) := by
  intro B
  induction B with
  | nil =>
    intro r tPrevRow tPrevOff tStart tEnd rest _ _ _ _ _ _
    simp [readDirectory, directoryBytes]
  | cons b t ih =>
    intro r tPrevRow tPrevOff tStart tEnd rest hdrop hrow hoff hch hend hfit
    obtain ⟨c1, c2, c3⟩ := hch
    obtain ⟨cb1, cb2, _⟩ := chained_bounds _ _ _ c3
    obtain ⟨f1, f2, f3⟩ := hfit b (by simp)
    simp only [directoryBytes, List.append_assoc] at hdrop
    obtain ⟨u1, d1⟩ := CSphReader_Unzip_drop r _ _ hdrop
    obtain ⟨u2, d2⟩ := CSphReader_GetByte_drop
      ⟨r.m_pBuff, r.m_iPos + (ZipInt ((b.m_tRowID + DWORD_MOD - tPrevRow) % DWORD_MOD)).length,
        r.m_bError⟩ _ _ d1
    obtain ⟨u3, d3⟩ := CSphReader_UnzipOffset_drop
      ⟨r.m_pBuff, r.m_iPos + (ZipInt ((b.m_tRowID + DWORD_MOD - tPrevRow) % DWORD_MOD)).length
        + 1, r.m_bError⟩ _ _ d2
    have hrowv : (((b.m_tRowID + DWORD_MOD - tPrevRow) % DWORD_MOD) % DWORD_MOD % DWORD_MOD
        + tPrevRow) % DWORD_MOD = b.m_tRowID := by
      unfold DWORD_MOD at *
      omega
    have hoffv : ((b.m_tOffset - tPrevOff) % 18446744073709551616 + tPrevOff)
        % 18446744073709551616 = b.m_tOffset := by
      omega
    rcases f3 with ⟨hs, hz⟩ | hbig
    · have hnb : ¬ b.m_eType = BLOCK_TYPE_BIG := by rw [hs]; decide
      rw [if_neg hnb, List.nil_append] at d3
      have hrec := ih ⟨r.m_pBuff, r.m_iPos + (ZipInt ((b.m_tRowID + DWORD_MOD - tPrevRow)
        % DWORD_MOD)).length + 1 + (ZipOffset (b.m_tOffset - tPrevOff)).length, r.m_bError⟩
        b.m_tRowID b.m_tOffset (tStart + b.m_uSize) tEnd rest d3 f1 (by omega) c3 hend
        (fun x hx => hfit x (List.mem_cons_of_mem _ hx))
      simp only [List.length_cons, readDirectory, u1, u2, u3, hrowv, hoffv, if_neg hnb, hrec,
        List.map_cons, directoryBytes, List.length_append, List.length_singleton,
        List.length_nil]
      refine Prod.ext ?_ ?_
      · simp [hz]
      · simp only [CSphReader.mk.injEq, true_and, and_true]
        omega
    · rw [if_pos hbig] at d3
      obtain ⟨u4, d4⟩ := CSphReader_Unzip_drop
        ⟨r.m_pBuff, r.m_iPos + (ZipInt ((b.m_tRowID + DWORD_MOD - tPrevRow) % DWORD_MOD)).length
          + 1 + (ZipOffset (b.m_tOffset - tPrevOff)).length, r.m_bError⟩ _ _ d3
      have hrec := ih ⟨r.m_pBuff, r.m_iPos + (ZipInt ((b.m_tRowID + DWORD_MOD - tPrevRow)
        % DWORD_MOD)).length + 1 + (ZipOffset (b.m_tOffset - tPrevOff)).length
        + (ZipInt b.m_uHeaderSize).length, r.m_bError⟩
        b.m_tRowID b.m_tOffset (tStart + b.m_uSize) tEnd rest d4 f1 (by omega) c3 hend
        (fun x hx => hfit x (List.mem_cons_of_mem _ hx))
      have hhs : b.m_uHeaderSize % DWORD_MOD % DWORD_MOD = b.m_uHeaderSize := by
        rw [Nat.mod_mod]; exact Nat.mod_eq_of_lt f2
      simp only [List.length_cons, readDirectory, u1, u2, u3, u4, hrowv, hoffv, if_pos hbig,
        hrec, hhs, List.map_cons, directoryBytes, List.length_append, List.length_singleton,
        List.length_nil]
      refine Prod.ext ?_ ?_
      · simp
      · simp only [CSphReader.mk.injEq, true_and, and_true]
        omega

theorem setBlockSizes_chained :
    ∀ (B : List Block_t) (tStart tEnd : Nat), chained tStart B tEnd →
      (∀ b ∈ B, b.m_uSize < DWORD_MOD) →
      setBlockSizes tEnd (B.map (fun b => { b with m_uSize := 0 })) = B := by
  intro B
  induction B with
  | nil => intro _ _ _ _; rfl
  | cons b t ih =>
    intro tStart tEnd hch hfit
    obtain ⟨c1, c2, c3⟩ := hch
    have hb := hfit b (by simp)
    cases t with
    | nil =>
      simp only [chained] at c3
      have : offsetDelta tEnd b.m_tOffset = b.m_uSize := by
        unfold offsetDelta
        unfold DWORD_MOD at *
        omega
      simp only [List.map_cons, List.map_nil, setBlockSizes, this]
    | cons b2 t2 =>
      have hrec := ih _ _ c3 (fun x hx => hfit x (List.mem_cons_of_mem _ hx))
      obtain ⟨g1, _, _⟩ := c3
      have : offsetDelta b2.m_tOffset b.m_tOffset = b.m_uSize := by
        unfold offsetDelta
        unfold DWORD_MOD at *
        omega
      simp only [List.map_cons] at hrec
      simp only [List.map_cons, setBlockSizes, this, hrec]

theorem PutOffset_length (v : Nat) : (PutOffset v).length = 8 := rfl

theorem leValue_PutOffset (v : Nat) (hv : v < 18446744073709551616) :
    leValue (PutOffset v) = v := by
  simp only [PutOffset, PutDword, DWORD_MOD, List.cons_append, List.nil_append, leValue]
  omega

theorem CSphReader_GetOffset_at (A B : List BYTE) (v : Nat) (hv : v < 18446744073709551616)
    (e : Bool) :
    (CSphReader.GetOffset ⟨A ++ (PutOffset v ++ B), A.length, e⟩)
      = (v, ⟨A ++ (PutOffset v ++ B), A.length + 8, e⟩) := by
  unfold CSphReader.GetOffset
  simp only [readBytes_mid A (PutOffset v) B 8 rfl, leValue_PutOffset v hv]
  have : ¬ (A ++ (PutOffset v ++ B)).length < A.length + 8 := by
    simp only [List.length_append, PutOffset_length]; omega
  rw [decide_eq_false this, Bool.or_false]

theorem WriteTrailingHeader_file (s : DocstoreBuilder_c) (dHead tail : List BYTE)
    (hw : s.m_tWriter = dHead ++ (PutDword 0 ++ PutOffset 0 ++ tail))
    (ho : s.m_tHeaderOffset = dHead.length) :
    s.WriteTrailingHeader.m_tWriter
      = dHead ++ (PutDword s.m_iNumBlocks
          ++ (PutOffset s.m_tWriter.length ++ (tail ++ s.m_dHeader))) := by
  unfold DocstoreBuilder_c.WriteTrailingHeader
  simp only [ho]
  rw [hw]
  have h1 : (dHead ++ (PutDword 0 ++ PutOffset 0 ++ tail) ++ s.m_dHeader).take dHead.length
      = dHead := by
    simp only [List.append_assoc, List.take_left]
  have h2 : (dHead ++ (PutDword 0 ++ PutOffset 0 ++ tail) ++ s.m_dHeader).drop
      (dHead.length + (PutDword s.m_iNumBlocks
        ++ PutOffset (dHead ++ (PutDword 0 ++ PutOffset 0 ++ tail)).length).length)
      = tail ++ s.m_dHeader := by
    have h12 : (PutDword s.m_iNumBlocks
        ++ PutOffset (dHead ++ (PutDword 0 ++ PutOffset 0 ++ tail)).length).length
        = (PutDword 0 ++ PutOffset 0).length := rfl
    rw [h12, ← List.drop_drop]
    simp only [List.append_assoc, List.drop_left]
    exact List.drop_left _ _
  rw [h1, h2]
  simp only [List.append_assoc]

/-- `Init` on a file that holds, behind the header of a builder, a block count,
the offset of the directory and the directory of a chain of blocks. -/
theorem Init_directory (s : DocstoreBuilder_c) (fields : List (List BYTE × Nat))
    (B : List Block_t) (tail : List BYTE)
    (hreg : s.m_tFields = (AddFields {} fields).1) (hn : fields.length < 2147483648)
    (hname : ∀ fld ∈ fields, fld.1.length < DWORD_MOD)
    (hbs : s.m_uBlockSize < DWORD_MOD)
    (hB : B ≠ []) (hcount : B.length < DWORD_MOD)
    (hch : chained (s.headerBytes.length + 12) B (s.headerBytes.length + 12 + tail.length))
    (hend : s.headerBytes.length + 12 + tail.length < 18446744073709551616)
    (hfit : ∀ b ∈ B, b.m_tRowID < DWORD_MOD ∧ b.m_uSize < DWORD_MOD ∧
      b.m_uHeaderSize < DWORD_MOD ∧
      ((b.m_eType = BLOCK_TYPE_SMALL ∧ b.m_uHeaderSize = 0) ∨ b.m_eType = BLOCK_TYPE_BIG)) :
    Docstore_c.Init (s.headerBytes ++ (PutDword B.length
        ++ (PutOffset (s.headerBytes.length + 12 + tail.length)
          ++ (tail ++ directoryBytes B 0 0))))
      = some
        { m_uBlockSize := s.m_uBlockSize,
          m_eCompression := Byte2Compression (Compression2Byte s.m_eCompression),
          m_tFile := s.headerBytes ++ (PutDword B.length
            ++ (PutOffset (s.headerBytes.length + 12 + tail.length)
              ++ (tail ++ directoryBytes B 0 0))),
          m_dBlocks := B, m_tFields := s.m_tFields } ∧
    initNumBlocks (s.headerBytes ++ (PutDword B.length
        ++ (PutOffset (s.headerBytes.length + 12 + tail.length)
          ++ (tail ++ directoryBytes B 0 0)))) = B.length ∧
    initHeaderOffset (s.headerBytes ++ (PutDword B.length
        ++ (PutOffset (s.headerBytes.length + 12 + tail.length)
          ++ (tail ++ directoryBytes B 0 0)))) = s.headerBytes.length + 12 + tail.length := by
  generalize hR : (PutDword B.length
        ++ (PutOffset (s.headerBytes.length + 12 + tail.length)
          ++ (tail ++ directoryBytes B 0 0))) = R
  generalize hF : s.headerBytes ++ R = tFile
  have hF1 : tFile = [] ++ (PutDword STORAGE_VERSION ++ (PutDword s.m_uBlockSize
      ++ ([Compression2Byte s.m_eCompression] ++ (s.m_tFields.Save ++ R)))) := by
    rw [← hF]
    simp [DocstoreBuilder_c.headerBytes, List.append_assoc]
  have g0 : (CSphReader.GetDword ⟨tFile, 0, false⟩)
      = (STORAGE_VERSION, ⟨tFile, 4, false⟩) := by
    rw [hF1]
    exact CSphReader_GetDword_at [] _ STORAGE_VERSION (by decide) false
  have hF2 : tFile = PutDword STORAGE_VERSION ++ (PutDword s.m_uBlockSize
      ++ ([Compression2Byte s.m_eCompression] ++ (s.m_tFields.Save ++ R))) := by
    rw [hF1]; rfl
  have g1 : (CSphReader.GetDword ⟨tFile, 4, false⟩)
      = (s.m_uBlockSize, ⟨tFile, 8, false⟩) := by
    rw [hF2]
    exact CSphReader_GetDword_at (PutDword STORAGE_VERSION) _ s.m_uBlockSize hbs false
  have hF3 : tFile = (PutDword STORAGE_VERSION ++ PutDword s.m_uBlockSize)
      ++ (Compression2Byte s.m_eCompression :: (s.m_tFields.Save ++ R)) := by
    rw [hF2]; simp [List.append_assoc]
  have g2 : (CSphReader.GetByte ⟨tFile, 8, false⟩)
      = (Compression2Byte s.m_eCompression, ⟨tFile, 9, false⟩) := by
    rw [hF3]
    exact CSphReader_GetByte_at (PutDword STORAGE_VERSION ++ PutDword s.m_uBlockSize) _ _ false
  have hF4 : tFile = (PutDword STORAGE_VERSION ++ PutDword s.m_uBlockSize
      ++ [Compression2Byte s.m_eCompression]) ++ ((AddFields {} fields).1.Save ++ R) := by
    rw [hF2, hreg]; simp [List.append_assoc]
  have g3 : DocstoreFields_c.Load {} ⟨tFile, 9, false⟩
      = (s.m_tFields, ⟨tFile, s.headerBytes.length, false⟩) := by
    have := Load_Save fields hn hname (PutDword STORAGE_VERSION ++ PutDword s.m_uBlockSize
      ++ [Compression2Byte s.m_eCompression]) R false
    rw [← hF4] at this
    have h9 : (PutDword STORAGE_VERSION ++ PutDword s.m_uBlockSize
      ++ [Compression2Byte s.m_eCompression]).length = 9 := rfl
    rw [h9] at this
    rw [this, hreg]
    have hl : s.headerBytes.length = 9 + (AddFields {} fields).1.Save.length := by
      simp only [DocstoreBuilder_c.headerBytes, List.length_append, hreg]
      rfl
    rw [hl]
  have hF5 : tFile = s.headerBytes ++ (PutDword B.length
      ++ (PutOffset (s.headerBytes.length + 12 + tail.length)
        ++ (tail ++ directoryBytes B 0 0))) := by
    rw [← hF, ← hR]
  have g4 : (CSphReader.GetDword ⟨tFile, s.headerBytes.length, false⟩)
      = (B.length, ⟨tFile, s.headerBytes.length + 4, false⟩) := by
    rw [hF5]
    exact CSphReader_GetDword_at s.headerBytes _ B.length hcount false
  have hF6 : tFile = (s.headerBytes ++ PutDword B.length)
      ++ (PutOffset (s.headerBytes.length + 12 + tail.length)
        ++ (tail ++ directoryBytes B 0 0)) := by
    rw [hF5]; simp [List.append_assoc]
  have g5 : (CSphReader.GetOffset ⟨tFile, s.headerBytes.length + 4, false⟩)
      = (s.headerBytes.length + 12 + tail.length,
          ⟨tFile, s.headerBytes.length + 4 + 8, false⟩) := by
    have := CSphReader_GetOffset_at (s.headerBytes ++ PutDword B.length)
      (tail ++ directoryBytes B 0 0) (s.headerBytes.length + 12 + tail.length) hend false
    rw [← hF6] at this
    simp only [List.length_append, PutDword_length] at this
    exact this
  have hdrop : tFile.drop (s.headerBytes.length + 12 + tail.length)
      = directoryBytes B 0 0 ++ [] := by
    have hF7 : tFile = (s.headerBytes ++ PutDword B.length
        ++ PutOffset (s.headerBytes.length + 12 + tail.length) ++ tail)
        ++ directoryBytes B 0 0 := by
      rw [hF5]; simp [List.append_assoc]
    have hl : (s.headerBytes ++ PutDword B.length
        ++ PutOffset (s.headerBytes.length + 12 + tail.length) ++ tail).length
        = s.headerBytes.length + 12 + tail.length := by
      simp only [List.length_append, PutDword_length, PutOffset_length]
    have hd := List.drop_left (s.headerBytes ++ PutDword B.length
        ++ PutOffset (s.headerBytes.length + 12 + tail.length) ++ tail) (directoryBytes B 0 0)
    rw [hl, ← hF7] at hd
    rw [hd, List.append_nil]
  have g6 := readDirectory_written B ⟨tFile, s.headerBytes.length + 12 + tail.length, false⟩
    0 0 (s.headerBytes.length + 12) (s.headerBytes.length + 12 + tail.length) [] hdrop
    (by decide) (Nat.zero_le _) hch hend (fun b hb => ⟨(hfit b hb).1, (hfit b hb).2.2.1,
      (hfit b hb).2.2.2⟩)
  have g7 := setBlockSizes_chained B _ _ hch (fun b hb => (hfit b hb).2.1)
  have hB0 : ¬ B.length = 0 := fun h => hB (List.length_eq_zero.mp h)
  have hreader : registryReader tFile = ⟨tFile, 9, false⟩ := by
    unfold registryReader
    show ((CSphReader.GetDword (CSphReader.GetDword ⟨tFile, 0, false⟩).2).2).GetByte.2 = _
    rw [g0]
    simp only
    rw [g1]
    simp only
    rw [g2]
  refine ⟨?_, ?_, ?_⟩
  · unfold Docstore_c.Init
    have hv : ¬ STORAGE_VERSION > STORAGE_VERSION := by decide
    show (if (CSphReader.GetDword ⟨tFile, 0, false⟩).1 > STORAGE_VERSION then none else _) = _
    simp only [g0, g1, g2, g3, g4, g5, hv, if_false, CSphReader.SeekTo, g6, g7, hB0,
      Bool.false_eq_true]
  · unfold initNumBlocks
    rw [hreader, g3]
    simp only
    rw [g4]
  · unfold initHeaderOffset
    rw [hreader, g3]
    simp only
    rw [g4]
    simp only
    rw [g5]

theorem fresh_start (s : DocstoreBuilder_c) (hw : s.m_tWriter = []) :
    s.withInitialHeader.m_tWriter.length = s.headerBytes.length + 12 := by
  unfold DocstoreBuilder_c.withInitialHeader
  rw [if_pos (by rw [hw]; rfl)]
  simp only [DocstoreBuilder_c.WriteInitialHeader, DocstoreBuilder_c.headerBytes, hw,
    List.nil_append, List.length_append, PutDword_length, PutOffset_length]

/-- The file of a run of the builder and what `Init` reads from it, in terms of
the blocks recorded in the run. -/
theorem Init_of_run (c : Compressor_i) (sInit : DocstoreBuilder_c)
    (fields : List (List BYTE × Nat)) (docs : List (Nat × Doc_t))
    (hfresh : sInit.fresh)
    (hreg : sInit.m_tFields = (AddFields {} fields).1) (hn : fields.length < 2147483648)
    (hname : ∀ fld ∈ fields, fld.1.length < DWORD_MOD)
    (hbs : sInit.m_uBlockSize < DWORD_MOD)
    (hdocs : docs ≠ []) (hcount : docs.length < DWORD_MOD)
    (hrows : ∀ d ∈ docs, d.1 < DWORD_MOD)
    (hsize : ∀ b ∈ recordedBlocks c sInit docs, b.1.m_uSize < DWORD_MOD)
    (hfile : ((AddDocs c sInit docs).Finalize c).m_tWriter.length < 18446744073709551616) :
    Docstore_c.Init ((AddDocs c sInit docs).Finalize c).m_tWriter
      = some
        { m_uBlockSize := sInit.m_uBlockSize,
          m_eCompression := Byte2Compression (Compression2Byte sInit.m_eCompression),
          m_tFile := ((AddDocs c sInit docs).Finalize c).m_tWriter,
          m_dBlocks := (recordedBlocks c sInit docs).map Prod.fst,
          m_tFields := sInit.m_tFields } ∧
    initNumBlocks ((AddDocs c sInit docs).Finalize c).m_tWriter
      = (recordedBlocks c sInit docs).length ∧
    ((AddDocs c sInit docs).Finalize c).m_iNumBlocks = (recordedBlocks c sInit docs).length ∧
    ((AddDocs c sInit docs).Finalize c).m_dHeader
      = directoryBytes ((recordedBlocks c sInit docs).map Prod.fst) 0 0 ∧
    chained (sInit.headerBytes.length + 12) ((recordedBlocks c sInit docs).map Prod.fst)
      (initHeaderOffset ((AddDocs c sInit docs).Finalize c).m_tWriter) ∧
    initHeaderOffset ((AddDocs c sInit docs).Finalize c).m_tWriter
        + (directoryBytes ((recordedBlocks c sInit docs).map Prod.fst) 0 0).length
      = ((AddDocs c sInit docs).Finalize c).m_tWriter.length ∧
    1 ≤ (recordedBlocks c sInit docs).length ∧
    (recordedBlocks c sInit docs).length ≤ docs.length := by
  obtain ⟨hw, hh, hs, hl, hnb, hpo, hpr⟩ := hfresh
  obtain ⟨r1, r2, r3, r4⟩ := recordedBlocks_run c docs sInit
  rw [hh, hpr, hpo, List.nil_append] at r1
  rw [hnb, Nat.zero_add] at r2
  rw [fresh_start sInit hw] at r3
  obtain ⟨q1, q2⟩ := recordedBlocks_length c docs sInit
  rw [if_pos hs, Nat.add_zero] at q1
  have q3 := q2 (Or.inl hdocs)
  have hpart := recordedBlocks_docs c docs sInit
  rw [hs, List.nil_append] at hpart
  obtain ⟨hlay, hhb⟩ := AddDocs_file c sInit hw docs
  obtain ⟨⟨tail, w1, w2⟩, _⟩ := WriteBlock_file c (AddDocs c sInit docs) hlay
  rw [hhb] at w1 w2
  have hfin : ((AddDocs c sInit docs).Finalize c).m_tWriter
      = sInit.headerBytes ++ (PutDword (recordedBlocks c sInit docs).length
          ++ (PutOffset (sInit.headerBytes.length + 12 + tail.length)
            ++ (tail ++ directoryBytes ((recordedBlocks c sInit docs).map Prod.fst) 0 0))) := by
    have := WriteTrailingHeader_file ((AddDocs c sInit docs).WriteBlock c) sInit.headerBytes tail
      w1 w2
    rw [r1, r2] at this
    have hlen : ((AddDocs c sInit docs).WriteBlock c).m_tWriter.length
        = sInit.headerBytes.length + 12 + tail.length := by
      rw [w1]
      simp only [List.length_append, PutDword_length, PutOffset_length]
      omega
    rw [hlen] at this
    exact this
  have hwl : ((AddDocs c sInit docs).WriteBlock c).m_tWriter.length
      = sInit.headerBytes.length + 12 + tail.length := by
    rw [w1]
    simp only [List.length_append, PutDword_length, PutOffset_length]
    omega
  rw [hwl] at r3
  have hfl : ((AddDocs c sInit docs).Finalize c).m_tWriter.length
      = sInit.headerBytes.length + 12 + tail.length
        + (directoryBytes ((recordedBlocks c sInit docs).map Prod.fst) 0 0).length := by
    rw [hfin]
    simp only [List.length_append, PutDword_length, PutOffset_length]
    omega
  have hfit : ∀ b ∈ (recordedBlocks c sInit docs).map Prod.fst,
      b.m_tRowID < DWORD_MOD ∧ b.m_uSize < DWORD_MOD ∧ b.m_uHeaderSize < DWORD_MOD ∧
      ((b.m_eType = BLOCK_TYPE_SMALL ∧ b.m_uHeaderSize = 0) ∨ b.m_eType = BLOCK_TYPE_BIG) := by
    intro b hb
    obtain ⟨g, hg, rfl⟩ := List.mem_map.mp hb
    obtain ⟨a1, a2, a3, a4⟩ := r4 g hg
    have hsz := hsize g hg
    refine ⟨?_, hsz, by omega, a2⟩
    rw [a4]
    have hmem : g.2.getD 0 default ∈ docs.map (storedDocOf sInit.m_tFields) := by
      rw [← hpart]
      refine List.mem_flatMap.mpr ⟨g, hg, ?_⟩
      cases hg2 : g.2 with
      | nil => exact absurd hg2 a3
      | cons x t => simp
    obtain ⟨d, hd, hde⟩ := List.mem_map.mp hmem
    rw [← hde]
    exact hrows d hd
  have hB : (recordedBlocks c sInit docs).map Prod.fst ≠ [] := by
    intro h
    have := congrArg List.length h
    simp only [List.length_map, List.length_nil] at this
    omega
  have hI := Init_directory sInit fields ((recordedBlocks c sInit docs).map Prod.fst) tail
    hreg hn hname hbs hB (by rw [List.length_map]; omega) r3 (by omega) hfit
  rw [List.length_map, ← hfin] at hI
  obtain ⟨I1, I2, I3⟩ := hI
  refine ⟨I1, I2, r2, r1, ?_, ?_, q3, q1⟩
  · rw [I3]; exact r3
  · rw [I3, hfl]

/-- C31: for the file of a run of `AddDoc` calls and `Finalize` on a fresh
builder (one or more documents; row ids, block size, block count and block
sizes within a `DWORD`, the registry and the file within the range of their
counters), `Init` opens the file with a directory that has as many entries as
`WriteBlock` wrote blocks, each entry with the row id, the type, the offset and
the header size `WriteBlock` recorded before delta coding, and with the size the
block has in the file: the distance to the next block's offset, for the last
block to the offset of the directory. The directory bytes are the delta coding
of these entries from row id 0 and offset 0 and end the file. -/
theorem C31_directory_round_trip (c : Compressor_i) (sInit : DocstoreBuilder_c)
    (fields : List (List BYTE × Nat)) (docs : List (Nat × Doc_t))
    (hfresh : sInit.fresh)
    (hreg : sInit.m_tFields = (AddFields {} fields).1) (hn : fields.length < 2147483648)
    (hname : ∀ fld ∈ fields, fld.1.length < DWORD_MOD)
    (hbs : sInit.m_uBlockSize < DWORD_MOD)
    (hdocs : docs ≠ []) (hcount : docs.length < DWORD_MOD)
    (hrows : ∀ d ∈ docs, d.1 < DWORD_MOD)
    (hsize : ∀ b ∈ recordedBlocks c sInit docs, b.1.m_uSize < DWORD_MOD)
    (hfile : ((AddDocs c sInit docs).Finalize c).m_tWriter.length < 18446744073709551616) :
    ∃ st : Docstore_c,
      Docstore_c.Init ((AddDocs c sInit docs).Finalize c).m_tWriter = some st ∧
      st.m_dBlocks = (recordedBlocks c sInit docs).map Prod.fst ∧
      st.m_dBlocks.length = ((AddDocs c sInit docs).Finalize c).m_iNumBlocks ∧
      1 ≤ st.m_dBlocks.length ∧
      ((AddDocs c sInit docs).Finalize c).m_dHeader = directoryBytes st.m_dBlocks 0 0 ∧
      (∀ j, j < st.m_dBlocks.length →
        (st.m_dBlocks.getD j default).m_tOffset + (st.m_dBlocks.getD j default).m_uSize
          = if j + 1 < st.m_dBlocks.length then (st.m_dBlocks.getD (j + 1) default).m_tOffset
            else initHeaderOffset ((AddDocs c sInit docs).Finalize c).m_tWriter) ∧
      initHeaderOffset ((AddDocs c sInit docs).Finalize c).m_tWriter
          + ((AddDocs c sInit docs).Finalize c).m_dHeader.length
        = ((AddDocs c sInit docs).Finalize c).m_tWriter.length := by
  obtain ⟨h1, h2, h3, h4, h5, h6, h7, h8⟩ := Init_of_run c sInit fields docs hfresh hreg hn hname
    hbs hdocs hcount hrows hsize hfile
  refine ⟨_, h1, rfl, ?_, ?_, h4, ?_, ?_⟩
  · simp only [List.length_map]; exact h3.symm
  · simp only [List.length_map]; exact h7
  · exact chained_next _ _ _ h5
  · rw [h4]; exact h6

theorem C31_directory_round_trip_witness :
    (boundaryBuilder.fresh ∧
      boundaryBuilder.m_tFields = (AddFields {} [([102], DOCSTORE_TEXT)]).1 ∧
      ([([102], DOCSTORE_TEXT)] : List (List BYTE × Nat)).length < 2147483648 ∧
      (∀ fld ∈ ([([102], DOCSTORE_TEXT)] : List (List BYTE × Nat)), fld.1.length < DWORD_MOD) ∧
      boundaryBuilder.m_uBlockSize < DWORD_MOD ∧
      ([(0, { m_dFields := [[1, 2, 3]] }), (1, { m_dFields := [[4, 5]] })]
        : List (Nat × Doc_t)) ≠ [] ∧
      ([(0, { m_dFields := [[1, 2, 3]] }), (1, { m_dFields := [[4, 5]] })]
        : List (Nat × Doc_t)).length < DWORD_MOD ∧
      (∀ d ∈ ([(0, { m_dFields := [[1, 2, 3]] }), (1, { m_dFields := [[4, 5]] })]
        : List (Nat × Doc_t)), d.1 < DWORD_MOD) ∧
      (∀ b ∈ recordedBlocks Compressor_None_c boundaryBuilder
          [(0, { m_dFields := [[1, 2, 3]] }), (1, { m_dFields := [[4, 5]] })],
        b.1.m_uSize < DWORD_MOD) ∧
      ((AddDocs Compressor_None_c boundaryBuilder
          [(0, { m_dFields := [[1, 2, 3]] }), (1, { m_dFields := [[4, 5]] })]).Finalize
        Compressor_None_c).m_tWriter.length < 18446744073709551616) ∧
    ∃ st : Docstore_c,
      Docstore_c.Init ((AddDocs Compressor_None_c boundaryBuilder
          [(0, { m_dFields := [[1, 2, 3]] }), (1, { m_dFields := [[4, 5]] })]).Finalize
        Compressor_None_c).m_tWriter = some st ∧
      st.m_dBlocks = (recordedBlocks Compressor_None_c boundaryBuilder
          [(0, { m_dFields := [[1, 2, 3]] }), (1, { m_dFields := [[4, 5]] })]).map Prod.fst :=
  ⟨⟨⟨rfl, rfl, rfl, rfl, rfl, rfl, rfl⟩, by decide, by decide, by decide, by decide, by decide,
      by decide, by decide, by decide, by decide⟩,
   (C31_directory_round_trip Compressor_None_c boundaryBuilder [([102], DOCSTORE_TEXT)]
      [(0, { m_dFields := [[1, 2, 3]] }), (1, { m_dFields := [[4, 5]] })]
      ⟨rfl, rfl, rfl, rfl, rfl, rfl, rfl⟩ (by decide) (by decide) (by decide) (by decide)
      (by decide) (by decide) (by decide) (by decide) (by decide)).imp
      (fun _ h => ⟨h.1, h.2.1⟩)⟩

/-! ## The blocks of a run partition the row ids -/

theorem groups_partition :
    ∀ (G : List (Block_t × List StoredDoc_t)) (L : List StoredDoc_t) (r0 : Nat),
      G.flatMap Prod.snd = L →
      (∀ g ∈ G, g.2 ≠ [] ∧ g.1.m_tRowID = (g.2.getD 0 default).m_tRowID) →
      (∀ i, i < L.length → (L.getD i default).m_tRowID = r0 + i) →
      (∀ g ∈ G, r0 ≤ g.1.m_tRowID) ∧
      (G.map Prod.fst).Pairwise (fun a b => a.m_tRowID < b.m_tRowID) ∧
      ∀ i, i < L.length → ∃ j, j < G.length ∧ (G.getD j default).1.m_tRowID ≤ r0 + i ∧
        (j + 1 = G.length ∨ r0 + i < (G.getD (j + 1) default).1.m_tRowID) ∧
        (G.getD j default).2.getD (r0 + i - (G.getD j default).1.m_tRowID) default
          = L.getD i default := by
  intro G
  induction G with
  | nil =>
    intro L r0 hL _ _
    simp only [List.flatMap_nil] at hL
    subst hL
    refine ⟨by simp, by simp, ?_⟩
    intro i hi
    simp at hi
  | cons g G1 ih =>
    intro L r0 hL hG hrow
    simp only [List.flatMap_cons] at hL
    obtain ⟨hg1, hg2⟩ := hG g (by simp)
    have hglen : 0 < g.2.length := List.length_pos.mpr hg1
    have hLlen : L.length = g.2.length + (G1.flatMap Prod.snd).length := by
      rw [← hL, List.length_append]
    have hg0 : g.1.m_tRowID = r0 := by
      rw [hg2]
      have h0 := hrow 0 (by omega)
      rw [← hL, List.getD_append _ _ _ _ hglen] at h0
      omega
    obtain ⟨i1, i2, i3⟩ := ih (G1.flatMap Prod.snd) (r0 + g.2.length) rfl
      (fun x hx => hG x (List.mem_cons_of_mem _ hx))
      (by
        intro i hi
        have := hrow (g.2.length + i) (by omega)
        rw [← hL, List.getD_append_right _ _ _ _ (by omega)] at this
        have e : g.2.length + i - g.2.length = i := by omega
        rw [e] at this
        omega)
    refine ⟨?_, ?_, ?_⟩
    · intro x hx
      rcases List.mem_cons.mp hx with hx | hx
      · subst hx; omega
      · have := i1 x hx; omega
    · simp only [List.map_cons]
      refine List.Pairwise.cons ?_ i2
      intro b hb
      obtain ⟨x, hx, rfl⟩ := List.mem_map.mp hb
      have := i1 x hx
      omega
    · intro i hi
      by_cases hlt : i < g.2.length
      · refine ⟨0, by simp, ?_, ?_, ?_⟩
        · simp only [List.getD_cons_zero]; omega
        · cases G1 with
          | nil => left; rfl
          | cons g2 G2 =>
            right
            have := i1 g2 (by simp)
            simp only [List.getD_cons_succ, List.getD_cons_zero]
            omega
        · simp only [List.getD_cons_zero]
          rw [hg0, ← hL, List.getD_append _ _ _ _ hlt]
          have e : r0 + i - r0 = i := by omega
          rw [e]
      · obtain ⟨j, j1, j2, j3, j4⟩ := i3 (i - g.2.length) (by omega)
        have e1 : r0 + g.2.length + (i - g.2.length) = r0 + i := by omega
        rw [e1] at j2 j3 j4
        refine ⟨j + 1, by simp only [List.length_cons]; omega, ?_, ?_, ?_⟩
        · simp only [List.getD_cons_succ]; exact j2
        · simp only [List.getD_cons_succ, List.length_cons]
          rcases j3 with j3 | j3
          · left; omega
          · right; exact j3
        · simp only [List.getD_cons_succ]
          rw [j4, ← hL, List.getD_append_right _ _ _ _ (by omega)]

theorem getD_map_fst (G : List (Block_t × List StoredDoc_t)) (j : Nat) :
    (G.map Prod.fst).getD j default = (G.getD j default).1 := by
  induction G generalizing j with
  | nil => rfl
  | cons g t ih =>
    cases j with
    | zero => rfl
    | succ k => simpa using ih k

theorem consecutive_rows (tFields : DocstoreFields_c) (docs : List (Nat × Doc_t)) (r0 : Nat)
    (hasc : docs.map Prod.fst = List.range' r0 docs.length) :
    (∀ i, i < (docs.map (storedDocOf tFields)).length →
      ((docs.map (storedDocOf tFields)).getD i default).m_tRowID = r0 + i) ∧
    (∀ i d, docs[i]? = some d →
      d.1 = r0 + i ∧ (docs.map (storedDocOf tFields)).getD i default = storedDocOf tFields d) := by
  have key : ∀ i d, docs[i]? = some d →
      d.1 = r0 + i ∧ (docs.map (storedDocOf tFields)).getD i default = storedDocOf tFields d := by
    intro i d hd
    have hi : i < docs.length := by
      by_contra h
      rw [List.getElem?_eq_none (by omega)] at hd
      cases hd
    refine ⟨?_, ?_⟩
    · have h1 : (docs.map Prod.fst)[i]? = some d.1 := by
        rw [List.getElem?_map, hd]; rfl
      rw [hasc, List.getElem?_range' _ _ hi] at h1
      simp only [Option.some.injEq] at h1
      omega
    · rw [List.getD_eq_getElem?_getD, List.getElem?_map, hd]
      rfl
  refine ⟨?_, key⟩
  intro i hi
  rw [List.length_map] at hi
  obtain ⟨k1, k2⟩ := key i (docs.get ⟨i, hi⟩) (List.getElem?_eq_getElem hi)
  rw [k2]
  exact k1

/-- C32: for documents added with consecutive ascending row ids to a fresh
builder (row ids below `0xFFFFFFFF`, the other ranges as for the directory
round trip), the directory `Init`
reads has strictly ascending `m_tRowID` and strictly increasing offsets, the
blocks hold the added documents in their order, and for every added row `r`
`FindBlock ( r )` is the one block `j` with `m_tRowID <= r` that is the last
one or has `r` below the next block's `m_tRowID`; block `j` is the block into
which `WriteBlock` wrote the document of `r`, at position `r - m_tRowID`. -/
theorem C32_directory_partitions_rowids (c : Compressor_i) (sInit : DocstoreBuilder_c)
    (fields : List (List BYTE × Nat)) (docs : List (Nat × Doc_t)) (r0 : Nat)
    (hfresh : sInit.fresh)
    (hreg : sInit.m_tFields = (AddFields {} fields).1) (hn : fields.length < 2147483648)
    (hname : ∀ fld ∈ fields, fld.1.length < DWORD_MOD)
    (hbs : sInit.m_uBlockSize < DWORD_MOD)
    (hdocs : docs ≠ [])
    (hasc : docs.map Prod.fst = List.range' r0 docs.length)
    (hmax : r0 + docs.length < DWORD_MOD)
    (hsize : ∀ b ∈ recordedBlocks c sInit docs, b.1.m_uSize < DWORD_MOD)
    (hfile : ((AddDocs c sInit docs).Finalize c).m_tWriter.length < 18446744073709551616) :
    ∃ st : Docstore_c,
      Docstore_c.Init ((AddDocs c sInit docs).Finalize c).m_tWriter = some st ∧
      st.m_dBlocks = (recordedBlocks c sInit docs).map Prod.fst ∧
      st.m_dBlocks.Pairwise (fun a b => a.m_tRowID < b.m_tRowID) ∧
      st.m_dBlocks.Pairwise (fun a b => a.m_tOffset < b.m_tOffset) ∧
      (recordedBlocks c sInit docs).flatMap Prod.snd = docs.map (storedDocOf sInit.m_tFields) ∧
      ∀ i d, docs[i]? = some d →
        d.1 = r0 + i ∧
        ∃ j, FindBlock st.m_dBlocks (r0 + i) = some j ∧
          (∀ k, (k < st.m_dBlocks.length ∧ (st.m_dBlocks.getD k default).m_tRowID ≤ r0 + i ∧
              (k + 1 = st.m_dBlocks.length ∨
                r0 + i < (st.m_dBlocks.getD (k + 1) default).m_tRowID)) ↔ k = j) ∧
          ((recordedBlocks c sInit docs).getD j default).2.getD
              (r0 + i - (st.m_dBlocks.getD j default).m_tRowID) default
            = storedDocOf sInit.m_tFields d := by
  have hrows : ∀ d ∈ docs, d.1 < DWORD_MOD := by
    intro d hd
    have : d.1 ∈ docs.map Prod.fst := List.mem_map.mpr ⟨d, hd, rfl⟩
    rw [hasc, List.mem_range'_1] at this
    omega
  have hcount : docs.length < DWORD_MOD := by omega
  obtain ⟨h1, h2, h3, h4, h5, h6, h7, h8⟩ := Init_of_run c sInit fields docs hfresh hreg hn hname
    hbs hdocs hcount hrows hsize hfile
  obtain ⟨hw, hh, hs, hl, hnb, hpo, hpr⟩ := hfresh
  obtain ⟨_, _, _, r4⟩ := recordedBlocks_run c docs sInit
  have hpart := recordedBlocks_docs c docs sInit
  rw [hs, List.nil_append] at hpart
  obtain ⟨cr1, cr2⟩ := consecutive_rows sInit.m_tFields docs r0 hasc
  obtain ⟨g1, g2, g3⟩ := groups_partition (recordedBlocks c sInit docs)
    (docs.map (storedDocOf sInit.m_tFields)) r0 hpart
    (fun g hg => ⟨(r4 g hg).2.2.1, (r4 g hg).2.2.2⟩) cr1
  have hB : (recordedBlocks c sInit docs).map Prod.fst ≠ [] := by
    intro h
    have := congrArg List.length h
    simp only [List.length_map, List.length_nil] at this
    omega
  refine ⟨_, h1, rfl, g2, (chained_bounds _ _ _ h5).2.2, hpart, ?_⟩
  intro i d hd
  obtain ⟨d1, d2⟩ := cr2 i d hd
  have hi : i < (docs.map (storedDocOf sInit.m_tFields)).length := by
    rw [List.length_map]
    by_contra h
    rw [List.getElem?_eq_none (by omega)] at hd
    cases hd
  obtain ⟨j, j1, j2, j3, j4⟩ := g3 i hi
  have hF := (FindBlock_spec ((recordedBlocks c sInit docs).map Prod.fst) (r0 + i) hB g2).2
  have hcond : j < ((recordedBlocks c sInit docs).map Prod.fst).length ∧
      (((recordedBlocks c sInit docs).map Prod.fst).getD j default).m_tRowID ≤ r0 + i ∧
      (j + 1 = ((recordedBlocks c sInit docs).map Prod.fst).length ∨
        r0 + i < (((recordedBlocks c sInit docs).map Prod.fst).getD (j + 1) default).m_tRowID) := by
    rw [List.length_map, getD_map_fst, getD_map_fst]
    exact ⟨j1, j2, j3⟩
  have hfind := (hF j).mpr hcond
  refine ⟨d1, j, hfind, ?_, ?_⟩
  · intro k
    constructor
    · intro hk
      have := (hF k).mpr hk
      rw [hfind] at this
      exact (Option.some.inj this).symm
    · intro hk
      subst hk
      exact hcond
  · simp only
    rw [getD_map_fst, j4, d2]

theorem C32_directory_partitions_rowids_witness :
    (tinyBuilder.fresh ∧
      tinyBuilder.m_tFields = (AddFields {} [([102], DOCSTORE_TEXT)]).1 ∧
      ([([102], DOCSTORE_TEXT)] : List (List BYTE × Nat)).length < 2147483648 ∧
      (∀ fld ∈ ([([102], DOCSTORE_TEXT)] : List (List BYTE × Nat)), fld.1.length < DWORD_MOD) ∧
      tinyBuilder.m_uBlockSize < DWORD_MOD ∧
      ([(5, { m_dFields := [[97, 98, 99]] }), (6, { m_dFields := [[100, 101]] }),
        (7, { m_dFields := [[102]] })] : List (Nat × Doc_t)) ≠ [] ∧
      ([(5, { m_dFields := [[97, 98, 99]] }), (6, { m_dFields := [[100, 101]] }),
        (7, { m_dFields := [[102]] })] : List (Nat × Doc_t)).map Prod.fst
        = List.range' 5 ([(5, { m_dFields := [[97, 98, 99]] }),
            (6, { m_dFields := [[100, 101]] }), (7, { m_dFields := [[102]] })]
          : List (Nat × Doc_t)).length ∧
      5 + ([(5, { m_dFields := [[97, 98, 99]] }), (6, { m_dFields := [[100, 101]] }),
        (7, { m_dFields := [[102]] })] : List (Nat × Doc_t)).length < DWORD_MOD ∧
      (∀ b ∈ recordedBlocks Compressor_None_c tinyBuilder
          [(5, { m_dFields := [[97, 98, 99]] }), (6, { m_dFields := [[100, 101]] }),
            (7, { m_dFields := [[102]] })],
        b.1.m_uSize < DWORD_MOD) ∧
      ((AddDocs Compressor_None_c tinyBuilder
          [(5, { m_dFields := [[97, 98, 99]] }), (6, { m_dFields := [[100, 101]] }),
            (7, { m_dFields := [[102]] })]).Finalize
        Compressor_None_c).m_tWriter.length < 18446744073709551616) ∧
    (recordedBlocks Compressor_None_c tinyBuilder
        [(5, { m_dFields := [[97, 98, 99]] }), (6, { m_dFields := [[100, 101]] }),
          (7, { m_dFields := [[102]] })]).map (fun g => (g.1.m_tRowID, g.2.length))
      = [(5, 1), (6, 2)] ∧
    ∃ st : Docstore_c,
      Docstore_c.Init ((AddDocs Compressor_None_c tinyBuilder
          [(5, { m_dFields := [[97, 98, 99]] }), (6, { m_dFields := [[100, 101]] }),
            (7, { m_dFields := [[102]] })]).Finalize
        Compressor_None_c).m_tWriter = some st ∧
      st.m_dBlocks.Pairwise (fun a b => a.m_tRowID < b.m_tRowID) ∧
      st.m_dBlocks.Pairwise (fun a b => a.m_tOffset < b.m_tOffset) :=
  ⟨⟨⟨rfl, rfl, rfl, rfl, rfl, rfl, rfl⟩, by decide, by decide, by decide, by decide, by decide,
      by decide, by decide, by decide, by decide⟩,
   by decide,
   (C32_directory_partitions_rowids Compressor_None_c tinyBuilder [([102], DOCSTORE_TEXT)]
      [(5, { m_dFields := [[97, 98, 99]] }), (6, { m_dFields := [[100, 101]] }),
        (7, { m_dFields := [[102]] })] 5
      ⟨rfl, rfl, rfl, rfl, rfl, rfl, rfl⟩ (by decide) (by decide) (by decide) (by decide)
      (by decide) (by decide) (by decide) (by decide) (by decide)).imp
      (fun _ h => ⟨h.1, h.2.2.1, h.2.2.2.1⟩)⟩

/-! ## Opening the file of a run -/

theorem readDirectory_length :
    ∀ (n : Nat) (r : CSphReader) (tPrevRow tPrevOff : Nat),
      (readDirectory n r tPrevRow tPrevOff).1.length = n := by
  intro n
  induction n with
  | zero => intro r a b; rfl
  | succ k ih =>
    intro r a b
    simp only [readDirectory, List.length_cons, ih]

/-- C39: the claim covers the file of a builder to which no document was added,
and there the code leaves the bounds of the directory. `Finalize` records the
block count 0; `Init` reads the count 0 from this file (the version check
passes), so `assert ( uNumBlocks )` fails; the directory it builds has no entry,
and `m_dBlocks.Last()`, whose `m_uSize` is assigned next, is no entry of it. -/
theorem C39_empty_store_no_last_entry :
    (boundaryBuilder.Finalize Compressor_None_c).m_iNumBlocks = 0 ∧
    storageVersion (boundaryBuilder.Finalize Compressor_None_c).m_tWriter = STORAGE_VERSION ∧
    initNumBlocks (boundaryBuilder.Finalize Compressor_None_c).m_tWriter = 0 ∧
    (readDirectory (initNumBlocks (boundaryBuilder.Finalize Compressor_None_c).m_tWriter)
      ⟨(boundaryBuilder.Finalize Compressor_None_c).m_tWriter,
        initHeaderOffset (boundaryBuilder.Finalize Compressor_None_c).m_tWriter, false⟩
      0 0).1.getLast? = none ∧
    (Docstore_c.Init (boundaryBuilder.Finalize Compressor_None_c).m_tWriter).isNone = true := by
  refine ⟨by decide!, by decide!, by decide!, by decide!, by decide!⟩

/-- The part of C39 for one or more documents: for the file of a run of one or
more `AddDoc` calls and `Finalize` on a fresh builder (ranges as for the directory round trip), the block count `Init`
reads is the count the builder recorded, it is between 1 and the number of
documents, the directory `Init` reads has exactly that many entries, so that its
last entry exists, and `Init` opens the file. -/
theorem C39_open_in_bounds (c : Compressor_i) (sInit : DocstoreBuilder_c)
    (fields : List (List BYTE × Nat)) (docs : List (Nat × Doc_t))
    (hfresh : sInit.fresh)
    (hreg : sInit.m_tFields = (AddFields {} fields).1) (hn : fields.length < 2147483648)
    (hname : ∀ fld ∈ fields, fld.1.length < DWORD_MOD)
    (hbs : sInit.m_uBlockSize < DWORD_MOD)
    (hdocs : docs ≠ []) (hcount : docs.length < DWORD_MOD)
    (hrows : ∀ d ∈ docs, d.1 < DWORD_MOD)
    (hsize : ∀ b ∈ recordedBlocks c sInit docs, b.1.m_uSize < DWORD_MOD)
    (hfile : ((AddDocs c sInit docs).Finalize c).m_tWriter.length < 18446744073709551616) :
    initNumBlocks ((AddDocs c sInit docs).Finalize c).m_tWriter
      = ((AddDocs c sInit docs).Finalize c).m_iNumBlocks ∧
    1 ≤ ((AddDocs c sInit docs).Finalize c).m_iNumBlocks ∧
    ((AddDocs c sInit docs).Finalize c).m_iNumBlocks ≤ docs.length ∧
    (readDirectory (initNumBlocks ((AddDocs c sInit docs).Finalize c).m_tWriter)
      ⟨((AddDocs c sInit docs).Finalize c).m_tWriter,
        initHeaderOffset ((AddDocs c sInit docs).Finalize c).m_tWriter, false⟩ 0 0).1.length
      = ((AddDocs c sInit docs).Finalize c).m_iNumBlocks ∧
    ∃ st : Docstore_c,
      Docstore_c.Init ((AddDocs c sInit docs).Finalize c).m_tWriter = some st ∧
      st.m_dBlocks.length = ((AddDocs c sInit docs).Finalize c).m_iNumBlocks ∧
      st.m_dBlocks.getLast? ≠ none := by
  obtain ⟨h1, h2, h3, h4, h5, h6, h7, h8⟩ := Init_of_run c sInit fields docs hfresh hreg hn hname
    hbs hdocs hcount hrows hsize hfile
  refine ⟨by rw [h2, h3], by rw [h3]; exact h7, by rw [h3]; exact h8, ?_, _, h1, ?_, ?_⟩
  · rw [readDirectory_length, h2, h3]
  · simp only [List.length_map]; exact h3.symm
  · simp only
    intro h
    rw [List.getLast?_eq_none_iff] at h
    have := congrArg List.length h
    simp only [List.length_map, List.length_nil] at this
    omega

theorem C39_open_in_bounds_witness :
    (boundaryBuilder.fresh ∧
      boundaryBuilder.m_tFields = (AddFields {} [([102], DOCSTORE_TEXT)]).1 ∧
      ([([102], DOCSTORE_TEXT)] : List (List BYTE × Nat)).length < 2147483648 ∧
      (∀ fld ∈ ([([102], DOCSTORE_TEXT)] : List (List BYTE × Nat)), fld.1.length < DWORD_MOD) ∧
      boundaryBuilder.m_uBlockSize < DWORD_MOD ∧
      ([(0, { m_dFields := [[7]] })] : List (Nat × Doc_t)) ≠ [] ∧
      ([(0, { m_dFields := [[7]] })] : List (Nat × Doc_t)).length < DWORD_MOD ∧
      (∀ d ∈ ([(0, { m_dFields := [[7]] })] : List (Nat × Doc_t)), d.1 < DWORD_MOD) ∧
      (∀ b ∈ recordedBlocks Compressor_None_c boundaryBuilder [(0, { m_dFields := [[7]] })],
        b.1.m_uSize < DWORD_MOD) ∧
      ((AddDocs Compressor_None_c boundaryBuilder [(0, { m_dFields := [[7]] })]).Finalize
        Compressor_None_c).m_tWriter.length < 18446744073709551616) ∧
    initNumBlocks ((AddDocs Compressor_None_c boundaryBuilder
        [(0, { m_dFields := [[7]] })]).Finalize Compressor_None_c).m_tWriter
      = ((AddDocs Compressor_None_c boundaryBuilder
        [(0, { m_dFields := [[7]] })]).Finalize Compressor_None_c).m_iNumBlocks ∧
    1 ≤ ((AddDocs Compressor_None_c boundaryBuilder
        [(0, { m_dFields := [[7]] })]).Finalize Compressor_None_c).m_iNumBlocks :=
  ⟨⟨⟨rfl, rfl, rfl, rfl, rfl, rfl, rfl⟩, by decide, by decide, by decide, by decide, by decide,
      by decide, by decide, by decide, by decide⟩,
   (C39_open_in_bounds Compressor_None_c boundaryBuilder [([102], DOCSTORE_TEXT)]
      [(0, { m_dFields := [[7]] })]
      ⟨rfl, rfl, rfl, rfl, rfl, rfl, rfl⟩ (by decide) (by decide) (by decide) (by decide)
      (by decide) (by decide) (by decide) (by decide) (by decide)).1,
   (C39_open_in_bounds Compressor_None_c boundaryBuilder [([102], DOCSTORE_TEXT)]
      [(0, { m_dFields := [[7]] })]
      ⟨rfl, rfl, rfl, rfl, rfl, rfl, rfl⟩ (by decide) (by decide) (by decide) (by decide)
      (by decide) (by decide) (by decide) (by decide) (by decide)).2.1⟩

/-! ## Block cache: the linked list in memory -/

theorem linkAt_update (m : Nat → Option LinkedNode_t) (p q : Nat) (n : LinkedNode_t) :
    linkAt (Function.update m p (some n)) q
      = if q = p then some (n.m_pPrev, n.m_pNext) else linkAt m q := by
  unfold linkAt
  by_cases h : q = p
  · subst h; simp
  · simp [h, Function.update_noteq h]

theorem linkAt_some (m : Nat → Option LinkedNode_t) (p : Nat) (a b : Option Nat)
    (h : linkAt m p = some (a, b)) : ∃ n, m p = some n ∧ n.m_pPrev = a ∧ n.m_pNext = b := by
  unfold linkAt at h
  cases hn : m p with
  | none => rw [hn] at h; cases h
  | some n =>
    rw [hn] at h
    simp only [Option.map_some', Option.some.injEq, Prod.mk.injEq] at h
    exact ⟨n, rfl, h.1, h.2⟩

theorem seg_congr (m1 m2 : Nat → Option LinkedNode_t) :
    ∀ (l : List Nat) (a b : Option Nat), seg m1 a l b →
      (∀ q ∈ l, linkAt m2 q = linkAt m1 q) → seg m2 a l b := by
  intro l
  induction l with
  | nil => intro _ _ _ _; trivial
  | cons p rest ih =>
    intro a b h hq
    obtain ⟨h1, h2⟩ := h
    exact ⟨by rw [hq p (by simp)]; exact h1,
      ih _ _ h2 (fun q hq1 => hq q (List.mem_cons_of_mem _ hq1))⟩

theorem firstOr_append (l1 l2 : List Nat) (d : Option Nat) :
    firstOr (l1 ++ l2) d = firstOr l1 (firstOr l2 d) := by
  cases l1 <;> rfl

theorem lastOr_cons (p : Nat) (l : List Nat) (d : Option Nat) :
    lastOr (p :: l) d = lastOr l (some p) := by
  cases l with
  | nil => rfl
  | cons q t =>
    have h : (q :: t).getLast? = some ((q :: t).getLast (by simp)) := List.getLast?_eq_getLast _ _
    simp only [lastOr, List.getLast?_cons_cons, h]

theorem lastOr_append_singleton (l : List Nat) (x : Nat) (d : Option Nat) :
    lastOr (l ++ [x]) d = some x := by
  simp [lastOr]

theorem seg_append (m : Nat → Option LinkedNode_t) :
    ∀ (l1 l2 : List Nat) (a b : Option Nat),
      seg m a (l1 ++ l2) b ↔ (seg m a l1 (firstOr l2 b) ∧ seg m (lastOr l1 a) l2 b) := by
  intro l1
  induction l1 with
  | nil =>
    intro l2 a b
    simp [seg, lastOr]
  | cons p rest ih =>
    intro l2 a b
    have h1 : seg m a (p :: rest ++ l2) b
        ↔ (linkAt m p = some (a, firstOr (rest ++ l2) b) ∧ seg m (some p) (rest ++ l2) b) :=
      Iff.rfl
    have h2 : seg m a (p :: rest) (firstOr l2 b)
        ↔ (linkAt m p = some (a, firstOr rest (firstOr l2 b))
            ∧ seg m (some p) rest (firstOr l2 b)) := Iff.rfl
    rw [h1, h2, ih, firstOr_append, lastOr_cons]
    constructor
    · rintro ⟨h1, h2, h3⟩; exact ⟨⟨h1, h2⟩, h3⟩
    · rintro ⟨⟨h1, h2⟩, h3⟩; exact ⟨h1, h2, h3⟩

theorem seg_mem (m : Nat → Option LinkedNode_t) :
    ∀ (l : List Nat) (a b : Option Nat), seg m a l b → ∀ q ∈ l, (m q).isSome = true := by
  intro l
  induction l with
  | nil => intro _ _ _ q hq; simp at hq
  | cons p rest ih =>
    intro a b h q hq
    obtain ⟨h1, h2⟩ := h
    rcases List.mem_cons.mp hq with hq | hq
    · subst hq
      obtain ⟨n, hn, _⟩ := linkAt_some m q _ _ h1
      rw [hn]; rfl
    · exact ih _ _ h2 q hq

/-- The assignment of `m_pNext` of the last node of a segment. -/
theorem seg_setNext_last (m : Nat → Option LinkedNode_t) (l : List Nat) (x : Nat)
    (a b b2 : Option Nat) (n : LinkedNode_t) (hnd : (l ++ [x]).Nodup)
    (h : seg m a (l ++ [x]) b) (hn : m x = some n) :
    seg (Function.update m x (some { n with m_pNext := b2 })) a (l ++ [x]) b2 := by
  rw [seg_append] at h ⊢
  obtain ⟨h1, h2⟩ := h
  have hx : x ∉ l := by
    intro hx
    have := List.nodup_append.mp hnd
    exact this.2.2 hx (by simp) 
  refine ⟨seg_congr m _ l _ _ h1 ?_, ?_⟩
  · intro q hq
    rw [linkAt_update, if_neg (fun (h : q = x) => hx (h ▸ hq))]
  · obtain ⟨h3, _⟩ := h2
    refine ⟨?_, trivial⟩
    rw [linkAt_update, if_pos rfl]
    obtain ⟨n1, hn1, hp, _⟩ := linkAt_some m x _ _ h3
    rw [hn] at hn1
    cases hn1
    simp only [firstOr]
    rw [hp]

/-- The assignment of `m_pPrev` of the first node of a segment. -/
theorem seg_setPrev_first (m : Nat → Option LinkedNode_t) (l : List Nat) (x : Nat)
    (a a2 b : Option Nat) (n : LinkedNode_t) (hnd : (x :: l).Nodup)
    (h : seg m a (x :: l) b) (hn : m x = some n) :
    seg (Function.update m x (some { n with m_pPrev := a2 })) a2 (x :: l) b := by
  obtain ⟨h1, h2⟩ := h
  have hx : x ∉ l := (List.nodup_cons.mp hnd).1
  refine ⟨?_, seg_congr m _ l _ _ h2 ?_⟩
  · rw [linkAt_update, if_pos rfl]
    obtain ⟨n1, hn1, _, hq⟩ := linkAt_some m x _ _ h1
    rw [hn] at hn1
    cases hn1
    rw [hq]
  · intro q hq
    rw [linkAt_update, if_neg (fun (h : q = x) => hx (h ▸ hq))]

theorem seg_walkNext (m : Nat → Option LinkedNode_t) :
    ∀ (l : List Nat) (a : Option Nat) (fuel : Nat), seg m a l none → l.length ≤ fuel →
      walkNext m fuel (firstOr l none) = l := by
  intro l
  induction l with
  | nil =>
    intro a fuel _ _
    cases fuel <;> rfl
  | cons p rest ih =>
    intro a fuel h hf
    obtain ⟨h1, h2⟩ := h
    cases fuel with
    | zero => simp at hf
    | succ k =>
      obtain ⟨n, hn, _, hq⟩ := linkAt_some m p _ _ h1
      have hw : walkNext m (k + 1) (firstOr (p :: rest) none)
          = p :: walkNext m k ((m p).bind (fun n => n.m_pNext)) := rfl
      rw [hw, hn, Option.some_bind, hq, ih (some p) k h2 (by simpa using hf)]

theorem seg_walkPrev (m : Nat → Option LinkedNode_t) :
    ∀ (l : List Nat) (b : Option Nat) (fuel : Nat), seg m none l b → l.length ≤ fuel →
      walkPrev m fuel (lastOr l none) = l.reverse := by
  intro l
  induction l using List.reverseRecOn with
  | nil =>
    intro b fuel _ _
    cases fuel <;> rfl
  | append_singleton rest x ih =>
    intro b fuel h hf
    rw [seg_append] at h
    obtain ⟨h1, h2, _⟩ := h
    cases fuel with
    | zero => simp at hf
    | succ k =>
      obtain ⟨n, hn, hp, _⟩ := linkAt_some m x _ _ h2
      have hw : walkPrev m (k + 1) (some x)
          = x :: walkPrev m k ((m x).bind (fun n => n.m_pPrev)) := rfl
      rw [lastOr_append_singleton, hw, hn, Option.some_bind, hp,
        ih (firstOr [x] b) k h1 (by simpa using hf)]
      simp


theorem linkAt_eq_of_eq (m1 m2 : Nat → Option LinkedNode_t) (q : Nat) (h : m1 q = m2 q) :
    linkAt m1 q = linkAt m2 q := by
  unfold linkAt
  rw [h]

theorem unlink_prev (s : PtrCache_c) (A : List Nat) (a0 b0 pNext : Option Nat)
    (hnd : A.Nodup) (hseg : seg s.m_dNodes a0 A b0) :
    ∃ m1, (match lastOr A none with
        | some q => s.setNext q pNext
        | none => some s) = some { s with m_dNodes := m1 } ∧
      seg m1 a0 A pNext ∧ (∀ q, q ∉ A → m1 q = s.m_dNodes q) ∧
      (∀ q, (m1 q).map (fun n => n.m_tBlock) = (s.m_dNodes q).map (fun n => n.m_tBlock)) := by
  rcases List.eq_nil_or_concat A with rfl | ⟨A1, a, hA⟩
  · exact ⟨s.m_dNodes, rfl, trivial, fun _ _ => rfl, fun _ => rfl⟩
  · rw [List.concat_eq_append] at hA
    subst hA
    have hs := seg_mem s.m_dNodes _ _ _ hseg a (by simp)
    obtain ⟨na, hna⟩ := Option.isSome_iff_exists.mp hs
    refine ⟨Function.update s.m_dNodes a (some { na with m_pNext := pNext }), ?_, ?_, ?_, ?_⟩
    · rw [lastOr_append_singleton]
      simp only [PtrCache_c.setNext, hna, PtrCache_c.setNode]
    · exact seg_setNext_last s.m_dNodes A1 a a0 b0 pNext na hnd hseg hna
    · intro q hq
      have : q ≠ a := fun h => hq (by rw [h]; simp)
      exact Function.update_noteq this _ _
    · intro q
      by_cases h : q = a
      · subst h; simp [hna]
      · rw [Function.update_noteq h]

theorem unlink_next (s : PtrCache_c) (B : List Nat) (a0 b0 pPrev : Option Nat)
    (hnd : B.Nodup) (hseg : seg s.m_dNodes a0 B b0) :
    ∃ m1, (match firstOr B none with
        | some q => s.setPrev q pPrev
        | none => some s) = some { s with m_dNodes := m1 } ∧
      seg m1 pPrev B b0 ∧ (∀ q, q ∉ B → m1 q = s.m_dNodes q) ∧
      (∀ q, (m1 q).map (fun n => n.m_tBlock) = (s.m_dNodes q).map (fun n => n.m_tBlock)) := by
  cases B with
  | nil => exact ⟨s.m_dNodes, rfl, trivial, fun _ _ => rfl, fun _ => rfl⟩
  | cons b B1 =>
    have hs := seg_mem s.m_dNodes _ _ _ hseg b (by simp)
    obtain ⟨nb, hnb⟩ := Option.isSome_iff_exists.mp hs
    refine ⟨Function.update s.m_dNodes b (some { nb with m_pPrev := pPrev }), ?_, ?_, ?_, ?_⟩
    · simp only [firstOr, PtrCache_c.setPrev, hnb, PtrCache_c.setNode]
    · exact seg_setPrev_first s.m_dNodes B1 b a0 pPrev b0 nb hnd hseg hnb
    · intro q hq
      have : q ≠ b := fun h => hq (by rw [h]; simp)
      exact Function.update_noteq this _ _
    · intro q
      by_cases h : q = b
      · subst h; simp [hnb]
      · rw [Function.update_noteq h]

/-- The two statements that link the neighbours of a node of the list to each
other take the node out of the chain of links. -/
theorem unlink_spec (s : PtrCache_c) (A B : List Nat) (p : Nat)
    (hnd : (A ++ p :: B).Nodup) (hseg : seg s.m_dNodes none (A ++ p :: B) none) :
    ∃ m2, s.unlink p = some { s with m_dNodes := m2 } ∧
      seg m2 none (A ++ B) none ∧ m2 p = s.m_dNodes p ∧
      (∀ q, q ∉ A ++ B → m2 q = s.m_dNodes q) ∧
      (∀ q, (m2 q).map (fun n => n.m_tBlock) = (s.m_dNodes q).map (fun n => n.m_tBlock)) := by
  have hndA : A.Nodup := (List.nodup_append.mp hnd).1
  have hndpB : (p :: B).Nodup := (List.nodup_append.mp hnd).2.1
  have hndB : B.Nodup := (List.nodup_cons.mp hndpB).2
  have hpB : p ∉ B := (List.nodup_cons.mp hndpB).1
  have hdisj : ∀ q, q ∈ A → q ∈ p :: B → False := fun q h1 h2 =>
    (List.nodup_append.mp hnd).2.2 h1 h2
  have hpA : p ∉ A := fun h => hdisj p h (by simp)
  obtain ⟨hA, hpB2⟩ := (seg_append s.m_dNodes A (p :: B) none none).mp hseg
  obtain ⟨hp, hB⟩ := hpB2
  obtain ⟨n, hn, hprev, hnext⟩ := linkAt_some s.m_dNodes p _ _ hp
  obtain ⟨m1, e1, s1, f1, k1⟩ := unlink_prev s A none (firstOr (p :: B) none) n.m_pNext hndA hA
  have hm1p : m1 p = some n := by rw [f1 p hpA, hn]
  have hB1 : seg m1 (some p) B none :=
    seg_congr s.m_dNodes m1 B _ _ hB
      (fun q hq => linkAt_eq_of_eq _ _ q (f1 q (fun h => hdisj q h (List.mem_cons_of_mem _ hq))))
  obtain ⟨m2, e2, s2, f2, k2⟩ := unlink_next { s with m_dNodes := m1 } B (some p) none
    n.m_pPrev hndB hB1
  refine ⟨m2, ?_, ?_, ?_, ?_, ?_⟩
  · unfold PtrCache_c.unlink
    rw [hn]
    simp only
    rw [hprev, e1]
    simp only
    rw [hm1p]
    simp only
    rw [hnext, e2]
  · rw [seg_append]
    refine ⟨?_, ?_⟩
    · rw [← hnext]
      exact seg_congr m1 m2 A _ _ s1
        (fun q hq => linkAt_eq_of_eq _ _ q
          (f2 q (fun h => hdisj q hq (List.mem_cons_of_mem _ h))))
    · rw [← hprev]
      exact s2
  · rw [f2 p hpB]
    exact hm1p.trans hn.symm
  · intro q hq
    exact (f2 q (fun h => hq (List.mem_append_right _ h))).trans
      (f1 q (fun h => hq (List.mem_append_left _ h)))
  · intro q
    rw [k2 q]
    exact k1 q


/-- Two memories with the same key at an address both hold a node there or both
hold none. -/
theorem keyAt_isSome (m1 m2 : Nat → Option LinkedNode_t) (q : Nat)
    (h : (m1 q).map (fun n => n.m_tBlock.m_tKey) = (m2 q).map (fun n => n.m_tBlock.m_tKey)) :
    (m1 q).isSome = (m2 q).isSome := by
  have := congrArg Option.isSome h
  simpa using this

theorem keyAt_of_block (m1 m2 : Nat → Option LinkedNode_t) (q : Nat)
    (h : (m1 q).map (fun n => n.m_tBlock) = (m2 q).map (fun n => n.m_tBlock)) :
    (m1 q).map (fun n => n.m_tBlock.m_tKey) = (m2 q).map (fun n => n.m_tBlock.m_tKey) := by
  have := congrArg (Option.map (fun b : LinkedBlock_t => b.m_tKey)) h
  simpa [Option.map_map, Function.comp] using this

theorem keyAt_update (m : Nat → Option LinkedNode_t) (p q : Nat) (n0 n : LinkedNode_t)
    (h0 : m p = some n0) (hk : n.m_tBlock.m_tKey = n0.m_tBlock.m_tKey) :
    (Function.update m p (some n) q).map (fun n => n.m_tBlock.m_tKey)
      = (m q).map (fun n => n.m_tBlock.m_tKey) := by
  by_cases h : q = p
  · subst h; simp [h0, hk]
  · rw [Function.update_noteq h]

theorem firstOr_none (l : List Nat) : firstOr l none = l.head? := by
  cases l <;> rfl

theorem lastOr_none (l : List Nat) : lastOr l none = l.getLast? := by
  unfold lastOr
  cases l.getLast? <;> rfl

/-- A state with the same hash and the same keys at all addresses, whose nodes
are linked along a permutation of the list, has the structure of the cache. -/
theorem linked_of_keys (s s2 : PtrCache_c) (ids ids2 : List Nat) (h : s.linked ids)
    (hperm : ids2.Perm ids) (hseg : seg s2.m_dNodes none ids2 none)
    (hkey : ∀ q, (s2.m_dNodes q).map (fun n => n.m_tBlock.m_tKey)
      = (s.m_dNodes q).map (fun n => n.m_tBlock.m_tKey))
    (hhash : s2.m_tHash = s.m_tHash) (hhead : s2.m_pHead = ids2.head?)
    (htail : s2.m_pTail = ids2.getLast?) : s2.linked ids2 := by
  obtain ⟨h1, _, _, _, h5, h6, h7, h8⟩ := h
  refine ⟨hperm.nodup_iff.mpr h1, hhead, htail, hseg, ?_, by rw [hhash]; exact h6,
    by rw [hhash]; exact h7.trans hperm.symm, ?_⟩
  · intro p hp
    rw [keyAt_isSome _ _ p (hkey p)] at hp
    exact hperm.symm.subset (h5 p hp)
  · intro e he
    rw [hhash] at he
    obtain ⟨n, hn, hk⟩ := h8 e he
    have := hkey e.2
    rw [hn] at this
    cases hn2 : s2.m_dNodes e.2 with
    | none => rw [hn2] at this; cases this
    | some n2 =>
      rw [hn2] at this
      simp only [Option.map_some', Option.some.injEq] at this
      exact ⟨n2, rfl, this.trans hk⟩

theorem split_of_mem (ids : List Nat) (p : Nat) (hnd : ids.Nodup) (hp : p ∈ ids) :
    ∃ A B, ids = A ++ p :: B ∧ p ∉ A ∧ p ∉ B ∧ ids.erase p = A ++ B := by
  obtain ⟨A, B, rfl⟩ := List.append_of_mem hp
  have hpA : p ∉ A := fun h => (List.nodup_append.mp hnd).2.2 h (by simp)
  have hpB : p ∉ B := (List.nodup_cons.mp (List.nodup_append.mp hnd).2.1).1
  refine ⟨A, B, rfl, hpA, hpB, ?_⟩
  rw [List.erase_append_right _ hpA]
  simp

/-- `MoveToHead` of a node of the list makes it the head and keeps the order of
the other nodes. -/
theorem MoveToHead_linked (s : PtrCache_c) (ids : List Nat) (p : Nat) (h : s.linked ids)
    (hp : p ∈ ids) :
    ∃ s2, s.MoveToHead p = some s2 ∧ s2.linked (p :: ids.erase p) ∧
      s2.m_tHash = s.m_tHash ∧ s2.m_iCacheSize = s.m_iCacheSize ∧
      s2.m_iMemUsed = s.m_iMemUsed ∧
      (∀ q, (s2.m_dNodes q).map (fun n => n.m_tBlock) = (s.m_dNodes q).map (fun n => n.m_tBlock)) := by
  have h0 := h
  obtain ⟨h1, h2, h3, h4, h5, h6, h7, h8⟩ := h
  obtain ⟨A, B, hids, hpA, hpB, herase⟩ := split_of_mem ids p h1 hp
  by_cases hhead : s.m_pHead = some p
  · have hA : A = [] := by
      cases A with
      | nil => rfl
      | cons a A2 =>
        rw [hids] at h2
        rw [h2] at hhead
        simp only [List.cons_append, List.head?_cons, Option.some.injEq] at hhead
        exact absurd (by rw [hhead]; simp) hpA
    subst hA
    refine ⟨s, ?_, ?_, rfl, rfl, rfl, fun _ => rfl⟩
    · unfold PtrCache_c.MoveToHead
      rw [if_pos hhead]
    · rw [herase]
      rw [hids] at h0
      exact h0
  · obtain ⟨a0, A2, hA⟩ : ∃ a0 A2, A = a0 :: A2 := by
      cases A with
      | nil =>
        rw [hids] at h2
        exact absurd h2 hhead
      | cons a A2 => exact ⟨a, A2, rfl⟩
    have hheadv : s.m_pHead = some a0 := by rw [h2, hids, hA]; rfl
    rw [hids] at h4 h1
    obtain ⟨hsA, hsp, hsB⟩ := (seg_append s.m_dNodes A (p :: B) none none).mp h4
    obtain ⟨n, hn, hprev, hnext⟩ := linkAt_some s.m_dNodes p _ _ hsp
    have hunl := unlink_spec
      (if s.m_pTail = some p then { s with m_pTail := n.m_pPrev } else s) A B p h1
      (by split <;> exact h4)
    obtain ⟨m2, e2, s2, f2, g2, k2⟩ := hunl
    have hm2 : (if s.m_pTail = some p then ({ s with m_pTail := n.m_pPrev } : PtrCache_c)
        else s).m_dNodes = s.m_dNodes := by split <;> rfl
    have hh2 : (if s.m_pTail = some p then ({ s with m_pTail := n.m_pPrev } : PtrCache_c)
        else s).m_pHead = s.m_pHead := by split <;> rfl
    have hhash2 : (if s.m_pTail = some p then ({ s with m_pTail := n.m_pPrev } : PtrCache_c)
        else s).m_tHash = s.m_tHash := by split <;> rfl
    have hcs2 : (if s.m_pTail = some p then ({ s with m_pTail := n.m_pPrev } : PtrCache_c)
        else s).m_iCacheSize = s.m_iCacheSize := by split <;> rfl
    have hmu2 : (if s.m_pTail = some p then ({ s with m_pTail := n.m_pPrev } : PtrCache_c)
        else s).m_iMemUsed = s.m_iMemUsed := by split <;> rfl
    rw [hm2] at f2 g2 k2
    have ha0p : a0 ≠ p := fun h => hpA (by rw [hA, h]; simp)
    have ha0 : (m2 a0).isSome = true :=
      seg_mem m2 _ _ _ s2 a0 (by rw [hA]; simp)
    obtain ⟨na0, hna0⟩ := Option.isSome_iff_exists.mp ha0
    have hpAB : p ∉ A ++ B := fun h => (List.mem_append.mp h).elim hpA hpB
    have hndAB : (A ++ B).Nodup := by
      have := List.nodup_append.mp h1
      refine List.nodup_append.mpr ⟨this.1, (List.nodup_cons.mp this.2.1).2, ?_⟩
      intro q hq1 hq2
      exact this.2.2 hq1 (List.mem_cons_of_mem _ hq2)
    -- the memory after the four assignments to the links
    have hseg3 : seg (Function.update m2 p
        (some { n with m_pPrev := none, m_pNext := some a0 })) none (A ++ B) none :=
      seg_congr m2 _ (A ++ B) _ _ s2
        (fun q hq => by rw [linkAt_update, if_neg (fun (h : q = p) => hpAB (h ▸ hq))])
    have hm3a0 : Function.update m2 p (some { n with m_pPrev := none, m_pNext := some a0 }) a0
        = some na0 := by
      rw [Function.update_noteq ha0p, hna0]
    have hseg4 := seg_setPrev_first _ (A2 ++ B) a0 none (some p) none na0
      (by rw [← List.cons_append, ← hA]; exact hndAB)
      (by rw [← List.cons_append, ← hA]; exact hseg3) hm3a0
    refine ⟨{ (if s.m_pTail = some p then ({ s with m_pTail := n.m_pPrev } : PtrCache_c)
          else s) with
        m_dNodes := Function.update (Function.update m2 p
          (some { n with m_pPrev := none, m_pNext := some a0 })) a0
          (some { na0 with m_pPrev := some p }),
        m_pHead := some p }, ?_, ?_, hhash2, hcs2, hmu2, ?_⟩
    · unfold PtrCache_c.MoveToHead
      rw [if_neg hhead, hn]
      simp only
      rw [e2]
      simp only
      rw [f2, hn]
      simp only
      rw [hh2, hheadv]
      simp only [PtrCache_c.setPrev, PtrCache_c.setNode, hm3a0]
    · refine linked_of_keys s _ ids (p :: ids.erase p) h0 (List.perm_cons_erase hp).symm ?_ ?_
        hhash2 rfl ?_
      · rw [herase, hA]
        refine ⟨?_, ?_⟩
        · rw [linkAt_update, if_neg (fun h => ha0p h.symm), linkAt_update, if_pos rfl]
          rfl
        · exact hseg4
      · intro q
        by_cases hq : q = a0
        · subst hq
          simp only [Function.update_same, Option.map_some']
          rw [← keyAt_of_block _ _ q (k2 q), hna0]
          rfl
        · by_cases hq2 : q = p
          · subst hq2
            simp only [Function.update_noteq hq, Function.update_same, Option.map_some', hn]
          · simp only [Function.update_noteq hq, Function.update_noteq hq2]
            exact keyAt_of_block _ _ q (k2 q)
      · show (if s.m_pTail = some p then ({ s with m_pTail := n.m_pPrev } : PtrCache_c)
          else s).m_pTail = (p :: ids.erase p).getLast?
        rw [herase, h3, hids]
        cases B with
        | nil =>
          have e1 : (A ++ [p]).getLast? = some p := by simp
          rw [if_pos e1]
          show n.m_pPrev = _
          rw [hprev, lastOr_none, List.append_nil, hA]
          simp [List.getLast?_cons_cons]
        | cons b B2 =>
          have e1 : (A ++ p :: b :: B2).getLast? = (b :: B2).getLast? := by
            rw [List.getLast?_append_of_ne_nil _ (by simp), List.getLast?_cons_cons]
          have e2 : (p :: (A ++ b :: B2)).getLast? = (b :: B2).getLast? := by
            rw [hA]
            simp only [List.cons_append, List.getLast?_cons_cons]
            rw [← List.cons_append, List.getLast?_append_of_ne_nil _ (by simp)]
          have e3 : ¬ (b :: B2).getLast? = some p := by
            intro h
            exact hpB (List.mem_of_getLast?_eq_some h)
          rw [e1, e2, if_neg e3]
          exact h3.trans (by rw [hids, e1])
    · intro q
      by_cases hq : q = a0
      · subst hq
        simp only [Function.update_same, Option.map_some']
        rw [← k2 q, hna0]
        rfl
      · by_cases hq2 : q = p
        · subst hq2
          simp only [Function.update_noteq hq, Function.update_same, Option.map_some', hn]
        · simp only [Function.update_noteq hq, Function.update_noteq hq2]
          exact k2 q


theorem ptrHashFind_some (dHash : List (HashKey_t × Nat)) (tKey : HashKey_t) (p : Nat)
    (h : ptrHashFind dHash tKey = some p) : (tKey, p) ∈ dHash := by
  unfold ptrHashFind at h
  cases hf : dHash.find? (fun e => decide (e.1 = tKey)) with
  | none => rw [hf] at h; cases h
  | some e =>
    rw [hf] at h
    simp only [Option.map_some', Option.some.injEq] at h
    have hm := List.mem_of_find?_eq_some hf
    have hk := List.find?_some hf
    simp only [decide_eq_true_eq] at hk
    have : e = (tKey, p) := Prod.ext hk h
    rw [← this]
    exact hm

theorem ptrHashFind_none (dHash : List (HashKey_t × Nat)) (tKey : HashKey_t)
    (h : ptrHashFind dHash tKey = none) : tKey ∉ dHash.map Prod.fst := by
  unfold ptrHashFind at h
  intro hm
  obtain ⟨e, he, hk⟩ := List.mem_map.mp hm
  cases hf : dHash.find? (fun e => decide (e.1 = tKey)) with
  | none =>
    have := List.find?_eq_none.mp hf e he
    simp [hk] at this
  | some e2 => rw [hf] at h; cases h

theorem ptrHashFind_mem (dHash : List (HashKey_t × Nat)) (e : HashKey_t × Nat)
    (hnd : (dHash.map Prod.fst).Nodup) (he : e ∈ dHash) : ptrHashFind dHash e.1 = some e.2 := by
  cases hf : ptrHashFind dHash e.1 with
  | none => exact absurd (List.mem_map.mpr ⟨e, he, rfl⟩) (ptrHashFind_none dHash e.1 hf)
  | some p =>
    have hm := ptrHashFind_some dHash e.1 p hf
    have := List.inj_on_of_nodup_map hnd hm he rfl
    rw [← this]

theorem insert_eq_empty (uSizeof : Nat) (s : PtrCache_c) (uUID tOffset : Nat)
    (tData : BlockData_t) (pNew : Nat) (hh : s.m_pHead = none) (ht : s.m_pTail = none)
    (hkey : ptrHashFind s.m_tHash ⟨uUID, tOffset⟩ = none) (hnew : s.m_dNodes pNew = none) :
    s.insert uSizeof uUID tOffset tData pNew
      = some (true,
          ⟨some pNew, some pNew, s.m_iCacheSize,
            s.m_iMemUsed + ((tData.m_uSize + uSizeof : Nat) : Int),
            s.m_tHash ++ [(⟨uUID, tOffset⟩, pNew)],
            Function.update (Function.update s.m_dNodes pNew (some (newNode uUID tOffset tData)))
              pNew (some (newNode uUID tOffset tData))⟩) := by
  have hadd : ptrHashAdd s.m_tHash (newNode uUID tOffset tData).m_tBlock.m_tKey pNew
      = some (s.m_tHash ++ [(⟨uUID, tOffset⟩, pNew)]) := by
    show ptrHashAdd s.m_tHash ⟨uUID, tOffset⟩ pNew = _
    unfold ptrHashAdd
    rw [hkey]
    rfl
  unfold PtrCache_c.insert
  rw [hkey, hnew]
  simp only [Option.isSome_none, Bool.false_eq_true, if_false, PtrCache_c.AddNode,
    PtrCache_c.setNode, Function.update_same, hh, ht, hadd, Option.map_some', if_true]
  rfl

theorem insert_eq_cons (uSizeof : Nat) (s : PtrCache_c) (uUID tOffset : Nat)
    (tData : BlockData_t) (pNew pHead : Nat) (nh : LinkedNode_t) (hh : s.m_pHead = some pHead)
    (ht : s.m_pTail ≠ none) (hne : pHead ≠ pNew) (hnh : s.m_dNodes pHead = some nh)
    (hkey : ptrHashFind s.m_tHash ⟨uUID, tOffset⟩ = none) (hnew : s.m_dNodes pNew = none) :
    s.insert uSizeof uUID tOffset tData pNew
      = some (true,
          ⟨some pNew, s.m_pTail, s.m_iCacheSize,
            s.m_iMemUsed + ((tData.m_uSize + uSizeof : Nat) : Int),
            s.m_tHash ++ [(⟨uUID, tOffset⟩, pNew)],
            Function.update
              (Function.update
                (Function.update s.m_dNodes pNew (some (newNode uUID tOffset tData)))
                pNew (some { newNode uUID tOffset tData with m_pNext := some pHead }))
              pHead (some { nh with m_pPrev := some pNew })⟩) := by
  have hadd : ptrHashAdd s.m_tHash (newNode uUID tOffset tData).m_tBlock.m_tKey pNew
      = some (s.m_tHash ++ [(⟨uUID, tOffset⟩, pNew)]) := by
    show ptrHashAdd s.m_tHash ⟨uUID, tOffset⟩ pNew = _
    unfold ptrHashAdd
    rw [hkey]
    rfl
  have hm1 : Function.update (Function.update s.m_dNodes pNew
        (some (newNode uUID tOffset tData)))
        pNew (some { newNode uUID tOffset tData with m_pNext := some pHead }) pHead
      = some nh := by
    rw [Function.update_noteq hne, Function.update_noteq hne, hnh]
  unfold PtrCache_c.insert
  rw [hkey, hnew]
  simp only [Option.isSome_none, Bool.false_eq_true, if_false, PtrCache_c.AddNode,
    PtrCache_c.setNode, Function.update_same, hh, PtrCache_c.setPrev, hm1,
    hadd, Option.map_some', if_neg ht]
  rfl

/-- The insertion of a new node by the public `Add`. -/
theorem insert_linked (uSizeof : Nat) (s : PtrCache_c) (ids : List Nat) (uUID tOffset : Nat)
    (tData : BlockData_t) (pNew : Nat) (h : s.linked ids)
    (hkey : ptrHashFind s.m_tHash ⟨uUID, tOffset⟩ = none) (hnew : s.m_dNodes pNew = none) :
    ∃ s2, s.insert uSizeof uUID tOffset tData pNew = some (true, s2) ∧
      s2.linked (pNew :: ids) ∧ s2.m_iCacheSize = s.m_iCacheSize := by
  have h0 := h
  obtain ⟨h1, h2, h3, h4, h5, h6, h7, h8⟩ := h
  have hpn : pNew ∉ ids := by
    intro hm
    have := seg_mem s.m_dNodes _ _ _ h4 pNew hm
    rw [hnew] at this
    cases this
  have hkeys : ((s.m_tHash ++ [((⟨uUID, tOffset⟩ : HashKey_t), pNew)]).map Prod.fst).Nodup := by
    rw [List.map_append, List.nodup_append]
    refine ⟨h6, by simp, ?_⟩
    intro k hk1 hk2
    simp only [List.map_cons, List.map_nil, List.mem_singleton] at hk2
    subst hk2
    exact ptrHashFind_none _ _ hkey hk1
  have hperm : ((s.m_tHash ++ [((⟨uUID, tOffset⟩ : HashKey_t), pNew)]).map Prod.snd).Perm
      (pNew :: ids) := by
    rw [List.map_append]
    simp only [List.map_cons, List.map_nil]
    exact (List.perm_append_singleton pNew _).trans (List.Perm.cons _ h7)
  cases hids : ids with
  | nil =>
    rw [hids] at h2 h3 hperm
    refine ⟨_, insert_eq_empty uSizeof s uUID tOffset tData pNew h2 h3 hkey hnew, ?_, rfl⟩
    refine ⟨by simp, rfl, rfl, ⟨?_, trivial⟩, ?_, hkeys, hperm, ?_⟩
    · simp only [linkAt, Function.update_same, Option.map_some', firstOr]
      rfl
    · intro q hq
      by_cases hqn : q = pNew
      · rw [hqn]; simp
      · simp only [Function.update_noteq hqn] at hq
        have := h5 q hq
        rw [hids] at this
        simp at this
    · intro e he
      rcases List.mem_append.mp he with he | he
      · obtain ⟨n, hn, hk⟩ := h8 e he
        have hne : e.2 ≠ pNew := by
          intro heq
          rw [heq, hnew] at hn
          cases hn
        refine ⟨n, ?_, hk⟩
        simp only [Function.update_noteq hne]
        exact hn
      · simp only [List.mem_singleton] at he
        subst he
        exact ⟨newNode uUID tOffset tData, Function.update_same _ _ _, rfl⟩
  | cons h0a rest =>
    rw [hids] at h2 h3 h4 h1 hpn hperm
    have hh0 : (s.m_dNodes h0a).isSome = true := seg_mem s.m_dNodes _ _ _ h4 h0a (by simp)
    obtain ⟨nh, hnh⟩ := Option.isSome_iff_exists.mp hh0
    have hne : h0a ≠ pNew := fun heq => hpn (by rw [heq]; simp)
    have htl : s.m_pTail ≠ none := by rw [h3]; simp
    have hm1 : Function.update (Function.update s.m_dNodes pNew
          (some (newNode uUID tOffset tData)))
          pNew (some { newNode uUID tOffset tData with m_pNext := some h0a }) h0a
        = some nh := by
      rw [Function.update_noteq hne, Function.update_noteq hne, hnh]
    refine ⟨_, insert_eq_cons uSizeof s uUID tOffset tData pNew h0a nh h2 htl hne hnh hkey hnew,
      ?_, rfl⟩
    have hseg1 : seg (Function.update (Function.update s.m_dNodes pNew
          (some (newNode uUID tOffset tData)))
          pNew (some { newNode uUID tOffset tData with m_pNext := some h0a }))
        none (h0a :: rest) none :=
      seg_congr s.m_dNodes _ _ _ _ h4 (fun q hq => by
        have hqn : q ≠ pNew := fun heq => hpn (heq ▸ hq)
        rw [linkAt_update, if_neg hqn, linkAt_update, if_neg hqn])
    have hseg2 := seg_setPrev_first _ rest h0a none (some pNew) none nh h1 hseg1 hm1
    refine ⟨List.nodup_cons.mpr ⟨hpn, h1⟩, rfl, ?_, ⟨?_, hseg2⟩, ?_, hkeys, hperm, ?_⟩
    · show s.m_pTail = _
      rw [h3, List.getLast?_cons_cons]
    · show linkAt (Function.update (Function.update (Function.update s.m_dNodes pNew
          (some (newNode uUID tOffset tData)))
          pNew (some { newNode uUID tOffset tData with m_pNext := some h0a })) h0a
          (some { nh with m_pPrev := some pNew })) pNew = _
      rw [linkAt_update, if_neg (fun heq => hne heq.symm), linkAt_update, if_pos rfl]
      rfl
    · intro q hq
      by_cases hqn : q = pNew
      · rw [hqn]; simp
      · by_cases hqh : q = h0a
        · rw [hqh]; simp
        · have hq2 : (Function.update (Function.update (Function.update s.m_dNodes pNew
              (some (newNode uUID tOffset tData)))
              pNew (some { newNode uUID tOffset tData with m_pNext := some h0a })) h0a
              (some { nh with m_pPrev := some pNew }) q).isSome = true := hq
          simp only [Function.update_noteq hqn, Function.update_noteq hqh] at hq2
          have := h5 q hq2
          rw [hids] at this
          exact List.mem_cons_of_mem _ this
    · intro e he
      rcases List.mem_append.mp he with he | he
      · obtain ⟨n, hn, hk⟩ := h8 e he
        have hne2 : e.2 ≠ pNew := by
          intro heq
          rw [heq, hnew] at hn
          cases hn
        by_cases hqh : e.2 = h0a
        · rw [hqh] at hn ⊢
          rw [hnh] at hn
          cases hn
          exact ⟨_, Function.update_same _ _ _, hk⟩
        · refine ⟨n, ?_, hk⟩
          show Function.update (Function.update (Function.update s.m_dNodes pNew
              (some (newNode uUID tOffset tData)))
              pNew (some { newNode uUID tOffset tData with m_pNext := some h0a })) h0a
              (some { nh with m_pPrev := some pNew }) e.2 = some n
          simp only [Function.update_noteq hqh, Function.update_noteq hne2]
          exact hn
      · simp only [List.mem_singleton] at he
        subst he
        refine ⟨{ newNode uUID tOffset tData with m_pNext := some h0a }, ?_, rfl⟩
        show Function.update (Function.update (Function.update s.m_dNodes pNew
            (some (newNode uUID tOffset tData)))
            pNew (some { newNode uUID tOffset tData with m_pNext := some h0a })) h0a
            (some { nh with m_pPrev := some pNew }) pNew = _
        rw [Function.update_noteq hne.symm, Function.update_same]


theorem ptrHashDelete_eq (dHash : List (HashKey_t × Nat)) (e : HashKey_t × Nat)
    (hnd : (dHash.map Prod.fst).Nodup) (he : e ∈ dHash) :
    ptrHashDelete dHash e.1 = some (dHash.filter (fun x => !decide (x.1 = e.1))) := by
  unfold ptrHashDelete
  rw [ptrHashFind_mem dHash e hnd he]
  rfl

theorem getLast?_append_cons_ne (A B : List Nat) (p : Nat) (hp : p ∉ B) :
    ((A ++ p :: B).getLast? = some p ↔ B = []) ∧
    (B ≠ [] → (A ++ p :: B).getLast? = (A ++ B).getLast?) := by
  cases B with
  | nil => simp
  | cons b B2 =>
    have e1 : (A ++ p :: b :: B2).getLast? = (b :: B2).getLast? := by
      rw [List.getLast?_append_of_ne_nil _ (by simp), List.getLast?_cons_cons]
    have e2 : (A ++ b :: B2).getLast? = (b :: B2).getLast? := by
      rw [List.getLast?_append_of_ne_nil _ (by simp)]
    refine ⟨⟨fun h => ?_, fun h => by cases h⟩, fun _ => by rw [e1, e2]⟩
    rw [e1] at h
    exact absurd (List.mem_of_getLast?_eq_some h) hp

/-- `Delete` of a node of the list takes it out of the list and of the hash and
frees it. -/
theorem Delete_linked (uSizeof : Nat) (s : PtrCache_c) (A B : List Nat) (p : Nat)
    (h : s.linked (A ++ p :: B)) :
    ∃ s2, s.Delete uSizeof p = some s2 ∧ s2.linked (A ++ B) ∧
      s2.m_iCacheSize = s.m_iCacheSize ∧
      (∀ q, (s2.m_dNodes q).isSome = true → (s.m_dNodes q).isSome = true) ∧
      (∀ x, x ∈ s2.m_tHash → x ∈ s.m_tHash) := by
  obtain ⟨h1, h2, h3, h4, h5, h6, h7, h8⟩ := h
  have hndA : A.Nodup := (List.nodup_append.mp h1).1
  have hndpB : (p :: B).Nodup := (List.nodup_append.mp h1).2.1
  have hpB : p ∉ B := (List.nodup_cons.mp hndpB).1
  have hpA : p ∉ A := fun hm => (List.nodup_append.mp h1).2.2 hm (by simp)
  have hpAB : p ∉ A ++ B := fun hm => (List.mem_append.mp hm).elim hpA hpB
  have hndAB : (A ++ B).Nodup := by
    refine List.nodup_append.mpr ⟨hndA, (List.nodup_cons.mp hndpB).2, ?_⟩
    intro q hq1 hq2
    exact (List.nodup_append.mp h1).2.2 hq1 (List.mem_cons_of_mem _ hq2)
  obtain ⟨hsA, hsp, hsB⟩ := (seg_append s.m_dNodes A (p :: B) none none).mp h4
  obtain ⟨n, hn, hprev, hnext⟩ := linkAt_some s.m_dNodes p _ _ hsp
  -- the entry of the hash for the node
  have hpm : p ∈ s.m_tHash.map Prod.snd := h7.symm.subset (by simp)
  obtain ⟨e, he, hep⟩ := List.mem_map.mp hpm
  obtain ⟨ne, hne, hke⟩ := h8 e he
  rw [hep, hn] at hne
  cases hne
  have hdel := ptrHashDelete_eq s.m_tHash e h6 he
  rw [← hke] at hdel
  obtain ⟨m2, e2, s2, f2, g2, k2⟩ := unlink_spec
    ⟨if s.m_pHead = some p then n.m_pNext else s.m_pHead,
      if s.m_pTail = some p then n.m_pPrev else s.m_pTail, s.m_iCacheSize, s.m_iMemUsed,
      s.m_tHash.filter (fun x => !decide (x.1 = n.m_tBlock.m_tKey)), s.m_dNodes⟩ A B p h1 h4
  have heq : ∃ s3, s.Delete uSizeof p = some s3 ∧
      s3.m_dNodes = Function.update m2 p none ∧
      s3.m_tHash = s.m_tHash.filter (fun x => !decide (x.1 = n.m_tBlock.m_tKey)) ∧
      s3.m_pHead = (if s.m_pHead = some p then n.m_pNext else s.m_pHead) ∧
      s3.m_pTail = (if s.m_pTail = some p then n.m_pPrev else s.m_pTail) ∧
      s3.m_iCacheSize = s.m_iCacheSize := by
    unfold PtrCache_c.Delete
    rw [hn]
    simp only
    rw [hdel]
    simp only
    rw [e2]
    exact ⟨_, rfl, rfl, rfl, rfl, rfl, rfl⟩
  obtain ⟨s3, r0, r1, r2, r3, r4, r5⟩ := heq
  have hentry : ∀ x ∈ s.m_tHash, x.2 = p → x = e := by
    intro x hx hxp
    have hnd2 : (s.m_tHash.map Prod.snd).Nodup := h7.nodup_iff.mpr h1
    exact List.inj_on_of_nodup_map hnd2 hx he (hxp.trans hep.symm)
  have hfilt : ∀ x, x ∈ s.m_tHash.filter (fun x => !decide (x.1 = n.m_tBlock.m_tKey)) ↔
      (x ∈ s.m_tHash ∧ x.2 ≠ p) := by
    intro x
    rw [List.mem_filter]
    simp only [Bool.not_eq_true', decide_eq_false_iff_not]
    constructor
    · rintro ⟨hx, hk⟩
      refine ⟨hx, fun hxp => hk ?_⟩
      rw [hentry x hx hxp, hke]
    · rintro ⟨hx, hxp⟩
      refine ⟨hx, fun hk => hxp ?_⟩
      have : x = e := List.inj_on_of_nodup_map h6 hx he (hk.trans hke)
      rw [this, hep]
  refine ⟨s3, r0, ⟨hndAB, ?_, ?_, ?_, ?_, ?_, ?_, ?_⟩, r5, ?_, ?_⟩
  · rw [r3, h2]
    cases A with
    | nil =>
      simp only [List.nil_append, List.head?_cons, if_true]
      rw [hnext, firstOr_none]
    | cons a A2 =>
      have : ¬ (a :: A2 ++ p :: B).head? = some p := by
        simp only [List.cons_append, List.head?_cons, Option.some.injEq]
        intro heq
        exact hpA (by rw [heq]; simp)
      rw [if_neg this]
      rfl
  · rw [r4, h3]
    obtain ⟨c1, c2⟩ := getLast?_append_cons_ne A B p hpB
    by_cases hB : B = []
    · rw [if_pos (c1.mpr hB), hprev, lastOr_none, hB, List.append_nil]
    · rw [if_neg (fun hc => hB (c1.mp hc)), c2 hB]
  · rw [r1]
    exact seg_congr m2 _ (A ++ B) _ _ s2 (fun q hq => by
      have hqp : q ≠ p := fun heq => hpAB (heq ▸ hq)
      unfold linkAt
      rw [Function.update_noteq hqp])
  · intro q hq
    rw [r1] at hq
    by_cases hqp : q = p
    · rw [hqp, Function.update_same] at hq
      cases hq
    · rw [Function.update_noteq hqp] at hq
      have hq2 : (s.m_dNodes q).isSome = true := by
        rw [← keyAt_isSome _ _ q (keyAt_of_block _ _ q (k2 q))]
        exact hq
      have := h5 q hq2
      rcases List.mem_append.mp this with hq3 | hq3
      · exact List.mem_append_left _ hq3
      · rcases List.mem_cons.mp hq3 with hq4 | hq4
        · exact absurd hq4 hqp
        · exact List.mem_append_right _ hq4
  · rw [r2]
    exact List.Nodup.sublist ((List.filter_sublist _).map _) h6
  · rw [r2]
    have hnd2 : (s.m_tHash.map Prod.snd).Nodup := h7.nodup_iff.mpr h1
    refine (List.perm_ext_iff_of_nodup
      (List.Nodup.sublist ((List.filter_sublist _).map _) hnd2) hndAB).mpr ?_
    intro q
    constructor
    · intro hq
      obtain ⟨x, hx, hxq⟩ := List.mem_map.mp hq
      obtain ⟨hx1, hx2⟩ := (hfilt x).mp hx
      have : q ∈ A ++ p :: B := h7.subset (List.mem_map.mpr ⟨x, hx1, hxq⟩)
      rw [← hxq]
      rw [← hxq] at this
      rcases List.mem_append.mp this with hq3 | hq3
      · exact List.mem_append_left _ hq3
      · rcases List.mem_cons.mp hq3 with hq4 | hq4
        · exact absurd hq4 hx2
        · exact List.mem_append_right _ hq4
    · intro hq
      have hq1 : q ∈ A ++ p :: B := by
        rcases List.mem_append.mp hq with hq3 | hq3
        · exact List.mem_append_left _ hq3
        · exact List.mem_append_right _ (List.mem_cons_of_mem _ hq3)
      obtain ⟨x, hx, hxq⟩ := List.mem_map.mp (h7.symm.subset hq1)
      refine List.mem_map.mpr ⟨x, (hfilt x).mpr ⟨hx, ?_⟩, hxq⟩
      rw [hxq]
      exact fun heq => hpAB (heq ▸ hq)
  · intro x hx
    rw [r2] at hx
    obtain ⟨hx1, hx2⟩ := (hfilt x).mp hx
    obtain ⟨nx, hnx, hkx⟩ := h8 x hx1
    have hk := keyAt_of_block _ _ x.2 (k2 x.2)
    rw [hnx] at hk
    rw [r1, Function.update_noteq hx2]
    cases hm : m2 x.2 with
    | none => rw [hm] at hk; cases hk
    | some n2 =>
      rw [hm] at hk
      simp only [Option.map_some', Option.some.injEq] at hk
      exact ⟨n2, rfl, hk.trans hkx⟩
  · intro q hq
    rw [r1] at hq
    by_cases hqp : q = p
    · rw [hqp, Function.update_same] at hq
      cases hq
    · rw [Function.update_noteq hqp] at hq
      rw [← keyAt_isSome _ _ q (keyAt_of_block _ _ q (k2 q))]
      exact hq
  · intro x hx
    rw [r2] at hx
    exact ((hfilt x).mp hx).1


theorem ptrDeleteAllLoop_null (uSizeof uUID fuel : Nat) (s : PtrCache_c) :
    ptrDeleteAllLoop uSizeof uUID fuel none s = some s := by
  cases fuel <;> rfl

theorem linked_node (s : PtrCache_c) (A B : List Nat) (p : Nat) (h : s.linked (A ++ p :: B)) :
    ∃ n, s.m_dNodes p = some n ∧ n.m_pPrev = lastOr A none ∧ n.m_pNext = firstOr B none := by
  obtain ⟨_, _, _, h4, _⟩ := h
  obtain ⟨_, hsp, _⟩ := (seg_append s.m_dNodes A (p :: B) none none).mp h4
  exact linkAt_some s.m_dNodes p _ _ hsp

/-- The loop of `DeleteAll` ends at `nullptr` within one iteration per node left
and keeps the structure of the cache. -/
theorem ptrDeleteAllLoop_linked (uSizeof uUID : Nat) :
    ∀ (rest kept : List Nat) (s : PtrCache_c) (fuel : Nat), s.linked (kept ++ rest) →
      rest.length ≤ fuel →
      ∃ s2 ids2, ptrDeleteAllLoop uSizeof uUID fuel (firstOr rest none) s = some s2 ∧
        s2.linked ids2 ∧ s2.m_iCacheSize = s.m_iCacheSize ∧
        (∀ q, (s2.m_dNodes q).isSome = true → (s.m_dNodes q).isSome = true) ∧
        (∀ x, x ∈ s2.m_tHash → x ∈ s.m_tHash) := by
  intro rest
  induction rest with
  | nil =>
    intro kept s fuel h _
    exact ⟨s, kept ++ [], ptrDeleteAllLoop_null _ _ _ _, h, rfl, fun _ hq => hq, fun _ hx => hx⟩
  | cons p rest1 ih =>
    intro kept s fuel h hf
    cases fuel with
    | zero => simp at hf
    | succ f =>
      have hf1 : rest1.length ≤ f := by simpa using hf
      obtain ⟨n, hn, _, hnext⟩ := linked_node s kept rest1 p h
      have hstep : ptrDeleteAllLoop uSizeof uUID (f + 1) (firstOr (p :: rest1) none) s
          = if n.m_tBlock.m_tKey.m_uUID = uUID then
              match s.Delete uSizeof p with
              | none => none
              | some s1 => ptrDeleteAllLoop uSizeof uUID f n.m_pNext s1
            else ptrDeleteAllLoop uSizeof uUID f n.m_pNext s := by
        show ptrDeleteAllLoop uSizeof uUID (f + 1) (some p) s = _
        rw [ptrDeleteAllLoop, hn]
      rw [hstep, hnext]
      by_cases hu : n.m_tBlock.m_tKey.m_uUID = uUID
      · rw [if_pos hu]
        obtain ⟨s1, d1, d2, d3, d4, d5⟩ := Delete_linked uSizeof s kept rest1 p h
        rw [d1]
        obtain ⟨s2, ids2, e1, e2, e3, e4, e5⟩ := ih kept s1 f d2 hf1
        exact ⟨s2, ids2, e1, e2, e3.trans d3, fun q hq => d4 q (e4 q hq),
          fun x hx => d5 x (e5 x hx)⟩
      · rw [if_neg hu]
        exact ih (kept ++ [p]) s f (by rw [List.append_assoc]; exact h) hf1

theorem DeleteAll_linked (uSizeof : Nat) (s : PtrCache_c) (ids : List Nat) (uUID : Nat)
    (h : s.linked ids) :
    ∃ s2 ids2, s.DeleteAll uSizeof uUID = some s2 ∧ s2.linked ids2 ∧
      s2.m_iCacheSize = s.m_iCacheSize ∧
      (∀ q, (s2.m_dNodes q).isSome = true → (s.m_dNodes q).isSome = true) ∧
      (∀ x, x ∈ s2.m_tHash → x ∈ s.m_tHash) := by
  have hlen : ids.length ≤ s.m_tHash.length := by
    have := h.2.2.2.2.2.2.1.length_eq
    rw [List.length_map] at this
    omega
  have hhead : s.m_pHead = firstOr ids none := by rw [firstOr_none]; exact h.2.1
  unfold PtrCache_c.DeleteAll
  rw [hhead]
  exact ptrDeleteAllLoop_linked uSizeof uUID ids [] s _ h hlen

theorem ptrSweepLoop_null (uSizeof uSpaceNeeded fuel : Nat) (s : PtrCache_c) :
    ptrSweepLoop uSizeof uSpaceNeeded fuel none s = some s := by
  unfold ptrSweepLoop
  rfl

/-- The loop of `SweepUnused` ends within one iteration per node left and keeps
the structure of the cache. -/
theorem ptrSweepLoop_linked (uSizeof uSpaceNeeded : Nat) :
    ∀ (rest kept : List Nat) (s : PtrCache_c) (fuel : Nat), s.linked (rest ++ kept) →
      rest.length ≤ fuel →
      ∃ s2 ids2, ptrSweepLoop uSizeof uSpaceNeeded fuel (lastOr rest none) s = some s2 ∧
        s2.linked ids2 ∧ s2.m_iCacheSize = s.m_iCacheSize ∧
        (∀ q, (s2.m_dNodes q).isSome = true → (s.m_dNodes q).isSome = true) ∧
        (∀ x, x ∈ s2.m_tHash → x ∈ s.m_tHash) := by
  intro rest
  induction rest using List.reverseRecOn with
  | nil =>
    intro kept s fuel h _
    exact ⟨s, [] ++ kept, ptrSweepLoop_null _ _ _ _, h, rfl, fun _ hq => hq, fun _ hx => hx⟩
  | append_singleton rest1 p ih =>
    intro kept s fuel h hf
    rw [lastOr_append_singleton]
    by_cases hsp : s.HaveSpaceFor uSpaceNeeded = true
    · refine ⟨s, rest1 ++ [p] ++ kept, ?_, h, rfl, fun _ hq => hq, fun _ hx => hx⟩
      unfold ptrSweepLoop
      rw [if_pos hsp]
    · cases fuel with
      | zero => simp at hf
      | succ f =>
        have hf1 : rest1.length ≤ f := by simpa using hf
        have h2 : s.linked (rest1 ++ p :: kept) := by
          rw [List.append_assoc] at h
          exact h
        obtain ⟨n, hn, hprev, _⟩ := linked_node s rest1 kept p h2
        have hstep : ptrSweepLoop uSizeof uSpaceNeeded (f + 1) (some p) s
            = if n.m_tBlock.m_iRefcount = 0 then
                match s.Delete uSizeof p with
                | none => none
                | some s1 => ptrSweepLoop uSizeof uSpaceNeeded f n.m_pPrev s1
              else ptrSweepLoop uSizeof uSpaceNeeded f n.m_pPrev s := by
          rw [ptrSweepLoop, if_neg hsp, hn]
        rw [hstep, hprev]
        by_cases hr : n.m_tBlock.m_iRefcount = 0
        · rw [if_pos hr]
          obtain ⟨s1, d1, d2, d3, d4, d5⟩ := Delete_linked uSizeof s rest1 kept p h2
          rw [d1]
          obtain ⟨s2, ids2, e1, e2, e3, e4, e5⟩ := ih kept s1 f d2 hf1
          exact ⟨s2, ids2, e1, e2, e3.trans d3, fun q hq => d4 q (e4 q hq),
            fun x hx => d5 x (e5 x hx)⟩
        · rw [if_neg hr]
          exact ih (p :: kept) s f h2 hf1

theorem SweepUnused_linked (uSizeof : Nat) (s : PtrCache_c) (ids : List Nat)
    (uSpaceNeeded : Nat) (h : s.linked ids) :
    ∃ s2 ids2, s.SweepUnused uSizeof uSpaceNeeded = some s2 ∧ s2.linked ids2 ∧
      s2.m_iCacheSize = s.m_iCacheSize ∧
      (∀ q, (s2.m_dNodes q).isSome = true → (s.m_dNodes q).isSome = true) ∧
      (∀ x, x ∈ s2.m_tHash → x ∈ s.m_tHash) := by
  have hlen : ids.length ≤ s.m_tHash.length := by
    have := h.2.2.2.2.2.2.1.length_eq
    rw [List.length_map] at this
    omega
  have htail : s.m_pTail = lastOr ids none := by rw [lastOr_none]; exact h.2.2.1
  unfold PtrCache_c.SweepUnused
  rw [htail]
  exact ptrSweepLoop_linked uSizeof uSpaceNeeded ids [] s _ (by rw [List.append_nil]; exact h)
    hlen

/-- `Find` keeps the structure of the cache and always returns. -/
theorem Find_linked (s : PtrCache_c) (ids : List Nat) (uUID tOffset : Nat) (h : s.linked ids) :
    ∃ r s2 ids2, s.Find uUID tOffset = some (r, s2) ∧ s2.linked ids2 ∧
      s2.m_iCacheSize = s.m_iCacheSize ∧ s2.m_tHash = s.m_tHash := by
  cases hf : ptrHashFind s.m_tHash ⟨uUID, tOffset⟩ with
  | none =>
    refine ⟨none, s, ids, ?_, h, rfl, rfl⟩
    unfold PtrCache_c.Find
    rw [hf]
  | some p =>
    have hp : p ∈ ids :=
      h.2.2.2.2.2.2.1.subset (List.mem_map.mpr ⟨_, ptrHashFind_some _ _ _ hf, rfl⟩)
    obtain ⟨s1, m1, m2, m3, m4, m5, m6⟩ := MoveToHead_linked s ids p h hp
    have hs : (s1.m_dNodes p).isSome = true :=
      seg_mem s1.m_dNodes _ _ _ m2.2.2.2.1 p (by simp)
    obtain ⟨n, hn⟩ := Option.isSome_iff_exists.mp hs
    refine ⟨some n.m_tBlock.toBlockData_t,
      s1.setNode p ⟨⟨n.m_tBlock.toBlockData_t, n.m_tBlock.m_iRefcount + 1, n.m_tBlock.m_tKey⟩,
        n.m_pPrev, n.m_pNext⟩, p :: ids.erase p, ?_, ?_, m4, m3⟩
    · unfold PtrCache_c.Find
      rw [hf]
      simp only
      rw [m1]
      simp only
      rw [hn]
    · refine linked_of_keys s1 _ _ _ m2 (List.Perm.refl _) ?_ ?_ rfl m2.2.1 m2.2.2.1
      · refine seg_congr s1.m_dNodes _ _ _ _ m2.2.2.2.1 (fun q _ => ?_)
        show linkAt (Function.update s1.m_dNodes p _) q = _
        rw [linkAt_update]
        by_cases hq : q = p
        · rw [if_pos hq, hq]
          unfold linkAt
          rw [hn]
          rfl
        · rw [if_neg hq]
      · intro q
        exact keyAt_update s1.m_dNodes p q n _ hn rfl

/-- `Release` of a resident key keeps the structure of the cache. -/
theorem Release_linked (s : PtrCache_c) (ids : List Nat) (uUID tOffset p : Nat)
    (h : s.linked ids) (hf : ptrHashFind s.m_tHash ⟨uUID, tOffset⟩ = some p) :
    ∃ s2, s.Release uUID tOffset = some s2 ∧ s2.linked ids ∧
      s2.m_iCacheSize = s.m_iCacheSize ∧ s2.m_tHash = s.m_tHash := by
  have hp : p ∈ ids :=
    h.2.2.2.2.2.2.1.subset (List.mem_map.mpr ⟨_, ptrHashFind_some _ _ _ hf, rfl⟩)
  have hs : (s.m_dNodes p).isSome = true := seg_mem s.m_dNodes _ _ _ h.2.2.2.1 p hp
  obtain ⟨n, hn⟩ := Option.isSome_iff_exists.mp hs
  refine ⟨s.setNode p ⟨⟨n.m_tBlock.toBlockData_t, n.m_tBlock.m_iRefcount - 1,
    n.m_tBlock.m_tKey⟩, n.m_pPrev, n.m_pNext⟩, ?_, ?_, rfl, rfl⟩
  · unfold PtrCache_c.Release
    rw [hf]
    simp only
    rw [hn]
  · refine linked_of_keys s _ _ _ h (List.Perm.refl _) ?_ ?_ rfl h.2.1 h.2.2.1
    · refine seg_congr s.m_dNodes _ _ _ _ h.2.2.2.1 (fun q _ => ?_)
      show linkAt (Function.update s.m_dNodes p _) q = _
      rw [linkAt_update]
      by_cases hq : q = p
      · rw [if_pos hq, hq]
        unfold linkAt
        rw [hn]
        rfl
      · rw [if_neg hq]
    · intro q
      exact keyAt_update s.m_dNodes p q n _ hn rfl


theorem ptrHashFind_eq_none (dHash : List (HashKey_t × Nat)) (tKey : HashKey_t)
    (h : tKey ∉ dHash.map Prod.fst) : ptrHashFind dHash tKey = none := by
  cases hf : ptrHashFind dHash tKey with
  | none => rfl
  | some p =>
    exact absurd (List.mem_map.mpr ⟨_, ptrHashFind_some dHash tKey p hf, rfl⟩) h

theorem insert_some_linked (uSizeof : Nat) (s : PtrCache_c) (ids : List Nat)
    (uUID tOffset : Nat) (tData : BlockData_t) (pNew : Nat) (r : Bool) (s2 : PtrCache_c)
    (h : s.linked ids) (hins : s.insert uSizeof uUID tOffset tData pNew = some (r, s2)) :
    s2.linked (pNew :: ids) ∧ s2.m_iCacheSize = s.m_iCacheSize ∧
      ptrHashFind s.m_tHash ⟨uUID, tOffset⟩ = none ∧ s.m_dNodes pNew = none := by
  have hkey : ptrHashFind s.m_tHash ⟨uUID, tOffset⟩ = none := by
    cases hf : ptrHashFind s.m_tHash ⟨uUID, tOffset⟩ with
    | none => rfl
    | some p =>
      unfold PtrCache_c.insert at hins
      rw [hf] at hins
      simp at hins
  have hnew : s.m_dNodes pNew = none := by
    cases hf : s.m_dNodes pNew with
    | none => rfl
    | some n =>
      unfold PtrCache_c.insert at hins
      rw [hkey, hf] at hins
      simp at hins
  obtain ⟨s3, i1, i2, i3⟩ := insert_linked uSizeof s ids uUID tOffset tData pNew h hkey hnew
  rw [i1] at hins
  simp only [Option.some.injEq, Prod.mk.injEq] at hins
  rw [← hins.2]
  exact ⟨i2, i3, hkey, hnew⟩

/-- The public `Add` keeps the structure of the cache. -/
theorem Add_linked (uSizeof : Nat) (s : PtrCache_c) (ids : List Nat) (uUID tOffset : Nat)
    (tData : BlockData_t) (pNew : Nat) (r : Bool) (s2 : PtrCache_c) (h : s.linked ids)
    (hadd : s.Add uSizeof uUID tOffset tData pNew = some (r, s2)) :
    ∃ ids2, s2.linked ids2 ∧ s2.m_iCacheSize = s.m_iCacheSize := by
  unfold PtrCache_c.Add at hadd
  by_cases hsp : (!s.HaveSpaceFor ((tData.m_uSize + uSizeof) % DWORD_MOD)) = true
  · rw [if_pos hsp] at hadd
    by_cases hmax : (tData.m_uSize + uSizeof) % DWORD_MOD > s.MAX_BLOCK_SIZE
    · rw [if_pos hmax] at hadd
      simp only [Option.some.injEq, Prod.mk.injEq] at hadd
      rw [← hadd.2]
      exact ⟨ids, h, rfl⟩
    · rw [if_neg hmax] at hadd
      obtain ⟨s1, ids1, w1, w2, w3, _, _⟩ :=
        SweepUnused_linked uSizeof s ids ((tData.m_uSize + uSizeof) % DWORD_MOD) h
      rw [w1] at hadd
      simp only at hadd
      by_cases hsp1 : (!s1.HaveSpaceFor ((tData.m_uSize + uSizeof) % DWORD_MOD)) = true
      · rw [if_pos hsp1] at hadd
        simp only [Option.some.injEq, Prod.mk.injEq] at hadd
        rw [← hadd.2]
        exact ⟨ids1, w2, w3⟩
      · rw [if_neg hsp1] at hadd
        obtain ⟨i1, i2, _, _⟩ :=
          insert_some_linked uSizeof s1 ids1 uUID tOffset tData pNew r s2 w2 hadd
        exact ⟨_, i1, i2.trans w3⟩
  · rw [if_neg hsp] at hadd
    obtain ⟨i1, i2, _, _⟩ := insert_some_linked uSizeof s ids uUID tOffset tData pNew r s2 h hadd
    exact ⟨_, i1, i2⟩

/-- The public `Add` returns when the key is not resident and `new` gives an
address that holds no node. -/
theorem Add_total (uSizeof : Nat) (s : PtrCache_c) (ids : List Nat) (uUID tOffset : Nat)
    (tData : BlockData_t) (pNew : Nat) (h : s.linked ids)
    (hkey : ptrHashFind s.m_tHash ⟨uUID, tOffset⟩ = none) (hnew : s.m_dNodes pNew = none) :
    (s.Add uSizeof uUID tOffset tData pNew).isSome = true := by
  unfold PtrCache_c.Add
  by_cases hsp : (!s.HaveSpaceFor ((tData.m_uSize + uSizeof) % DWORD_MOD)) = true
  · rw [if_pos hsp]
    by_cases hmax : (tData.m_uSize + uSizeof) % DWORD_MOD > s.MAX_BLOCK_SIZE
    · rw [if_pos hmax]; rfl
    · rw [if_neg hmax]
      obtain ⟨s1, ids1, w1, w2, _, w4, w5⟩ :=
        SweepUnused_linked uSizeof s ids ((tData.m_uSize + uSizeof) % DWORD_MOD) h
      rw [w1]
      simp only
      by_cases hsp1 : (!s1.HaveSpaceFor ((tData.m_uSize + uSizeof) % DWORD_MOD)) = true
      · rw [if_pos hsp1]; rfl
      · rw [if_neg hsp1]
        have hkey1 : ptrHashFind s1.m_tHash ⟨uUID, tOffset⟩ = none := by
          refine ptrHashFind_eq_none _ _ (fun hm => ?_)
          obtain ⟨x, hx, hxk⟩ := List.mem_map.mp hm
          exact ptrHashFind_none _ _ hkey (List.mem_map.mpr ⟨x, w5 x hx, hxk⟩)
        have hnew1 : s1.m_dNodes pNew = none := by
          cases hq : s1.m_dNodes pNew with
          | none => rfl
          | some n =>
            have := w4 pNew (by rw [hq]; rfl)
            rw [hnew] at this
            cases this
        obtain ⟨s3, i1, _, _⟩ :=
          insert_linked uSizeof s1 ids1 uUID tOffset tData pNew w2 hkey1 hnew1
        rw [i1]; rfl
  · rw [if_neg hsp]
    obtain ⟨s3, i1, _, _⟩ := insert_linked uSizeof s ids uUID tOffset tData pNew h hkey hnew
    rw [i1]; rfl

theorem step_linked (uSizeof : Nat) (s s2 : PtrCache_c) (ids : List Nat) (op : PtrOp)
    (h : s.linked ids) (hstep : s.step uSizeof op = some s2) :
    ∃ ids2, s2.linked ids2 ∧ s2.m_iCacheSize = s.m_iCacheSize := by
  cases op with
  | find uUID tOffset =>
    obtain ⟨r, s3, ids3, f1, f2, f3, _⟩ := Find_linked s ids uUID tOffset h
    simp only [PtrCache_c.step, f1, Option.map_some', Option.some.injEq] at hstep
    rw [← hstep]
    exact ⟨ids3, f2, f3⟩
  | add uUID tOffset tData pNew =>
    simp only [PtrCache_c.step] at hstep
    cases ha : s.Add uSizeof uUID tOffset tData pNew with
    | none => rw [ha] at hstep; cases hstep
    | some res =>
      rw [ha] at hstep
      simp only [Option.map_some', Option.some.injEq] at hstep
      rw [← hstep]
      exact Add_linked uSizeof s ids uUID tOffset tData pNew res.1 res.2 h ha
  | release uUID tOffset =>
    simp only [PtrCache_c.step] at hstep
    cases hf : ptrHashFind s.m_tHash ⟨uUID, tOffset⟩ with
    | none =>
      unfold PtrCache_c.Release at hstep
      rw [hf] at hstep
      cases hstep
    | some p =>
      obtain ⟨s3, r1, r2, r3, _⟩ := Release_linked s ids uUID tOffset p h hf
      rw [r1] at hstep
      cases hstep
      exact ⟨ids, r2, r3⟩
  | deleteAll uUID =>
    obtain ⟨s3, ids3, d1, d2, d3, _, _⟩ := DeleteAll_linked uSizeof s ids uUID h
    simp only [PtrCache_c.step, d1, Option.some.injEq] at hstep
    rw [← hstep]
    exact ⟨ids3, d2, d3⟩

theorem run_linked (uSizeof : Nat) (ops : List PtrOp) :
    ∀ (s s2 : PtrCache_c) (ids : List Nat), s.linked ids → s.run uSizeof ops = some s2 →
      ∃ ids2, s2.linked ids2 ∧ s2.m_iCacheSize = s.m_iCacheSize := by
  induction ops with
  | nil =>
    intro s s2 ids h hrun
    simp only [PtrCache_c.run, Option.some.injEq] at hrun
    rw [← hrun]
    exact ⟨ids, h, rfl⟩
  | cons op rest ih =>
    intro s s2 ids h hrun
    simp only [PtrCache_c.run] at hrun
    cases hs : s.step uSizeof op with
    | none => rw [hs] at hrun; cases hrun
    | some s1 =>
      rw [hs] at hrun
      obtain ⟨ids1, l1, c1⟩ := step_linked uSizeof s s1 ids op h hs
      obtain ⟨ids2, l2, c2⟩ := ih s1 s2 ids1 l1 hrun
      exact ⟨ids2, l2, c2.trans c1⟩

theorem create_linked (C : Int) : (PtrCache_c.create C).linked [] := by
  refine ⟨List.nodup_nil, rfl, rfl, trivial, ?_, List.nodup_nil, List.Perm.refl _, ?_⟩
  · intro p hp
    cases hp
  · intro e he
    cases he

/-- C35: after every sequence of `Find`, `Add`, `Release` and `DeleteAll` calls on
a cache that starts empty, the nodes form one list `ids` without repetition: the
walk from `m_pHead` over `m_pNext` ends at `nullptr` and visits exactly `ids`,
the walk from `m_pTail` over `m_pPrev` visits `ids` in reverse, the head has no
predecessor and the tail no successor, the pointers of the hash are exactly the
nodes of the list (each once) and they are the allocated nodes, and every key of
the hash is found at the node that stores this key. In such a state `Find` and
`DeleteAll` always return, `Release` returns for a resident key, and `Add`
returns for a key that is not resident and a new address. -/
theorem C35_cache_structure (uSizeof : Nat) (C : Int) (ops : List PtrOp) (s : PtrCache_c)
    (hrun : (PtrCache_c.create C).run uSizeof ops = some s) :
    ∃ ids : List Nat,
      ids.Nodup ∧
      (∀ fuel, ids.length ≤ fuel → walkNext s.m_dNodes fuel s.m_pHead = ids) ∧
      (∀ fuel, ids.length ≤ fuel → walkPrev s.m_dNodes fuel s.m_pTail = ids.reverse) ∧
      (∀ p, s.m_pHead = some p → ∃ n, s.m_dNodes p = some n ∧ n.m_pPrev = none) ∧
      (∀ p, s.m_pTail = some p → ∃ n, s.m_dNodes p = some n ∧ n.m_pNext = none) ∧
      (s.m_tHash.map Prod.snd).Perm ids ∧
      (∀ p, (s.m_dNodes p).isSome = true ↔ p ∈ ids) ∧
      (s.m_tHash.map Prod.fst).Nodup ∧
      (∀ e ∈ s.m_tHash, ptrHashFind s.m_tHash e.1 = some e.2 ∧
        ∃ n, s.m_dNodes e.2 = some n ∧ n.m_tBlock.m_tKey = e.1) ∧
      (∀ uUID tOffset, (s.step uSizeof (PtrOp.find uUID tOffset)).isSome = true) ∧
      (∀ uUID, (s.step uSizeof (PtrOp.deleteAll uUID)).isSome = true) ∧
      (∀ uUID tOffset, ptrHashFind s.m_tHash ⟨uUID, tOffset⟩ ≠ none →
        (s.step uSizeof (PtrOp.release uUID tOffset)).isSome = true) ∧
      (∀ uUID tOffset tData pNew, ptrHashFind s.m_tHash ⟨uUID, tOffset⟩ = none →
        s.m_dNodes pNew = none →
        (s.step uSizeof (PtrOp.add uUID tOffset tData pNew)).isSome = true) := by
  obtain ⟨ids, hl, _⟩ := run_linked uSizeof ops _ s [] (create_linked C) hrun
  have hl0 := hl
  obtain ⟨h1, h2, h3, h4, h5, h6, h7, h8⟩ := hl
  refine ⟨ids, h1, ?_, ?_, ?_, ?_, h7, ?_, h6, ?_, ?_, ?_, ?_, ?_⟩
  · intro fuel hf
    rw [h2, ← firstOr_none]
    exact seg_walkNext s.m_dNodes ids none fuel h4 hf
  · intro fuel hf
    rw [h3, ← lastOr_none]
    exact seg_walkPrev s.m_dNodes ids none fuel h4 hf
  · intro p hp
    rw [h2] at hp
    cases ids with
    | nil => cases hp
    | cons a t =>
      simp only [List.head?_cons, Option.some.injEq] at hp
      subst hp
      obtain ⟨n, hn, hpr, _⟩ := linkAt_some s.m_dNodes a _ _ h4.1
      exact ⟨n, hn, hpr⟩
  · intro p hp
    rw [h3] at hp
    rcases List.eq_nil_or_concat ids with hnil | ⟨t, a, hc⟩
    · rw [hnil] at hp; cases hp
    · rw [List.concat_eq_append] at hc
      rw [hc] at hp h4
      have hlast : (t ++ [a]).getLast? = some a := by simp
      rw [hlast] at hp
      simp only [Option.some.injEq] at hp
      subst hp
      obtain ⟨_, hsa, _⟩ := (seg_append s.m_dNodes t [a] none none).mp h4
      obtain ⟨n, hn, _, hnx⟩ := linkAt_some s.m_dNodes a _ _ hsa
      exact ⟨n, hn, hnx⟩
  · intro p
    exact ⟨h5 p, seg_mem s.m_dNodes _ _ _ h4 p⟩
  · intro e he
    exact ⟨ptrHashFind_mem s.m_tHash e h6 he, h8 e he⟩
  · intro uUID tOffset
    obtain ⟨r, s3, ids3, f1, _⟩ := Find_linked s ids uUID tOffset hl0
    simp only [PtrCache_c.step, f1]
    rfl
  · intro uUID
    obtain ⟨s3, ids3, d1, _⟩ := DeleteAll_linked uSizeof s ids uUID hl0
    simp only [PtrCache_c.step, d1]
    rfl
  · intro uUID tOffset hf
    cases hq : ptrHashFind s.m_tHash ⟨uUID, tOffset⟩ with
    | none => exact absurd hq hf
    | some p =>
      obtain ⟨s3, r1, _⟩ := Release_linked s ids uUID tOffset p hl0 hq
      simp only [PtrCache_c.step, r1]
      rfl
  · intro uUID tOffset tData pNew hkey hnew
    have := Add_total uSizeof s ids uUID tOffset tData pNew hl0 hkey hnew
    simp only [PtrCache_c.step, Option.isSome_map']
    exact this


theorem C35_cache_structure_witness :
    (PtrCache_c.create 4096).run 64 ptrOps = some ptrCache ∧
    walkNext ptrCache.m_dNodes 3 ptrCache.m_pHead = [101, 100, 102] ∧
    walkPrev ptrCache.m_dNodes 3 ptrCache.m_pTail = [102, 100, 101] ∧
    ∃ ids : List Nat, ids.Nodup ∧
      (∀ fuel, ids.length ≤ fuel → walkNext ptrCache.m_dNodes fuel ptrCache.m_pHead = ids) :=
  ⟨rfl, by decide, by decide,
   (C35_cache_structure 64 4096 ptrOps ptrCache rfl).imp (fun _ h => ⟨h.1, h.2.1⟩)⟩

/-! ## Block choice at flush time: the entry and the block written -/

theorem flushedEntryType_eq (c : Compressor_i) (s : DocstoreBuilder_c)
    (hne : s.m_dStoredDocs ≠ []) :
    flushedEntryType c s =
      some (if s.m_dStoredDocs.length = 1 ∧ s.m_uBlockSize ≤ s.m_uStoredLen
        then BLOCK_TYPE_BIG else BLOCK_TYPE_SMALL) := by
  obtain ⟨tail, h⟩ := WriteBlock_header_nonempty c s hne
  unfold flushedEntryType
  simp only [h, List.drop_left, unzipBytes_ZipInt]
  exact getElem?_append_length _ _ _

theorem flushedEntryType_none (c : Compressor_i) (s : DocstoreBuilder_c)
    (he : s.m_dStoredDocs = []) : flushedEntryType c s = none := by
  unfold flushedEntryType
  simp [WriteBlock_header_empty c s he]

/-- The call of `WriteBlock` with pending documents writes what `WriteBigBlock`
writes when one document is pending and `m_uStoredLen >= m_uBlockSize`, and what
`WriteSmallBlock` writes otherwise. -/
theorem WriteBlock_choice (c : Compressor_i) (s : DocstoreBuilder_c)
    (hne : s.m_dStoredDocs ≠ []) :
    ((s.m_dStoredDocs.length = 1 ∧ s.m_uBlockSize ≤ s.m_uStoredLen) →
      (s.WriteBlock c).m_tWriter = (s.withInitialHeader.WriteBigBlock c).m_tWriter ∧
      (s.WriteBlock c).m_dHeader = (s.withInitialHeader.WriteBigBlock c).m_dHeader) ∧
    (¬ (s.m_dStoredDocs.length = 1 ∧ s.m_uBlockSize ≤ s.m_uStoredLen) →
      (s.WriteBlock c).m_tWriter = (s.withInitialHeader.WriteSmallBlock c).m_tWriter ∧
      (s.WriteBlock c).m_dHeader = (s.withInitialHeader.WriteSmallBlock c).m_dHeader) := by
  obtain ⟨hd, hh, hr, ho, hn, hl, hb, hw⟩ := withInitialHeader_parts s
  have hlen : ¬ s.withInitialHeader.m_dStoredDocs.length = 0 := by
    rw [hd]
    exact fun h => hne (List.length_eq_zero.mp h)
  have hW := WriteBlock_eq c s
  rw [if_neg hlen, hd, hl, hb] at hW
  constructor
  · intro hbig
    have hb2 : (s.m_dStoredDocs.length = 1 && decide (s.m_uStoredLen ≥ s.m_uBlockSize)) = true := by
      simp [hbig.1, hbig.2]
    rw [if_pos hb2] at hW
    rw [hW]
    exact ⟨rfl, rfl⟩
  · intro hsmall
    have hb2 : ¬ (s.m_dStoredDocs.length = 1 && decide (s.m_uStoredLen ≥ s.m_uBlockSize)) = true := by
      intro h
      simp only [Bool.and_eq_true, decide_eq_true_eq, ge_iff_le] at h
      exact hsmall h
    rw [if_neg hb2] at hW
    rw [hW]
    exact ⟨rfl, rfl⟩

/-- C4: whenever the builder flushes a non-empty pending buffer (the state after
some run of `AddDoc` calls that ends with document `d`), the directory entry it
appends has type BIG and the block is the one `WriteBigBlock` writes if and only
if exactly one document is pending and the byte length of that document is at
least `block_size`; otherwise the entry has type SMALL and the block is the one
`WriteSmallBlock` writes, so two or more pending documents always give a SMALL
block. A flush without pending documents appends no entry. A single document of
2048 bytes with `block_size = 1024` gives a directory of one entry, of type BIG
and with header size 4; two documents of 300 bytes give one entry of type SMALL
for a block of two documents. -/
theorem C4_block_choice (c : Compressor_i) (sInit : DocstoreBuilder_c)
    (pre : List (Nat × Doc_t)) (r : Nat) (d : Doc_t)
    (h1 : sInit.m_dStoredDocs = []) (h2 : sInit.m_uStoredLen = 0)
    (hfit : docBytes d < DWORD_MOD) :
    ((AddDocs c sInit pre).AddDoc c r d).m_dStoredDocs ≠ [] ∧
    (flushedEntryType c ((AddDocs c sInit pre).AddDoc c r d) = some BLOCK_TYPE_BIG ↔
      (((AddDocs c sInit pre).AddDoc c r d).m_dStoredDocs.length = 1 ∧
        sInit.m_uBlockSize ≤ docBytes d)) ∧
    (flushedEntryType c ((AddDocs c sInit pre).AddDoc c r d) = some BLOCK_TYPE_SMALL ↔
      ¬ (((AddDocs c sInit pre).AddDoc c r d).m_dStoredDocs.length = 1 ∧
        sInit.m_uBlockSize ≤ docBytes d)) ∧
    ((((AddDocs c sInit pre).AddDoc c r d).m_dStoredDocs.length = 1 ∧
        sInit.m_uBlockSize ≤ docBytes d) →
      (((AddDocs c sInit pre).AddDoc c r d).WriteBlock c).m_tWriter
        = (((AddDocs c sInit pre).AddDoc c r d).withInitialHeader.WriteBigBlock c).m_tWriter ∧
      (((AddDocs c sInit pre).AddDoc c r d).WriteBlock c).m_dHeader
        = (((AddDocs c sInit pre).AddDoc c r d).withInitialHeader.WriteBigBlock c).m_dHeader) ∧
    (¬ (((AddDocs c sInit pre).AddDoc c r d).m_dStoredDocs.length = 1 ∧
        sInit.m_uBlockSize ≤ docBytes d) →
      (((AddDocs c sInit pre).AddDoc c r d).WriteBlock c).m_tWriter
        = (((AddDocs c sInit pre).AddDoc c r d).withInitialHeader.WriteSmallBlock c).m_tWriter ∧
      (((AddDocs c sInit pre).AddDoc c r d).WriteBlock c).m_dHeader
        = (((AddDocs c sInit pre).AddDoc c r d).withInitialHeader.WriteSmallBlock c).m_dHeader) ∧
    (2 ≤ ((AddDocs c sInit pre).AddDoc c r d).m_dStoredDocs.length →
      flushedEntryType c ((AddDocs c sInit pre).AddDoc c r d) = some BLOCK_TYPE_SMALL) ∧
    flushedEntryType c sInit = none ∧
    (Docstore_c.Init oneBigDocFile).map
        (fun st => st.m_dBlocks.map (fun b => (b.m_tRowID, b.m_eType, b.m_uHeaderSize)))
      = some [(0, BLOCK_TYPE_BIG, 4)] ∧
    (Docstore_c.Init twoPendingDocsFile).map
        (fun st => (st.m_dBlocks.map (fun b => (b.m_tRowID, b.m_eType, b.m_uHeaderSize)),
          smallBlockNumDocs Compressor_None_c st 0))
      = some ([(0, BLOCK_TYPE_SMALL, 0)], 2) := by
  obtain ⟨hne, hone⟩ := AddDoc_last c sInit h1 h2 pre r d
  have hB : ((AddDocs c sInit pre).AddDoc c r d).m_uBlockSize = sInit.m_uBlockSize := by
    rw [AddDoc_blockSize]; exact (AddDocs_invariant c sInit h1 h2 pre).2.1
  have hty := flushedEntryType_eq c _ hne
  obtain ⟨hcb, hcs⟩ := WriteBlock_choice c _ hne
  rw [hB] at hty hcb hcs
  have hiff : (((AddDocs c sInit pre).AddDoc c r d).m_dStoredDocs.length = 1 ∧
        sInit.m_uBlockSize ≤ ((AddDocs c sInit pre).AddDoc c r d).m_uStoredLen) ↔
      (((AddDocs c sInit pre).AddDoc c r d).m_dStoredDocs.length = 1 ∧
        sInit.m_uBlockSize ≤ docBytes d) := by
    constructor
    · rintro ⟨ha, hb⟩
      rw [(hone ha).2, Nat.mod_eq_of_lt hfit] at hb
      exact ⟨ha, hb⟩
    · rintro ⟨ha, hb⟩
      rw [(hone ha).2, Nat.mod_eq_of_lt hfit]
      exact ⟨ha, hb⟩
  have hbig : flushedEntryType c ((AddDocs c sInit pre).AddDoc c r d) = some BLOCK_TYPE_BIG ↔
      (((AddDocs c sInit pre).AddDoc c r d).m_dStoredDocs.length = 1 ∧
        sInit.m_uBlockSize ≤ docBytes d) := by
    rw [hty, ← hiff]
    constructor
    · intro h
      by_contra hc
      rw [if_neg hc] at h
      exact absurd h (by decide)
    · intro h; rw [if_pos h]
  have hsmall : flushedEntryType c ((AddDocs c sInit pre).AddDoc c r d) = some BLOCK_TYPE_SMALL ↔
      ¬ (((AddDocs c sInit pre).AddDoc c r d).m_dStoredDocs.length = 1 ∧
        sInit.m_uBlockSize ≤ docBytes d) := by
    rw [hty, ← hiff]
    constructor
    · intro h hc
      rw [if_pos hc] at h
      exact absurd h (by decide)
    · intro h; rw [if_neg h]
  refine ⟨hne, hbig, hsmall, fun h => hcb (hiff.mpr h), fun h => hcs (fun hc => h (hiff.mp hc)),
    ?_, flushedEntryType_none c sInit h1, by decide!, by decide!⟩
  intro h2
  exact hsmall.mpr (fun h => by omega)

theorem C4_block_choice_witness :
    (docBytes { m_dFields := [List.replicate 2048 99] } < DWORD_MOD ∧
      flushedEntryType Compressor_None_c
        ((AddDocs Compressor_None_c boundaryBuilder []).AddDoc Compressor_None_c 0
          { m_dFields := [List.replicate 2048 99] }) = some BLOCK_TYPE_BIG) ∧
    (docBytes { m_dFields := [List.replicate 300 98] } < DWORD_MOD ∧
      flushedEntryType Compressor_None_c
        ((AddDocs Compressor_None_c boundaryBuilder
          [(0, { m_dFields := [List.replicate 300 97] })]).AddDoc Compressor_None_c 1
          { m_dFields := [List.replicate 300 98] }) = some BLOCK_TYPE_SMALL) :=
  ⟨⟨by decide!,
    (C4_block_choice Compressor_None_c boundaryBuilder [] 0
      { m_dFields := [List.replicate 2048 99] } (by decide) (by decide)
      (by decide!)).2.1.mpr ⟨by decide!, by decide!⟩⟩,
   ⟨by decide!,
    (C4_block_choice Compressor_None_c boundaryBuilder
      [(0, { m_dFields := [List.replicate 300 97] })] 1
      { m_dFields := [List.replicate 300 98] } (by decide) (by decide)
      (by decide!)).2.2.2.2.2.1 (by decide!)⟩⟩

end Docstore
